import Mathlib

/-!
Sparse multivariate polynomial calculator: embedding of `poly.c` and `utilities.c`.

A polynomial is either a constant (`arr == NULL`, the `coeff` field is live) or a
non-constant value holding an array of monomials (`size` and `arr` are live).  A
monomial is a pair of a coefficient polynomial (in the next variable) and an
exponent of the current variable.

Coefficients (`poly_coeff_t`, printed with `%ld`) are modelled as `Int`, every
arithmetic result being reduced to the signed 64-bit range by `wrapCoeff`.
Exponents (`poly_exp_t`, printed with `%d`) are modelled as `Nat`: the parser only
lets non-negative exponents in, and a signed `int` sum that leaves the range is
undefined in C, so the model describes the executions in which exponent sums stay
in range.  The sums that an operation forms are listed by `PolyMulSums`, `PolyDegSums`,
`PolyAtSums`, `PolyComposeSums` and, for a run of the calculator, `mainSums`; statements
that depend on exponent arithmetic carry the hypothesis `ExpSumsInRange`.  Arrays are
lists; a loop over an array is a recursion over the list of the elements not yet
visited.
-/

namespace PolyCalc

/-- Modelled from the spec: the tagged value of `poly.h` (the header is not part of the
sources).  `coeff c` is the constant polynomial `c` (`arr == NULL`), `monos arr` is a
non-constant value whose array holds the pairs (coefficient `p`, exponent `exp`). -/
inductive Poly where
  | coeff (c : Int) : Poly
  | monos (arr : List (Poly × Nat)) : Poly

/-- Modelled from the spec: the monomial `struct Mono { Poly p; poly_exp_t exp; }` of
`poly.h`: first component the coefficient `p`, second component the exponent `exp`.
The exponent is a 32-bit `int` in C and never negative; it is a natural number here.
The two places where the code adds exponents are listed by `PolyMulSums` and
`PolyDegSums`: as long as these sums stay in the range of `int` (`ExpSumsInRange`), the
natural number is the value of the C variable. -/
abbrev Mono := Poly × Nat

/-- Modelled from the spec: width of `poly_coeff_t` (a 64-bit `long`). -/
def COEFF_MOD : Int := 2 ^ 64

/-- Reduction of an integer to the signed 64-bit range, the result of native
fixed-width arithmetic. -/
def wrapCoeff (x : Int) : Int := (x + 2 ^ 63) % 2 ^ 64 - 2 ^ 63

/-- Modelled from the spec: `PolyFromCoeff` of `poly.h`. -/
def PolyFromCoeff (c : Int) : Poly := .coeff c

/-- Modelled from the spec: `PolyZero` of `poly.h`. -/
def PolyZero : Poly := PolyFromCoeff 0

/-- Modelled from the spec: `PolyIsCoeff` of `poly.h` (`arr == NULL`). -/
def PolyIsCoeff : Poly → Bool
  | .coeff _ => true
  | .monos _ => false

/-- Modelled from the spec: `PolyIsZero` of `poly.h`: a constant equal to zero. -/
def PolyIsZero : Poly → Bool
  | .coeff c => decide (c = 0)
  | .monos _ => false

/-- Modelled from the spec: `MonoFromPoly` of `poly.h`. -/
def MonoFromPoly (p : Poly) (n : Nat) : Mono := (p, n)

/-- Embedding of `PolyClone`: a deep copy; values are immutable in the model. -/
def PolyClone (p : Poly) : Poly := p

/-- Modelled from the spec: `MonoClone` of `poly.h`. -/
def MonoClone (m : Mono) : Mono := (PolyClone m.1, m.2)

mutual
/-- Size measure used to justify the recursion of `PolyAdd` and `PolyMul`. -/
def Poly.weight : Poly → Nat
  | .coeff _ => 0
  | .monos arr => weightList arr + 1
/-- Size measure of a monomial array. -/
def weightList : List (Poly × Nat) → Nat
  | [] => 0
  | m :: ms => Poly.weight m.1 + 4 + weightList ms
end

/-- Extra measure of a call that first lifts a constant operand (or swaps operands). -/
def liftPenalty : Poly → Poly → Nat
  | .coeff _, .monos _ => 7
  | .monos _, .coeff _ => 7
  | .monos ps, .monos qs => if ps.length > qs.length then 1 else 0
  | .coeff _, .coeff _ => 0

/-- Embedding of `PolyChangeIfCoeff` applied to the array whose first `arr_size` entries are `arr`:
no entry gives zero, a single exponent-0 entry with a constant coefficient gives that
constant, otherwise the array is cut to `arr_size` entries. -/
def PolyChangeIfCoeff (arr : List Mono) : Poly :=
  match arr with
  | [] => PolyZero
  | [(.coeff c, 0)] => PolyClone (.coeff c)
  | _ => .monos arr

/-- Embedding of `MonoCloneIfNotZero`: the entries appended to the result array for the monomial
`m` (none when its coefficient is zero). -/
def MonoCloneIfNotZero (m : Mono) : List Mono :=
  if PolyIsZero m.1 then [] else [MonoClone m]

/-- Embedding of `MonoCompByExp` as an order on monomials: `a` does not come after `b`. -/
def MonoLeByExp (a b : Mono) : Prop := a.2 ≤ b.2

instance : DecidableRel MonoLeByExp := fun a b => inferInstanceAs (Decidable (a.2 ≤ b.2))

/-- Embedding of `PolySort`: sorts the monomials by exponent (`qsort` with `MonoCompByExp`).  The model
uses insertion sort; `qsort` leaves the order of monomials of equal exponent open, and
on an array whose exponents are pairwise different every sort gives the same array. -/
def PolySort : Poly → Poly
  | .coeff c => .coeff c
  | .monos arr => .monos (arr.insertionSort MonoLeByExp)

/-- Embedding of `PolyIsSorted`: exponents strictly increasing. -/
def PolyIsSorted : Poly → Bool
  | .coeff _ => true
  | .monos arr => decide ((arr.map Prod.snd).Chain' (· < ·))

mutual
/-- Embedding of `PolyAdd`.  The two mixed cases are `HandleOneCoeffAddOrMul` with `add = true`: the
constant is wrapped as the single monomial of exponent 0 and `PolyAdd` is called again. -/
def PolyAdd (p q : Poly) : Poly :=
  match p, q with
  | .coeff a, .coeff b => PolyFromCoeff (wrapCoeff (a + b))
  | .coeff a, .monos qs => PolyAdd (.monos [MonoFromPoly (.coeff a) 0]) (.monos qs)
  | .monos ps, .coeff b => PolyAdd (.monos [MonoFromPoly (.coeff b) 0]) (.monos ps)
  | .monos ps, .monos qs => PolySort (PolyChangeIfCoeff (PolyAddLoop ps qs))
termination_by p.weight + q.weight + liftPenalty p q
decreasing_by
  all_goals simp [Poly.weight, weightList, liftPenalty, MonoFromPoly]
  all_goals first | omega | (split <;> omega)
/-- The `while` loop of `PolyAdd`: `ps` and `qs` are the monomials from `p_ptr` and from
`q_ptr` on, the result is what the loop appends to `poly_ret.arr`. -/
def PolyAddLoop (ps qs : List Mono) : List Mono :=
  match ps, qs with
  | [], [] => []
  | [], q :: qs => MonoCloneIfNotZero q ++ PolyAddLoop [] qs
  | p :: ps, [] => MonoCloneIfNotZero p ++ PolyAddLoop ps []
  | p :: ps, q :: qs =>
    if p.2 < q.2 then MonoCloneIfNotZero p ++ PolyAddLoop ps (q :: qs)
    else if p.2 > q.2 then MonoCloneIfNotZero q ++ PolyAddLoop (p :: ps) qs
    else
      (if PolyIsZero (PolyAdd p.1 q.1) then [] else [(PolyAdd p.1 q.1, p.2)])
        ++ PolyAddLoop ps qs
termination_by weightList ps + weightList qs
decreasing_by
  all_goals simp [weightList]
  all_goals first | omega | skip
  all_goals
    have key : ∀ a b : Poly, liftPenalty a b ≤ 7 := by
      intro a b
      cases a <;> cases b <;> simp [liftPenalty]
      split <;> omega
    refine Nat.lt_of_le_of_lt (Nat.add_le_add_left (key _ _) _) ?_
    omega
end

mutual
/-- Embedding of `PolyMul`.  The two mixed cases are `HandleOneCoeffAddOrMul` with `add = false`. -/
def PolyMul (p q : Poly) : Poly :=
  match p, q with
  | .coeff a, .coeff b => PolyFromCoeff (wrapCoeff (a * b))
  | .coeff a, .monos qs => PolyMul (.monos [MonoFromPoly (.coeff a) 0]) (.monos qs)
  | .monos ps, .coeff b => PolyMul (.monos [MonoFromPoly (.coeff b) 0]) (.monos ps)
  | .monos ps, .monos qs =>
    if ps.length > qs.length then PolyMul (.monos qs) (.monos ps)
    else PolyMulOuter ps qs PolyZero
termination_by p.weight + q.weight + liftPenalty p q
decreasing_by
  all_goals simp [Poly.weight, weightList, liftPenalty, MonoFromPoly]
  all_goals first | omega | (split <;> omega)
/-- The outer `for` loop of `PolyMul` over the monomials `ps` of `p` not yet visited,
`poly_ret` being the sum accumulated so far. -/
def PolyMulOuter (ps qs : List Mono) (poly_ret : Poly) : Poly :=
  match ps with
  | [] => poly_ret
  | p :: ps => PolyMulOuter ps qs (PolyAdd poly_ret (.monos (PolyMulInner p qs)))
termination_by weightList ps + weightList qs + 1
decreasing_by
  all_goals simp [weightList]
  all_goals omega
/-- The inner `for` loop of `PolyMul`: the array `processed` for the monomial `p`.  The sum
`p.2 + q.2` is the sum of two `int` values in C and equals it as long as it does not
exceed `MAX_POLY_EXP_T`; the sums formed are listed by `PolyMulSums`. -/
def PolyMulInner (p : Mono) (qs : List Mono) : List Mono :=
  match qs with
  | [] => []
  | q :: rest => (PolyMul p.1 q.1, p.2 + q.2) :: PolyMulInner p rest
termination_by p.1.weight + 4 + weightList qs
decreasing_by
  all_goals simp [weightList]
  all_goals
    have key : ∀ a b : Poly, liftPenalty a b ≤ 7 := by
      intro a b
      cases a <;> cases b <;> simp [liftPenalty]
      split <;> omega
    refine Nat.lt_of_le_of_lt (Nat.add_le_add_left (key _ _) _) ?_
    omega
end

/-- Embedding of `HandleOneCoeffAddOrMul`: adds or multiplies the constant `p` and the non-constant
`q`, the constant being wrapped as the single monomial of exponent 0. -/
def HandleOneCoeffAddOrMul (p q : Poly) (add : Bool) : Poly :=
  if add then PolyAdd (.monos [MonoFromPoly p 0]) q else PolyMul (.monos [MonoFromPoly p 0]) q

mutual
/-- Embedding of `PolyIsEq`. -/
def PolyIsEq : Poly → Poly → Bool
  | .coeff a, .coeff b => decide (a = b)
  | .coeff _, .monos _ => false
  | .monos _, .coeff _ => false
  | .monos ps, .monos qs => if ps.length ≠ qs.length then false else PolyIsEqLoop ps qs
/-- The `for` loop of `PolyIsEq` over the monomials not yet compared (both arrays have
the same size, so the second array cannot end first). -/
def PolyIsEqLoop : List (Poly × Nat) → List (Poly × Nat) → Bool
  | [], _ => true
  | _ :: _, [] => false
  | p :: ps, q :: qs =>
    if p.2 ≠ q.2 ∨ PolyIsEq p.1 q.1 = false then false else PolyIsEqLoop ps qs
end

/-- The loop of `FastPow`: `ret`, `coeff` and `exp` are the three variables. -/
def FastPowLoop (ret coeff : Int) (exp : Nat) : Int :=
  if h : exp > 0 then
    FastPowLoop (if exp % 2 = 1 then wrapCoeff (ret * coeff) else ret)
      (wrapCoeff (coeff * coeff)) (exp / 2)
  else ret
termination_by exp
decreasing_by omega

/-- Embedding of `FastPow`. -/
def FastPow (coeff : Int) (exp : Nat) : Int := FastPowLoop 1 coeff exp

/-- The `for` loop of `PolyAt` over the monomials not yet visited. -/
def PolyAtLoop (arr : List Mono) (x : Int) (poly_ret : Poly) : Poly :=
  match arr with
  | [] => poly_ret
  | m :: ms => PolyAtLoop ms x (PolyAdd poly_ret (PolyMul m.1 (PolyFromCoeff (FastPow x m.2))))

/-- Embedding of `PolyAt`. -/
def PolyAt (p : Poly) (x : Int) : Poly :=
  match p with
  | .coeff c => PolyClone (.coeff c)
  | .monos arr => PolyAtLoop arr x PolyZero

/-- The `for` loop of `PolyOwnMonos` from index `i` on: `rest` holds the sorted monomials
`arr[i..]`, `prev_exp` is `arr[i - 1].exp` and `acc` is the entry `arr[size]` being
accumulated; the result is the array `arr[0 .. size)` written from here on, the final
test after the loop included. -/
def PolyOwnMonosLoop (prev_exp : Nat) (acc : Mono) (rest : List Mono) : List Mono :=
  match rest with
  | [] => if PolyIsZero acc.1 then [] else [acc]
  | m :: ms =>
    if m.2 = prev_exp then PolyOwnMonosLoop m.2 (PolyAdd acc.1 m.1, acc.2) ms
    else (if PolyIsZero acc.1 then [] else [(acc.1, prev_exp)]) ++ PolyOwnMonosLoop m.2 m ms

/-- Embedding of `PolyOwnMonos` with the sorting routine as a parameter (`qsort` fixes the order of
monomials of equal exponent in no particular way). -/
def PolyOwnMonosWith (sort : List Mono → List Mono) (monos : List Mono) : Poly :=
  match monos with
  | [] => PolyZero
  | _ :: _ =>
    match sort monos with
    | [] => PolyZero
    | m :: ms => PolyChangeIfCoeff (PolyOwnMonosLoop m.2 m ms)

/-- Embedding of `PolyOwnMonos` (`count` is the length of the list). -/
def PolyOwnMonos (monos : List Mono) : Poly :=
  match monos with
  | [] => PolyZero
  | _ :: _ =>
    match PolySort (.monos monos) with
    | .monos (m :: ms) => PolyChangeIfCoeff (PolyOwnMonosLoop m.2 m ms)
    | _ => PolyZero

/-- Embedding of `PolyExpMax`. -/
def PolyExpMax (a b : Nat) : Nat := if a > b then a else b

/-- The loop of `PowersOfTwo`; `power` starts at 1 and stays positive. -/
def PowersOfTwoLoop (k power ret : Nat) (hpos : 0 < power) : Nat :=
  if h : power ≤ k then PowersOfTwoLoop k (power * 2) (ret + 1) (by omega) else ret
termination_by k + 1 - power
decreasing_by omega

/-- Embedding of `PowersOfTwo`: the number of powers 1, 2, 4, ... not exceeding `k`, and 1 for `k = 0`. -/
def PowersOfTwo (k : Nat) : Nat :=
  if PowersOfTwoLoop k 1 0 (by omega) = 0 then 1 else PowersOfTwoLoop k 1 0 (by omega)

mutual
/-- Embedding of `MaxExpFill`: the array `max_exp` after the call. -/
def MaxExpFill : Poly → List Nat → Nat → Nat → List Nat
  | .coeff _, max_exp, _, _ => max_exp
  | .monos arr, max_exp, k, depth =>
    if depth ≥ k then max_exp else MaxExpFillLoop arr max_exp k depth
/-- The `for` loop of `MaxExpFill` over the monomials not yet visited. -/
def MaxExpFillLoop : List (Poly × Nat) → List Nat → Nat → Nat → List Nat
  | [], max_exp, _, _ => max_exp
  | m :: ms, max_exp, k, depth =>
    MaxExpFillLoop ms
      ((MaxExpFill m.1 max_exp k (depth + 1)).set depth
        (PolyExpMax m.2 ((MaxExpFill m.1 max_exp k (depth + 1)).getD depth 0)))
      k depth
end

/-- The `while` loop of `PolyFastPow` that finds the largest power of two not above
`exp` together with its index. -/
def PolyFastPowSeek (exp power index : Nat) (hpos : 0 < power) : Nat × Nat :=
  if h : power ≤ exp / 2 ∧ power * 2 ≤ exp then
    PolyFastPowSeek exp (power * 2) (index + 1) (by omega)
  else (power, index)
termination_by exp + 1 - power
decreasing_by omega

/-- The `for` loop of `PolyFastPow` running `i` from `index` down to 0.  A read of
`powers[i]` past the end of the cache has no defined result in C; the model reads
zero there. -/
def PolyFastPowLoop (powers : List Poly) : Nat → Nat → Nat → Poly → Poly
  | 0, power, exp, poly_ret =>
    if power ≤ exp then PolyMul poly_ret (powers.getD 0 PolyZero) else poly_ret
  | i + 1, power, exp, poly_ret =>
    if power ≤ exp then
      PolyFastPowLoop powers i (power / 2) (exp - power)
        (PolyMul poly_ret (powers.getD (i + 1) PolyZero))
    else PolyFastPowLoop powers i (power / 2) exp poly_ret

/-- Embedding of `PolyFastPow`. -/
def PolyFastPow (powers : List Poly) (exp : Nat) : Poly :=
  if exp = 0 then PolyFromCoeff 1
  else
    PolyFastPowLoop powers (PolyFastPowSeek exp 1 0 (by omega)).2
      (PolyFastPowSeek exp 1 0 (by omega)).1 exp (PolyFromCoeff 1)

mutual
/-- Embedding of `PolyComposeHelper`.  A non-constant value has at least one monomial
(`CreateNotCoeffPoly` asserts it); for an empty array, where C would read `arr[0]` past
the end, the model returns zero. -/
def PolyComposeHelper : Poly → Nat → List (List Poly) → Nat → Poly
  | .coeff c, _, _, _ => PolyClone (.coeff c)
  | .monos arr, k, powers, depth =>
    if depth ≥ k then PolyComposeFirst arr k powers depth
    else PolyComposeLoop arr k powers depth PolyZero
/-- The branch `depth >= k` of `PolyComposeHelper`, which looks at `arr[0]` only. -/
def PolyComposeFirst : List (Poly × Nat) → Nat → List (List Poly) → Nat → Poly
  | [], _, _, _ => PolyZero
  | m :: _, k, powers, depth =>
    if m.2 ≠ 0 then PolyZero else PolyComposeHelper m.1 k powers (depth + 1)
/-- The `for` loop of `PolyComposeHelper` over the monomials not yet visited. -/
def PolyComposeLoop : List (Poly × Nat) → Nat → List (List Poly) → Nat → Poly → Poly
  | [], _, _, _, poly_ret => poly_ret
  | m :: ms, k, powers, depth, poly_ret =>
    PolyComposeLoop ms k powers depth
      (PolyAdd poly_ret
        (PolyMul (PolyFastPow (powers.getD depth []) m.2)
          (PolyComposeHelper m.1 k powers (depth + 1))))
end

/-- The cache `powers[i]` built by `PolyCompose`: `size` entries, each the square of
the one before, starting from `cur`. -/
def PowersFill : Nat → Poly → List Poly
  | 0, _ => []
  | size + 1, cur => cur :: PowersFill size (PolyMul cur cur)

/-- Embedding of `PolyCompose`; `q` holds the `k` substitutes. -/
def PolyCompose (p : Poly) (k : Nat) (q : List Poly) : Poly :=
  PolyComposeHelper p k
    ((List.range k).map fun i =>
      PowersFill (PowersOfTwo ((MaxExpFill p (List.replicate k 0) k 0).getD i 0))
        (PolyClone (q.getD i PolyZero)))
    0

/-- Decimal digits of a natural number, as `printf` writes them. -/
def printNat (n : Nat) : List Char := Nat.toDigits 10 n

/-- Decimal text of a coefficient, as `printf` writes it for `%ld`. -/
def printCoeff (c : Int) : List Char :=
  if c < 0 then '-' :: printNat c.natAbs else printNat c.natAbs

mutual
/-- Embedding of `PolyPrint`: the characters written to the output. -/
def PolyPrint : Poly → List Char
  | .coeff c => printCoeff c
  | .monos arr => PolyPrintLoop arr true
/-- The `for` loop of `PolyPrint`; `first` tells whether `i == 0`. -/
def PolyPrintLoop : List (Poly × Nat) → Bool → List Char
  | [], _ => []
  | m :: ms, first =>
    (if first then [] else ['+']) ++ ['('] ++ PolyPrint m.1 ++ [','] ++ printNat m.2 ++ [')']
      ++ PolyPrintLoop ms false
end

/-! ## Specification vocabulary -/

mutual
/-- Canonical form: at every nesting level the array is non-empty, is not a single
exponent-0 monomial with a constant coefficient, has strictly increasing exponents, and
no coefficient is the zero constant. -/
def Canonical : Poly → Bool
  | .coeff _ => true
  | .monos arr =>
    !arr.isEmpty && !(arr.length == 1 && arr.all fun m => m.2 == 0 && PolyIsCoeff m.1)
      && decide ((arr.map Prod.snd).Sorted (· < ·)) && CanonicalCoeffs arr
/-- Every coefficient of the array is canonical and is not the zero constant. -/
def CanonicalCoeffs : List (Poly × Nat) → Bool
  | [] => true
  | m :: ms => !PolyIsZero m.1 && Canonical m.1 && CanonicalCoeffs ms
end

mutual
/-- Every constant inside the polynomial lies in the signed 64-bit range, as every
value of type `poly_coeff_t` does. -/
def CoeffsInRange : Poly → Bool
  | .coeff c => decide (-2 ^ 63 ≤ c ∧ c < 2 ^ 63)
  | .monos arr => CoeffsInRangeList arr
/-- The range condition `CoeffsInRange` for every coefficient of an array. -/
def CoeffsInRangeList : List (Poly × Nat) → Bool
  | [] => true
  | m :: ms => CoeffsInRange m.1 && CoeffsInRangeList ms
end

mutual
/-- Value of a polynomial under an assignment `env` of integers to the variables
`x0, x1, ...`: a constant is its own value, a non-constant value is the sum over its
monomials `(c, e)` of `value c (tail of env) * env 0 ^ e`. -/
def value : Poly → (Nat → Int) → Int
  | .coeff c, _ => c
  | .monos arr, env => valueMonos arr env
/-- Sum of the values of the monomials of an array. -/
def valueMonos : List (Poly × Nat) → (Nat → Int) → Int
  | [], _ => 0
  | m :: ms, env => value m.1 (fun i => env (i + 1)) * env 0 ^ m.2 + valueMonos ms env
end

mutual
/-- Coefficient of the formal polynomial denoted by `p` at the power product
`x0 ^ es[0] * x1 ^ es[1] * ...` (exponents past the end of `es` are zero). -/
def coeffAt : Poly → List Nat → Int
  | .coeff c, es => if es.all (· == 0) then c else 0
  | .monos arr, es => coeffAtMonos arr (es.headD 0) es.tail
/-- Sum of the contributions of the monomials of exponent `e` of an array. -/
def coeffAtMonos : List (Poly × Nat) → Nat → List Nat → Int
  | [], _, _ => 0
  | m :: ms, e, es => (if m.2 = e then coeffAt m.1 es else 0) + coeffAtMonos ms e es
end

/-- Strictly increasing exponents along an array. -/
def ExpsIncreasing (arr : List Mono) : Prop := arr.Pairwise fun a b => a.2 < b.2

/-- Weakly canonical array: strictly increasing exponents and canonical coefficients; a
zero coefficient and the un-collapsed single exponent-0 constant are allowed, as in the
arrays built by `HandleOneCoeffAddOrMul` and in `processed` of `PolyMul`. -/
def WeakMonos (arr : List Mono) : Prop := ExpsIncreasing arr ∧ ∀ m ∈ arr, Canonical m.1 = true

/-- Weakly canonical operand: a constant, or a weakly canonical array. -/
def WeakPoly : Poly → Prop
  | .coeff _ => True
  | .monos arr => WeakMonos arr

/-- What `qsort` with `MonoCompByExp` guarantees of a sorting routine: the result is a
rearrangement of the array with non-decreasing exponents. -/
def IsSortByExp (sort : List Mono → List Mono) : Prop :=
  ∀ l, (sort l).Perm l ∧ (sort l).Sorted MonoLeByExp

/-- The assignment that gives `x` to the leading variable and follows `env` on the
others (`x` followed by `env`). -/
def envCons (x : Int) (env : Nat → Int) : Nat → Int
  | 0 => x
  | i + 1 => env i

/-- The assignment under which `PolyCompose` evaluates `p`: variable `i < k` takes the
value of the substitute `q[i]`, every variable of index `k` or more takes zero. -/
def composeEnv (k : Nat) (q : List Poly) (env : Nat → Int) : Nat → Int :=
  fun i => if i < k then value (q.getD i PolyZero) env else 0

/-- The assignment that would leave the variables of index `k` or more free and renamed
down by `k`: variable `i < k` takes the value of `q[i]`, variable `i ≥ k` takes
`env (i - k)`. -/
def freeEnv (k : Nat) (q : List Poly) (env : Nat → Int) : Nat → Int :=
  fun i => if i < k then value (q.getD i PolyZero) env else env (i - k)

mutual
/-- Every exponent that `p` (standing at nesting depth `depth`) gives to a variable of
index below `k` is at most the bound stored for that variable. -/
def ExpsBelow : Poly → Nat → Nat → (Nat → Nat) → Prop
  | .coeff _, _, _, _ => True
  | .monos arr, depth, k, bound => depth < k → ExpsBelowList arr depth k bound
/-- The bound `ExpsBelow` for the monomials of an array. -/
def ExpsBelowList : List (Poly × Nat) → Nat → Nat → (Nat → Nat) → Prop
  | [], _, _, _ => True
  | m :: ms, depth, k, bound =>
    m.2 ≤ bound depth ∧ ExpsBelow m.1 (depth + 1) k bound ∧ ExpsBelowList ms depth k bound
end

mutual
/-- The constants stored in a polynomial, at every nesting level. -/
def leafCoeffs : Poly → List Int
  | .coeff c => [c]
  | .monos arr => leafCoeffsList arr
/-- The constants stored in the coefficients of an array. -/
def leafCoeffsList : List (Poly × Nat) → List Int
  | [] => []
  | m :: ms => leafCoeffs m.1 ++ leafCoeffsList ms
end

/-- Two polynomials denote the same formal polynomial in `x0, x1, ...` with integer
coefficients: they have the same coefficient at every power product. -/
def SameFormalPoly (p q : Poly) : Prop := ∀ es : List Nat, coeffAt p es = coeffAt q es

/-- The signed 64-bit range of `poly_coeff_t`. -/
def InRange (c : Int) : Prop := -2 ^ 63 ≤ c ∧ c < 2 ^ 63

mutual
/-- Embedding of `PolyNeg`. -/
def PolyNeg : Poly → Poly
  | .coeff c => PolyFromCoeff (wrapCoeff (-1 * c))
  | .monos arr => .monos (PolyNegLoop arr)
/-- The `for` loop of `PolyNeg` over the monomials not yet visited. -/
def PolyNegLoop : List (Poly × Nat) → List (Poly × Nat)
  | [] => []
  | m :: ms => (PolyNeg m.1, m.2) :: PolyNegLoop ms
end

/-- Embedding of `PolySub`. -/
def PolySub (p q : Poly) : Poly := PolyAdd p (PolyNeg q)

mutual
/-- Value of a polynomial in a commutative ring `R` under an assignment `env` of ring
elements to the variables; integer constants are read in `R`.  For `R = Int` this
is `value`. -/
def evalIn {R : Type} [CommRing R] : Poly → (Nat → R) → R
  | .coeff c, _ => (c : R)
  | .monos arr, env => evalInMonos arr env
/-- Sum in `R` of the values of the monomials of an array. -/
def evalInMonos {R : Type} [CommRing R] : List (Poly × Nat) → (Nat → R) → R
  | [], _ => 0
  | m :: ms, env => evalIn m.1 (fun i => env (i + 1)) * env 0 ^ m.2 + evalInMonos ms env
end

/-- The exponent vector of a power product, given as the list of its exponents and as
a finitely supported function on variable indices. -/
inductive IsExpVec : List Nat → (Nat →₀ Nat) → Prop
  | nil : IsExpVec [] 0
  | cons (e : Nat) (es : List Nat) (m : Nat →₀ Nat) :
      IsExpVec es m → IsExpVec (e :: es) (Finsupp.single 0 e + m.mapDomain Nat.succ)

/-- The polynomial "variable `i`": `x0` is the single monomial `(1, 1)` and `x(i+1)` is
the single monomial `(x(i), 0)`. -/
def PolyVar : Nat → Poly
  | 0 => .monos [(.coeff 1, 1)]
  | i + 1 => .monos [(PolyVar i, 0)]

mutual
/-- Nesting depth of a polynomial: a bound on the number of leading variables it can
mention (a constant mentions none). -/
def varDepth : Poly → Nat
  | .coeff _ => 0
  | .monos arr => varDepthList arr + 1
/-- Largest nesting depth among the coefficients of an array. -/
def varDepthList : List (Poly × Nat) → Nat
  | [] => 0
  | m :: ms => max (varDepth m.1) (varDepthList ms)
end

/-- Embedding of `PolyExpMax` at values of degree, which may be -1. -/
def PolyExpMaxInt (a b : Int) : Int := if a > b then a else b

mutual
/-- Embedding of `PolyDegBy`; the result is an `int`, -1 for the zero polynomial. -/
def PolyDegBy : Poly → Nat → Int
  | .coeff c, _ => if PolyIsZero (.coeff c) then -1 else 0
  | .monos arr, var_idx => PolyDegByLoop arr var_idx 0
/-- The `for` loop of `PolyDegBy` over the monomials not yet visited. -/
def PolyDegByLoop : List (Poly × Nat) → Nat → Int → Int
  | [], _, ret => ret
  | m :: ms, var_idx, ret =>
    PolyDegByLoop ms var_idx
      (if var_idx = 0 then PolyExpMaxInt ret m.2
       else PolyExpMaxInt ret (PolyDegBy m.1 (var_idx - 1)))
end

mutual
/-- Embedding of `PolyDeg`; the result is an `int`, -1 for the zero polynomial. -/
def PolyDeg : Poly → Int
  | .coeff c => if PolyIsZero (.coeff c) then -1 else 0
  | .monos arr => PolyDegLoop arr 0
/-- The `for` loop of `PolyDeg` over the monomials not yet visited.  The sum
`m.2 + PolyDeg m.1` is the sum of two `int` values in C and equals it as long as it does
not exceed `MAX_POLY_EXP_T`; the sums formed are listed by `PolyDegSums`. -/
def PolyDegLoop : List (Poly × Nat) → Int → Int
  | [], ret => ret
  | m :: ms, ret => PolyDegLoop ms (PolyExpMaxInt ret (m.2 + PolyDeg m.1))
end

/-- Embedding of `Stack`: the polynomials `arr[size - 1], ..., arr[0]`, the top of the stack
first.  The capacity `arr_size` only drives reallocation and is not modelled. -/
abbrev Stack := List Poly

/-- Embedding of `StackCreate`. -/
def StackCreate : Stack := []

/-- Embedding of `StackIsEmpty`. -/
def StackIsEmpty (stack : Stack) : Bool := stack.length == 0

/-- Embedding of `StackUnderflow`. -/
def StackUnderflow (stack : Stack) (size : Nat) : Bool := decide (stack.length < size)

/-- Embedding of `StackPush`. -/
def StackPush (stack : Stack) (p : Poly) : Stack := p :: stack

/-- Embedding of `StackTop`; the assertion of the source excludes the empty stack. -/
def StackTop (stack : Stack) : Poly := stack.headD PolyZero

/-- Embedding of `StackPrevTop`; the assertion of the source excludes stacks with fewer than
two polynomials. -/
def StackPrevTop (stack : Stack) : Poly := stack.getD 1 PolyZero

/-- Embedding of `StackPop`: the polynomial removed and the stack that remains; the
assertion of the source excludes the empty stack. -/
def StackPop (stack : Stack) : Poly × Stack := (stack.headD PolyZero, stack.tail)

/-- Outcome of a calculator command: the value it returns, the stack it leaves and the text
it writes to the standard output. -/
structure CmdResult where
  /-- The value returned: false when the stack holds too few polynomials. -/
  ok : Bool
  /-- The stack after the command. -/
  stack : Stack
  /-- The characters written to the standard output. -/
  out : List Char

/-- Embedding of `PrintlnBool`: the characters written. -/
def PrintlnBool (b : Bool) : List Char := if b then ['1', '\n'] else ['0', '\n']

/-- Embedding of the command `Zero`. -/
def Zero (stack : Stack) : CmdResult := ⟨true, StackPush stack PolyZero, []⟩

/-- Embedding of the command `IsCoeff`. -/
def IsCoeff (stack : Stack) : CmdResult :=
  if StackUnderflow stack 1 then ⟨false, stack, []⟩
  else ⟨true, stack, PrintlnBool (PolyIsCoeff (StackTop stack))⟩

/-- Embedding of the command `IsZero`. -/
def IsZero (stack : Stack) : CmdResult :=
  if StackUnderflow stack 1 then ⟨false, stack, []⟩
  else ⟨true, stack, PrintlnBool (PolyIsZero (StackTop stack))⟩

/-- Embedding of the command `Clone`. -/
def Clone (stack : Stack) : CmdResult :=
  if StackUnderflow stack 1 then ⟨false, stack, []⟩
  else ⟨true, StackPush stack (PolyClone (StackTop stack)), []⟩

/-- Embedding of the command `Add`. -/
def Add (stack : Stack) : CmdResult :=
  if StackUnderflow stack 2 then ⟨false, stack, []⟩
  else
    let top := StackPop stack
    let prev_top := StackPop top.2
    ⟨true, StackPush prev_top.2 (PolyAdd top.1 prev_top.1), []⟩

/-- Embedding of the command `Mul`. -/
def Mul (stack : Stack) : CmdResult :=
  if StackUnderflow stack 2 then ⟨false, stack, []⟩
  else
    let top := StackPop stack
    let prev_top := StackPop top.2
    ⟨true, StackPush prev_top.2 (PolyMul top.1 prev_top.1), []⟩

/-- Embedding of the command `Neg`. -/
def Neg (stack : Stack) : CmdResult :=
  if StackUnderflow stack 1 then ⟨false, stack, []⟩
  else
    let top := StackPop stack
    ⟨true, StackPush top.2 (PolyNeg top.1), []⟩

/-- Embedding of the command `Sub`. -/
def Sub (stack : Stack) : CmdResult :=
  if StackUnderflow stack 2 then ⟨false, stack, []⟩
  else
    let top := StackPop stack
    let prev_top := StackPop top.2
    ⟨true, StackPush prev_top.2 (PolySub top.1 prev_top.1), []⟩

/-- Embedding of the command `IsEq`. -/
def IsEq (stack : Stack) : CmdResult :=
  if StackUnderflow stack 2 then ⟨false, stack, []⟩
  else ⟨true, stack, PrintlnBool (PolyIsEq (StackTop stack) (StackPrevTop stack))⟩

/-- Embedding of the command `Deg`; `printf` writes the degree with `%d`. -/
def Deg (stack : Stack) : CmdResult :=
  if StackUnderflow stack 1 then ⟨false, stack, []⟩
  else ⟨true, stack, printCoeff (PolyDeg (StackTop stack)) ++ ['\n']⟩

/-- Embedding of the command `DegBy`. -/
def DegBy (stack : Stack) (idx : Nat) : CmdResult :=
  if StackUnderflow stack 1 then ⟨false, stack, []⟩
  else ⟨true, stack, printCoeff (PolyDegBy (StackTop stack) idx) ++ ['\n']⟩

/-- Embedding of the command `At`. -/
def At (stack : Stack) (x : Int) : CmdResult :=
  if StackUnderflow stack 1 then ⟨false, stack, []⟩
  else
    let top := StackPop stack
    ⟨true, StackPush top.2 (PolyAt top.1 x), []⟩

/-- Embedding of the command `Print`. -/
def Print (stack : Stack) : CmdResult :=
  if StackUnderflow stack 1 then ⟨false, stack, []⟩
  else ⟨true, stack, PolyPrint (StackTop stack) ++ ['\n']⟩

/-- Embedding of the command `Pop`. -/
def Pop (stack : Stack) : CmdResult :=
  if StackUnderflow stack 1 then ⟨false, stack, []⟩
  else ⟨true, (StackPop stack).2, []⟩

/-- The loop of `Compose` that pops `n` polynomials and stores them in `variables` at the
indices `n - 1, n - 2, ..., 0`: the array `variables[0 .. n)` and the stack that remains. -/
def ComposePopLoop : Nat → Stack → List Poly × Stack
  | 0, stack => ([], stack)
  | n + 1, stack =>
    let r := ComposePopLoop n (StackPop stack).2
    (r.1 ++ [(StackPop stack).1], r.2)

/-- Embedding of the command `Compose`: `variables[k]` is the top of the stack and
`variables[k - i - 1]` the polynomial popped in round `i` (the array is `vars` here). -/
def Compose (stack : Stack) (k : Nat) : CmdResult :=
  if stack.length ≤ k then ⟨false, stack, []⟩
  else
    let top := StackPop stack
    let vars := ComposePopLoop k top.2
    ⟨true, StackPush vars.2 (PolyCompose top.1 k vars.1), []⟩

/-- The NUL character that ends a C string. -/
def NUL : Char := Char.ofNat 0

/-- The character `input[i]` of a line buffer.  A buffer is modelled by the list of the
characters read; the buffer of `getline` holds a NUL after them, so a read at the end of
the list gives NUL. -/
def charAt (input : List Char) (i : Nat) : Char := input.getD i NUL

/-- Model of the C library function `strlen`: the number of characters before the first
NUL. -/
def strlen (input : List Char) : Nat := (input.takeWhile (fun c => c != NUL)).length

/-- Model of the C library test `strchr(s, c) != NULL`, for a string `s` given without its
terminating NUL; that NUL is part of the string searched, so `c = NUL` is found. -/
def strchr (s : List Char) (c : Char) : Bool := s.contains c || c == NUL

/-- Model of the C library test `strncmp(s1, s2, n) == 0`, comparing from index `i` on. -/
def strncmpFrom (s1 s2 : List Char) (i : Nat) : Nat → Bool
  | 0 => true
  | n + 1 =>
    if charAt s1 i != charAt s2 i then false
    else if charAt s1 i == NUL then true
    else strncmpFrom s1 s2 (i + 1) n

/-- Model of the C library test `strncmp(s1, s2, n) == 0`. -/
def strncmp (s1 s2 : List Char) (n : Nat) : Bool := strncmpFrom s1 s2 0 n

/-- Model of the C library function `isspace` in the C locale. -/
def isspace (c : Char) : Bool := c == ' ' || (9 ≤ c.toNat && c.toNat ≤ 13)

/-- Model of the C library function `isdigit`. -/
def isdigit (c : Char) : Bool := '0'.toNat ≤ c.toNat && c.toNat ≤ '9'.toNat

/-- Value of a sequence of decimal digits. -/
def digitsValue (ds : List Char) : Nat :=
  ds.foldl (fun acc c => 10 * acc + (c.toNat - '0'.toNat)) 0

/-- Largest value of `long long`. -/
def LLONG_MAX : Int := 2 ^ 63 - 1

/-- Smallest value of `long long`. -/
def LLONG_MIN : Int := -(2 ^ 63)

/-- Largest value of `unsigned long long`, which is `size_t` here. -/
def ULLONG_MAX : Nat := 2 ^ 64 - 1

/-- The value of `errno` after a conversion out of range. -/
def ERANGE : Nat := 34

/-- Result of a conversion by `strtoll` or `strtoull`: the value returned, the index
`endptr` of the first character not converted, and the value of `errno` afterwards.
Every conversion in the source is followed by a call of `CheckErrno`, which resets
`errno`, so `errno` is 0 before each conversion and is modelled as part of the result. -/
structure StrToNum where
  /-- The value returned. -/
  value : Int
  /-- The index of the first character not converted. -/
  endptr : Nat
  /-- The value of `errno` after the call. -/
  errno : Nat

/-- Model of the C library function `strtoll` in base 10 applied to `input + nptr`: white
space is skipped, then an optional sign and the longest run of digits are converted.
Without a digit nothing is converted, `endptr` is `nptr` and the value is 0; a value out
of the range of `long long` is replaced by the nearest bound and `errno` is `ERANGE`. -/
def strtoll (input : List Char) (nptr : Nat) : StrToNum :=
  let s := nptr + ((input.drop nptr).takeWhile isspace).length
  let d := if charAt input s == '-' || charAt input s == '+' then s + 1 else s
  let ds := (input.drop d).takeWhile isdigit
  let v : Int := if charAt input s == '-' then -(digitsValue ds : Int) else (digitsValue ds : Int)
  if ds.isEmpty then ⟨0, nptr, 0⟩
  else if v > LLONG_MAX then ⟨LLONG_MAX, d + ds.length, ERANGE⟩
  else if v < LLONG_MIN then ⟨LLONG_MIN, d + ds.length, ERANGE⟩
  else ⟨v, d + ds.length, 0⟩

/-- Model of the C library function `strtoull` in base 10 applied to `input + nptr`: as
`strtoll`, with the value negated in the unsigned type after a minus sign and replaced by
`ULLONG_MAX`, with `errno` set to `ERANGE`, when the digits exceed it. -/
def strtoull (input : List Char) (nptr : Nat) : StrToNum :=
  let s := nptr + ((input.drop nptr).takeWhile isspace).length
  let d := if charAt input s == '-' || charAt input s == '+' then s + 1 else s
  let ds := (input.drop d).takeWhile isdigit
  if ds.isEmpty then ⟨0, nptr, 0⟩
  else if digitsValue ds > ULLONG_MAX then ⟨ULLONG_MAX, d + ds.length, ERANGE⟩
  else if charAt input s == '-' then
    ⟨((2 ^ 64 - digitsValue ds) % 2 ^ 64 : Nat), d + ds.length, 0⟩
  else ⟨digitsValue ds, d + ds.length, 0⟩

/-- Embedding of `CheckErrno` at the value `errno` left by the preceding conversion: whether
it is 0.  The reset of `errno` is what makes `errno` local to each conversion. -/
def CheckErrno (errno : Nat) : Bool := errno == 0

/-- The text `ERROR index` followed by the message `msg` and a newline, as `fprintf` writes
it to the standard error. -/
def errorLine (index : Nat) (msg : List Char) : List Char :=
  ['E', 'R', 'R', 'O', 'R', ' '] ++ printNat index ++ [' '] ++ msg ++ ['\n']

/-- Embedding of `WrongCommandError`: the text written to the standard error. -/
def WrongCommandError (index : Nat) : List Char := errorLine index ("WRONG COMMAND").toList

/-- Embedding of `WrongPolyError`. -/
def WrongPolyError (index : Nat) : List Char := errorLine index ("WRONG POLY").toList

/-- Embedding of `AtWrongValueError`. -/
def AtWrongValueError (index : Nat) : List Char := errorLine index ("AT WRONG VALUE").toList

/-- Embedding of `DegByWrongVariableError`. -/
def DegByWrongVariableError (index : Nat) : List Char :=
  errorLine index ("DEG BY WRONG VARIABLE").toList

/-- Embedding of `StackUnderflowError`. -/
def StackUnderflowError (index : Nat) : List Char := errorLine index ("STACK UNDERFLOW").toList

/-- Embedding of `ComposeError`. -/
def ComposeError (index : Nat) : List Char :=
  errorLine index ("COMPOSE WRONG PARAMETER").toList

/-- Embedding of `MonoZero`. -/
def MonoZero : Mono := (PolyZero, 0)

/-- Embedding of `IsLetter`. -/
def IsLetter (ch : Char) : Bool :=
  ('a'.toNat ≤ ch.toNat && ch.toNat ≤ 'z'.toNat) || ('A'.toNat ≤ ch.toNat && ch.toNat ≤ 'Z'.toNat)

/-- Embedding of `ALLOWED_POLY_CHARS`. -/
def ALLOWED_POLY_CHARS : List Char := ("0123456789-+,()").toList

/-- Embedding of `ALLOWED_NUMBER_CHARS`. -/
def ALLOWED_NUMBER_CHARS : List Char := ("0123456789-").toList

/-- Embedding of `MAX_POLY_EXP_T`. -/
def MAX_POLY_EXP_T : Int := 2147483647

/-- Embedding of `CheckPolyChars`. -/
def CheckPolyChars (characters : Nat) (input : List Char) : Bool :=
  (List.range characters).all (fun i => strchr ALLOWED_POLY_CHARS (charAt input i))

/-- Embedding of `CheckNumberChars` applied to `input + start`: the loop runs up to the first
NUL. -/
def CheckNumberChars (input : List Char) (start : Nat) : Bool :=
  ((input.drop start).takeWhile (fun c => c != NUL)).all (fun c => strchr ALLOWED_NUMBER_CHARS c)

/-- Embedding of `StrToPolyExp` applied to `input + start`: the exponent, `endptr` and `errno`,
which is `ERANGE` also when the value is not in `0 .. MAX_POLY_EXP_T`. -/
def StrToPolyExp (input : List Char) (start : Nat) : StrToNum :=
  let r := strtoll input start
  if r.value > MAX_POLY_EXP_T ∨ r.value < 0 then ⟨0, r.endptr, ERANGE⟩ else r

/-- Embedding of `CheckArguments`. -/
def CheckArguments (read_characters length : Nat) (input : List Char) (line_length : Nat) :
    Bool :=
  decide (read_characters ≥ length + 2) && charAt input length == ' ' &&
    decide (read_characters = line_length)

/-- Outcome of processing one line: the stack afterwards and the text written to the standard
output and to the standard error. -/
structure Calc where
  /-- The stack. -/
  stack : Stack
  /-- The characters written to the standard output. -/
  out : List Char
  /-- The characters written to the standard error. -/
  err : List Char

/-- The step `if (!function(stack, ...)) StackUnderflowError(index)` shared by the command
processors: the outcome of the line from the outcome of the command. -/
def reportUnderflow (index : Nat) (r : CmdResult) : Calc :=
  ⟨r.stack, r.out, if r.ok then [] else StackUnderflowError index⟩

/-- Embedding of `Size_TCommand`; `error` gives the text of the error message for a wrong
argument. -/
def Size_TCommand (index read_characters : Nat) (input : List Char) (stack : Stack)
    (length : Nat) (command_name : List Char) (error : Nat → List Char)
    (function : Stack → Nat → CmdResult) : Calc :=
  let command_length := strlen command_name
  if !CheckArguments read_characters command_length input length then
    if (read_characters ≠ command_length ∧ charAt input command_length ≠ ' ')
        ∨ (read_characters = command_length ∧ read_characters ≠ length) then
      ⟨stack, [], WrongCommandError index⟩
    else ⟨stack, [], error index⟩
  else if charAt input (command_length + 1) == '+' || charAt input (command_length + 1) == '-'
      || !CheckNumberChars input (command_length + 1) then
    ⟨stack, [], error index⟩
  else
    let r := strtoull input (command_length + 1)
    if CheckErrno r.errno && charAt input r.endptr == NUL then
      reportUnderflow index (function stack r.value.toNat)
    else ⟨stack, [], error index⟩

/-- Embedding of `ProcessAt`. -/
def ProcessAt (index read_characters : Nat) (input : List Char) (stack : Stack)
    (length : Nat) : Calc :=
  let at_length := strlen ("AT").toList
  if !CheckArguments read_characters at_length input length then
    if (read_characters ≠ at_length ∧ charAt input at_length ≠ ' ')
        ∨ (read_characters = at_length ∧ read_characters ≠ length) then
      ⟨stack, [], WrongCommandError index⟩
    else ⟨stack, [], AtWrongValueError index⟩
  else if charAt input (at_length + 1) == '+' || !CheckNumberChars input (at_length + 1) then
    ⟨stack, [], AtWrongValueError index⟩
  else
    let r := strtoll input (at_length + 1)
    if CheckErrno r.errno && charAt input r.endptr == NUL then
      reportUnderflow index (At stack r.value)
    else ⟨stack, [], AtWrongValueError index⟩

/-- Embedding of `FUNCTION_NAMES`: the commands without an argument and their names. -/
def FUNCTION_NAMES : List ((Stack → CmdResult) × List Char) :=
  [(Zero, ("ZERO").toList), (IsCoeff, ("IS_COEFF").toList), (IsZero, ("IS_ZERO").toList),
   (Clone, ("CLONE").toList), (Add, ("ADD").toList), (Mul, ("MUL").toList),
   (Neg, ("NEG").toList), (Sub, ("SUB").toList), (IsEq, ("IS_EQ").toList),
   (Deg, ("DEG").toList), (Print, ("PRINT").toList), (Pop, ("POP").toList)]

/-- The `for` loop of `ProcessCommand` over the entries of `FUNCTION_NAMES` not yet visited,
with the final `WrongCommandError`. -/
def ProcessCommandLoop (index read_characters : Nat) (input : List Char) (stack : Stack) :
    List ((Stack → CmdResult) × List Char) → Calc
  | [] => ⟨stack, [], WrongCommandError index⟩
  | c :: cs =>
    if read_characters = strlen c.2 ∧ strncmp c.2 input (strlen c.2) = true then
      reportUnderflow index (c.1 stack)
    else ProcessCommandLoop index read_characters input stack cs

/-- Embedding of `ProcessCommand`. -/
def ProcessCommand (index read_characters : Nat) (input : List Char) (stack : Stack)
    (length : Nat) : Calc :=
  let deg_by_length := strlen ("DEG_BY").toList
  let at_length := strlen ("AT").toList
  let compose_length := strlen ("COMPOSE").toList
  if read_characters ≥ deg_by_length ∧ strncmp ("DEG_BY").toList input deg_by_length = true then
    Size_TCommand index read_characters input stack length ("DEG_BY").toList
      DegByWrongVariableError DegBy
  else if read_characters ≥ compose_length ∧
      strncmp ("COMPOSE").toList input compose_length = true then
    Size_TCommand index read_characters input stack length ("COMPOSE").toList
      ComposeError Compose
  else if read_characters ≥ at_length ∧ strncmp ("AT").toList input at_length = true then
    ProcessAt index read_characters input stack length
  else if length ≠ read_characters then ⟨stack, [], WrongCommandError index⟩
  else ProcessCommandLoop index read_characters input stack FUNCTION_NAMES

/-- The `for` loop of `CountMonosAndCheck` from index `i` on: the final values of `brackets`,
`number_of_monos` and `correct`. -/
def CountMonosAndCheckLoop (input : List Char) (i : Nat) (brackets : Int)
    (number_of_monos : Nat) : Nat → Int × Nat × Bool
  | 0 => (brackets, number_of_monos, true)
  | n + 1 =>
    let brackets1 := if charAt input i == '(' then brackets + 1 else brackets
    if charAt input i == ')' then
      if brackets1 = 0 then (brackets1, number_of_monos, false)
      else
        CountMonosAndCheckLoop input (i + 1) (brackets1 - 1)
          (if brackets1 - 1 = 0 then number_of_monos + 1 else number_of_monos) n
    else CountMonosAndCheckLoop input (i + 1) brackets1 number_of_monos n

/-- Embedding of `CountMonosAndCheck` on the characters of `input` from index `b` up to `e`:
the number of monomials and the final value of `correct` (which is true on entry). -/
def CountMonosAndCheck (input : List Char) (b e : Nat) : Nat × Bool :=
  let r := CountMonosAndCheckLoop input b 0 0 (e - b)
  (r.2.1, r.2.2 && !(decide (r.2.1 = 0) || decide (r.1 ≠ 0)))

mutual
/-- Embedding of `CreatePoly` on the characters of `input` from index `b` up to `e`: the
polynomial returned and the final value of `is_poly`. -/
def CreatePoly (input : List Char) (b e : Nat) (is_poly : Bool) : Poly × Bool :=
  if hbe : b ≥ e then (PolyZero, false)
  else if charAt input b ≠ '+' ∧ CheckErrno (strtoll input b).errno = true
      ∧ (strtoll input b).endptr = e then
    (PolyFromCoeff (strtoll input b).value, is_poly)
  else if (CountMonosAndCheck input b e).2 = false then (PolyZero, false)
  else
    match CreatePolyLoop input b e b 0 [] b false is_poly (Nat.le_refl b) (Nat.le_refl b)
        (Nat.le_of_lt (Nat.lt_of_not_ge hbe)) with
    | (monos, ok) => if ok = false then (PolyZero, false) else (PolyOwnMonos monos, ok)
termination_by (2 * (e - b) + 1, 0)
decreasing_by all_goals omega
/-- The `for` loop of `CreatePoly` at index `i`, with the monomials processed so far; `begptr`
starts at `b` instead of `NULL` and is assigned before it is used.  The result is the
array of monomials and the final value of `is_poly`. -/
def CreatePolyLoop (input : List Char) (b e i : Nat) (brackets : Int) (monos : List Mono)
    (begptr : Nat) (processing_mono is_poly : Bool) (hbi : b ≤ i) (hbp : b ≤ begptr)
    (hie : i ≤ e) : List Mono × Bool :=
  if hi : i = e then (monos, is_poly)
  else if processing_mono = false ∧ charAt input i ≠ '(' then (monos, false)
  else if charAt input i = ')' then
    if (if charAt input i = '(' then brackets + 1 else brackets) - 1 = 0 then
      match CreateMono input (if processing_mono then begptr else i + 1) i is_poly with
      | (mono, ok) =>
        if ok = false then (monos ++ [mono], false)
        else if hn : i + 1 ≠ e then
          if charAt input (i + 1) ≠ '+' then (monos ++ [mono], false)
          else
            CreatePolyLoop input b e (i + 2) 0 (monos ++ [mono])
              (if processing_mono then begptr else i + 1) false
              (if i + 2 = e ∧ charAt input (i + 1) ≠ ')' then false else ok)
              (by omega) (by split <;> omega) (by omega)
        else
          CreatePolyLoop input b e (i + 1) 0 (monos ++ [mono])
            (if processing_mono then begptr else i + 1) false
            (if i + 1 = e ∧ charAt input i ≠ ')' then false else ok)
            (by omega) (by split <;> omega) (by omega)
    else
      CreatePolyLoop input b e (i + 1)
        ((if charAt input i = '(' then brackets + 1 else brackets) - 1) monos
        (if processing_mono then begptr else i + 1) true
        (if i + 1 = e ∧ charAt input i ≠ ')' then false else is_poly)
        (by omega) (by split <;> omega) (by omega)
  else
    CreatePolyLoop input b e (i + 1) (if charAt input i = '(' then brackets + 1 else brackets)
      monos (if processing_mono then begptr else i + 1) true
      (if i + 1 = e ∧ charAt input i ≠ ')' then false else is_poly)
      (by omega) (by split <;> omega) (by omega)
termination_by (2 * (e - b), e - i)
decreasing_by
  all_goals simp_wf
  all_goals first
    | (split <;> omega)
    | omega
/-- Embedding of `CreateMono` on the characters of `input` from index `b` up to `e`: the
monomial returned and the final value of `is_poly`. -/
def CreateMono (input : List Char) (b e : Nat) (is_poly : Bool) : Mono × Bool :=
  if hbe : b ≥ e then (MonoZero, false)
  else CreateMonoLoop input b e (e - 1) is_poly (by omega) (by omega)
termination_by (2 * (e - b) + 1, 0)
decreasing_by all_goals omega
/-- The `while` loop of `CreateMono` at index `i`, with the final test of `is_poly`. -/
def CreateMonoLoop (input : List Char) (b e i : Nat) (is_poly : Bool) (hbi : b ≤ i)
    (hie : i < e) : Mono × Bool :=
  if charAt input i = ',' then
    if i + 1 = e ∨ charAt input (i + 1) = '+' then (MonoZero, false)
    else
      match CreatePoly input b i is_poly with
      | (p, ok) =>
        if (if CheckErrno (StrToPolyExp input (i + 1)).errno = false
            ∨ (StrToPolyExp input (i + 1)).endptr ≠ e then false else ok) = false then
          (MonoZero, false)
        else ((p, (StrToPolyExp input (i + 1)).value.toNat), ok)
  else if hib : i = b then (MonoZero, false)
  else CreateMonoLoop input b e (i - 1) is_poly (by omega) (by omega)
termination_by (2 * (e - b), i - b)
decreasing_by all_goals omega
end

/-- Embedding of `ProcessPoly`. -/
def ProcessPoly (index read_characters : Nat) (input : List Char) (stack : Stack) : Calc :=
  if !CheckPolyChars read_characters input then ⟨stack, [], WrongPolyError index⟩
  else
    match CreatePoly input 0 read_characters true with
    | (poly, is_poly) =>
      if !is_poly then ⟨stack, [], WrongPolyError index⟩
      else ⟨StackPush stack poly, [], []⟩

/-- Embedding of `ProcessInput` for a line of `read_characters = input.length` characters.
When the final newline is dropped, the NUL written over it ends the buffer one character
earlier. -/
def ProcessInput (index : Nat) (input : List Char) (stack : Stack) : Calc :=
  if input.length ≠ 0 ∧ charAt input 0 = '#' then ⟨stack, [], []⟩
  else if input.length ≠ strlen input then
    if input.length ≠ 0 ∧ IsLetter (charAt input 0) = true then
      ProcessCommand index input.length input stack (strlen input)
    else ⟨stack, [], WrongPolyError index⟩
  else if input.length = 0 then ⟨stack, [], []⟩
  else if charAt input (input.length - 1) = '\n' then
    if input.length - 1 = 0 then ⟨stack, [], []⟩
    else if IsLetter (charAt (input.take (input.length - 1)) 0) = true then
      ProcessCommand index (input.length - 1) (input.take (input.length - 1)) stack
        (strlen input - 1)
    else ProcessPoly index (input.length - 1) (input.take (input.length - 1)) stack
  else if IsLetter (charAt input 0) = true then
    ProcessCommand index input.length input stack (strlen input)
  else ProcessPoly index input.length input stack

/-- The loop of `main` over the lines that `getline` reads, the head of `lines` first;
`lines_counter` counts the lines processed so far. -/
def mainLoop (lines_counter : Nat) (st : Calc) : List (List Char) → Calc
  | [] => st
  | input :: rest =>
    mainLoop (lines_counter + 1)
      ⟨(ProcessInput (lines_counter + 1) input st.stack).stack,
        st.out ++ (ProcessInput (lines_counter + 1) input st.stack).out,
        st.err ++ (ProcessInput (lines_counter + 1) input st.stack).err⟩ rest

/-- Embedding of `main` on the lines of the standard input: the stack before `StackClear` and
everything written to the standard output and the standard error. -/
def main (lines : List (List Char)) : Calc := mainLoop 0 ⟨StackCreate, [], []⟩ lines

/-- A polynomial as the calculator keeps it: canonical, with every constant in the range of
`poly_coeff_t`. -/
def WellFormed (p : Poly) : Prop := Canonical p = true ∧ CoeffsInRange p = true

/-- The text `out` is exactly one line: some characters other than the newline, followed
by one newline. -/
def OneLine (out : List Char) : Prop := ∃ line, out = line ++ ['\n'] ∧ '\n' ∉ line

mutual
/-- Every exponent stored in the polynomial is at most `MAX_POLY_EXP_T`, as every value
of type `poly_exp_t` that the parser accepts is. -/
def ExpsInRange : Poly → Bool
  | .coeff _ => true
  | .monos arr => ExpsInRangeList arr
/-- The bound `ExpsInRange` for every monomial of an array. -/
def ExpsInRangeList : List (Poly × Nat) → Bool
  | [] => true
  | m :: ms => decide (m.2 ≤ 2147483647) && ExpsInRange m.1 && ExpsInRangeList ms
end

/-- The count of open brackets after one more character, as both bracket loops of the
parser keep it. -/
def depthStep (k : Int) (c : Char) : Int :=
  if c = '(' then k + 1 else if c = ')' then k - 1 else k

/-- The count of open brackets after the text `t`, starting from `k`. -/
def scanDepth (k : Int) (t : List Char) : Int := t.foldl depthStep k

/-- Starting from `k` open brackets, at least one bracket is open after every character of
the text. -/
def StaysOpen (k : Int) : List Char → Prop
  | [] => True
  | c :: cs => 1 ≤ depthStep k c ∧ StaysOpen (depthStep k c) cs

/-- The grammar's `digit+`: a non-empty text of decimal digits. -/
def IsDigits (t : List Char) : Prop := t ≠ [] ∧ ∀ c ∈ t, isdigit c = true

/-- A text of digits without a superfluous leading zero: it starts with `0` only when it is
`0`. -/
def NoLeadingZero (t : List Char) : Prop := t.head? = some '0' → t = ['0']

/-- The grammar's `scalar-literal := ['-'] digit+` for a value `c` of the signed 64-bit
range.  With `strict` the numeral is written as `PolyPrint` writes it: no superfluous
leading zero and no minus sign before zero. -/
def IsScalarLiteral (strict : Bool) (t : List Char) (c : Int) : Prop :=
  InRange c ∧
    ((IsDigits t ∧ c = digitsValue t ∧ (strict = true → NoLeadingZero t)) ∨
      ∃ ds, t = '-' :: ds ∧ IsDigits ds ∧ c = -(digitsValue ds : Int) ∧
        (strict = true → NoLeadingZero ds ∧ c ≠ 0))

/-- The grammar's `exponent := digit+` for a value `e` in `0 .. 2147483647`.  With `strict`
the numeral has no superfluous leading zero. -/
def IsExponent (strict : Bool) (t : List Char) (e : Nat) : Prop :=
  IsDigits t ∧ e = digitsValue t ∧ e ≤ 2147483647 ∧ (strict = true → NoLeadingZero t)

mutual
/-- The grammar of the specification,
`polynomial := scalar-literal | monomial ('+' monomial)*`,
`monomial := '(' polynomial ',' exponent ')'`: the text `t` is derivable and `p` is the
tree of its derivation, a constant for a scalar literal and the array of the monomials
otherwise. -/
def Derives (strict : Bool) : Poly → List Char → Prop
  | .coeff c, t => IsScalarLiteral strict t c
  | .monos arr, t => DerivesMonos strict arr t
/-- The grammar's `monomial ('+' monomial)*` for the monomials of an array. -/
def DerivesMonos (strict : Bool) : List (Poly × Nat) → List Char → Prop
  | [], _ => False
  | m :: ms, t =>
    ∃ tp te rest, Derives strict m.1 tp ∧ IsExponent strict te m.2 ∧
      ((ms = [] ∧ rest = []) ∨ (ms ≠ [] ∧ ∃ r, rest = '+' :: r ∧ DerivesMonos strict ms r)) ∧
      t = '(' :: (tp ++ ',' :: (te ++ ')' :: rest))
end

/-- The `for` loop of `PolyAddMonos` from index `i` on: `rest` holds the sorted monomials
`from.arr[i..]`, `prev_exp` is `from.arr[i - 1].exp` and `acc` is the entry
`poly_ret.arr[size]` being accumulated; the result is the array `poly_ret.arr[0 .. size)`
written from here on, the final test after the loop included. -/
def PolyAddMonosLoop (prev_exp : Nat) (acc : Mono) (rest : List Mono) : List Mono :=
  match rest with
  | [] => if PolyIsZero acc.1 then [] else [acc]
  | m :: ms =>
    if m.2 = prev_exp then PolyAddMonosLoop m.2 (PolyAdd acc.1 m.1, acc.2) ms
    else (if PolyIsZero acc.1 then [] else [(acc.1, prev_exp)]) ++ PolyAddMonosLoop m.2 m ms

/-- Embedding of `PolyAddMonos` (`count` is the length of the list): the array is copied
to `from`, sorted, and merged into `poly_ret`. -/
def PolyAddMonos (monos : List Mono) : Poly :=
  match monos with
  | [] => PolyZero
  | _ :: _ =>
    match PolySort (.monos monos) with
    | .monos (m :: ms) => PolyChangeIfCoeff (PolyAddMonosLoop m.2 m ms)
    | _ => PolyZero

/-- Embedding of `PolyCloneMonos`: every monomial is cloned and the copy is handed to
`PolyOwnMonos`; a null array is the empty list. -/
def PolyCloneMonos (monos : List Mono) : Poly :=
  match monos with
  | [] => PolyZero
  | _ :: _ => PolyOwnMonos (monos.map MonoClone)

/-- The indices of `powers` that the `for` loop of `PolyFastPow` reads while `i` runs from
`index` down to 0, in the order of the reads. -/
def PolyFastPowReadsLoop : Nat → Nat → Nat → List Nat
  | 0, power, exp => if power ≤ exp then [0] else []
  | i + 1, power, exp =>
    if power ≤ exp then (i + 1) :: PolyFastPowReadsLoop i (power / 2) (exp - power)
    else PolyFastPowReadsLoop i (power / 2) exp

/-- The indices of `powers` that `PolyFastPow` reads for the exponent `exp`. -/
def PolyFastPowReads (exp : Nat) : List Nat :=
  if exp = 0 then []
  else
    PolyFastPowReadsLoop (PolyFastPowSeek exp 1 0 (by omega)).2
      (PolyFastPowSeek exp 1 0 (by omega)).1 exp

mutual
/-- The calls of `PolyFastPow` that `PolyComposeHelper` makes, as pairs of the depth `d`
(the cache `powers[d]` handed over) and the exponent. -/
def PolyComposeCalls : Poly → Nat → Nat → List (Nat × Nat)
  | .coeff _, _, _ => []
  | .monos arr, k, depth =>
    if depth ≥ k then PolyComposeCallsFirst arr k depth
    else PolyComposeCallsLoop arr k depth
/-- The calls made in the branch `depth >= k` of `PolyComposeHelper`. -/
def PolyComposeCallsFirst : List (Poly × Nat) → Nat → Nat → List (Nat × Nat)
  | [], _, _ => []
  | m :: _, k, depth => if m.2 ≠ 0 then [] else PolyComposeCalls m.1 k (depth + 1)
/-- The calls made in the `for` loop of `PolyComposeHelper` over the monomials not yet
visited. -/
def PolyComposeCallsLoop : List (Poly × Nat) → Nat → Nat → List (Nat × Nat)
  | [], _, _ => []
  | m :: ms, k, depth =>
    PolyComposeCalls m.1 k (depth + 1) ++ (depth, m.2) :: PolyComposeCallsLoop ms k depth
end

/-- Every sum of the list lies in the range of `poly_exp_t`, a 32-bit `int`: from
`-MAX_POLY_EXP_T - 1` to `MAX_POLY_EXP_T`.  A sum of two `int` values that leaves this
range has no defined result in C. -/
def ExpSumsInRange (sums : List Int) : Bool :=
  sums.all fun s => decide (-MAX_POLY_EXP_T - 1 ≤ s ∧ s ≤ MAX_POLY_EXP_T)

mutual
/-- The exponent sums `p->arr[i].exp + q->arr[j].exp` that a call of `PolyMul` forms, the
calls on the coefficients included, in the order in which the code forms them.  The
calls of `PolyAdd` form no sum. -/
def PolyMulSums (p q : Poly) : List Int :=
  match p, q with
  | .coeff _, .coeff _ => []
  | .coeff a, .monos qs => PolyMulSums (.monos [MonoFromPoly (.coeff a) 0]) (.monos qs)
  | .monos ps, .coeff b => PolyMulSums (.monos [MonoFromPoly (.coeff b) 0]) (.monos ps)
  | .monos ps, .monos qs =>
    if ps.length > qs.length then PolyMulSums (.monos qs) (.monos ps)
    else PolyMulOuterSums ps qs
termination_by p.weight + q.weight + liftPenalty p q
decreasing_by
  all_goals simp [Poly.weight, weightList, liftPenalty, MonoFromPoly]
  all_goals first | omega | (split <;> omega)
/-- The sums formed in the outer `for` loop of `PolyMul` over the monomials `ps` of `p`
not yet visited. -/
def PolyMulOuterSums (ps qs : List Mono) : List Int :=
  match ps with
  | [] => []
  | p :: ps => PolyMulInnerSums p qs ++ PolyMulOuterSums ps qs
termination_by weightList ps + weightList qs + 1
decreasing_by
  all_goals simp [weightList]
  all_goals omega
/-- The sums formed in the inner `for` loop of `PolyMul` for the monomial `p`: for every
monomial `q` the sum of the two exponents, then the sums of the call on the two
coefficients. -/
def PolyMulInnerSums (p : Mono) (qs : List Mono) : List Int :=
  match qs with
  | [] => []
  | q :: rest => ((p.2 : Int) + (q.2 : Int)) :: (PolyMulSums p.1 q.1 ++ PolyMulInnerSums p rest)
termination_by p.1.weight + 4 + weightList qs
decreasing_by
  all_goals simp [weightList]
  all_goals
    have key : ∀ a b : Poly, liftPenalty a b ≤ 7 := by
      intro a b
      cases a <;> cases b <;> simp [liftPenalty]
      split <;> omega
    refine Nat.lt_of_le_of_lt (Nat.add_le_add_left (key _ _) _) ?_
    omega
end

mutual
/-- The sums `p->arr[i].exp + PolyDeg(&p->arr[i].p)` that a call of `PolyDeg` forms, the
calls on the coefficients included. -/
def PolyDegSums : Poly → List Int
  | .coeff _ => []
  | .monos arr => PolyDegLoopSums arr
/-- The sums formed in the `for` loop of `PolyDeg` over the monomials not yet visited. -/
def PolyDegLoopSums : List (Poly × Nat) → List Int
  | [] => []
  | m :: ms => PolyDegSums m.1 ++ ((m.2 : Int) + PolyDeg m.1) :: PolyDegLoopSums ms
end

/-- The exponent sums formed in the `for` loop of `PolyAt` over the monomials not yet
visited: those of the calls of `PolyMul`. -/
def PolyAtLoopSums (arr : List Mono) (x : Int) : List Int :=
  match arr with
  | [] => []
  | m :: ms => PolyMulSums m.1 (PolyFromCoeff (FastPow x m.2)) ++ PolyAtLoopSums ms x

/-- The exponent sums that a call of `PolyAt` forms. -/
def PolyAtSums (p : Poly) (x : Int) : List Int :=
  match p with
  | .coeff _ => []
  | .monos arr => PolyAtLoopSums arr x

/-- The exponent sums formed in the `for` loop of `PolyFastPow` running `i` from `index`
down to 0: those of the calls `PolyMul(&poly_ret, &powers[i])`. -/
def PolyFastPowLoopSums (powers : List Poly) : Nat → Nat → Nat → Poly → List Int
  | 0, power, exp, poly_ret =>
    if power ≤ exp then PolyMulSums poly_ret (powers.getD 0 PolyZero) else []
  | i + 1, power, exp, poly_ret =>
    if power ≤ exp then
      PolyMulSums poly_ret (powers.getD (i + 1) PolyZero)
        ++ PolyFastPowLoopSums powers i (power / 2) (exp - power)
          (PolyMul poly_ret (powers.getD (i + 1) PolyZero))
    else PolyFastPowLoopSums powers i (power / 2) exp poly_ret

/-- The exponent sums that a call of `PolyFastPow` forms. -/
def PolyFastPowSums (powers : List Poly) (exp : Nat) : List Int :=
  if exp = 0 then []
  else
    PolyFastPowLoopSums powers (PolyFastPowSeek exp 1 0 (by omega)).2
      (PolyFastPowSeek exp 1 0 (by omega)).1 exp (PolyFromCoeff 1)

mutual
/-- The exponent sums that a call of `PolyComposeHelper` forms. -/
def PolyComposeHelperSums : Poly → Nat → List (List Poly) → Nat → List Int
  | .coeff _, _, _, _ => []
  | .monos arr, k, powers, depth =>
    if depth ≥ k then PolyComposeFirstSums arr k powers depth
    else PolyComposeLoopSums arr k powers depth
/-- The sums formed in the branch `depth >= k` of `PolyComposeHelper`. -/
def PolyComposeFirstSums : List (Poly × Nat) → Nat → List (List Poly) → Nat → List Int
  | [], _, _, _ => []
  | m :: _, k, powers, depth =>
    if m.2 ≠ 0 then [] else PolyComposeHelperSums m.1 k powers (depth + 1)
/-- The sums formed in the `for` loop of `PolyComposeHelper` over the monomials not yet
visited: for every monomial those of the call on its coefficient, of `PolyFastPow` and
of the `PolyMul` of the two results. -/
def PolyComposeLoopSums : List (Poly × Nat) → Nat → List (List Poly) → Nat → List Int
  | [], _, _, _ => []
  | m :: ms, k, powers, depth =>
    PolyComposeHelperSums m.1 k powers (depth + 1)
      ++ PolyFastPowSums (powers.getD depth []) m.2
      ++ PolyMulSums (PolyFastPow (powers.getD depth []) m.2)
          (PolyComposeHelper m.1 k powers (depth + 1))
      ++ PolyComposeLoopSums ms k powers depth
end

/-- The exponent sums formed while `PolyCompose` builds a cache of `size` entries starting
from `cur`: the entry `powers[i][0]` is a clone, every further entry is the `PolyMul` of
the entry before with itself. -/
def PowersFillSums : Nat → Poly → List Int
  | 0, _ => []
  | 1, _ => []
  | size + 2, cur => PolyMulSums cur cur ++ PowersFillSums (size + 1) (PolyMul cur cur)

/-- The exponent sums that a call of `PolyCompose` forms: those of the `k` caches, then
those of `PolyComposeHelper`. -/
def PolyComposeSums (p : Poly) (k : Nat) (q : List Poly) : List Int :=
  ((List.range k).map fun i =>
      PowersFillSums (PowersOfTwo ((MaxExpFill p (List.replicate k 0) k 0).getD i 0))
        (PolyClone (q.getD i PolyZero))).flatten
    ++ PolyComposeHelperSums p k
      ((List.range k).map fun i =>
        PowersFill (PowersOfTwo ((MaxExpFill p (List.replicate k 0) k 0).getD i 0))
          (PolyClone (q.getD i PolyZero)))
      0

/-- The exponent sums that the command `Mul` forms. -/
def MulSums (stack : Stack) : List Int :=
  if StackUnderflow stack 2 then []
  else PolyMulSums (StackPop stack).1 (StackPop (StackPop stack).2).1

/-- The exponent sums that the command `Deg` forms. -/
def DegSums (stack : Stack) : List Int :=
  if StackUnderflow stack 1 then [] else PolyDegSums (StackTop stack)

/-- The exponent sums that the command `At` forms. -/
def AtSums (stack : Stack) (x : Int) : List Int :=
  if StackUnderflow stack 1 then [] else PolyAtSums (StackPop stack).1 x

/-- The exponent sums that the command `Compose` forms. -/
def ComposeSums (stack : Stack) (k : Nat) : List Int :=
  if stack.length ≤ k then []
  else PolyComposeSums (StackPop stack).1 k (ComposePopLoop k (StackPop stack).2).1

/-- The exponent sums that a command with a `size_t` argument forms when `Size_TCommand`
processes the line; `function` gives the sums of the command itself. -/
def Size_TCommandSums (read_characters : Nat) (input : List Char) (stack : Stack)
    (length : Nat) (command_name : List Char) (function : Stack → Nat → List Int) :
    List Int :=
  let command_length := strlen command_name
  if !CheckArguments read_characters command_length input length then []
  else if charAt input (command_length + 1) == '+' || charAt input (command_length + 1) == '-'
      || !CheckNumberChars input (command_length + 1) then
    []
  else
    let r := strtoull input (command_length + 1)
    if CheckErrno r.errno && charAt input r.endptr == NUL then function stack r.value.toNat
    else []

/-- The exponent sums formed when `ProcessAt` processes the line. -/
def ProcessAtSums (read_characters : Nat) (input : List Char) (stack : Stack)
    (length : Nat) : List Int :=
  let at_length := strlen ("AT").toList
  if !CheckArguments read_characters at_length input length then []
  else if charAt input (at_length + 1) == '+' || !CheckNumberChars input (at_length + 1) then []
  else
    let r := strtoll input (at_length + 1)
    if CheckErrno r.errno && charAt input r.endptr == NUL then AtSums stack r.value else []

/-- The entries of `FUNCTION_NAMES` with the exponent sums each command forms: `Mul` and
`Deg` form sums, the other commands without an argument form none. -/
def FUNCTION_SUMS : List ((Stack → List Int) × List Char) :=
  [(fun _ => [], ("ZERO").toList), (fun _ => [], ("IS_COEFF").toList),
   (fun _ => [], ("IS_ZERO").toList), (fun _ => [], ("CLONE").toList),
   (fun _ => [], ("ADD").toList), (MulSums, ("MUL").toList),
   (fun _ => [], ("NEG").toList), (fun _ => [], ("SUB").toList),
   (fun _ => [], ("IS_EQ").toList), (DegSums, ("DEG").toList),
   (fun _ => [], ("PRINT").toList), (fun _ => [], ("POP").toList)]

/-- The exponent sums formed in the `for` loop of `ProcessCommand` over the entries not
yet visited. -/
def ProcessCommandLoopSums (read_characters : Nat) (input : List Char) (stack : Stack) :
    List ((Stack → List Int) × List Char) → List Int
  | [] => []
  | c :: cs =>
    if read_characters = strlen c.2 ∧ strncmp c.2 input (strlen c.2) = true then c.1 stack
    else ProcessCommandLoopSums read_characters input stack cs

/-- The exponent sums formed when `ProcessCommand` processes the line. -/
def ProcessCommandSums (read_characters : Nat) (input : List Char) (stack : Stack)
    (length : Nat) : List Int :=
  let deg_by_length := strlen ("DEG_BY").toList
  let at_length := strlen ("AT").toList
  let compose_length := strlen ("COMPOSE").toList
  if read_characters ≥ deg_by_length ∧ strncmp ("DEG_BY").toList input deg_by_length = true then
    Size_TCommandSums read_characters input stack length ("DEG_BY").toList (fun _ _ => [])
  else if read_characters ≥ compose_length ∧
      strncmp ("COMPOSE").toList input compose_length = true then
    Size_TCommandSums read_characters input stack length ("COMPOSE").toList ComposeSums
  else if read_characters ≥ at_length ∧ strncmp ("AT").toList input at_length = true then
    ProcessAtSums read_characters input stack length
  else if length ≠ read_characters then []
  else ProcessCommandLoopSums read_characters input stack FUNCTION_SUMS

/-- The exponent sums formed when `ProcessInput` processes the line: those of the command
it runs.  A line that holds a polynomial forms no sum, the parser compares every
exponent with `MAX_POLY_EXP_T`. -/
def ProcessInputSums (input : List Char) (stack : Stack) : List Int :=
  if input.length ≠ 0 ∧ charAt input 0 = '#' then []
  else if input.length ≠ strlen input then
    if input.length ≠ 0 ∧ IsLetter (charAt input 0) = true then
      ProcessCommandSums input.length input stack (strlen input)
    else []
  else if input.length = 0 then []
  else if charAt input (input.length - 1) = '\n' then
    if input.length - 1 = 0 then []
    else if IsLetter (charAt (input.take (input.length - 1)) 0) = true then
      ProcessCommandSums (input.length - 1) (input.take (input.length - 1)) stack
        (strlen input - 1)
    else []
  else if IsLetter (charAt input 0) = true then
    ProcessCommandSums input.length input stack (strlen input)
  else []

/-- The exponent sums formed in the loop of `main` over the lines not yet read, from the
state `st` on. -/
def mainLoopSums (lines_counter : Nat) (st : Calc) : List (List Char) → List Int
  | [] => []
  | input :: rest =>
    ProcessInputSums input st.stack
      ++ mainLoopSums (lines_counter + 1)
        ⟨(ProcessInput (lines_counter + 1) input st.stack).stack,
          st.out ++ (ProcessInput (lines_counter + 1) input st.stack).out,
          st.err ++ (ProcessInput (lines_counter + 1) input st.stack).err⟩ rest

/-- The exponent sums formed while `main` processes the lines of the standard input. -/
def mainSums (lines : List (List Char)) : List Int := mainLoopSums 0 ⟨StackCreate, [], []⟩ lines

/-- Reduction of an integer to the signed 32-bit range: the value that two's-complement
hardware leaves in an `int` when a sum leaves the range.  The C standard gives such a
sum no defined result; the reduction is used only to describe one possible outcome. -/
def wrapExp (x : Int) : Int := (x + 2 ^ 31) % 2 ^ 32 - 2 ^ 31

/-! ## Lemmas -/

open Poly

theorem wrapCoeff_cast (x : Int) : ((wrapCoeff x : Int) : ZMod (2 ^ 64)) = (x : ZMod (2 ^ 64)) := by
  unfold wrapCoeff
  have h := ZMod.intCast_mod (x + 2 ^ 63) (2 ^ 64)
  push_cast at h ⊢
  rw [h]
  ring

theorem valueMonos_eq_sum (arr : List Mono) (env : Nat → Int) :
    valueMonos arr env = (arr.map fun m => value m.1 (fun i => env (i + 1)) * env 0 ^ m.2).sum := by
  induction arr with
  | nil => simp [valueMonos]
  | cons m ms ih => simp [valueMonos, ih]

theorem valueMonos_append (a b : List Mono) (env : Nat → Int) :
    valueMonos (a ++ b) env = valueMonos a env + valueMonos b env := by
  simp [valueMonos_eq_sum]

theorem valueMonos_perm {a b : List Mono} (h : a.Perm b) (env : Nat → Int) :
    valueMonos a env = valueMonos b env := by
  rw [valueMonos_eq_sum, valueMonos_eq_sum]
  exact (h.map _).sum_eq

theorem PolyIsZero_iff (p : Poly) : PolyIsZero p = true ↔ p = coeff 0 := by
  cases p <;> simp [PolyIsZero]

theorem valueMonos_clone (m : Mono) (env : Nat → Int) :
    valueMonos (MonoCloneIfNotZero m) env = value m.1 (fun i => env (i + 1)) * env 0 ^ m.2 := by
  unfold MonoCloneIfNotZero
  split
  · rename_i h
    rw [PolyIsZero_iff] at h
    simp [valueMonos, h, value]
  · simp [valueMonos, MonoClone, PolyClone]

theorem value_PolyChangeIfCoeff (arr : List Mono) (env : Nat → Int) :
    value (PolyChangeIfCoeff arr) env = valueMonos arr env := by
  unfold PolyChangeIfCoeff
  split <;> simp [value, valueMonos, PolyZero, PolyFromCoeff, PolyClone]

theorem value_PolySort (p : Poly) (env : Nat → Int) : value (PolySort p) env = value p env := by
  cases p with
  | coeff c => rfl
  | monos arr =>
    simp only [PolySort, value]
    exact valueMonos_perm (List.perm_insertionSort _ _) env

theorem value_PolyAdd_cast (p q : Poly) : ∀ env : Nat → Int,
    ((value (PolyAdd p q) env : Int) : ZMod (2 ^ 64)) = value p env + value q env := by
  apply PolyAdd.induct
    (fun p q => ∀ env : Nat → Int,
      ((value (PolyAdd p q) env : Int) : ZMod (2 ^ 64)) = value p env + value q env)
    (fun ps qs => ∀ env : Nat → Int,
      ((valueMonos (PolyAddLoop ps qs) env : Int) : ZMod (2 ^ 64))
        = valueMonos ps env + valueMonos qs env)
  · intro a b env
    simp only [PolyAdd, PolyFromCoeff, value, wrapCoeff_cast]
    push_cast
    rfl
  · intro a qs ih env
    rw [PolyAdd, ih env]
    simp [value, valueMonos, MonoFromPoly]
  · intro ps b ih env
    rw [PolyAdd, ih env]
    simp [value, valueMonos, MonoFromPoly]
    ring
  · intro ps qs ih env
    rw [PolyAdd, value_PolySort, value_PolyChangeIfCoeff, ih env]
    simp [value]
  · intro env
    simp [PolyAddLoop, valueMonos]
  · intro q qs ih env
    rw [PolyAddLoop, valueMonos_append, valueMonos_clone]
    push_cast
    rw [ih env]
    simp [valueMonos]
  · intro p ps ih env
    rw [PolyAddLoop, valueMonos_append, valueMonos_clone]
    push_cast
    rw [ih env]
    simp [valueMonos]
  · intro p ps q qs h ih env
    rw [PolyAddLoop, if_pos h, valueMonos_append, valueMonos_clone]
    push_cast
    rw [ih env]
    simp [valueMonos]
    ring
  · intro p ps q qs h1 h2 ih env
    rw [PolyAddLoop, if_neg h1, if_pos h2, valueMonos_append, valueMonos_clone]
    push_cast
    rw [ih env]
    simp [valueMonos]
    ring
  · intro p ps q qs h1 h2 ih1 ih2 env
    have he : p.2 = q.2 := by omega
    rw [PolyAddLoop, if_neg h1, if_neg h2, valueMonos_append]
    push_cast
    rw [ih2 env]
    have hs : ((valueMonos (if PolyIsZero (PolyAdd p.1 q.1) = true then []
        else [(PolyAdd p.1 q.1, p.2)]) env : Int) : ZMod (2 ^ 64))
        = (value p.1 (fun i => env (i + 1)) + value q.1 (fun i => env (i + 1))) * env 0 ^ p.2 := by
      have := ih1 (fun i => env (i + 1))
      split
      · rename_i hz
        rw [PolyIsZero_iff] at hz
        rw [hz] at this
        simp [value] at this
        simp [valueMonos, ← this]
      · simp [valueMonos, this]
    rw [hs]
    simp [valueMonos, he]
    ring

theorem canonicalCoeffs_iff (arr : List Mono) :
    CanonicalCoeffs arr = true ↔ ∀ m ∈ arr, PolyIsZero m.1 = false ∧ Canonical m.1 = true := by
  induction arr with
  | nil => simp [CanonicalCoeffs]
  | cons m ms ih => simp [CanonicalCoeffs, ih, and_assoc]

theorem canonical_monos_iff (arr : List Mono) :
    Canonical (monos arr) = true ↔
      arr ≠ [] ∧ (∀ c, arr ≠ [(coeff c, 0)]) ∧ ExpsIncreasing arr ∧
        ∀ m ∈ arr, PolyIsZero m.1 = false ∧ Canonical m.1 = true := by
  have hs : (∀ c, arr ≠ [(coeff c, 0)]) ↔
      ¬ (arr.length = 1 ∧ ∀ m ∈ arr, m.2 = 0 ∧ PolyIsCoeff m.1 = true) := by
    match arr with
    | [] => simp
    | [(coeff c, e)] => simp [PolyIsCoeff]
    | [(monos a, e)] => simp [PolyIsCoeff]
    | _ :: _ :: _ => simp
  rw [hs]
  simp only [Canonical, Bool.and_eq_true, Bool.not_eq_true', decide_eq_true_eq, canonicalCoeffs_iff,
    ExpsIncreasing, List.Sorted, List.pairwise_map]
  simp [and_assoc]


theorem canonical_changeIfCoeff (arr : List Mono) (hinc : ExpsIncreasing arr)
    (hall : ∀ m ∈ arr, PolyIsZero m.1 = false ∧ Canonical m.1 = true) :
    Canonical (PolyChangeIfCoeff arr) = true := by
  unfold PolyChangeIfCoeff
  split
  · rfl
  · rfl
  · rename_i h1 h2
    rw [canonical_monos_iff]
    exact ⟨h1, fun c hc => h2 c hc, hinc, hall⟩

theorem PolySort_of_increasing (arr : List Mono) (h : ExpsIncreasing arr) :
    PolySort (monos arr) = monos arr := by
  simp only [PolySort]
  congr 1
  apply List.Sorted.insertionSort_eq
  exact List.Pairwise.imp (fun hab => Nat.le_of_lt hab) h

theorem PolySort_of_canonical (p : Poly) (h : Canonical p = true) : PolySort p = p := by
  cases p with
  | coeff c => rfl
  | monos arr =>
    rw [canonical_monos_iff] at h
    exact PolySort_of_increasing arr h.2.2.1

theorem PolySort_changeIfCoeff (arr : List Mono) (hinc : ExpsIncreasing arr) :
    PolySort (PolyChangeIfCoeff arr) = PolyChangeIfCoeff arr := by
  unfold PolyChangeIfCoeff
  split
  · rfl
  · rfl
  · exact PolySort_of_increasing arr hinc

theorem mem_MonoCloneIfNotZero {m x : Mono} (h : x ∈ MonoCloneIfNotZero m) :
    x = m ∧ PolyIsZero m.1 = false := by
  unfold MonoCloneIfNotZero at h
  split at h
  · simp at h
  · simp [MonoClone, PolyClone] at h
    simp_all

/-- The exponents written by the loop of `PolyAdd` come from the two operands. -/
theorem PolyAddLoop_exp_mem (ps qs : List Mono) :
    ∀ m ∈ PolyAddLoop ps qs, (∃ p ∈ ps, p.2 = m.2) ∨ (∃ q ∈ qs, q.2 = m.2) := by
  apply PolyAddLoop.induct (fun _ _ => True)
    (fun ps qs => ∀ m ∈ PolyAddLoop ps qs, (∃ p ∈ ps, p.2 = m.2) ∨ (∃ q ∈ qs, q.2 = m.2))
  · intros; trivial
  · intros; trivial
  · intros; trivial
  · intros; trivial
  · intro m hm
    simp [PolyAddLoop] at hm
  · intro q qs ih m hm
    rw [PolyAddLoop, List.mem_append] at hm
    rcases hm with hm | hm
    · obtain ⟨rfl, _⟩ := mem_MonoCloneIfNotZero hm
      exact Or.inr ⟨m, by simp, rfl⟩
    · rcases ih m hm with ⟨p, hp, _⟩ | ⟨q', hq, he⟩
      · simp at hp
      · exact Or.inr ⟨q', by simp [hq], he⟩
  · intro p ps ih m hm
    rw [PolyAddLoop, List.mem_append] at hm
    rcases hm with hm | hm
    · obtain ⟨rfl, _⟩ := mem_MonoCloneIfNotZero hm
      exact Or.inl ⟨m, by simp, rfl⟩
    · rcases ih m hm with ⟨p', hp, he⟩ | ⟨q', hq, _⟩
      · exact Or.inl ⟨p', by simp [hp], he⟩
      · simp at hq
  · intro p ps q qs h ih m hm
    rw [PolyAddLoop, if_pos h, List.mem_append] at hm
    rcases hm with hm | hm
    · obtain ⟨rfl, _⟩ := mem_MonoCloneIfNotZero hm
      exact Or.inl ⟨m, by simp, rfl⟩
    · rcases ih m hm with ⟨p', hp, he⟩ | ⟨q', hq, he⟩
      · exact Or.inl ⟨p', by simp [hp], he⟩
      · exact Or.inr ⟨q', hq, he⟩
  · intro p ps q qs h1 h2 ih m hm
    rw [PolyAddLoop, if_neg h1, if_pos h2, List.mem_append] at hm
    rcases hm with hm | hm
    · obtain ⟨rfl, _⟩ := mem_MonoCloneIfNotZero hm
      exact Or.inr ⟨m, by simp, rfl⟩
    · rcases ih m hm with ⟨p', hp, he⟩ | ⟨q', hq, he⟩
      · exact Or.inl ⟨p', hp, he⟩
      · exact Or.inr ⟨q', by simp [hq], he⟩
  · intro p ps q qs h1 h2 _ ih m hm
    rw [PolyAddLoop, if_neg h1, if_neg h2, List.mem_append] at hm
    rcases hm with hm | hm
    · split at hm
      · simp at hm
      · simp at hm
        subst hm
        exact Or.inl ⟨p, by simp, rfl⟩
    · rcases ih m hm with ⟨p', hp, he⟩ | ⟨q', hq, he⟩
      · exact Or.inl ⟨p', by simp [hp], he⟩
      · exact Or.inr ⟨q', by simp [hq], he⟩

theorem WeakPoly_of_canonical (p : Poly) (h : Canonical p = true) : WeakPoly p := by
  cases p with
  | coeff c => trivial
  | monos arr =>
    rw [canonical_monos_iff] at h
    exact ⟨h.2.2.1, fun m hm => (h.2.2.2 m hm).2⟩

theorem WeakMonos_tail {p : Mono} {ps : List Mono} (h : WeakMonos (p :: ps)) : WeakMonos ps :=
  ⟨(List.pairwise_cons.mp h.1).2, fun m hm => h.2 m (List.mem_cons_of_mem _ hm)⟩

theorem WeakMonos_head_lt {p : Mono} {ps : List Mono} (h : WeakMonos (p :: ps)) :
    ∀ x ∈ ps, p.2 < x.2 := (List.pairwise_cons.mp h.1).1

theorem expsIncreasing_append_of_short (e : Nat) (A B : List Mono) (hlen : A.length ≤ 1)
    (hB : ExpsIncreasing B) (hA : ∀ a ∈ A, a.2 = e) (hlt : ∀ b ∈ B, e < b.2) :
    ExpsIncreasing (A ++ B) := by
  unfold ExpsIncreasing
  rw [List.pairwise_append]
  refine ⟨?_, hB, ?_⟩
  · match A, hlen with
    | [], _ => exact List.Pairwise.nil
    | [a], _ => exact List.pairwise_singleton _ _
  · intro a ha b hb
    rw [hA a ha]
    exact hlt b hb

theorem length_MonoCloneIfNotZero (m : Mono) : (MonoCloneIfNotZero m).length ≤ 1 := by
  unfold MonoCloneIfNotZero
  split <;> simp

theorem canonical_PolyAdd_weak (p q : Poly) :
    WeakPoly p → WeakPoly q → Canonical (PolyAdd p q) = true := by
  apply PolyAdd.induct
    (fun p q => WeakPoly p → WeakPoly q → Canonical (PolyAdd p q) = true)
    (fun ps qs => WeakMonos ps → WeakMonos qs →
      ExpsIncreasing (PolyAddLoop ps qs) ∧
        ∀ m ∈ PolyAddLoop ps qs, PolyIsZero m.1 = false ∧ Canonical m.1 = true)
  · intro a b _ _
    rw [PolyAdd]
    rfl
  · intro a qs ih _ hq
    rw [PolyAdd]
    refine ih ⟨List.pairwise_singleton _ _, ?_⟩ hq
    intro m hm
    simp [MonoFromPoly] at hm
    subst hm
    rfl
  · intro ps b ih hp _
    rw [PolyAdd]
    refine ih ⟨List.pairwise_singleton _ _, ?_⟩ hp
    intro m hm
    simp [MonoFromPoly] at hm
    subst hm
    rfl
  · intro ps qs ih hp hq
    obtain ⟨hinc, hall⟩ := ih hp hq
    rw [PolyAdd, PolySort_changeIfCoeff _ hinc]
    exact canonical_changeIfCoeff _ hinc hall
  · intro _ _
    rw [PolyAddLoop]
    exact ⟨List.Pairwise.nil, by simp⟩
  · intro q qs ih hp hq
    obtain ⟨hinc, hall⟩ := ih hp (WeakMonos_tail hq)
    rw [PolyAddLoop]
    constructor
    · apply expsIncreasing_append_of_short q.2 _ _ (length_MonoCloneIfNotZero q) hinc
      · intro a ha
        rw [(mem_MonoCloneIfNotZero ha).1]
      · intro b hb
        rcases PolyAddLoop_exp_mem _ _ b hb with ⟨x, hx, _⟩ | ⟨x, hx, he⟩
        · simp at hx
        · rw [← he]
          exact WeakMonos_head_lt hq x hx
    · intro m hm
      rw [List.mem_append] at hm
      rcases hm with hm | hm
      · obtain ⟨rfl, hz⟩ := mem_MonoCloneIfNotZero hm
        exact ⟨hz, hq.2 m (by simp)⟩
      · exact hall m hm
  · intro p ps ih hp hq
    obtain ⟨hinc, hall⟩ := ih (WeakMonos_tail hp) hq
    rw [PolyAddLoop]
    constructor
    · apply expsIncreasing_append_of_short p.2 _ _ (length_MonoCloneIfNotZero p) hinc
      · intro a ha
        rw [(mem_MonoCloneIfNotZero ha).1]
      · intro b hb
        rcases PolyAddLoop_exp_mem _ _ b hb with ⟨x, hx, he⟩ | ⟨x, hx, _⟩
        · rw [← he]
          exact WeakMonos_head_lt hp x hx
        · simp at hx
    · intro m hm
      rw [List.mem_append] at hm
      rcases hm with hm | hm
      · obtain ⟨rfl, hz⟩ := mem_MonoCloneIfNotZero hm
        exact ⟨hz, hp.2 m (by simp)⟩
      · exact hall m hm
  · intro p ps q qs h ih hp hq
    obtain ⟨hinc, hall⟩ := ih (WeakMonos_tail hp) hq
    rw [PolyAddLoop, if_pos h]
    constructor
    · apply expsIncreasing_append_of_short p.2 _ _ (length_MonoCloneIfNotZero p) hinc
      · intro a ha
        rw [(mem_MonoCloneIfNotZero ha).1]
      · intro b hb
        rcases PolyAddLoop_exp_mem _ _ b hb with ⟨x, hx, he⟩ | ⟨x, hx, he⟩
        · rw [← he]
          exact WeakMonos_head_lt hp x hx
        · rw [← he]
          rcases List.mem_cons.mp hx with rfl | hx
          · exact h
          · exact Nat.lt_trans h (WeakMonos_head_lt hq x hx)
    · intro m hm
      rw [List.mem_append] at hm
      rcases hm with hm | hm
      · obtain ⟨rfl, hz⟩ := mem_MonoCloneIfNotZero hm
        exact ⟨hz, hp.2 m (by simp)⟩
      · exact hall m hm
  · intro p ps q qs h1 h2 ih hp hq
    obtain ⟨hinc, hall⟩ := ih hp (WeakMonos_tail hq)
    rw [PolyAddLoop, if_neg h1, if_pos h2]
    constructor
    · apply expsIncreasing_append_of_short q.2 _ _ (length_MonoCloneIfNotZero q) hinc
      · intro a ha
        rw [(mem_MonoCloneIfNotZero ha).1]
      · intro b hb
        rcases PolyAddLoop_exp_mem _ _ b hb with ⟨x, hx, he⟩ | ⟨x, hx, he⟩
        · rw [← he]
          rcases List.mem_cons.mp hx with rfl | hx
          · exact h2
          · exact Nat.lt_trans h2 (WeakMonos_head_lt hp x hx)
        · rw [← he]
          exact WeakMonos_head_lt hq x hx
    · intro m hm
      rw [List.mem_append] at hm
      rcases hm with hm | hm
      · obtain ⟨rfl, hz⟩ := mem_MonoCloneIfNotZero hm
        exact ⟨hz, hq.2 m (by simp)⟩
      · exact hall m hm
  · intro p ps q qs h1 h2 ih1 ih2 hp hq
    have he : p.2 = q.2 := by omega
    obtain ⟨hinc, hall⟩ := ih2 (WeakMonos_tail hp) (WeakMonos_tail hq)
    have hc : Canonical (PolyAdd p.1 q.1) = true :=
      ih1 (WeakPoly_of_canonical _ (hp.2 p (by simp))) (WeakPoly_of_canonical _ (hq.2 q (by simp)))
    rw [PolyAddLoop, if_neg h1, if_neg h2]
    constructor
    · apply expsIncreasing_append_of_short p.2 _ _ (by split <;> simp) hinc
      · intro a ha
        split at ha
        · simp at ha
        · simp at ha
          rw [ha]
      · intro b hb
        rcases PolyAddLoop_exp_mem _ _ b hb with ⟨x, hx, hxe⟩ | ⟨x, hx, hxe⟩
        · rw [← hxe]
          exact WeakMonos_head_lt hp x hx
        · rw [← hxe, he]
          exact WeakMonos_head_lt hq x hx
    · intro m hm
      rw [List.mem_append] at hm
      rcases hm with hm | hm
      · split at hm
        · simp at hm
        · rename_i hz
          simp at hm
          subst hm
          exact ⟨by simpa using hz, hc⟩
      · exact hall m hm

theorem value_PolyMul_cast (p q : Poly) : ∀ env : Nat → Int,
    ((value (PolyMul p q) env : Int) : ZMod (2 ^ 64)) = value p env * value q env := by
  apply PolyMul.induct
    (fun p q => ∀ env : Nat → Int,
      ((value (PolyMul p q) env : Int) : ZMod (2 ^ 64)) = value p env * value q env)
    (fun ps qs poly_ret => ∀ env : Nat → Int,
      ((value (PolyMulOuter ps qs poly_ret) env : Int) : ZMod (2 ^ 64))
        = value poly_ret env + valueMonos ps env * valueMonos qs env)
    (fun p qs => ∀ env : Nat → Int,
      ((valueMonos (PolyMulInner p qs) env : Int) : ZMod (2 ^ 64))
        = (value p.1 (fun i => env (i + 1)) * env 0 ^ p.2) * valueMonos qs env)
  · intro a b env
    simp only [PolyMul, PolyFromCoeff, value, wrapCoeff_cast]
    push_cast
    rfl
  · intro a qs ih env
    rw [PolyMul, ih env]
    simp [value, valueMonos, MonoFromPoly]
  · intro ps b ih env
    rw [PolyMul, ih env]
    simp [value, valueMonos, MonoFromPoly]
    ring
  · intro ps qs h ih env
    rw [PolyMul, if_pos h, ih env]
    ring
  · intro ps qs h ih env
    rw [PolyMul, if_neg h, ih env]
    simp [value, PolyZero, PolyFromCoeff]
  · intro qs poly_ret env
    simp [PolyMulOuter, valueMonos]
  · intro qs poly_ret p ps ih3 ih2 env
    rw [PolyMulOuter, ih2 env, value_PolyAdd_cast]
    simp only [value]
    rw [ih3 env]
    simp [valueMonos]
    ring
  · intro p env
    simp [PolyMulInner, valueMonos]
  · intro p q qs ih1 ih3 env
    rw [PolyMulInner]
    simp only [valueMonos]
    push_cast
    rw [ih3 env, ih1 (fun i => env (i + 1))]
    ring

theorem PolyMulInner_exps (p : Mono) (qs : List Mono) :
    (PolyMulInner p qs).map Prod.snd = qs.map fun q => p.2 + q.2 := by
  induction qs with
  | nil => simp [PolyMulInner]
  | cons q qs ih => simp [PolyMulInner, ih]

theorem expsIncreasing_iff_map (arr : List Mono) :
    ExpsIncreasing arr ↔ (arr.map Prod.snd).Pairwise (· < ·) := by
  unfold ExpsIncreasing
  rw [List.pairwise_map]

theorem canonical_PolyMul_weak (p q : Poly) :
    WeakPoly p → WeakPoly q → Canonical (PolyMul p q) = true := by
  apply PolyMul.induct
    (fun p q => WeakPoly p → WeakPoly q → Canonical (PolyMul p q) = true)
    (fun ps qs poly_ret => WeakMonos ps → WeakMonos qs → Canonical poly_ret = true →
      Canonical (PolyMulOuter ps qs poly_ret) = true)
    (fun p qs => Canonical p.1 = true → WeakMonos qs → WeakMonos (PolyMulInner p qs))
  · intro a b _ _
    rw [PolyMul]
    rfl
  · intro a qs ih _ hq
    rw [PolyMul]
    refine ih ⟨List.pairwise_singleton _ _, ?_⟩ hq
    intro m hm
    simp [MonoFromPoly] at hm
    subst hm
    rfl
  · intro ps b ih hp _
    rw [PolyMul]
    refine ih ⟨List.pairwise_singleton _ _, ?_⟩ hp
    intro m hm
    simp [MonoFromPoly] at hm
    subst hm
    rfl
  · intro ps qs h ih hp hq
    rw [PolyMul, if_pos h]
    exact ih hq hp
  · intro ps qs h ih hp hq
    rw [PolyMul, if_neg h]
    exact ih hp hq rfl
  · intro qs poly_ret _ _ hr
    rw [PolyMulOuter]
    exact hr
  · intro qs poly_ret p ps ih3 ih2 hp hq hr
    rw [PolyMulOuter]
    apply ih2 (WeakMonos_tail hp) hq
    exact canonical_PolyAdd_weak _ _ (WeakPoly_of_canonical _ hr) (ih3 (hp.2 p (by simp)) hq)
  · intro p _ _
    rw [PolyMulInner]
    exact ⟨List.Pairwise.nil, by simp⟩
  · intro p q qs ih1 ih3 hp hq
    have hw := ih3 hp (WeakMonos_tail hq)
    constructor
    · rw [expsIncreasing_iff_map, PolyMulInner_exps, List.pairwise_map]
      exact List.Pairwise.imp (fun hab => Nat.add_lt_add_left hab _) hq.1
    · intro m hm
      rw [PolyMulInner, List.mem_cons] at hm
      rcases hm with rfl | hm
      · exact ih1 (WeakPoly_of_canonical _ hp) (WeakPoly_of_canonical _ (hq.2 q (by simp)))
      · exact hw.2 m hm

theorem isSortByExp_insertionSort : IsSortByExp (List.insertionSort MonoLeByExp) := by
  intro l
  refine ⟨List.perm_insertionSort _ _, ?_⟩
  haveI : IsTotal Mono MonoLeByExp := ⟨fun a b => Nat.le_total a.2 b.2⟩
  haveI : IsTrans Mono MonoLeByExp := ⟨fun a b c hab hbc => Nat.le_trans hab hbc⟩
  exact List.sorted_insertionSort _ _

theorem PolyOwnMonos_eq_with (monos : List Mono) :
    PolyOwnMonos monos = PolyOwnMonosWith (List.insertionSort MonoLeByExp) monos := by
  cases monos with
  | nil => rfl
  | cons m ms =>
    simp only [PolyOwnMonos, PolyOwnMonosWith, PolySort]
    split <;> rename_i heq
    · simp only [Poly.monos.injEq] at heq
      rw [heq]
    · split
      · rfl
      · rename_i m2 ms2 heq2
        exact absurd (congrArg Poly.monos heq2) (heq m2 ms2)

theorem value_PolyOwnMonosLoop_cast (rest : List Mono) : ∀ (prev_exp : Nat) (acc : Mono)
    (env : Nat → Int), acc.2 = prev_exp →
    ((valueMonos (PolyOwnMonosLoop prev_exp acc rest) env : Int) : ZMod (2 ^ 64))
      = value acc.1 (fun i => env (i + 1)) * env 0 ^ prev_exp + valueMonos rest env := by
  induction rest with
  | nil =>
    intro prev_exp acc env hacc
    rw [PolyOwnMonosLoop]
    split
    · rename_i hz
      rw [PolyIsZero_iff] at hz
      simp [valueMonos, hz, value]
    · simp [valueMonos, hacc]
  | cons m ms ih =>
    intro prev_exp acc env hacc
    rw [PolyOwnMonosLoop]
    split
    · rename_i he
      rw [ih m.2 _ env (by simp [hacc, he])]
      simp only [valueMonos]
      push_cast
      rw [value_PolyAdd_cast, he]
      ring
    · rw [valueMonos_append]
      push_cast
      rw [ih m.2 m env rfl]
      simp only [valueMonos]
      split
      · rename_i hz
        rw [PolyIsZero_iff] at hz
        simp [valueMonos, hz, value]
      · simp [valueMonos]

theorem value_PolyOwnMonosWith_cast (sort : List Mono → List Mono)
    (monos : List Mono) (hperm : (sort monos).Perm monos) (env : Nat → Int) :
    ((value (PolyOwnMonosWith sort monos) env : Int) : ZMod (2 ^ 64)) = valueMonos monos env := by
  cases monos with
  | nil => simp [PolyOwnMonosWith, PolyZero, PolyFromCoeff, value, valueMonos]
  | cons m0 ms0 =>
    simp only [PolyOwnMonosWith]
    split
    · rename_i heq
      rw [heq] at hperm
      simp at hperm
    · rename_i m ms heq
      rw [value_PolyChangeIfCoeff, value_PolyOwnMonosLoop_cast ms m.2 m env rfl,
        ← valueMonos_perm hperm env, heq]
      simp [valueMonos]

theorem PolyOwnMonosLoop_canonical (rest : List Mono) : ∀ (prev_exp : Nat) (acc : Mono),
    acc.2 = prev_exp → (∀ m ∈ rest, prev_exp ≤ m.2) → rest.Pairwise MonoLeByExp →
    Canonical acc.1 = true → (∀ m ∈ rest, Canonical m.1 = true) →
    (∀ x ∈ PolyOwnMonosLoop prev_exp acc rest, prev_exp ≤ x.2) ∧
      ExpsIncreasing (PolyOwnMonosLoop prev_exp acc rest) ∧
      ∀ x ∈ PolyOwnMonosLoop prev_exp acc rest, PolyIsZero x.1 = false ∧ Canonical x.1 = true := by
  induction rest with
  | nil =>
    intro prev_exp acc hacc _ _ hc _
    rw [PolyOwnMonosLoop]
    split
    · exact ⟨by simp, List.Pairwise.nil, by simp⟩
    · rename_i hz
      refine ⟨?_, List.pairwise_singleton _ _, ?_⟩
      · intro x hx
        simp at hx
        rw [hx, hacc]
      · intro x hx
        simp at hx
        rw [hx]
        exact ⟨by simpa using hz, hc⟩
  | cons m ms ih =>
    intro prev_exp acc hacc hge hsorted hc hall
    have hm := hge m (by simp)
    have hms : ∀ y ∈ ms, m.2 ≤ y.2 := (List.pairwise_cons.mp hsorted).1
    have hsorted2 := (List.pairwise_cons.mp hsorted).2
    have hall2 : ∀ y ∈ ms, Canonical y.1 = true := fun y hy => hall y (List.mem_cons_of_mem _ hy)
    rw [PolyOwnMonosLoop]
    split
    · rename_i he
      have hadd : Canonical (PolyAdd acc.1 m.1) = true :=
        canonical_PolyAdd_weak _ _ (WeakPoly_of_canonical _ hc)
          (WeakPoly_of_canonical _ (hall m (by simp)))
      obtain ⟨h1, h2, h3⟩ := ih m.2 (PolyAdd acc.1 m.1, acc.2) (by simp [hacc, he]) hms hsorted2
        hadd hall2
      exact ⟨fun x hx => by have := h1 x hx; omega, h2, h3⟩
    · rename_i hne
      obtain ⟨h1, h2, h3⟩ := ih m.2 m rfl hms hsorted2 (hall m (by simp)) hall2
      refine ⟨?_, ?_, ?_⟩
      · intro x hx
        rw [List.mem_append] at hx
        rcases hx with hx | hx
        · split at hx
          · simp at hx
          · simp at hx
            simp [hx]
        · have := h1 x hx
          omega
      · apply expsIncreasing_append_of_short prev_exp _ _ (by split <;> simp) h2
        · intro a ha
          split at ha
          · simp at ha
          · simp at ha
            rw [ha]
        · intro b hb
          have := h1 b hb
          omega
      · intro x hx
        rw [List.mem_append] at hx
        rcases hx with hx | hx
        · split at hx
          · simp at hx
          · rename_i hz
            simp at hx
            rw [hx]
            exact ⟨by simpa using hz, hc⟩
        · exact h3 x hx

theorem canonical_PolyOwnMonosWith (sort : List Mono → List Mono)
    (monos : List Mono) (hperm : (sort monos).Perm monos)
    (hsorted : (sort monos).Sorted MonoLeByExp) (hc : ∀ m ∈ monos, Canonical m.1 = true) :
    Canonical (PolyOwnMonosWith sort monos) = true := by
  cases monos with
  | nil => rfl
  | cons m0 ms0 =>
    simp only [PolyOwnMonosWith]
    split
    · rfl
    · rename_i m ms heq
      rw [heq] at hperm hsorted
      have hall : ∀ y ∈ m :: ms, Canonical y.1 = true := fun y hy => hc y (hperm.mem_iff.mp hy)
      obtain ⟨_, h2, h3⟩ := PolyOwnMonosLoop_canonical ms m.2 m rfl
        (List.pairwise_cons.mp hsorted).1 (List.pairwise_cons.mp hsorted).2 (hall m (by simp))
        (fun y hy => hall y (List.mem_cons_of_mem _ hy))
      exact canonical_changeIfCoeff _ h2 h3

theorem FastPowLoop_cast (exp : Nat) : ∀ (ret coeff : Int),
    ((FastPowLoop ret coeff exp : Int) : ZMod (2 ^ 64)) = ret * (coeff : ZMod (2 ^ 64)) ^ exp := by
  induction exp using Nat.strong_induction_on with
  | _ exp ih =>
    intro ret coeff
    rw [FastPowLoop]
    split
    · rename_i hpos
      rw [ih (exp / 2) (by omega)]
      rw [wrapCoeff_cast]
      have hexp : exp = 2 * (exp / 2) + exp % 2 := by omega
      split
      · rename_i hodd
        rw [wrapCoeff_cast]
        push_cast
        conv_rhs => rw [hexp, hodd]
        ring
      · rename_i heven
        have h0 : exp % 2 = 0 := by omega
        push_cast
        conv_rhs => rw [hexp, h0]
        ring
    · rename_i h0
      have : exp = 0 := by omega
      simp [this]

theorem FastPow_cast (coeff : Int) (exp : Nat) :
    ((FastPow coeff exp : Int) : ZMod (2 ^ 64)) = (coeff : ZMod (2 ^ 64)) ^ exp := by
  rw [FastPow, FastPowLoop_cast]
  simp

theorem value_PolyAtLoop_cast (arr : List Mono) (x : Int) : ∀ (poly_ret : Poly) (env : Nat → Int),
    ((value (PolyAtLoop arr x poly_ret) env : Int) : ZMod (2 ^ 64))
      = value poly_ret env + valueMonos arr (envCons x env) := by
  induction arr with
  | nil =>
    intro poly_ret env
    simp [PolyAtLoop, valueMonos]
  | cons m ms ih =>
    intro poly_ret env
    rw [PolyAtLoop, ih, value_PolyAdd_cast, value_PolyMul_cast]
    simp only [valueMonos, PolyFromCoeff, value, FastPow_cast, envCons]
    push_cast
    ring

theorem value_PolyAt_cast (p : Poly) (x : Int) (env : Nat → Int) :
    ((value (PolyAt p x) env : Int) : ZMod (2 ^ 64)) = value p (envCons x env) := by
  cases p with
  | coeff c => simp [PolyAt, PolyClone, value]
  | monos arr =>
    rw [PolyAt, value_PolyAtLoop_cast]
    simp [value, PolyZero, PolyFromCoeff]


theorem Poly.induction_on {P : Poly → Prop} (hc : ∀ c, P (coeff c))
    (hm : ∀ arr : List Mono, (∀ m ∈ arr, P m.1) → P (monos arr)) : ∀ p, P p := by
  intro p
  refine Poly.rec (motive_1 := P) (motive_2 := fun arr => ∀ m ∈ arr, P m.1)
    (motive_3 := fun m => P m.1) hc (fun arr ih => hm arr ih) ?_ ?_ ?_ p
  · intro m hm
    simp at hm
  · intro head tail ih1 ih2 m hm
    rcases List.mem_cons.mp hm with rfl | h
    · exact ih1
    · exact ih2 m h
  · intro fst snd ih
    exact ih

theorem PowersOfTwoLoop_spec (k : Nat) : ∀ (n power ret : Nat) (hpos : 0 < power),
    k + 1 - power ≤ n → power = 2 ^ ret → k < 2 ^ PowersOfTwoLoop k power ret hpos := by
  intro n
  induction n with
  | zero =>
    intro power ret hpos hn hp
    rw [PowersOfTwoLoop]
    split
    · omega
    · omega
  | succ n ih =>
    intro power ret hpos hn hp
    rw [PowersOfTwoLoop]
    split
    · apply ih
      · omega
      · rw [hp, pow_succ]
    · omega

theorem lt_two_pow_PowersOfTwo (k : Nat) : k < 2 ^ PowersOfTwo k := by
  have h := PowersOfTwoLoop_spec k (k + 1) 1 0 (by omega) (by omega) (by simp)
  unfold PowersOfTwo
  split
  · rename_i h0
    rw [h0] at h
    omega
  · exact h

theorem PolyFastPowSeek_spec (exp : Nat) : ∀ (n power index : Nat) (hpos : 0 < power),
    exp + 1 - power ≤ n → power = 2 ^ index → power ≤ exp →
    (PolyFastPowSeek exp power index hpos).1 = 2 ^ (PolyFastPowSeek exp power index hpos).2 ∧
      (PolyFastPowSeek exp power index hpos).1 ≤ exp ∧
      exp < 2 * (PolyFastPowSeek exp power index hpos).1 := by
  intro n
  induction n with
  | zero =>
    intro power index hpos hn hp hle
    omega
  | succ n ih =>
    intro power index hpos hn hp hle
    rw [PolyFastPowSeek]
    split
    · rename_i hc
      apply ih
      · omega
      · rw [hp, pow_succ]
      · omega
    · rename_i hc
      refine ⟨hp, hle, ?_⟩
      simp only
      omega

theorem length_PowersFill (n : Nat) : ∀ cur : Poly, (PowersFill n cur).length = n := by
  induction n with
  | zero => intro cur; rfl
  | succ n ih => intro cur; simp [PowersFill, ih]

theorem value_PowersFill_cast (env : Nat → Int) (n : Nat) : ∀ (cur : Poly) (j : Nat), j < n →
    ((value ((PowersFill n cur).getD j PolyZero) env : Int) : ZMod (2 ^ 64))
      = ((value cur env : Int) : ZMod (2 ^ 64)) ^ (2 ^ j) := by
  induction n with
  | zero => intro cur j hj; omega
  | succ n ih =>
    intro cur j hj
    cases j with
    | zero => simp [PowersFill]
    | succ j =>
      simp only [PowersFill, List.getD_cons_succ]
      rw [ih _ j (by omega), value_PolyMul_cast, pow_succ 2 j, pow_mul]
      ring

theorem value_PolyFastPowLoop_cast (env : Nat → Int) (powers : List Poly) (b : ZMod (2 ^ 64))
    (hcache : ∀ j, j < powers.length →
      ((value (powers.getD j PolyZero) env : Int) : ZMod (2 ^ 64)) = b ^ (2 ^ j)) (i : Nat) :
    ∀ (power exp : Nat) (poly_ret : Poly), power = 2 ^ i → exp < 2 ^ (i + 1) → i < powers.length →
    ((value (PolyFastPowLoop powers i power exp poly_ret) env : Int) : ZMod (2 ^ 64))
      = ((value poly_ret env : Int) : ZMod (2 ^ 64)) * b ^ exp := by
  induction i with
  | zero =>
    intro power exp poly_ret hp he hi
    rw [PolyFastPowLoop]
    simp at hp he
    split
    · have : exp = 1 := by omega
      rw [value_PolyMul_cast, hcache 0 hi, this]
      simp
    · have : exp = 0 := by omega
      simp [this]
  | succ i ih =>
    intro power exp poly_ret hp he hi
    rw [PolyFastPowLoop]
    have hhalf : power / 2 = 2 ^ i := by
      rw [hp, pow_succ]
      omega
    split
    · rename_i hle
      rw [ih _ _ _ hhalf (by rw [pow_succ] at he; rw [pow_succ]; omega) (by omega),
        value_PolyMul_cast, hcache (i + 1) hi, ← hp]
      obtain ⟨r, rfl⟩ := Nat.exists_eq_add_of_le hle
      rw [Nat.add_sub_cancel_left, pow_add]
      ring
    · rename_i hlt
      rw [ih _ _ _ hhalf (by omega) (by omega)]

theorem value_PolyFastPow_cast (env : Nat → Int) (powers : List Poly) (b : ZMod (2 ^ 64))
    (hcache : ∀ j, j < powers.length →
      ((value (powers.getD j PolyZero) env : Int) : ZMod (2 ^ 64)) = b ^ (2 ^ j))
    (exp : Nat) (hexp : exp < 2 ^ powers.length) :
    ((value (PolyFastPow powers exp) env : Int) : ZMod (2 ^ 64)) = b ^ exp := by
  unfold PolyFastPow
  split
  · rename_i h0
    simp [h0, PolyFromCoeff, value]
  · rename_i h0
    obtain ⟨h1, h2, h3⟩ := PolyFastPowSeek_spec exp (exp + 1) 1 0 (by omega) (by omega) (by simp)
      (by omega)
    have hi : (PolyFastPowSeek exp 1 0 (by omega)).2 < powers.length := by
      apply (Nat.pow_lt_pow_iff_right (by norm_num : 1 < 2)).mp
      rw [← h1]
      omega
    rw [value_PolyFastPowLoop_cast env powers b hcache _ _ _ _ h1 (by rw [pow_succ]; omega) hi]
    simp [PolyFromCoeff, value]

theorem getD_set_nat (E : List Nat) (d i v : Nat) :
    (E.set d v).getD i 0 = if i = d ∧ d < E.length then v else E.getD i 0 := by
  simp only [List.getD_eq_getElem?_getD, List.getElem?_set]
  by_cases h : d = i
  · subst h
    by_cases h2 : d < E.length
    · simp [h2]
    · simp [h2, List.getElem?_eq_none (Nat.le_of_not_lt h2)]
  · have h' : ¬ i = d := fun hh => h hh.symm
    simp [h, h']

theorem le_PolyExpMax_left (a b : Nat) : a ≤ PolyExpMax a b := by
  unfold PolyExpMax
  split <;> omega

theorem le_PolyExpMax_right (a b : Nat) : b ≤ PolyExpMax a b := by
  unfold PolyExpMax
  split <;> omega

theorem MaxExpFillLoop_mono (k depth : Nat) (l : List Mono)
    (hl : ∀ m ∈ l, ∀ (E : List Nat) (d : Nat), (MaxExpFill m.1 E k d).length = E.length ∧
      ∀ i, E.getD i 0 ≤ (MaxExpFill m.1 E k d).getD i 0) :
    ∀ E : List Nat, (MaxExpFillLoop l E k depth).length = E.length ∧
      ∀ i, E.getD i 0 ≤ (MaxExpFillLoop l E k depth).getD i 0 := by
  induction l with
  | nil =>
    intro E
    simp [MaxExpFillLoop]
  | cons m ms ih =>
    intro E
    obtain ⟨h1, h2⟩ := hl m (by simp) E (depth + 1)
    obtain ⟨h3, h4⟩ := ih (fun x hx => hl x (List.mem_cons_of_mem _ hx))
      ((MaxExpFill m.1 E k (depth + 1)).set depth
        (PolyExpMax m.2 ((MaxExpFill m.1 E k (depth + 1)).getD depth 0)))
    rw [MaxExpFillLoop]
    constructor
    · rw [h3, List.length_set, h1]
    · intro i
      refine Nat.le_trans (Nat.le_trans (h2 i) ?_) (h4 i)
      rw [getD_set_nat]
      split
      · rename_i hc
        rw [hc.1]
        exact le_PolyExpMax_right _ _
      · exact Nat.le_refl _

theorem MaxExpFill_mono (k : Nat) (p : Poly) : ∀ (E : List Nat) (depth : Nat),
    (MaxExpFill p E k depth).length = E.length ∧
      ∀ i, E.getD i 0 ≤ (MaxExpFill p E k depth).getD i 0 := by
  induction p using Poly.induction_on with
  | hc c =>
    intro E depth
    simp [MaxExpFill]
  | hm arr ih =>
    intro E depth
    rw [MaxExpFill]
    split
    · simp
    · exact MaxExpFillLoop_mono k depth arr ih E

theorem ExpsBelowList_mono (k depth : Nat) (b1 b2 : Nat → Nat) (hb : ∀ d, b1 d ≤ b2 d)
    (l : List Mono)
    (hl : ∀ m ∈ l, ∀ d, ExpsBelow m.1 d k b1 → ExpsBelow m.1 d k b2) :
    ExpsBelowList l depth k b1 → ExpsBelowList l depth k b2 := by
  induction l with
  | nil => simp [ExpsBelowList]
  | cons m ms ihl =>
    intro h
    rw [ExpsBelowList] at h ⊢
    exact ⟨Nat.le_trans h.1 (hb depth), hl m (by simp) _ h.2.1,
      ihl (fun x hx => hl x (List.mem_cons_of_mem _ hx)) h.2.2⟩

theorem ExpsBelow_mono (k : Nat) (b1 b2 : Nat → Nat) (hb : ∀ d, b1 d ≤ b2 d) (p : Poly) :
    ∀ depth, ExpsBelow p depth k b1 → ExpsBelow p depth k b2 := by
  induction p using Poly.induction_on with
  | hc c =>
    intro depth _
    simp [ExpsBelow]
  | hm arr ih =>
    intro depth h
    rw [ExpsBelow] at h ⊢
    intro hd
    exact ExpsBelowList_mono k depth b1 b2 hb arr ih (h hd)

theorem ExpsBelowList_MaxExpFillLoop (k depth : Nat) (hd : depth < k) (l : List Mono)
    (hl : ∀ m ∈ l, ∀ (E : List Nat) (d : Nat), E.length = k →
      ExpsBelow m.1 d k (fun i => (MaxExpFill m.1 E k d).getD i 0)) :
    ∀ E : List Nat, E.length = k →
      ExpsBelowList l depth k (fun i => (MaxExpFillLoop l E k depth).getD i 0) := by
  induction l with
  | nil =>
    intro E _
    simp [ExpsBelowList]
  | cons m ms ih =>
    intro E hE
    obtain ⟨h1, h2⟩ := MaxExpFill_mono k m.1 E (depth + 1)
    have hlen2 : ((MaxExpFill m.1 E k (depth + 1)).set depth
        (PolyExpMax m.2 ((MaxExpFill m.1 E k (depth + 1)).getD depth 0))).length = k := by
      rw [List.length_set, h1, hE]
    obtain ⟨h3, h4⟩ := MaxExpFillLoop_mono k depth ms (fun x _ E d => MaxExpFill_mono k x.1 E d)
      ((MaxExpFill m.1 E k (depth + 1)).set depth
        (PolyExpMax m.2 ((MaxExpFill m.1 E k (depth + 1)).getD depth 0)))
    have hset : ∀ i, (MaxExpFill m.1 E k (depth + 1)).getD i 0 ≤
        ((MaxExpFill m.1 E k (depth + 1)).set depth
          (PolyExpMax m.2 ((MaxExpFill m.1 E k (depth + 1)).getD depth 0))).getD i 0 := by
      intro i
      rw [getD_set_nat]
      split
      · rename_i hc
        rw [hc.1]
        exact le_PolyExpMax_right _ _
      · exact Nat.le_refl _
    rw [MaxExpFillLoop, ExpsBelowList]
    refine ⟨?_, ?_, ?_⟩
    · refine Nat.le_trans ?_ (h4 depth)
      rw [getD_set_nat, if_pos ⟨rfl, by rw [h1, hE]; exact hd⟩]
      exact le_PolyExpMax_left _ _
    · apply ExpsBelow_mono k _ _ ?_ m.1 _ (hl m (by simp) E (depth + 1) hE)
      intro i
      exact Nat.le_trans (hset i) (h4 i)
    · exact ih (fun x hx => hl x (List.mem_cons_of_mem _ hx)) _ hlen2

theorem ExpsBelow_MaxExpFill (k : Nat) (p : Poly) : ∀ (E : List Nat) (depth : Nat),
    E.length = k → ExpsBelow p depth k (fun i => (MaxExpFill p E k depth).getD i 0) := by
  induction p using Poly.induction_on with
  | hc c =>
    intro E depth _
    simp [ExpsBelow]
  | hm arr ih =>
    intro E depth hE
    rw [ExpsBelow]
    intro hd
    rw [MaxExpFill, if_neg (by omega)]
    exact ExpsBelowList_MaxExpFillLoop k depth hd arr ih E hE

theorem valueMonos_zero_of_pos (env : Nat → Int) (h0 : env 0 = 0) (ms : List Mono)
    (hpos : ∀ x ∈ ms, 0 < x.2) : valueMonos ms env = 0 := by
  induction ms with
  | nil => rfl
  | cons m ms ih =>
    have hm : m.2 ≠ 0 := Nat.pos_iff_ne_zero.mp (hpos m (by simp))
    rw [valueMonos, ih (fun x hx => hpos x (List.mem_cons_of_mem _ hx)), h0, zero_pow hm]
    simp

theorem shift_tail (f : Nat → Int) (depth : Nat) :
    (fun i => (fun j => f (depth + j)) (i + 1)) = fun i => f (depth + 1 + i) := by
  funext i
  show f (depth + (i + 1)) = f (depth + 1 + i)
  congr 1
  omega

theorem value_PolyComposeLoop_cast (k : Nat) (powers : List (List Poly)) (env : Nat → Int)
    (f : Nat → Int) (bound : Nat → Nat) (depth : Nat)
    (hcache : ∀ j, j < (powers.getD depth []).length →
      ((value ((powers.getD depth []).getD j PolyZero) env : Int) : ZMod (2 ^ 64))
        = ((f depth : Int) : ZMod (2 ^ 64)) ^ (2 ^ j))
    (hbound : bound depth < 2 ^ (powers.getD depth []).length)
    (l : List Mono)
    (hl : ∀ m ∈ l, ∀ d, Canonical m.1 = true → ExpsBelow m.1 d k bound →
      ((value (PolyComposeHelper m.1 k powers d) env : Int) : ZMod (2 ^ 64))
        = ((value m.1 (fun i => f (d + i)) : Int) : ZMod (2 ^ 64)))
    (hcan : ∀ m ∈ l, Canonical m.1 = true) (hbel : ExpsBelowList l depth k bound) :
    ∀ poly_ret : Poly,
      ((value (PolyComposeLoop l k powers depth poly_ret) env : Int) : ZMod (2 ^ 64))
        = ((value poly_ret env : Int) : ZMod (2 ^ 64))
          + ((valueMonos l (fun i => f (depth + i)) : Int) : ZMod (2 ^ 64)) := by
  induction l with
  | nil =>
    intro poly_ret
    simp [PolyComposeLoop, valueMonos]
  | cons m ms ih =>
    intro poly_ret
    rw [ExpsBelowList] at hbel
    rw [PolyComposeLoop, ih (fun x hx => hl x (List.mem_cons_of_mem _ hx))
      (fun x hx => hcan x (List.mem_cons_of_mem _ hx)) hbel.2.2, value_PolyAdd_cast,
      value_PolyMul_cast,
      value_PolyFastPow_cast env _ _ hcache m.2 (Nat.lt_of_le_of_lt hbel.1 hbound),
      hl m (by simp) (depth + 1) (hcan m (by simp)) hbel.2.1]
    simp only [valueMonos]
    rw [shift_tail]
    push_cast
    simp only [Nat.add_zero]
    ring

theorem value_PolyComposeHelper_cast (k : Nat) (powers : List (List Poly)) (env : Nat → Int)
    (f : Nat → Int) (bound : Nat → Nat) (hzero : ∀ i, k ≤ i → f i = 0)
    (hcache : ∀ d, d < k → ∀ j, j < (powers.getD d []).length →
      ((value ((powers.getD d []).getD j PolyZero) env : Int) : ZMod (2 ^ 64))
        = ((f d : Int) : ZMod (2 ^ 64)) ^ (2 ^ j))
    (hbound : ∀ d, d < k → bound d < 2 ^ (powers.getD d []).length) (p : Poly) :
    ∀ depth, Canonical p = true → ExpsBelow p depth k bound →
      ((value (PolyComposeHelper p k powers depth) env : Int) : ZMod (2 ^ 64))
        = ((value p (fun i => f (depth + i)) : Int) : ZMod (2 ^ 64)) := by
  induction p using Poly.induction_on with
  | hc c =>
    intro depth _ _
    simp [PolyComposeHelper, PolyClone, value]
  | hm arr ih =>
    intro depth hcan hbel
    rw [canonical_monos_iff] at hcan
    obtain ⟨hne, _, hinc, hall⟩ := hcan
    rw [PolyComposeHelper]
    split
    · rename_i hge
      cases arr with
      | nil => exact absurd rfl hne
      | cons m ms =>
        have h0 : f (depth + 0) = 0 := hzero _ (by omega)
        have hrest : valueMonos ms (fun i => f (depth + i)) = 0 := by
          apply valueMonos_zero_of_pos _ (by exact h0)
          intro x hx
          have := (List.pairwise_cons.mp hinc).1 x hx
          omega
        rw [PolyComposeFirst]
        simp only [value, valueMonos]
        rw [hrest, shift_tail]
        split
        · rename_i hexp
          rw [h0, zero_pow hexp]
          simp [PolyZero, PolyFromCoeff, value]
        · rename_i hexp
          have hexp0 : m.2 = 0 := by omega
          rw [ih m (by simp) (depth + 1) (hall m (by simp)).2 ?_, hexp0]
          · simp
          · cases hm1 : m.1 with
            | coeff c => simp [ExpsBelow]
            | monos a =>
              rw [ExpsBelow]
              intro hlt
              omega
    · rename_i hlt
      have hd : depth < k := by omega
      rw [ExpsBelow] at hbel
      rw [value_PolyComposeLoop_cast k powers env f bound depth (hcache depth hd)
        (hbound depth hd) arr ih (fun x hx => (hall x hx).2) (hbel hd)]
      simp [value, PolyZero, PolyFromCoeff]

theorem PolyCompose_powers_getD (p : Poly) (k : Nat) (q : List Poly) (d : Nat) (hd : d < k) :
    ((List.range k).map fun i =>
      PowersFill (PowersOfTwo ((MaxExpFill p (List.replicate k 0) k 0).getD i 0))
        (PolyClone (q.getD i PolyZero))).getD d []
      = PowersFill (PowersOfTwo ((MaxExpFill p (List.replicate k 0) k 0).getD d 0))
        (q.getD d PolyZero) := by
  simp [List.getD_eq_getElem?_getD, List.getElem?_map, List.getElem?_range hd, PolyClone]

theorem value_PolyCompose_cast (p : Poly) (k : Nat) (q : List Poly) (env : Nat → Int)
    (hcan : Canonical p = true) :
    ((value (PolyCompose p k q) env : Int) : ZMod (2 ^ 64))
      = ((value p (composeEnv k q env) : Int) : ZMod (2 ^ 64)) := by
  have key := value_PolyComposeHelper_cast k
    ((List.range k).map fun i =>
      PowersFill (PowersOfTwo ((MaxExpFill p (List.replicate k 0) k 0).getD i 0))
        (PolyClone (q.getD i PolyZero)))
    env (composeEnv k q env) (fun d => (MaxExpFill p (List.replicate k 0) k 0).getD d 0)
    ?_ ?_ ?_ p 0 hcan (ExpsBelow_MaxExpFill k p _ 0 (by simp))
  · rw [PolyCompose, key]
    simp
  · intro i hi
    simp [composeEnv, Nat.not_lt.mpr hi]
  · intro d hd j hj
    rw [PolyCompose_powers_getD p k q d hd] at hj ⊢
    rw [length_PowersFill] at hj
    rw [value_PowersFill_cast env _ _ j hj]
    simp [composeEnv, hd]
  · intro d hd
    rw [PolyCompose_powers_getD p k q d hd, length_PowersFill]
    exact lt_two_pow_PowersOfTwo _

theorem emod_eq_of_cast_eq {a b : Int}
    (h : ((a : Int) : ZMod (2 ^ 64)) = ((b : Int) : ZMod (2 ^ 64))) :
    a % COEFF_MOD = b % COEFF_MOD := by
  have h2 := (ZMod.intCast_eq_intCast_iff a b (2 ^ 64)).mp h
  unfold COEFF_MOD
  have h3 : (((2 ^ 64 : Nat) : Int)) = (2 : Int) ^ 64 := by norm_num
  rw [h3] at h2
  exact h2

theorem mem_leafCoeffsList (arr : List Mono) (a : Int) :
    a ∈ leafCoeffsList arr ↔ ∃ m ∈ arr, a ∈ leafCoeffs m.1 := by
  induction arr with
  | nil => simp [leafCoeffsList]
  | cons m ms ih => simp [leafCoeffsList, ih]

theorem coeffAtMonos_eq_zero (ms : List Mono) (e : Nat) (es : List Nat)
    (h : ∀ x ∈ ms, x.2 ≠ e) : coeffAtMonos ms e es = 0 := by
  induction ms with
  | nil => rfl
  | cons m ms ih =>
    rw [coeffAtMonos, if_neg (h m (by simp)), ih (fun x hx => h x (List.mem_cons_of_mem _ hx))]
    rfl

theorem coeffAtMonos_head (m : Mono) (ms : List Mono) (es : List Nat)
    (h : ExpsIncreasing (m :: ms)) :
    coeffAtMonos (m :: ms) m.2 es = coeffAt m.1 es := by
  rw [coeffAtMonos, if_pos rfl, coeffAtMonos_eq_zero ms m.2 es]
  · simp
  · intro x hx
    have := (List.pairwise_cons.mp h).1 x hx
    omega

theorem coeffAt_coeff_of_not_all_zero (c : Int) (es : List Nat)
    (h : es.all (· == 0) = false) : coeffAt (coeff c) es = 0 := by
  simp only [coeffAt, h]
  rfl

/-- A canonical polynomial other than the zero constant has a coefficient that is not
zero, at a power product other than 1 when the polynomial is not a constant. -/
theorem exists_coeffAt_ne_zero (n : Nat) (S : Int → Prop) (h0 : S 0)
    (hinj : ∀ a b, S a → S b → ((a : Int) : ZMod n) = ((b : Int) : ZMod n) → a = b) (p : Poly) :
    Canonical p = true → (∀ a ∈ leafCoeffs p, S a) → PolyIsZero p = false →
    ∃ es : List Nat, ((coeffAt p es : Int) : ZMod n) ≠ 0 ∧
      (PolyIsCoeff p = false → es.all (· == 0) = false) := by
  induction p using Poly.induction_on with
  | hc c =>
    intro _ hS hz
    refine ⟨[], ?_, by simp [PolyIsCoeff]⟩
    simp only [coeffAt, List.all_nil, if_true]
    intro hc0
    have : c = 0 := hinj c 0 (hS c (by simp [leafCoeffs])) h0 (by simpa using hc0)
    simp [PolyIsZero, this] at hz
  | hm arr ih =>
    intro hcan hS _
    rw [canonical_monos_iff] at hcan
    obtain ⟨hne, hsingle, hinc, hall⟩ := hcan
    have hSm : ∀ m ∈ arr, ∀ a ∈ leafCoeffs m.1, S a := by
      intro m hm a ha
      apply hS a
      rw [leafCoeffs, mem_leafCoeffsList]
      exact ⟨m, hm, ha⟩
    match arr, hne with
    | [m], _ =>
      obtain ⟨es, hes, hes2⟩ := ih m (by simp) (hall m (by simp)).2 (hSm m (by simp))
        (hall m (by simp)).1
      by_cases hexp : m.2 = 0
      · have hnc : PolyIsCoeff m.1 = false := by
          cases hm1 : m.1 with
          | coeff c =>
            exfalso
            apply hsingle c
            congr 1
            exact Prod.ext hm1 hexp
          | monos a => rfl
        refine ⟨0 :: es, ?_, fun _ => ?_⟩
        · simp only [coeffAt, List.headD_cons, List.tail_cons]
          rw [← hexp, coeffAtMonos_head m [] es hinc]
          exact hes
        · simp [hes2 hnc]
      · refine ⟨m.2 :: es, ?_, fun _ => ?_⟩
        · simp only [coeffAt, List.headD_cons, List.tail_cons]
          rw [coeffAtMonos_head m [] es hinc]
          exact hes
        · simp [hexp]
    | m :: m2 :: ms, _ =>
      obtain ⟨es, hes, _⟩ := ih m2 (by simp) (hall m2 (by simp)).2 (hSm m2 (by simp))
        (hall m2 (by simp)).1
      have hlt : m.2 < m2.2 := (List.pairwise_cons.mp hinc).1 m2 (by simp)
      refine ⟨m2.2 :: es, ?_, fun _ => ?_⟩
      · simp only [coeffAt, List.headD_cons, List.tail_cons]
        rw [coeffAtMonos, if_neg (by omega), coeffAtMonos_head m2 ms es
          (List.pairwise_cons.mp hinc).2]
        simpa using hes
      · have : m2.2 ≠ 0 := by omega
        simp [this]

/-- Arrays with strictly increasing exponents and canonical non-zero coefficients that
have the same coefficients are equal, provided their coefficient polynomials are
determined by their coefficients. -/
theorem monos_unique (n : Nat) (S : Int → Prop) (h0 : S 0)
    (hinj : ∀ a b, S a → S b → ((a : Int) : ZMod n) = ((b : Int) : ZMod n) → a = b)
    (l1 : List Mono)
    (hl : ∀ m ∈ l1, ∀ q : Poly, Canonical m.1 = true → Canonical q = true →
      (∀ a ∈ leafCoeffs m.1, S a) → (∀ a ∈ leafCoeffs q, S a) →
      (∀ es, ((coeffAt m.1 es : Int) : ZMod n) = ((coeffAt q es : Int) : ZMod n)) → m.1 = q) :
    ∀ l2 : List Mono, ExpsIncreasing l1 → ExpsIncreasing l2 →
      (∀ m ∈ l1, PolyIsZero m.1 = false ∧ Canonical m.1 = true) →
      (∀ m ∈ l2, PolyIsZero m.1 = false ∧ Canonical m.1 = true) →
      (∀ m ∈ l1, ∀ a ∈ leafCoeffs m.1, S a) → (∀ m ∈ l2, ∀ a ∈ leafCoeffs m.1, S a) →
      (∀ e es, ((coeffAtMonos l1 e es : Int) : ZMod n) = ((coeffAtMonos l2 e es : Int) : ZMod n)) →
      l1 = l2 := by
  induction l1 with
  | nil =>
    intro l2 _ hinc2 _ hall2 _ hS2 heq
    cases l2 with
    | nil => rfl
    | cons m2 ms2 =>
      exfalso
      obtain ⟨es, hes, _⟩ := exists_coeffAt_ne_zero n S h0 hinj m2.1 (hall2 m2 (by simp)).2
        (hS2 m2 (by simp)) (hall2 m2 (by simp)).1
      have := heq m2.2 es
      rw [coeffAtMonos_head m2 ms2 es hinc2] at this
      exact hes (by rw [← this]; simp [coeffAtMonos])
  | cons m1 ms1 ih =>
    intro l2 hinc1 hinc2 hall1 hall2 hS1 hS2 heq
    cases l2 with
    | nil =>
      exfalso
      obtain ⟨es, hes, _⟩ := exists_coeffAt_ne_zero n S h0 hinj m1.1 (hall1 m1 (by simp)).2
        (hS1 m1 (by simp)) (hall1 m1 (by simp)).1
      have := heq m1.2 es
      rw [coeffAtMonos_head m1 ms1 es hinc1] at this
      exact hes (by rw [this]; simp [coeffAtMonos])
    | cons m2 ms2 =>
      have hlt1 : ∀ x ∈ ms1, m1.2 < x.2 := (List.pairwise_cons.mp hinc1).1
      have hlt2 : ∀ x ∈ ms2, m2.2 < x.2 := (List.pairwise_cons.mp hinc2).1
      have hexp : m1.2 = m2.2 := by
        rcases Nat.lt_trichotomy m1.2 m2.2 with hlt | heq2 | hgt
        · exfalso
          obtain ⟨es, hes, _⟩ := exists_coeffAt_ne_zero n S h0 hinj m1.1 (hall1 m1 (by simp)).2
            (hS1 m1 (by simp)) (hall1 m1 (by simp)).1
          have := heq m1.2 es
          rw [coeffAtMonos_head m1 ms1 es hinc1, coeffAtMonos_eq_zero (m2 :: ms2) m1.2 es] at this
          · exact hes (by simpa using this)
          · intro x hx
            rcases List.mem_cons.mp hx with rfl | hx
            · omega
            · have := hlt2 x hx
              omega
        · exact heq2
        · exfalso
          obtain ⟨es, hes, _⟩ := exists_coeffAt_ne_zero n S h0 hinj m2.1 (hall2 m2 (by simp)).2
            (hS2 m2 (by simp)) (hall2 m2 (by simp)).1
          have := heq m2.2 es
          rw [coeffAtMonos_head m2 ms2 es hinc2, coeffAtMonos_eq_zero (m1 :: ms1) m2.2 es] at this
          · exact hes (by simpa using this.symm)
          · intro x hx
            rcases List.mem_cons.mp hx with rfl | hx
            · omega
            · have := hlt1 x hx
              omega
      have hcoef : m1.1 = m2.1 := by
        apply hl m1 (by simp) m2.1 (hall1 m1 (by simp)).2 (hall2 m2 (by simp)).2
          (hS1 m1 (by simp)) (hS2 m2 (by simp))
        intro es
        have := heq m1.2 es
        rw [coeffAtMonos_head m1 ms1 es hinc1, hexp, coeffAtMonos_head m2 ms2 es hinc2] at this
        exact this
      have hm : m1 = m2 := Prod.ext hcoef hexp
      subst hm
      congr 1
      apply ih (fun x hx => hl x (List.mem_cons_of_mem _ hx)) ms2
        (List.pairwise_cons.mp hinc1).2 (List.pairwise_cons.mp hinc2).2
        (fun x hx => hall1 x (List.mem_cons_of_mem _ hx))
        (fun x hx => hall2 x (List.mem_cons_of_mem _ hx))
        (fun x hx => hS1 x (List.mem_cons_of_mem _ hx))
        (fun x hx => hS2 x (List.mem_cons_of_mem _ hx))
      intro e es
      have := heq e es
      simp only [coeffAtMonos] at this
      push_cast at this
      exact add_left_cancel this

/-- Canonical form is unique: canonical polynomials whose coefficients agree (modulo
`n`, with constants taken from a set on which reduction modulo `n` is injective) are
structurally equal. -/
theorem canonical_unique (n : Nat) (S : Int → Prop) (h0 : S 0)
    (hinj : ∀ a b, S a → S b → ((a : Int) : ZMod n) = ((b : Int) : ZMod n) → a = b) (p : Poly) :
    ∀ q : Poly, Canonical p = true → Canonical q = true →
      (∀ a ∈ leafCoeffs p, S a) → (∀ a ∈ leafCoeffs q, S a) →
      (∀ es, ((coeffAt p es : Int) : ZMod n) = ((coeffAt q es : Int) : ZMod n)) → p = q := by
  induction p using Poly.induction_on with
  | hc a =>
    intro q _ hq hSp hSq heq
    cases q with
    | coeff b =>
      have := heq []
      simp only [coeffAt, List.all_nil, if_true] at this
      rw [hinj a b (hSp a (by simp [leafCoeffs])) (hSq b (by simp [leafCoeffs])) this]
    | monos arr =>
      exfalso
      obtain ⟨es, hes, hes2⟩ := exists_coeffAt_ne_zero n S h0 hinj (monos arr) hq hSq rfl
      have := heq es
      rw [coeffAt_coeff_of_not_all_zero a es (hes2 rfl)] at this
      exact hes (by rw [← this]; simp)
  | hm arr ih =>
    intro q hp hq hSp hSq heq
    cases q with
    | coeff b =>
      exfalso
      obtain ⟨es, hes, hes2⟩ := exists_coeffAt_ne_zero n S h0 hinj (monos arr) hp hSp rfl
      have := heq es
      rw [coeffAt_coeff_of_not_all_zero b es (hes2 rfl)] at this
      exact hes (by rw [this]; simp)
    | monos arr2 =>
      rw [canonical_monos_iff] at hp hq
      congr 1
      apply monos_unique n S h0 hinj arr ih arr2 hp.2.2.1 hq.2.2.1 hp.2.2.2 hq.2.2.2
      · intro m hm a ha
        apply hSp a
        rw [leafCoeffs, mem_leafCoeffsList]
        exact ⟨m, hm, ha⟩
      · intro m hm a ha
        apply hSq a
        rw [leafCoeffs, mem_leafCoeffsList]
        exact ⟨m, hm, ha⟩
      · intro e es
        have := heq (e :: es)
        simpa [coeffAt] using this

theorem PolyIsEqLoop_iff (l1 : List Mono)
    (hl : ∀ m ∈ l1, ∀ q : Poly, PolyIsEq m.1 q = true ↔ m.1 = q) :
    ∀ l2 : List Mono, l1.length = l2.length → (PolyIsEqLoop l1 l2 = true ↔ l1 = l2) := by
  induction l1 with
  | nil =>
    intro l2 hlen
    cases l2 with
    | nil => simp [PolyIsEqLoop]
    | cons m2 ms2 => simp at hlen
  | cons m1 ms1 ih =>
    intro l2 hlen
    cases l2 with
    | nil => simp at hlen
    | cons m2 ms2 =>
      have hlen2 : ms1.length = ms2.length := by simpa using hlen
      have h1 := hl m1 (by simp) m2.1
      have h2 := ih (fun x hx => hl x (List.mem_cons_of_mem _ hx)) ms2 hlen2
      rw [PolyIsEqLoop]
      by_cases hexp : m1.2 = m2.2
      · by_cases hc : PolyIsEq m1.1 m2.1 = true
        · have hm : m1 = m2 := Prod.ext (h1.mp hc) hexp
          rw [if_neg (by simp [hexp, hc]), h2, hm]
          simp
        · have hne : ¬ m1.1 = m2.1 := fun h => hc (h1.mpr h)
          have hne2 : ¬ m1 = m2 := fun h => hne (by rw [h])
          simp [hc, hne2]
      · have hne2 : ¬ m1 = m2 := fun h => hexp (by rw [h])
        simp [hexp, hne2]

/-- The function `PolyIsEq` decides structural equality. -/
theorem PolyIsEq_iff_eq (p : Poly) : ∀ q : Poly, PolyIsEq p q = true ↔ p = q := by
  induction p using Poly.induction_on with
  | hc a =>
    intro q
    cases q <;> simp [PolyIsEq]
  | hm arr ih =>
    intro q
    cases q with
    | coeff b => simp [PolyIsEq]
    | monos arr2 =>
      rw [PolyIsEq]
      by_cases hlen : arr.length = arr2.length
      · simp only [hlen, ne_eq, not_true_eq_false, if_false]
        rw [PolyIsEqLoop_iff arr ih arr2 hlen]
        simp
      · have : ¬ arr = arr2 := fun h => hlen (by rw [h])
        simp [hlen, this]

theorem canonical_unique_int (p q : Poly) (hp : Canonical p = true) (hq : Canonical q = true)
    (h : SameFormalPoly p q) : p = q := by
  apply canonical_unique 0 (fun _ => True) trivial ?_ p q hp hq (fun _ _ => trivial)
    (fun _ _ => trivial)
  · intro es
    rw [h es]
  · intro a b _ _ hab
    simpa using hab

theorem coeffAtMonos_eq_sum (arr : List Mono) (e : Nat) (es : List Nat) :
    coeffAtMonos arr e es = (arr.map fun m => if m.2 = e then coeffAt m.1 es else 0).sum := by
  induction arr with
  | nil => simp [coeffAtMonos]
  | cons m ms ih => simp [coeffAtMonos, ih]

theorem coeffAtMonos_append (a b : List Mono) (e : Nat) (es : List Nat) :
    coeffAtMonos (a ++ b) e es = coeffAtMonos a e es + coeffAtMonos b e es := by
  simp [coeffAtMonos_eq_sum]

theorem coeffAtMonos_perm {a b : List Mono} (h : a.Perm b) (e : Nat) (es : List Nat) :
    coeffAtMonos a e es = coeffAtMonos b e es := by
  rw [coeffAtMonos_eq_sum, coeffAtMonos_eq_sum]
  exact (h.map _).sum_eq

theorem coeffAt_zero (es : List Nat) : coeffAt (coeff 0) es = 0 := by
  simp [coeffAt]

theorem coeffAtMonos_single (p : Poly) (e0 e : Nat) (es : List Nat) :
    coeffAtMonos (if PolyIsZero p = true then [] else [(p, e0)]) e es
      = if e0 = e then coeffAt p es else 0 := by
  split
  · rename_i hz
    rw [PolyIsZero_iff] at hz
    simp [coeffAtMonos, hz, coeffAt_zero]
  · simp [coeffAtMonos]

theorem coeffAtMonos_clone (m : Mono) (e : Nat) (es : List Nat) :
    coeffAtMonos (MonoCloneIfNotZero m) e es = if m.2 = e then coeffAt m.1 es else 0 := by
  have := coeffAtMonos_single m.1 m.2 e es
  simpa [MonoCloneIfNotZero, MonoClone, PolyClone] using this

theorem coeffAt_lift (c : Int) (es : List Nat) :
    coeffAt (monos [(coeff c, 0)]) es = coeffAt (coeff c) es := by
  cases es with
  | nil => simp [coeffAt, coeffAtMonos]
  | cons e es =>
    by_cases he : e = 0
    · simp [coeffAt, coeffAtMonos, he]
    · have he2 : ¬ 0 = e := fun h => he h.symm
      simp [coeffAt, coeffAtMonos, he, he2]

theorem coeffAt_PolyChangeIfCoeff (arr : List Mono) (es : List Nat) :
    coeffAt (PolyChangeIfCoeff arr) es = coeffAt (monos arr) es := by
  unfold PolyChangeIfCoeff
  split
  · simp [PolyZero, PolyFromCoeff, coeffAt, coeffAtMonos]
  · rw [PolyClone, coeffAt_lift]
  · rfl

theorem coeffAt_PolySort (p : Poly) (es : List Nat) : coeffAt (PolySort p) es = coeffAt p es := by
  cases p with
  | coeff c => rfl
  | monos arr =>
    simp only [PolySort, coeffAt]
    exact coeffAtMonos_perm (List.perm_insertionSort _ _) _ _

theorem coeffAt_PolyAdd_cast (p q : Poly) : ∀ es : List Nat,
    ((coeffAt (PolyAdd p q) es : Int) : ZMod (2 ^ 64)) = coeffAt p es + coeffAt q es := by
  apply PolyAdd.induct
    (fun p q => ∀ es : List Nat,
      ((coeffAt (PolyAdd p q) es : Int) : ZMod (2 ^ 64)) = coeffAt p es + coeffAt q es)
    (fun ps qs => ∀ (e : Nat) (es : List Nat),
      ((coeffAtMonos (PolyAddLoop ps qs) e es : Int) : ZMod (2 ^ 64))
        = coeffAtMonos ps e es + coeffAtMonos qs e es)
  · intro a b es
    simp only [PolyAdd, PolyFromCoeff, coeffAt]
    split
    · rw [wrapCoeff_cast]
      push_cast
      rfl
    · simp
  · intro a qs ih es
    rw [PolyAdd, ih es, MonoFromPoly, coeffAt_lift]
  · intro ps b ih es
    rw [PolyAdd, ih es, MonoFromPoly, coeffAt_lift]
    ring
  · intro ps qs ih es
    rw [PolyAdd, coeffAt_PolySort, coeffAt_PolyChangeIfCoeff]
    simp only [coeffAt]
    rw [ih]
  · intro e es
    simp [PolyAddLoop, coeffAtMonos]
  · intro q qs ih e es
    rw [PolyAddLoop, coeffAtMonos_append, coeffAtMonos_clone]
    push_cast
    rw [ih e es]
    simp [coeffAtMonos]
  · intro p ps ih e es
    rw [PolyAddLoop, coeffAtMonos_append, coeffAtMonos_clone]
    push_cast
    rw [ih e es]
    simp [coeffAtMonos]
  · intro p ps q qs h ih e es
    rw [PolyAddLoop, if_pos h, coeffAtMonos_append, coeffAtMonos_clone]
    push_cast
    rw [ih e es]
    simp only [coeffAtMonos]
    push_cast
    ring
  · intro p ps q qs h1 h2 ih e es
    rw [PolyAddLoop, if_neg h1, if_pos h2, coeffAtMonos_append, coeffAtMonos_clone]
    push_cast
    rw [ih e es]
    simp only [coeffAtMonos]
    push_cast
    ring
  · intro p ps q qs h1 h2 ih1 ih2 e es
    have he : p.2 = q.2 := by omega
    rw [PolyAddLoop, if_neg h1, if_neg h2, coeffAtMonos_append, coeffAtMonos_single]
    push_cast
    rw [ih2 e es]
    simp only [coeffAtMonos]
    rw [← he]
    split
    · push_cast
      rw [ih1 es]
      ring
    · push_cast
      ring

theorem wrapCoeff_inRange (x : Int) : InRange (wrapCoeff x) := by
  unfold InRange wrapCoeff
  constructor <;> omega

theorem inRange_zero : InRange 0 := by
  unfold InRange
  constructor <;> norm_num

theorem inRange_cast_inj (a b : Int) (ha : InRange a) (hb : InRange b)
    (h : ((a : Int) : ZMod (2 ^ 64)) = ((b : Int) : ZMod (2 ^ 64))) : a = b := by
  have h2 := emod_eq_of_cast_eq h
  unfold COEFF_MOD at h2
  unfold InRange at ha hb
  omega

theorem coeffsInRange_iff (p : Poly) :
    CoeffsInRange p = true ↔ ∀ a ∈ leafCoeffs p, InRange a := by
  induction p using Poly.induction_on with
  | hc c => simp [CoeffsInRange, leafCoeffs, InRange]
  | hm arr ih =>
    rw [CoeffsInRange, leafCoeffs]
    induction arr with
    | nil => simp [CoeffsInRangeList, leafCoeffsList]
    | cons m ms ihl =>
      rw [CoeffsInRangeList, leafCoeffsList, Bool.and_eq_true, ih m (by simp),
        ihl (fun x hx => ih x (List.mem_cons_of_mem _ hx))]
      simp only [List.mem_append]
      constructor
      · rintro ⟨h1, h2⟩ a (ha | ha)
        · exact h1 a ha
        · exact h2 a ha
      · intro h
        exact ⟨fun a ha => h a (Or.inl ha), fun a ha => h a (Or.inr ha)⟩

theorem leafCoeffsList_append (a b : List Mono) :
    leafCoeffsList (a ++ b) = leafCoeffsList a ++ leafCoeffsList b := by
  induction a with
  | nil => simp [leafCoeffsList]
  | cons m ms ih => simp [leafCoeffsList, ih]

theorem mem_leafCoeffs_PolyChangeIfCoeff (arr : List Mono) (a : Int)
    (h : a ∈ leafCoeffs (PolyChangeIfCoeff arr)) : a = 0 ∨ a ∈ leafCoeffsList arr := by
  unfold PolyChangeIfCoeff at h
  split at h
  · left
    simpa [PolyZero, PolyFromCoeff, leafCoeffs] using h
  · right
    simpa [PolyClone, leafCoeffs, leafCoeffsList] using h
  · right
    simpa [leafCoeffs] using h

theorem mem_leafCoeffs_PolySort (p : Poly) (a : Int) :
    a ∈ leafCoeffs (PolySort p) ↔ a ∈ leafCoeffs p := by
  cases p with
  | coeff c => rfl
  | monos arr =>
    simp only [PolySort, leafCoeffs, mem_leafCoeffsList]
    constructor
    · rintro ⟨m, hm, ha⟩
      exact ⟨m, (List.perm_insertionSort _ _).mem_iff.mp hm, ha⟩
    · rintro ⟨m, hm, ha⟩
      exact ⟨m, (List.perm_insertionSort _ _).mem_iff.mpr hm, ha⟩

theorem mem_leafCoeffsList_clone (m : Mono) (a : Int)
    (h : a ∈ leafCoeffsList (MonoCloneIfNotZero m)) : a ∈ leafCoeffs m.1 := by
  rw [mem_leafCoeffsList] at h
  obtain ⟨x, hx, ha⟩ := h
  rw [(mem_MonoCloneIfNotZero hx).1] at ha
  exact ha

theorem inRange_PolyAdd (p q : Poly) :
    (∀ a ∈ leafCoeffs p, InRange a) → (∀ a ∈ leafCoeffs q, InRange a) →
    ∀ a ∈ leafCoeffs (PolyAdd p q), InRange a := by
  apply PolyAdd.induct
    (fun p q => (∀ a ∈ leafCoeffs p, InRange a) → (∀ a ∈ leafCoeffs q, InRange a) →
      ∀ a ∈ leafCoeffs (PolyAdd p q), InRange a)
    (fun ps qs => (∀ a ∈ leafCoeffsList ps, InRange a) → (∀ a ∈ leafCoeffsList qs, InRange a) →
      ∀ a ∈ leafCoeffsList (PolyAddLoop ps qs), InRange a)
  · intro a b _ _ x hx
    rw [PolyAdd] at hx
    simp only [PolyFromCoeff, leafCoeffs, List.mem_singleton] at hx
    rw [hx]
    exact wrapCoeff_inRange _
  · intro a qs ih hp hq
    rw [PolyAdd]
    exact ih (by simpa [leafCoeffs, leafCoeffsList, MonoFromPoly] using hp) hq
  · intro ps b ih hp hq
    rw [PolyAdd]
    exact ih (by simpa [leafCoeffs, leafCoeffsList, MonoFromPoly] using hq) hp
  · intro ps qs ih hp hq x hx
    rw [PolyAdd, mem_leafCoeffs_PolySort] at hx
    rcases mem_leafCoeffs_PolyChangeIfCoeff _ _ hx with h | h
    · rw [h]
      exact inRange_zero
    · exact ih hp hq x h
  · intro _ _ x hx
    simp [PolyAddLoop, leafCoeffsList] at hx
  · intro q qs ih hp hq x hx
    rw [PolyAddLoop, leafCoeffsList_append, List.mem_append] at hx
    rw [leafCoeffsList] at hq
    rcases hx with hx | hx
    · exact hq x (List.mem_append_left _ (mem_leafCoeffsList_clone _ _ hx))
    · exact ih hp (fun a ha => hq a (List.mem_append_right _ ha)) x hx
  · intro p ps ih hp hq x hx
    rw [PolyAddLoop, leafCoeffsList_append, List.mem_append] at hx
    rw [leafCoeffsList] at hp
    rcases hx with hx | hx
    · exact hp x (List.mem_append_left _ (mem_leafCoeffsList_clone _ _ hx))
    · exact ih (fun a ha => hp a (List.mem_append_right _ ha)) hq x hx
  · intro p ps q qs h ih hp hq x hx
    rw [PolyAddLoop, if_pos h, leafCoeffsList_append, List.mem_append] at hx
    rw [leafCoeffsList] at hp
    rcases hx with hx | hx
    · exact hp x (List.mem_append_left _ (mem_leafCoeffsList_clone _ _ hx))
    · exact ih (fun a ha => hp a (List.mem_append_right _ ha)) hq x hx
  · intro p ps q qs h1 h2 ih hp hq x hx
    rw [PolyAddLoop, if_neg h1, if_pos h2, leafCoeffsList_append, List.mem_append] at hx
    rw [leafCoeffsList] at hq
    rcases hx with hx | hx
    · exact hq x (List.mem_append_left _ (mem_leafCoeffsList_clone _ _ hx))
    · exact ih hp (fun a ha => hq a (List.mem_append_right _ ha)) x hx
  · intro p ps q qs h1 h2 ih1 ih2 hp hq x hx
    rw [PolyAddLoop, if_neg h1, if_neg h2, leafCoeffsList_append, List.mem_append] at hx
    rw [leafCoeffsList] at hp hq
    rcases hx with hx | hx
    · split at hx
      · simp [leafCoeffsList] at hx
      · simp only [leafCoeffsList, List.append_nil] at hx
        exact ih1 (fun a ha => hp a (List.mem_append_left _ ha))
          (fun a ha => hq a (List.mem_append_left _ ha)) x hx
    · exact ih2 (fun a ha => hp a (List.mem_append_right _ ha))
        (fun a ha => hq a (List.mem_append_right _ ha)) x hx

theorem coeffAt_PolyOwnMonosLoop_cast (rest : List Mono) : ∀ (prev_exp : Nat) (acc : Mono)
    (e : Nat) (es : List Nat), acc.2 = prev_exp →
    ((coeffAtMonos (PolyOwnMonosLoop prev_exp acc rest) e es : Int) : ZMod (2 ^ 64))
      = (if prev_exp = e then ((coeffAt acc.1 es : Int) : ZMod (2 ^ 64)) else 0)
        + coeffAtMonos rest e es := by
  induction rest with
  | nil =>
    intro prev_exp acc e es hacc
    rw [PolyOwnMonosLoop]
    have := coeffAtMonos_single acc.1 acc.2 e es
    rw [show ((acc.1, acc.2) : Mono) = acc from rfl] at this
    rw [this, hacc]
    simp only [coeffAtMonos]
    split <;> simp
  | cons m ms ih =>
    intro prev_exp acc e es hacc
    rw [PolyOwnMonosLoop]
    split
    · rename_i he
      rw [ih m.2 _ e es (by simp [hacc, he])]
      simp only [coeffAtMonos]
      rw [he]
      split
      · push_cast
        rw [coeffAt_PolyAdd_cast]
        ring
      · push_cast
        ring
    · rw [coeffAtMonos_append, coeffAtMonos_single]
      push_cast
      rw [ih m.2 m e es rfl]
      simp only [coeffAtMonos]
      split <;> split <;> push_cast <;> ring

theorem coeffAt_PolyOwnMonosWith_cast (sort : List Mono → List Mono)
    (monos : List Mono) (hperm : (sort monos).Perm monos) (es : List Nat) :
    ((coeffAt (PolyOwnMonosWith sort monos) es : Int) : ZMod (2 ^ 64))
      = coeffAt (Poly.monos monos) es := by
  cases monos with
  | nil => simp [PolyOwnMonosWith, PolyZero, PolyFromCoeff, coeffAt, coeffAtMonos]
  | cons m0 ms0 =>
    simp only [PolyOwnMonosWith]
    split
    · rename_i heq
      rw [heq] at hperm
      simp at hperm
    · rename_i m ms heq
      rw [coeffAt_PolyChangeIfCoeff]
      simp only [coeffAt]
      rw [coeffAt_PolyOwnMonosLoop_cast ms m.2 m _ _ rfl, ← coeffAtMonos_perm hperm, heq]
      simp only [coeffAtMonos]
      split <;> push_cast <;> ring

theorem inRange_PolyOwnMonosLoop (rest : List Mono) : ∀ (prev_exp : Nat) (acc : Mono),
    (∀ a ∈ leafCoeffs acc.1, InRange a) → (∀ a ∈ leafCoeffsList rest, InRange a) →
    ∀ a ∈ leafCoeffsList (PolyOwnMonosLoop prev_exp acc rest), InRange a := by
  induction rest with
  | nil =>
    intro prev_exp acc hacc _ a ha
    rw [PolyOwnMonosLoop] at ha
    split at ha
    · simp [leafCoeffsList] at ha
    · simp only [leafCoeffsList, List.append_nil] at ha
      exact hacc a ha
  | cons m ms ih =>
    intro prev_exp acc hacc hrest a ha
    rw [leafCoeffsList] at hrest
    rw [PolyOwnMonosLoop] at ha
    split at ha
    · exact ih m.2 _ (inRange_PolyAdd _ _ hacc (fun x hx => hrest x (List.mem_append_left _ hx)))
        (fun x hx => hrest x (List.mem_append_right _ hx)) a ha
    · rw [leafCoeffsList_append, List.mem_append] at ha
      rcases ha with ha | ha
      · split at ha
        · simp [leafCoeffsList] at ha
        · simp only [leafCoeffsList, List.append_nil] at ha
          exact hacc a ha
      · exact ih m.2 m (fun x hx => hrest x (List.mem_append_left _ hx))
          (fun x hx => hrest x (List.mem_append_right _ hx)) a ha

theorem inRange_PolyOwnMonosWith (sort : List Mono → List Mono)
    (monos : List Mono) (hperm : (sort monos).Perm monos)
    (hr : ∀ m ∈ monos, ∀ a ∈ leafCoeffs m.1, InRange a) :
    ∀ a ∈ leafCoeffs (PolyOwnMonosWith sort monos), InRange a := by
  intro a ha
  cases monos with
  | nil =>
    simp only [PolyOwnMonosWith, PolyZero, PolyFromCoeff, leafCoeffs, List.mem_singleton] at ha
    rw [ha]
    exact inRange_zero
  | cons m0 ms0 =>
    simp only [PolyOwnMonosWith] at ha
    split at ha
    · simp only [PolyZero, PolyFromCoeff, leafCoeffs, List.mem_singleton] at ha
      rw [ha]
      exact inRange_zero
    · rename_i m ms heq
      rw [heq] at hperm
      have hall : ∀ x ∈ m :: ms, ∀ a ∈ leafCoeffs x.1, InRange a :=
        fun x hx => hr x (hperm.mem_iff.mp hx)
      rcases mem_leafCoeffs_PolyChangeIfCoeff _ _ ha with h | h
      · rw [h]
        exact inRange_zero
      · apply inRange_PolyOwnMonosLoop ms m.2 m (hall m (by simp)) ?_ a h
        intro x hx
        rw [mem_leafCoeffsList] at hx
        obtain ⟨y, hy, hxy⟩ := hx
        exact hall y (List.mem_cons_of_mem _ hy) x hxy

/-- The result of `PolyOwnMonos` depends neither on the order of the list nor on the
order the sorting routine gives to monomials of equal exponent. -/
theorem PolyOwnMonosWith_order_independent (sort1 sort2 : List Mono → List Mono)
    (h1 : IsSortByExp sort1) (h2 : IsSortByExp sort2) (l1 l2 : List Mono) (hperm : l1.Perm l2)
    (hc : ∀ m ∈ l1, Canonical m.1 = true) (hr : ∀ m ∈ l1, CoeffsInRange m.1 = true) :
    PolyOwnMonosWith sort1 l1 = PolyOwnMonosWith sort2 l2 := by
  have hc2 : ∀ m ∈ l2, Canonical m.1 = true := fun m hm => hc m (hperm.mem_iff.mpr hm)
  have hr1 : ∀ m ∈ l1, ∀ a ∈ leafCoeffs m.1, InRange a :=
    fun m hm => (coeffsInRange_iff m.1).mp (hr m hm)
  have hr2 : ∀ m ∈ l2, ∀ a ∈ leafCoeffs m.1, InRange a :=
    fun m hm => hr1 m (hperm.mem_iff.mpr hm)
  apply canonical_unique (2 ^ 64) InRange inRange_zero inRange_cast_inj
  · exact canonical_PolyOwnMonosWith sort1 l1 (h1 l1).1 (h1 l1).2 hc
  · exact canonical_PolyOwnMonosWith sort2 l2 (h2 l2).1 (h2 l2).2 hc2
  · exact inRange_PolyOwnMonosWith sort1 l1 (h1 l1).1 hr1
  · exact inRange_PolyOwnMonosWith sort2 l2 (h2 l2).1 hr2
  · intro es
    rw [coeffAt_PolyOwnMonosWith_cast sort1 l1 (h1 l1).1,
      coeffAt_PolyOwnMonosWith_cast sort2 l2 (h2 l2).1]
    simp only [coeffAt]
    rw [coeffAtMonos_perm hperm]

theorem PolyComposeHelper_zero_vars (k : Nat) (powers : List (List Poly)) (p : Poly) :
    ∀ depth, k ≤ depth → Canonical p = true →
      PolyComposeHelper p k powers depth = coeff (value p (fun _ => 0)) := by
  induction p using Poly.induction_on with
  | hc c =>
    intro depth _ _
    simp [PolyComposeHelper, PolyClone, value]
  | hm arr ih =>
    intro depth hd hcan
    rw [canonical_monos_iff] at hcan
    obtain ⟨hne, _, hinc, hall⟩ := hcan
    rw [PolyComposeHelper, if_pos hd]
    cases arr with
    | nil => exact absurd rfl hne
    | cons m ms =>
      have hrest : valueMonos ms (fun _ => (0 : Int)) = 0 := by
        apply valueMonos_zero_of_pos (fun _ => (0 : Int)) rfl
        intro x hx
        have := (List.pairwise_cons.mp hinc).1 x hx
        omega
      rw [PolyComposeFirst]
      simp only [value, valueMonos]
      rw [hrest]
      split
      · rename_i hexp
        rw [zero_pow hexp]
        simp [PolyZero, PolyFromCoeff]
      · rename_i hexp
        have hexp0 : m.2 = 0 := by omega
        rw [ih m (by simp) (depth + 1) (by omega) (hall m (by simp)).2, hexp0]
        simp

theorem PolyCompose_zero_vars (p : Poly) (hp : Canonical p = true) :
    PolyCompose p 0 [] = coeff (value p (fun _ => 0)) := by
  rw [PolyCompose]
  exact PolyComposeHelper_zero_vars 0 _ p 0 (Nat.le_refl 0) hp

theorem PolyAdd_comm_all (p q : Poly) : PolyAdd p q = PolyAdd q p := by
  apply PolyAdd.induct (fun p q => PolyAdd p q = PolyAdd q p)
    (fun ps qs => PolyAddLoop ps qs = PolyAddLoop qs ps)
  · intro a b
    rw [PolyAdd, PolyAdd, Int.add_comm]
  · intro a qs _
    rw [PolyAdd, PolyAdd]
  · intro ps b _
    rw [PolyAdd, PolyAdd]
  · intro ps qs ih
    rw [PolyAdd, PolyAdd, ih]
  · rfl
  · intro q qs ih
    rw [PolyAddLoop, PolyAddLoop, ih]
  · intro p ps ih
    rw [PolyAddLoop, PolyAddLoop, ih]
  · intro p ps q qs h ih
    rw [PolyAddLoop, if_pos h, PolyAddLoop, if_neg (by omega), if_pos (by omega), ih]
  · intro p ps q qs h1 h2 ih
    rw [PolyAddLoop, if_neg h1, if_pos h2, PolyAddLoop, if_pos (by omega), ih]
  · intro p ps q qs h1 h2 ih1 ih2
    have he : p.2 = q.2 := by omega
    have hR : PolyAddLoop (q :: qs) (p :: ps)
        = (if PolyIsZero (PolyAdd q.1 p.1) then [] else [(PolyAdd q.1 p.1, q.2)])
          ++ PolyAddLoop qs ps := by
      rw [PolyAddLoop, if_neg (by omega), if_neg (by omega)]
    rw [hR, PolyAddLoop, if_neg h1, if_neg h2, ih1, ih2, he]

theorem PolyAddLoop_neg (l : List Mono)
    (hl : ∀ m ∈ l, PolyAdd m.1 (PolyNeg m.1) = coeff 0) :
    PolyAddLoop l (PolyNegLoop l) = [] := by
  induction l with
  | nil => simp [PolyNegLoop, PolyAddLoop]
  | cons m ms ih =>
    rw [PolyNegLoop, PolyAddLoop, if_neg (by simp), if_neg (by simp)]
    simp only [hl m (by simp), PolyIsZero, decide_True, if_true, List.nil_append]
    exact ih (fun x hx => hl x (List.mem_cons_of_mem _ hx))

theorem wrapCoeff_add_neg (c : Int) : wrapCoeff (c + wrapCoeff (-1 * c)) = 0 := by
  unfold wrapCoeff
  omega

theorem PolyAdd_neg_all (p : Poly) : PolyAdd p (PolyNeg p) = coeff 0 := by
  induction p using Poly.induction_on with
  | hc c =>
    rw [PolyNeg, PolyFromCoeff, PolyAdd, PolyFromCoeff, wrapCoeff_add_neg]
  | hm arr ih =>
    rw [PolyNeg, PolyAdd, PolyAddLoop_neg arr ih]
    rfl

theorem wrapCoeff_castR {R : Type} [CommRing R] (h64 : (2 : R) ^ 64 = 0) (x : Int) :
    ((wrapCoeff x : Int) : R) = (x : R) := by
  have h : (18446744073709551616 : R) = 0 := by
    norm_num at h64
    exact h64
  unfold wrapCoeff
  rw [Int.emod_def]
  push_cast
  rw [h]
  ring

theorem evalInMonos_eq_sum {R : Type} [CommRing R] (arr : List Mono) (env : Nat → R) :
    evalInMonos arr env
      = (arr.map fun m => evalIn m.1 (fun i => env (i + 1)) * env 0 ^ m.2).sum := by
  induction arr with
  | nil => simp [evalInMonos]
  | cons m ms ih => simp [evalInMonos, ih]

theorem evalInMonos_append {R : Type} [CommRing R] (a b : List Mono) (env : Nat → R) :
    evalInMonos (a ++ b) env = evalInMonos a env + evalInMonos b env := by
  simp [evalInMonos_eq_sum]

theorem evalInMonos_perm {R : Type} [CommRing R] {a b : List Mono} (h : a.Perm b)
    (env : Nat → R) : evalInMonos a env = evalInMonos b env := by
  rw [evalInMonos_eq_sum, evalInMonos_eq_sum]
  exact (h.map _).sum_eq

theorem evalInMonos_single {R : Type} [CommRing R] (p : Poly) (e : Nat) (env : Nat → R) :
    evalInMonos (if PolyIsZero p = true then [] else [(p, e)]) env
      = evalIn p (fun i => env (i + 1)) * env 0 ^ e := by
  split
  · rename_i h
    rw [PolyIsZero_iff] at h
    simp [evalInMonos, h, evalIn]
  · simp [evalInMonos]

theorem evalInMonos_clone {R : Type} [CommRing R] (m : Mono) (env : Nat → R) :
    evalInMonos (MonoCloneIfNotZero m) env = evalIn m.1 (fun i => env (i + 1)) * env 0 ^ m.2 := by
  have := evalInMonos_single m.1 m.2 env
  simpa [MonoCloneIfNotZero, MonoClone, PolyClone] using this

theorem evalIn_PolyChangeIfCoeff {R : Type} [CommRing R] (arr : List Mono) (env : Nat → R) :
    evalIn (PolyChangeIfCoeff arr) env = evalInMonos arr env := by
  unfold PolyChangeIfCoeff
  split <;> simp [evalIn, evalInMonos, PolyZero, PolyFromCoeff, PolyClone]

theorem evalIn_PolySort {R : Type} [CommRing R] (p : Poly) (env : Nat → R) :
    evalIn (PolySort p) env = evalIn p env := by
  cases p with
  | coeff c => rfl
  | monos arr =>
    simp only [PolySort, evalIn]
    exact evalInMonos_perm (List.perm_insertionSort _ _) env

theorem evalIn_PolyAdd {R : Type} [CommRing R] (h64 : (2 : R) ^ 64 = 0) (p q : Poly) :
    ∀ env : Nat → R, evalIn (PolyAdd p q) env = evalIn p env + evalIn q env := by
  apply PolyAdd.induct
    (fun p q => ∀ env : Nat → R, evalIn (PolyAdd p q) env = evalIn p env + evalIn q env)
    (fun ps qs => ∀ env : Nat → R,
      evalInMonos (PolyAddLoop ps qs) env = evalInMonos ps env + evalInMonos qs env)
  · intro a b env
    simp only [PolyAdd, PolyFromCoeff, evalIn, wrapCoeff_castR h64]
    push_cast
    rfl
  · intro a qs ih env
    rw [PolyAdd, ih env]
    simp [evalIn, evalInMonos, MonoFromPoly]
  · intro ps b ih env
    rw [PolyAdd, ih env]
    simp [evalIn, evalInMonos, MonoFromPoly]
    ring
  · intro ps qs ih env
    rw [PolyAdd, evalIn_PolySort, evalIn_PolyChangeIfCoeff, ih env]
    simp [evalIn]
  · intro env
    simp [PolyAddLoop, evalInMonos]
  · intro q qs ih env
    rw [PolyAddLoop, evalInMonos_append, evalInMonos_clone, ih env]
    simp [evalInMonos]
  · intro p ps ih env
    rw [PolyAddLoop, evalInMonos_append, evalInMonos_clone, ih env]
    simp [evalInMonos]
  · intro p ps q qs h ih env
    rw [PolyAddLoop, if_pos h, evalInMonos_append, evalInMonos_clone, ih env]
    simp only [evalInMonos]
    ring
  · intro p ps q qs h1 h2 ih env
    rw [PolyAddLoop, if_neg h1, if_pos h2, evalInMonos_append, evalInMonos_clone, ih env]
    simp only [evalInMonos]
    ring
  · intro p ps q qs h1 h2 ih1 ih2 env
    have he : p.2 = q.2 := by omega
    rw [PolyAddLoop, if_neg h1, if_neg h2, evalInMonos_append, evalInMonos_single, ih2 env,
      ih1 (fun i => env (i + 1))]
    simp only [evalInMonos]
    rw [he]
    ring

theorem evalIn_PolyMul {R : Type} [CommRing R] (h64 : (2 : R) ^ 64 = 0) (p q : Poly) :
    ∀ env : Nat → R, evalIn (PolyMul p q) env = evalIn p env * evalIn q env := by
  apply PolyMul.induct
    (fun p q => ∀ env : Nat → R, evalIn (PolyMul p q) env = evalIn p env * evalIn q env)
    (fun ps qs poly_ret => ∀ env : Nat → R,
      evalIn (PolyMulOuter ps qs poly_ret) env
        = evalIn poly_ret env + evalInMonos ps env * evalInMonos qs env)
    (fun p qs => ∀ env : Nat → R,
      evalInMonos (PolyMulInner p qs) env
        = (evalIn p.1 (fun i => env (i + 1)) * env 0 ^ p.2) * evalInMonos qs env)
  · intro a b env
    simp only [PolyMul, PolyFromCoeff, evalIn, wrapCoeff_castR h64]
    push_cast
    rfl
  · intro a qs ih env
    rw [PolyMul, ih env]
    simp [evalIn, evalInMonos, MonoFromPoly]
  · intro ps b ih env
    rw [PolyMul, ih env]
    simp [evalIn, evalInMonos, MonoFromPoly]
    ring
  · intro ps qs h ih env
    rw [PolyMul, if_pos h, ih env]
    ring
  · intro ps qs h ih env
    rw [PolyMul, if_neg h, ih env]
    simp [evalIn, PolyZero, PolyFromCoeff]
  · intro qs poly_ret env
    simp [PolyMulOuter, evalInMonos]
  · intro qs poly_ret p ps ih3 ih2 env
    rw [PolyMulOuter, ih2 env, evalIn_PolyAdd h64]
    simp only [evalIn]
    rw [ih3 env]
    simp only [evalInMonos]
    ring
  · intro p env
    simp [PolyMulInner, evalInMonos]
  · intro p q qs ih1 ih3 env
    rw [PolyMulInner]
    simp only [evalInMonos]
    rw [ih3 env, ih1 (fun i => env (i + 1)), pow_add]
    ring

theorem evalIn_map {R S : Type} [CommRing R] [CommRing S] (f : R →+* S) (p : Poly) :
    ∀ env : Nat → R, f (evalIn p env) = evalIn p (fun i => f (env i)) := by
  induction p using Poly.induction_on with
  | hc c =>
    intro env
    simp [evalIn]
  | hm arr ih =>
    intro env
    simp only [evalIn]
    induction arr with
    | nil => simp [evalInMonos]
    | cons m ms ihl =>
      simp only [evalInMonos, map_add, map_mul, map_pow]
      rw [ih m (by simp), ihl (fun x hx => ih x (List.mem_cons_of_mem _ hx))]

theorem mapDomain_succ_zero (m : Nat →₀ Nat) : (m.mapDomain Nat.succ) 0 = 0 := by
  apply Finsupp.mapDomain_notin_range
  rintro ⟨x, hx⟩
  exact Nat.succ_ne_zero x hx

theorem coeff_rename_succ_mul_X_pow {R : Type} [CommRing R] (g : MvPolynomial Nat R)
    (e0 e : Nat) (m : Nat →₀ Nat) :
    MvPolynomial.coeff (Finsupp.single 0 e0 + m.mapDomain Nat.succ)
        (MvPolynomial.rename Nat.succ g * MvPolynomial.X 0 ^ e)
      = if e = e0 then MvPolynomial.coeff m g else 0 := by
  rw [MvPolynomial.X_pow_eq_monomial, MvPolynomial.coeff_mul_monomial']
  by_cases hle : e ≤ e0
  · have hs : Finsupp.single 0 e ≤ Finsupp.single 0 e0 + m.mapDomain Nat.succ := by
      intro i
      by_cases hi : i = 0
      · subst hi
        simp [mapDomain_succ_zero, hle]
      · simp [Finsupp.single_apply, Ne.symm hi]
    rw [if_pos hs, mul_one]
    by_cases he : e = e0
    · subst he
      rw [if_pos rfl, add_tsub_cancel_left]
      exact MvPolynomial.coeff_rename_mapDomain Nat.succ Nat.succ_injective g m
    · rw [if_neg he]
      apply MvPolynomial.coeff_rename_eq_zero
      intro u hu
      exfalso
      have h0 := congrArg (fun d : Nat →₀ Nat => d 0) hu
      simp only [mapDomain_succ_zero, Finsupp.coe_tsub, Finsupp.coe_add, Pi.sub_apply,
        Pi.add_apply, Finsupp.single_eq_same] at h0
      omega
  · have hs : ¬ Finsupp.single 0 e ≤ Finsupp.single 0 e0 + m.mapDomain Nat.succ := by
      intro h
      have := h 0
      simp [mapDomain_succ_zero] at this
      omega
    rw [if_neg hs, if_neg (by omega)]

theorem IsExpVec_eq_zero_iff {es : List Nat} {m : Nat →₀ Nat} (h : IsExpVec es m) :
    m = 0 ↔ es.all (· == 0) = true := by
  induction h with
  | nil => simp
  | cons e es m _ ih =>
    simp only [List.all_cons, Bool.and_eq_true, beq_iff_eq, ← ih]
    constructor
    · intro h0
      have h1 := congrArg (fun d : Nat →₀ Nat => d 0) h0
      simp only [Finsupp.coe_add, Pi.add_apply, Finsupp.single_eq_same, mapDomain_succ_zero,
        Finsupp.coe_zero, Pi.zero_apply, add_zero] at h1
      refine ⟨h1, ?_⟩
      rw [h1] at h0
      simp only [Finsupp.single_zero, zero_add] at h0
      have hinj := Finsupp.mapDomain_injective Nat.succ_injective (M := Nat)
      apply hinj
      rw [h0, Finsupp.mapDomain_zero]
    · rintro ⟨rfl, rfl⟩
      simp

theorem IsExpVec_split {es : List Nat} {m : Nat →₀ Nat} (h : IsExpVec es m) :
    ∃ m' : Nat →₀ Nat, IsExpVec es.tail m' ∧
      m = Finsupp.single 0 (es.headD 0) + m'.mapDomain Nat.succ := by
  cases h with
  | nil => exact ⟨0, IsExpVec.nil, by simp⟩
  | cons e es m' h' => exact ⟨m', h', rfl⟩

theorem exists_IsExpVec (es : List Nat) : ∃ m : Nat →₀ Nat, IsExpVec es m := by
  induction es with
  | nil => exact ⟨0, IsExpVec.nil⟩
  | cons e es ih =>
    obtain ⟨m, hm⟩ := ih
    exact ⟨_, IsExpVec.cons e es m hm⟩

theorem evalIn_shift_X (p : Poly) :
    evalIn p (fun i => (MvPolynomial.X (i + 1) : MvPolynomial Nat (ZMod (2 ^ 64))))
      = MvPolynomial.rename Nat.succ (evalIn p MvPolynomial.X) := by
  have := evalIn_map ((MvPolynomial.rename Nat.succ :
    MvPolynomial Nat (ZMod (2 ^ 64)) →ₐ[ZMod (2 ^ 64)] MvPolynomial Nat (ZMod (2 ^ 64))).toRingHom)
    p MvPolynomial.X
  simp only [AlgHom.toRingHom_eq_coe, RingHom.coe_coe, MvPolynomial.rename_X] at this
  exact this.symm

/-- The coefficients of the formal polynomial over `ZMod (2^64)` denoted by `p` are the
residues of the integer coefficients `coeffAt`. -/
theorem coeff_evalIn_X (p : Poly) : ∀ (es : List Nat) (m : Nat →₀ Nat), IsExpVec es m →
    MvPolynomial.coeff m (evalIn p (MvPolynomial.X : Nat → MvPolynomial Nat (ZMod (2 ^ 64))))
      = ((coeffAt p es : Int) : ZMod (2 ^ 64)) := by
  induction p using Poly.induction_on with
  | hc c =>
    intro es m hm
    simp only [evalIn, coeffAt]
    rw [← map_intCast (MvPolynomial.C : ZMod (2 ^ 64) →+* MvPolynomial Nat (ZMod (2 ^ 64))) c,
      MvPolynomial.coeff_C]
    by_cases h0 : m = 0
    · rw [if_pos h0.symm, if_pos ((IsExpVec_eq_zero_iff hm).mp h0)]
    · have : ¬ (es.all (· == 0) = true) := fun h => h0 ((IsExpVec_eq_zero_iff hm).mpr h)
      rw [if_neg (fun h => h0 h.symm), if_neg this]
      simp
  | hm arr ih =>
    intro es m hm
    obtain ⟨m', hm', rfl⟩ := IsExpVec_split hm
    simp only [evalIn, coeffAt]
    generalize es.headD 0 = e0
    generalize es.tail = es' at hm'
    clear hm
    induction arr with
    | nil => simp [evalInMonos, coeffAtMonos]
    | cons x xs ihl =>
      simp only [evalInMonos, coeffAtMonos, MvPolynomial.coeff_add]
      rw [ihl (fun y hy => ih y (List.mem_cons_of_mem _ hy)), evalIn_shift_X,
        coeff_rename_succ_mul_X_pow]
      push_cast
      congr 1
      split
      · rw [ih x (by simp) es' m' hm']
      · simp

theorem two_pow_eq_zero_mvPolynomial :
    (2 : MvPolynomial Nat (ZMod (2 ^ 64))) ^ 64 = 0 := by
  have h : ((2 ^ 64 : Nat) : ZMod (2 ^ 64)) = 0 := ZMod.natCast_self (2 ^ 64)
  have h2 : (2 : ZMod (2 ^ 64)) ^ 64 = 0 := by
    rw [← h]
    push_cast
    rfl
  rw [← map_ofNat (MvPolynomial.C : ZMod (2 ^ 64) →+* MvPolynomial Nat (ZMod (2 ^ 64))) 2,
    ← map_pow, h2, map_zero]

/-- Canonical polynomials with constants in the signed 64-bit range that denote the same
formal polynomial over `ZMod (2^64)` are structurally equal. -/
theorem canonical_unique_mod (p q : Poly) (hp : Canonical p = true) (hq : Canonical q = true)
    (hrp : ∀ a ∈ leafCoeffs p, InRange a) (hrq : ∀ a ∈ leafCoeffs q, InRange a)
    (h : evalIn p (MvPolynomial.X : Nat → MvPolynomial Nat (ZMod (2 ^ 64)))
      = evalIn q MvPolynomial.X) : p = q := by
  apply canonical_unique (2 ^ 64) InRange inRange_zero inRange_cast_inj p q hp hq hrp hrq
  intro es
  obtain ⟨m, hm⟩ := exists_IsExpVec es
  rw [← coeff_evalIn_X p es m hm, ← coeff_evalIn_X q es m hm, h]

theorem inRange_PolyMul (p q : Poly) : ∀ a ∈ leafCoeffs (PolyMul p q), InRange a := by
  apply PolyMul.induct
    (fun p q => ∀ a ∈ leafCoeffs (PolyMul p q), InRange a)
    (fun ps qs poly_ret => (∀ a ∈ leafCoeffs poly_ret, InRange a) →
      ∀ a ∈ leafCoeffs (PolyMulOuter ps qs poly_ret), InRange a)
    (fun p qs => ∀ a ∈ leafCoeffsList (PolyMulInner p qs), InRange a)
  · intro a b x hx
    rw [PolyMul] at hx
    simp only [PolyFromCoeff, leafCoeffs, List.mem_singleton] at hx
    rw [hx]
    exact wrapCoeff_inRange _
  · intro a qs ih
    rw [PolyMul]
    exact ih
  · intro ps b ih
    rw [PolyMul]
    exact ih
  · intro ps qs h ih
    rw [PolyMul, if_pos h]
    exact ih
  · intro ps qs h ih
    rw [PolyMul, if_neg h]
    apply ih
    intro a ha
    simp only [PolyZero, PolyFromCoeff, leafCoeffs, List.mem_singleton] at ha
    rw [ha]
    exact inRange_zero
  · intro qs poly_ret hr
    rw [PolyMulOuter]
    exact hr
  · intro qs poly_ret p ps ih3 ih2 hr
    rw [PolyMulOuter]
    apply ih2
    exact inRange_PolyAdd _ _ hr (by simpa [leafCoeffs] using ih3)
  · intro p a ha
    simp [PolyMulInner, leafCoeffsList] at ha
  · intro p q qs ih1 ih3 a ha
    rw [PolyMulInner, leafCoeffsList, List.mem_append] at ha
    rcases ha with ha | ha
    · exact ih1 a ha
    · exact ih3 a ha

/-- Structural equality from equality of the denoted polynomials over `ZMod (2^64)`, for
results of `PolyMul`. -/
theorem PolyMul_eq_of_evalIn_eq (p q r : Poly) (hp : Canonical p = true)
    (hq : Canonical q = true) (hr : Canonical r = true) (hrr : ∀ a ∈ leafCoeffs r, InRange a)
    (h : evalIn (PolyMul p q) (MvPolynomial.X : Nat → MvPolynomial Nat (ZMod (2 ^ 64)))
      = evalIn r MvPolynomial.X) : PolyMul p q = r :=
  canonical_unique_mod _ _
    (canonical_PolyMul_weak p q (WeakPoly_of_canonical p hp) (WeakPoly_of_canonical q hq)) hr
    (inRange_PolyMul p q) hrr h

theorem PolyMul_comm_canonical (p q : Poly) (hp : Canonical p = true) (hq : Canonical q = true) :
    PolyMul p q = PolyMul q p := by
  apply PolyMul_eq_of_evalIn_eq p q _ hp hq
    (canonical_PolyMul_weak q p (WeakPoly_of_canonical q hq) (WeakPoly_of_canonical p hp))
    (inRange_PolyMul q p)
  rw [evalIn_PolyMul two_pow_eq_zero_mvPolynomial, evalIn_PolyMul two_pow_eq_zero_mvPolynomial,
    mul_comm]

theorem PolyMul_assoc_canonical (p q r : Poly) (hp : Canonical p = true)
    (hq : Canonical q = true) (hr : Canonical r = true) :
    PolyMul (PolyMul p q) r = PolyMul p (PolyMul q r) := by
  have hpq := canonical_PolyMul_weak p q (WeakPoly_of_canonical p hp) (WeakPoly_of_canonical q hq)
  have hqr := canonical_PolyMul_weak q r (WeakPoly_of_canonical q hq) (WeakPoly_of_canonical r hr)
  apply PolyMul_eq_of_evalIn_eq _ r _ hpq hr
    (canonical_PolyMul_weak p _ (WeakPoly_of_canonical p hp) (WeakPoly_of_canonical _ hqr))
    (inRange_PolyMul p _)
  simp only [evalIn_PolyMul two_pow_eq_zero_mvPolynomial, mul_assoc]

theorem PolyMul_one_canonical (p : Poly) (hp : Canonical p = true)
    (hr : ∀ a ∈ leafCoeffs p, InRange a) :
    PolyMul p (coeff 1) = p ∧ PolyMul (coeff 1) p = p := by
  constructor
  · apply PolyMul_eq_of_evalIn_eq p (coeff 1) p hp rfl hp hr
    rw [evalIn_PolyMul two_pow_eq_zero_mvPolynomial]
    simp [evalIn]
  · apply PolyMul_eq_of_evalIn_eq (coeff 1) p p rfl hp hp hr
    rw [evalIn_PolyMul two_pow_eq_zero_mvPolynomial]
    simp [evalIn]

theorem PolyMul_zero_canonical (p : Poly) (hp : Canonical p = true) :
    PolyMul p (coeff 0) = coeff 0 ∧ PolyMul (coeff 0) p = coeff 0 := by
  have h0 : ∀ a ∈ leafCoeffs (coeff 0), InRange a := by
    intro a ha
    simp only [leafCoeffs, List.mem_singleton] at ha
    rw [ha]
    exact inRange_zero
  constructor
  · apply PolyMul_eq_of_evalIn_eq p (coeff 0) (coeff 0) hp rfl rfl h0
    rw [evalIn_PolyMul two_pow_eq_zero_mvPolynomial]
    simp [evalIn]
  · apply PolyMul_eq_of_evalIn_eq (coeff 0) p (coeff 0) rfl hp rfl h0
    rw [evalIn_PolyMul two_pow_eq_zero_mvPolynomial]
    simp [evalIn]

theorem PolyAdd_eq_of_evalIn_eq (p q r : Poly) (hp : Canonical p = true)
    (hq : Canonical q = true) (hr : Canonical r = true)
    (hrp : ∀ a ∈ leafCoeffs p, InRange a) (hrq : ∀ a ∈ leafCoeffs q, InRange a)
    (hrr : ∀ a ∈ leafCoeffs r, InRange a)
    (h : evalIn (PolyAdd p q) (MvPolynomial.X : Nat → MvPolynomial Nat (ZMod (2 ^ 64)))
      = evalIn r MvPolynomial.X) : PolyAdd p q = r :=
  canonical_unique_mod _ _
    (canonical_PolyAdd_weak p q (WeakPoly_of_canonical p hp) (WeakPoly_of_canonical q hq)) hr
    (inRange_PolyAdd p q hrp hrq) hrr h

theorem PolyAdd_assoc_canonical (p q r : Poly) (hp : Canonical p = true)
    (hq : Canonical q = true) (hr : Canonical r = true)
    (hrp : ∀ a ∈ leafCoeffs p, InRange a) (hrq : ∀ a ∈ leafCoeffs q, InRange a)
    (hrr : ∀ a ∈ leafCoeffs r, InRange a) :
    PolyAdd (PolyAdd p q) r = PolyAdd p (PolyAdd q r) := by
  have hpq := canonical_PolyAdd_weak p q (WeakPoly_of_canonical p hp) (WeakPoly_of_canonical q hq)
  have hqr := canonical_PolyAdd_weak q r (WeakPoly_of_canonical q hq) (WeakPoly_of_canonical r hr)
  apply PolyAdd_eq_of_evalIn_eq _ r _ hpq hr
    (canonical_PolyAdd_weak p _ (WeakPoly_of_canonical p hp) (WeakPoly_of_canonical _ hqr))
    (inRange_PolyAdd p q hrp hrq) hrr (inRange_PolyAdd p _ hrp (inRange_PolyAdd q r hrq hrr))
  simp only [evalIn_PolyAdd two_pow_eq_zero_mvPolynomial, add_assoc]

theorem PolyAdd_zero_canonical (p : Poly) (hp : Canonical p = true)
    (hr : ∀ a ∈ leafCoeffs p, InRange a) :
    PolyAdd p (coeff 0) = p ∧ PolyAdd (coeff 0) p = p := by
  have h0 : ∀ a ∈ leafCoeffs (coeff 0), InRange a := by
    intro a ha
    simp only [leafCoeffs, List.mem_singleton] at ha
    rw [ha]
    exact inRange_zero
  constructor
  · apply PolyAdd_eq_of_evalIn_eq p (coeff 0) p hp rfl hp hr h0 hr
    rw [evalIn_PolyAdd two_pow_eq_zero_mvPolynomial]
    simp [evalIn]
  · apply PolyAdd_eq_of_evalIn_eq (coeff 0) p p rfl hp hp h0 hr hr
    rw [evalIn_PolyAdd two_pow_eq_zero_mvPolynomial]
    simp [evalIn]

theorem evalIn_PowersFill {R : Type} [CommRing R] (h64 : (2 : R) ^ 64 = 0) (env : Nat → R)
    (n : Nat) : ∀ (cur : Poly) (j : Nat), j < n →
    evalIn ((PowersFill n cur).getD j PolyZero) env = evalIn cur env ^ (2 ^ j) := by
  induction n with
  | zero => intro cur j hj; omega
  | succ n ih =>
    intro cur j hj
    cases j with
    | zero => simp [PowersFill]
    | succ j =>
      simp only [PowersFill, List.getD_cons_succ]
      rw [ih _ j (by omega), evalIn_PolyMul h64, pow_succ 2 j, pow_mul]
      ring

theorem evalIn_PolyFastPowLoop {R : Type} [CommRing R] (h64 : (2 : R) ^ 64 = 0) (env : Nat → R)
    (powers : List Poly) (b : R)
    (hcache : ∀ j, j < powers.length → evalIn (powers.getD j PolyZero) env = b ^ (2 ^ j))
    (i : Nat) :
    ∀ (power exp : Nat) (poly_ret : Poly), power = 2 ^ i → exp < 2 ^ (i + 1) → i < powers.length →
    evalIn (PolyFastPowLoop powers i power exp poly_ret) env = evalIn poly_ret env * b ^ exp := by
  induction i with
  | zero =>
    intro power exp poly_ret hp he hi
    rw [PolyFastPowLoop]
    simp at hp he
    split
    · have : exp = 1 := by omega
      rw [evalIn_PolyMul h64, hcache 0 hi, this]
      simp
    · have : exp = 0 := by omega
      simp [this]
  | succ i ih =>
    intro power exp poly_ret hp he hi
    rw [PolyFastPowLoop]
    have hhalf : power / 2 = 2 ^ i := by
      rw [hp, pow_succ]
      omega
    split
    · rename_i hle
      rw [ih _ _ _ hhalf (by rw [pow_succ] at he; rw [pow_succ]; omega) (by omega),
        evalIn_PolyMul h64, hcache (i + 1) hi, ← hp]
      obtain ⟨r, rfl⟩ := Nat.exists_eq_add_of_le hle
      rw [Nat.add_sub_cancel_left, pow_add]
      ring
    · rename_i hlt
      rw [ih _ _ _ hhalf (by omega) (by omega)]

theorem evalIn_PolyFastPow {R : Type} [CommRing R] (h64 : (2 : R) ^ 64 = 0) (env : Nat → R)
    (powers : List Poly) (b : R)
    (hcache : ∀ j, j < powers.length → evalIn (powers.getD j PolyZero) env = b ^ (2 ^ j))
    (exp : Nat) (hexp : exp < 2 ^ powers.length) :
    evalIn (PolyFastPow powers exp) env = b ^ exp := by
  unfold PolyFastPow
  split
  · rename_i h0
    simp [h0, PolyFromCoeff, evalIn]
  · rename_i h0
    obtain ⟨h1, h2, h3⟩ := PolyFastPowSeek_spec exp (exp + 1) 1 0 (by omega) (by omega) (by simp)
      (by omega)
    have hi : (PolyFastPowSeek exp 1 0 (by omega)).2 < powers.length := by
      apply (Nat.pow_lt_pow_iff_right (by norm_num : 1 < 2)).mp
      rw [← h1]
      omega
    rw [evalIn_PolyFastPowLoop h64 env powers b hcache _ _ _ _ h1 (by rw [pow_succ]; omega) hi]
    simp [PolyFromCoeff, evalIn]

theorem evalInMonos_zero_of_pos {R : Type} [CommRing R] (env : Nat → R) (h0 : env 0 = 0)
    (ms : List Mono) (hpos : ∀ x ∈ ms, 0 < x.2) : evalInMonos ms env = 0 := by
  induction ms with
  | nil => rfl
  | cons m ms ih =>
    have hm : m.2 ≠ 0 := Nat.pos_iff_ne_zero.mp (hpos m (by simp))
    rw [evalInMonos, ih (fun x hx => hpos x (List.mem_cons_of_mem _ hx)), h0, zero_pow hm]
    simp

theorem shift_tailR {R : Type} (f : Nat → R) (depth : Nat) :
    (fun i => (fun j => f (depth + j)) (i + 1)) = fun i => f (depth + 1 + i) := by
  funext i
  show f (depth + (i + 1)) = f (depth + 1 + i)
  congr 1
  omega

theorem evalIn_PolyComposeLoop {R : Type} [CommRing R] (h64 : (2 : R) ^ 64 = 0) (k : Nat)
    (powers : List (List Poly)) (env : Nat → R) (f : Nat → R) (bound : Nat → Nat) (depth : Nat)
    (hcache : ∀ j, j < (powers.getD depth []).length →
      evalIn ((powers.getD depth []).getD j PolyZero) env = f depth ^ (2 ^ j))
    (hbound : bound depth < 2 ^ (powers.getD depth []).length)
    (l : List Mono)
    (hl : ∀ m ∈ l, ∀ d, Canonical m.1 = true → ExpsBelow m.1 d k bound →
      evalIn (PolyComposeHelper m.1 k powers d) env = evalIn m.1 (fun i => f (d + i)))
    (hcan : ∀ m ∈ l, Canonical m.1 = true) (hbel : ExpsBelowList l depth k bound) :
    ∀ poly_ret : Poly,
      evalIn (PolyComposeLoop l k powers depth poly_ret) env
        = evalIn poly_ret env + evalInMonos l (fun i => f (depth + i)) := by
  induction l with
  | nil =>
    intro poly_ret
    simp [PolyComposeLoop, evalInMonos]
  | cons m ms ih =>
    intro poly_ret
    rw [ExpsBelowList] at hbel
    rw [PolyComposeLoop, ih (fun x hx => hl x (List.mem_cons_of_mem _ hx))
      (fun x hx => hcan x (List.mem_cons_of_mem _ hx)) hbel.2.2, evalIn_PolyAdd h64,
      evalIn_PolyMul h64,
      evalIn_PolyFastPow h64 env _ _ hcache m.2 (Nat.lt_of_le_of_lt hbel.1 hbound),
      hl m (by simp) (depth + 1) (hcan m (by simp)) hbel.2.1]
    simp only [evalInMonos]
    rw [shift_tailR]
    simp only [Nat.add_zero]
    ring

theorem evalIn_PolyComposeHelper {R : Type} [CommRing R] (h64 : (2 : R) ^ 64 = 0) (k : Nat)
    (powers : List (List Poly)) (env : Nat → R) (f : Nat → R) (bound : Nat → Nat)
    (hzero : ∀ i, k ≤ i → f i = 0)
    (hcache : ∀ d, d < k → ∀ j, j < (powers.getD d []).length →
      evalIn ((powers.getD d []).getD j PolyZero) env = f d ^ (2 ^ j))
    (hbound : ∀ d, d < k → bound d < 2 ^ (powers.getD d []).length) (p : Poly) :
    ∀ depth, Canonical p = true → ExpsBelow p depth k bound →
      evalIn (PolyComposeHelper p k powers depth) env = evalIn p (fun i => f (depth + i)) := by
  induction p using Poly.induction_on with
  | hc c =>
    intro depth _ _
    simp [PolyComposeHelper, PolyClone, evalIn]
  | hm arr ih =>
    intro depth hcan hbel
    rw [canonical_monos_iff] at hcan
    obtain ⟨hne, _, hinc, hall⟩ := hcan
    rw [PolyComposeHelper]
    split
    · rename_i hge
      cases arr with
      | nil => exact absurd rfl hne
      | cons m ms =>
        have h0 : f (depth + 0) = 0 := hzero _ (by omega)
        have hrest : evalInMonos ms (fun i => f (depth + i)) = 0 := by
          apply evalInMonos_zero_of_pos _ (by exact h0)
          intro x hx
          have := (List.pairwise_cons.mp hinc).1 x hx
          omega
        rw [PolyComposeFirst]
        simp only [evalIn, evalInMonos]
        rw [hrest, shift_tailR]
        split
        · rename_i hexp
          rw [h0, zero_pow hexp]
          simp [PolyZero, PolyFromCoeff, evalIn]
        · rename_i hexp
          have hexp0 : m.2 = 0 := by omega
          rw [ih m (by simp) (depth + 1) (hall m (by simp)).2 ?_, hexp0]
          · simp
          · cases hm1 : m.1 with
            | coeff c => simp [ExpsBelow]
            | monos a =>
              rw [ExpsBelow]
              intro hlt
              omega
    · rename_i hlt
      have hd : depth < k := by omega
      rw [ExpsBelow] at hbel
      rw [evalIn_PolyComposeLoop h64 k powers env f bound depth (hcache depth hd)
        (hbound depth hd) arr ih (fun x hx => (hall x hx).2) (hbel hd)]
      simp [evalIn, PolyZero, PolyFromCoeff]

/-- In every commutative ring in which `2^64` is zero, `PolyCompose p k q` evaluates like
`p` with `q[i]` put for variable `i < k` and zero for the variables of index `k` or more. -/
theorem evalIn_PolyCompose {R : Type} [CommRing R] (h64 : (2 : R) ^ 64 = 0) (p : Poly)
    (k : Nat) (q : List Poly) (env : Nat → R) (hcan : Canonical p = true) :
    evalIn (PolyCompose p k q) env
      = evalIn p (fun i => if i < k then evalIn (q.getD i PolyZero) env else 0) := by
  have key := evalIn_PolyComposeHelper h64 k
    ((List.range k).map fun i =>
      PowersFill (PowersOfTwo ((MaxExpFill p (List.replicate k 0) k 0).getD i 0))
        (PolyClone (q.getD i PolyZero)))
    env (fun i => if i < k then evalIn (q.getD i PolyZero) env else 0)
    (fun d => (MaxExpFill p (List.replicate k 0) k 0).getD d 0)
    ?_ ?_ ?_ p 0 hcan (ExpsBelow_MaxExpFill k p _ 0 (by simp))
  · rw [PolyCompose, key]
    simp
  · intro i hi
    simp [Nat.not_lt.mpr hi]
  · intro d hd j hj
    rw [PolyCompose_powers_getD p k q d hd] at hj ⊢
    rw [length_PowersFill] at hj
    rw [evalIn_PowersFill h64 env _ _ j hj]
    simp [hd]
  · intro d hd
    rw [PolyCompose_powers_getD p k q d hd, length_PowersFill]
    exact lt_two_pow_PowersOfTwo _

theorem canonical_PolyMul (p q : Poly) (hp : Canonical p = true) (hq : Canonical q = true) :
    Canonical (PolyMul p q) = true :=
  canonical_PolyMul_weak p q (WeakPoly_of_canonical p hp) (WeakPoly_of_canonical q hq)

theorem canonical_PolyAdd (p q : Poly) (hp : Canonical p = true) (hq : Canonical q = true) :
    Canonical (PolyAdd p q) = true :=
  canonical_PolyAdd_weak p q (WeakPoly_of_canonical p hp) (WeakPoly_of_canonical q hq)

theorem canonical_PowersFill (n : Nat) : ∀ (cur : Poly), Canonical cur = true →
    ∀ j, Canonical ((PowersFill n cur).getD j PolyZero) = true := by
  induction n with
  | zero =>
    intro cur _ j
    simp [PowersFill, PolyZero, PolyFromCoeff, Canonical]
  | succ n ih =>
    intro cur hc j
    cases j with
    | zero => simpa [PowersFill] using hc
    | succ j =>
      simp only [PowersFill, List.getD_cons_succ]
      exact ih _ (canonical_PolyMul cur cur hc hc) j

theorem canonical_PolyFastPowLoop (powers : List Poly)
    (hpow : ∀ j, Canonical (powers.getD j PolyZero) = true) (i : Nat) :
    ∀ (power exp : Nat) (poly_ret : Poly), Canonical poly_ret = true →
      Canonical (PolyFastPowLoop powers i power exp poly_ret) = true := by
  induction i with
  | zero =>
    intro power exp poly_ret hr
    rw [PolyFastPowLoop]
    split
    · exact canonical_PolyMul _ _ hr (hpow 0)
    · exact hr
  | succ i ih =>
    intro power exp poly_ret hr
    rw [PolyFastPowLoop]
    split
    · exact ih _ _ _ (canonical_PolyMul _ _ hr (hpow (i + 1)))
    · exact ih _ _ _ hr

theorem canonical_PolyFastPow (powers : List Poly)
    (hpow : ∀ j, Canonical (powers.getD j PolyZero) = true) (exp : Nat) :
    Canonical (PolyFastPow powers exp) = true := by
  unfold PolyFastPow
  split
  · rfl
  · exact canonical_PolyFastPowLoop powers hpow _ _ _ _ rfl

theorem canonical_PolyComposeLoop (k : Nat) (powers : List (List Poly)) (depth : Nat)
    (hpow : ∀ d j, Canonical ((powers.getD d []).getD j PolyZero) = true) (l : List Mono)
    (hl : ∀ m ∈ l, ∀ d, Canonical (PolyComposeHelper m.1 k powers d) = true) :
    ∀ poly_ret : Poly, Canonical poly_ret = true →
      Canonical (PolyComposeLoop l k powers depth poly_ret) = true := by
  induction l with
  | nil =>
    intro poly_ret hr
    rw [PolyComposeLoop]
    exact hr
  | cons m ms ih =>
    intro poly_ret hr
    rw [PolyComposeLoop]
    apply ih (fun x hx => hl x (List.mem_cons_of_mem _ hx))
    exact canonical_PolyAdd _ _ hr
      (canonical_PolyMul _ _ (canonical_PolyFastPow _ (hpow depth) _) (hl m (by simp) _))

theorem canonical_PolyComposeHelper (k : Nat) (powers : List (List Poly))
    (hpow : ∀ d j, Canonical ((powers.getD d []).getD j PolyZero) = true) (p : Poly) :
    ∀ depth, Canonical (PolyComposeHelper p k powers depth) = true := by
  induction p using Poly.induction_on with
  | hc c =>
    intro depth
    rfl
  | hm arr ih =>
    intro depth
    rw [PolyComposeHelper]
    split
    · cases arr with
      | nil => rfl
      | cons m ms =>
        rw [PolyComposeFirst]
        split
        · rfl
        · exact ih m (by simp) _
    · exact canonical_PolyComposeLoop k powers depth hpow arr ih PolyZero rfl

theorem canonical_getD (q : List Poly) (hq : ∀ x ∈ q, Canonical x = true) (i : Nat) :
    Canonical (q.getD i PolyZero) = true := by
  rw [List.getD_eq_getElem?_getD]
  cases h : q[i]? with
  | none => rfl
  | some x =>
    simp only [Option.getD_some]
    exact hq x (List.getElem?_mem h)

/-- The result of `PolyCompose` is canonical when the substitutes are. -/
theorem canonical_PolyCompose (p : Poly) (k : Nat) (q : List Poly)
    (hq : ∀ x ∈ q, Canonical x = true) : Canonical (PolyCompose p k q) = true := by
  rw [PolyCompose]
  apply canonical_PolyComposeHelper
  intro d j
  by_cases hd : d < k
  · rw [PolyCompose_powers_getD p k q d hd]
    exact canonical_PowersFill _ _ (canonical_getD q hq d) j
  · have : ((List.range k).map fun i =>
        PowersFill (PowersOfTwo ((MaxExpFill p (List.replicate k 0) k 0).getD i 0))
          (PolyClone (q.getD i PolyZero))).getD d [] = [] := by
      rw [List.getD_eq_getElem?_getD, List.getElem?_eq_none (by simpa using Nat.le_of_not_lt hd)]
      rfl
    rw [this]
    rfl

theorem inRange_PolyFastPowLoop (powers : List Poly) (i : Nat) :
    ∀ (power exp : Nat) (poly_ret : Poly), (∀ a ∈ leafCoeffs poly_ret, InRange a) →
      ∀ a ∈ leafCoeffs (PolyFastPowLoop powers i power exp poly_ret), InRange a := by
  induction i with
  | zero =>
    intro power exp poly_ret hr
    rw [PolyFastPowLoop]
    split
    · exact inRange_PolyMul _ _
    · exact hr
  | succ i ih =>
    intro power exp poly_ret hr
    rw [PolyFastPowLoop]
    split
    · exact ih _ _ _ (inRange_PolyMul _ _)
    · exact ih _ _ _ hr

theorem inRange_PolyComposeLoop (k : Nat) (powers : List (List Poly)) (depth : Nat)
    (l : List Mono) :
    ∀ poly_ret : Poly, (∀ a ∈ leafCoeffs poly_ret, InRange a) →
      ∀ a ∈ leafCoeffs (PolyComposeLoop l k powers depth poly_ret), InRange a := by
  induction l with
  | nil =>
    intro poly_ret hr
    rw [PolyComposeLoop]
    exact hr
  | cons m ms ih =>
    intro poly_ret hr
    rw [PolyComposeLoop]
    apply ih
    exact inRange_PolyAdd _ _ hr (inRange_PolyMul _ _)

theorem inRange_PolyZero : ∀ a ∈ leafCoeffs PolyZero, InRange a := by
  intro a ha
  simp only [PolyZero, PolyFromCoeff, leafCoeffs, List.mem_singleton] at ha
  rw [ha]
  exact inRange_zero

theorem inRange_PolyComposeHelper (k : Nat) (powers : List (List Poly)) (p : Poly) :
    ∀ depth, (∀ a ∈ leafCoeffs p, InRange a) →
      ∀ a ∈ leafCoeffs (PolyComposeHelper p k powers depth), InRange a := by
  induction p using Poly.induction_on with
  | hc c =>
    intro depth hr
    exact hr
  | hm arr ih =>
    intro depth hr
    rw [PolyComposeHelper]
    split
    · cases arr with
      | nil => exact inRange_PolyZero
      | cons m ms =>
        rw [PolyComposeFirst]
        split
        · exact inRange_PolyZero
        · apply ih m (by simp)
          intro a ha
          apply hr a
          rw [leafCoeffs, leafCoeffsList]
          exact List.mem_append_left _ ha
    · exact inRange_PolyComposeLoop k powers depth arr PolyZero inRange_PolyZero

theorem inRange_PolyCompose (p : Poly) (k : Nat) (q : List Poly)
    (hr : ∀ a ∈ leafCoeffs p, InRange a) : ∀ a ∈ leafCoeffs (PolyCompose p k q), InRange a := by
  rw [PolyCompose]
  exact inRange_PolyComposeHelper k _ p 0 hr

theorem varDepth_le_of_mem (arr : List Mono) : ∀ m ∈ arr, varDepth m.1 ≤ varDepthList arr := by
  induction arr with
  | nil => simp
  | cons x xs ih =>
    intro m hm
    rw [varDepthList]
    rcases List.mem_cons.mp hm with rfl | h
    · exact Nat.le_max_left _ _
    · exact Nat.le_trans (ih m h) (Nat.le_max_right _ _)

theorem evalIn_congr {R : Type} [CommRing R] (p : Poly) : ∀ (env env2 : Nat → R),
    (∀ i, i < varDepth p → env i = env2 i) → evalIn p env = evalIn p env2 := by
  induction p using Poly.induction_on with
  | hc c =>
    intro env env2 _
    rfl
  | hm arr ih =>
    intro env env2 h
    simp only [evalIn]
    rw [varDepth] at h
    have h0 : env 0 = env2 0 := h 0 (by omega)
    have hsub : ∀ m ∈ arr, evalIn m.1 (fun i => env (i + 1)) = evalIn m.1 (fun i => env2 (i + 1)) := by
      intro m hm
      apply ih m hm
      intro i hi
      apply h
      have := varDepth_le_of_mem arr m hm
      omega
    clear h ih
    induction arr with
    | nil => rfl
    | cons x xs ihl =>
      simp only [evalInMonos]
      rw [hsub x (by simp), h0, ihl (fun y hy => hsub y (List.mem_cons_of_mem _ hy))]

theorem evalIn_PolyVar {R : Type} [CommRing R] (i : Nat) : ∀ env : Nat → R,
    evalIn (PolyVar i) env = env i := by
  induction i with
  | zero =>
    intro env
    simp [PolyVar, evalIn, evalInMonos]
  | succ i ih =>
    intro env
    simp [PolyVar, evalIn, evalInMonos, ih]

theorem PolyVar_not_coeff (i : Nat) : PolyIsCoeff (PolyVar i) = false := by
  cases i <;> rfl

theorem canonical_PolyVar (i : Nat) : Canonical (PolyVar i) = true := by
  induction i with
  | zero => decide
  | succ i ih =>
    rw [PolyVar, canonical_monos_iff]
    refine ⟨by simp, ?_, List.pairwise_singleton _ _, ?_⟩
    · intro c hc
      have h1 := PolyVar_not_coeff i
      simp only [List.cons.injEq, Prod.mk.injEq, and_true] at hc
      rw [hc] at h1
      simp [PolyIsCoeff] at h1
    · intro m hm
      simp only [List.mem_singleton] at hm
      rw [hm]
      refine ⟨?_, ih⟩
      have h1 := PolyVar_not_coeff i
      cases h : PolyVar i with
      | coeff c => rw [h] at h1; simp [PolyIsCoeff] at h1
      | monos a => rfl

theorem getD_map_PolyVar (k i : Nat) (hi : i < k) :
    ((List.range k).map PolyVar).getD i PolyZero = PolyVar i := by
  simp [List.getD_eq_getElem?_getD, List.getElem?_map, List.getElem?_range hi]

/-- Substituting the variables `x0, ..., x(k-1)` for themselves sets the variables of
index `k` or more to zero and changes nothing else. -/
theorem evalIn_PolyCompose_vars {R : Type} [CommRing R] (h64 : (2 : R) ^ 64 = 0) (p : Poly)
    (k : Nat) (env : Nat → R) (hp : Canonical p = true) :
    evalIn (PolyCompose p k ((List.range k).map PolyVar)) env
      = evalIn p (fun i => if i < k then env i else 0) := by
  rw [evalIn_PolyCompose h64 p k _ env hp]
  congr 1
  funext i
  split
  · rename_i hi
    rw [getD_map_PolyVar k i hi, evalIn_PolyVar]
  · rfl

theorem PolyCompose_vars_eq (p : Poly) (k : Nat) (hp : Canonical p = true)
    (hr : ∀ a ∈ leafCoeffs p, InRange a) (hk : varDepth p ≤ k) :
    PolyCompose p k ((List.range k).map PolyVar) = p := by
  apply canonical_unique_mod _ p _ hp (inRange_PolyCompose p k _ hr) hr
  · rw [evalIn_PolyCompose_vars two_pow_eq_zero_mvPolynomial p k _ hp]
    apply evalIn_congr
    intro i hi
    rw [if_pos (by omega)]
  · apply canonical_PolyCompose
    intro x hx
    simp only [List.mem_map, List.mem_range] at hx
    obtain ⟨i, _, rfl⟩ := hx
    exact canonical_PolyVar i

theorem value_PolyVar (i : Nat) : ∀ env : Nat → Int, value (PolyVar i) env = env i := by
  induction i with
  | zero =>
    intro env
    simp [PolyVar, value, valueMonos]
  | succ i ih =>
    intro env
    simp [PolyVar, value, valueMonos, ih]

theorem coeffsInRange_leaf {p : Poly} (h : CoeffsInRange p = true) :
    ∀ a ∈ leafCoeffs p, InRange a := (coeffsInRange_iff p).mp h

theorem wellFormed_iff (p : Poly) :
    WellFormed p ↔ Canonical p = true ∧ ∀ a ∈ leafCoeffs p, InRange a := by
  rw [WellFormed, coeffsInRange_iff]

theorem wellFormed_coeff (c : Int) (hc : InRange c) : WellFormed (coeff c) := by
  rw [wellFormed_iff]
  refine ⟨rfl, ?_⟩
  intro a ha
  simp only [leafCoeffs, List.mem_singleton] at ha
  rw [ha]
  exact hc

theorem wellFormed_PolyZero : WellFormed PolyZero :=
  wellFormed_coeff 0 inRange_zero

theorem wellFormed_PolyAdd (p q : Poly) (hp : WellFormed p) (hq : WellFormed q) :
    WellFormed (PolyAdd p q) := by
  rw [wellFormed_iff] at *
  exact ⟨canonical_PolyAdd p q hp.1 hq.1, inRange_PolyAdd p q hp.2 hq.2⟩

theorem wellFormed_PolyMul (p q : Poly) (hp : WellFormed p) (hq : WellFormed q) :
    WellFormed (PolyMul p q) := by
  rw [wellFormed_iff] at *
  exact ⟨canonical_PolyMul p q hp.1 hq.1, inRange_PolyMul p q⟩

theorem PolyNegLoop_eq_map (arr : List Mono) :
    PolyNegLoop arr = arr.map (fun m => (PolyNeg m.1, m.2)) := by
  induction arr with
  | nil => rfl
  | cons m ms ih => rw [PolyNegLoop, ih]; rfl

theorem inRange_PolyNeg (p : Poly) : ∀ a ∈ leafCoeffs (PolyNeg p), InRange a := by
  induction p using Poly.induction_on with
  | hc c =>
    intro a ha
    simp only [PolyNeg, PolyFromCoeff, leafCoeffs, List.mem_singleton] at ha
    rw [ha]
    exact wrapCoeff_inRange _
  | hm arr ih =>
    intro a ha
    rw [PolyNeg, leafCoeffs] at ha
    induction arr with
    | nil => simp [PolyNegLoop, leafCoeffsList] at ha
    | cons m ms ihl =>
      rw [PolyNegLoop, leafCoeffsList, List.mem_append] at ha
      rcases ha with ha | ha
      · exact ih m (List.mem_cons_self _ _) a ha
      · exact ihl (fun x hx => ih x (List.mem_cons_of_mem _ hx)) ha

theorem wrapCoeff_neg_ne_zero (c : Int) (hc : InRange c) (h0 : c ≠ 0) :
    wrapCoeff (-1 * c) ≠ 0 := by
  unfold InRange at hc
  unfold wrapCoeff
  omega

theorem PolyIsZero_PolyNeg (p : Poly) (hr : ∀ a ∈ leafCoeffs p, InRange a)
    (hz : PolyIsZero p = false) : PolyIsZero (PolyNeg p) = false := by
  cases p with
  | coeff c =>
    simp only [PolyIsZero, decide_eq_false_iff_not] at hz
    simp only [PolyNeg, PolyFromCoeff, PolyIsZero, decide_eq_false_iff_not]
    exact wrapCoeff_neg_ne_zero c (hr c (by simp [leafCoeffs])) hz
  | monos arr => rfl

theorem PolyIsCoeff_PolyNeg (p : Poly) : PolyIsCoeff (PolyNeg p) = PolyIsCoeff p := by
  cases p <;> rfl

theorem canonical_PolyNeg (p : Poly) :
    Canonical p = true → (∀ a ∈ leafCoeffs p, InRange a) → Canonical (PolyNeg p) = true := by
  induction p using Poly.induction_on with
  | hc c => intro _ _; rfl
  | hm arr ih =>
    intro hcan hr
    rw [canonical_monos_iff] at hcan
    obtain ⟨hne, hsingle, hinc, hmem⟩ := hcan
    rw [PolyNeg, PolyNegLoop_eq_map, canonical_monos_iff]
    have hrm : ∀ m ∈ arr, ∀ a ∈ leafCoeffs m.1, InRange a := by
      intro m hm a ha
      apply hr
      rw [leafCoeffs, mem_leafCoeffsList]
      exact ⟨m, hm, ha⟩
    refine ⟨by simpa using hne, ?_, ?_, ?_⟩
    · intro c hc
      rcases arr with _ | ⟨m, _ | ⟨m2, rest⟩⟩
      · simp at hc
      · simp only [List.map_cons, List.map_nil, List.cons.injEq, Prod.mk.injEq, and_true] at hc
        obtain ⟨h1, h2⟩ := hc
        have h3 : PolyIsCoeff m.1 = true := by
          rw [← PolyIsCoeff_PolyNeg, h1]; rfl
        obtain ⟨p, n⟩ := m
        cases p with
        | coeff c0 =>
          simp only at h2
          subst h2
          exact hsingle c0 rfl
        | monos a0 => simp [PolyIsCoeff] at h3
      · simp at hc
    · unfold ExpsIncreasing at *
      rw [List.pairwise_map]
      exact hinc
    · intro m hm
      rw [List.mem_map] at hm
      obtain ⟨m0, hm0, rfl⟩ := hm
      exact ⟨PolyIsZero_PolyNeg m0.1 (hrm m0 hm0) (hmem m0 hm0).1,
        ih m0 hm0 (hmem m0 hm0).2 (hrm m0 hm0)⟩

theorem wellFormed_PolyNeg (p : Poly) (hp : WellFormed p) : WellFormed (PolyNeg p) := by
  rw [wellFormed_iff] at *
  exact ⟨canonical_PolyNeg p hp.1 hp.2, inRange_PolyNeg p⟩

theorem wellFormed_PolySub (p q : Poly) (hp : WellFormed p) (hq : WellFormed q) :
    WellFormed (PolySub p q) :=
  wellFormed_PolyAdd p (PolyNeg q) hp (wellFormed_PolyNeg q hq)

theorem wellFormed_PolyAtLoop (x : Int) (arr : List Mono) :
    ∀ acc, (∀ m ∈ arr, WellFormed m.1) → WellFormed acc → WellFormed (PolyAtLoop arr x acc) := by
  induction arr with
  | nil => intro acc _ h; exact h
  | cons m ms ih =>
    intro acc hm hacc
    rw [PolyAtLoop]
    apply ih _ (fun y hy => hm y (List.mem_cons_of_mem _ hy))
    apply wellFormed_PolyAdd _ _ hacc
    rw [wellFormed_iff]
    exact ⟨canonical_PolyMul _ _ (hm m (List.mem_cons_self _ _)).1 rfl, inRange_PolyMul _ _⟩

theorem wellFormed_of_mem_monos (arr : List Mono) (h : WellFormed (monos arr)) :
    ∀ m ∈ arr, WellFormed m.1 := by
  intro m hm
  rw [wellFormed_iff] at *
  refine ⟨((canonical_monos_iff arr).mp h.1).2.2.2 m hm |>.2, ?_⟩
  intro a ha
  apply h.2
  rw [leafCoeffs, mem_leafCoeffsList]
  exact ⟨m, hm, ha⟩

theorem wellFormed_PolyAt (p : Poly) (x : Int) (hp : WellFormed p) : WellFormed (PolyAt p x) := by
  cases p with
  | coeff c => exact hp
  | monos arr =>
    rw [PolyAt]
    exact wellFormed_PolyAtLoop x arr _ (wellFormed_of_mem_monos arr hp) wellFormed_PolyZero

theorem wellFormed_PolyCompose (p : Poly) (k : Nat) (q : List Poly) (hp : WellFormed p)
    (hq : ∀ x ∈ q, WellFormed x) : WellFormed (PolyCompose p k q) := by
  rw [wellFormed_iff] at *
  exact ⟨canonical_PolyCompose p k q (fun x hx => (hq x hx).1), inRange_PolyCompose p k q hp.2⟩

theorem wellFormed_PolyOwnMonos (ms : List Mono) (h : ∀ m ∈ ms, WellFormed m.1) :
    WellFormed (PolyOwnMonos ms) := by
  rw [wellFormed_iff, PolyOwnMonos_eq_with]
  exact ⟨canonical_PolyOwnMonosWith _ ms (isSortByExp_insertionSort ms).1
      (isSortByExp_insertionSort ms).2 (fun m hm => (h m hm).1),
    inRange_PolyOwnMonosWith _ ms (isSortByExp_insertionSort ms).1
      (fun m hm => ((wellFormed_iff _).mp (h m hm)).2)⟩

theorem clamp_inRange (c : Bool) (v : Int) (n e1 : Nat) :
    InRange (if c = true then (⟨0, n, 0⟩ : StrToNum)
      else if v > LLONG_MAX then ⟨LLONG_MAX, e1, ERANGE⟩
      else if v < LLONG_MIN then ⟨LLONG_MIN, e1, ERANGE⟩
      else ⟨v, e1, 0⟩).value := by
  unfold InRange
  simp only [LLONG_MAX, LLONG_MIN]
  split
  · norm_num
  · split
    · norm_num
    · split
      · norm_num
      · dsimp only
        constructor <;> omega

theorem strtoll_inRange (input : List Char) (nptr : Nat) :
    InRange (strtoll input nptr).value := by
  unfold strtoll
  exact clamp_inRange _ _ _ _

set_option maxHeartbeats 4000000 in
theorem CreateMonoLoop_unfold (input : List Char) (b e i : Nat) (is_poly : Bool) (hbi : b ≤ i)
    (hie : i < e) :
    CreateMonoLoop input b e i is_poly hbi hie =
      if charAt input i = ',' then
        if i + 1 = e ∨ charAt input (i + 1) = '+' then (MonoZero, false)
        else
          match CreatePoly input b i is_poly with
          | (p, ok) =>
            if (if CheckErrno (StrToPolyExp input (i + 1)).errno = false
                ∨ (StrToPolyExp input (i + 1)).endptr ≠ e then false else ok) = false then
              (MonoZero, false)
            else ((p, (StrToPolyExp input (i + 1)).value.toNat), ok)
      else if hib : i = b then (MonoZero, false)
      else CreateMonoLoop input b e (i - 1) is_poly (by omega) (by omega) := by
  rw [CreateMonoLoop]

theorem wellFormed_MonoZero : WellFormed MonoZero.1 := wellFormed_PolyZero

theorem wellFormed_mem_append_singleton (ms : List Mono) (mono : Mono)
    (h : ∀ m ∈ ms, WellFormed m.1) (hm : WellFormed mono.1) :
    ∀ m ∈ ms ++ [mono], WellFormed m.1 := by
  intro m hmem
  rw [List.mem_append, List.mem_singleton] at hmem
  rcases hmem with hmem | rfl
  · exact h m hmem
  · exact hm

theorem wellFormed_CreatePoly (input : List Char) (b e : Nat) (is_poly : Bool) :
    WellFormed (CreatePoly input b e is_poly).1 := by
  apply CreatePoly.induct input
    (fun b e ip => WellFormed (CreatePoly input b e ip).1)
    (fun b e i br ms bp pm ip hbi hbp hie => (∀ m ∈ ms, WellFormed m.1) →
      ∀ m ∈ (CreatePolyLoop input b e i br ms bp pm ip hbi hbp hie).1, WellFormed m.1)
    (fun b e ip => WellFormed (CreateMono input b e ip).1.1)
    (fun b e i ip hbi hie => WellFormed (CreateMonoLoop input b e i ip hbi hie).1.1)
  · intro b e ip h
    rw [CreatePoly, dif_pos h]
    exact wellFormed_PolyZero
  · intro b e ip h h2
    rw [CreatePoly, dif_neg h, if_pos h2]
    exact wellFormed_coeff _ (strtoll_inRange _ _)
  · intro b e ip h h2 h3
    rw [CreatePoly, dif_neg h, if_neg h2, if_pos h3]
    exact wellFormed_PolyZero
  · intro b e ip h h2 h3 ms heq _
    rw [CreatePoly, dif_neg h, if_neg h2, if_neg h3, heq]
    exact wellFormed_PolyZero
  · intro b e ip h h2 h3 ms ok heq hok ih
    rw [CreatePoly, dif_neg h, if_neg h2, if_neg h3, heq]
    simp only [if_neg hok]
    apply wellFormed_PolyOwnMonos
    have := ih (by simp)
    rw [heq] at this
    exact this
  · intro b i br ms bp pm ip hbi hbp hie hms
    rw [CreatePolyLoop, dif_pos rfl]
    exact hms
  · intro b e i br ms bp pm ip hbi hbp hie hne h2 hms
    rw [CreatePolyLoop, dif_neg hne, if_pos h2]
    exact hms
  · intro b e i br ms bp pm ip hbi hbp hie hne h2 h3 h4 mono heq ih hms
    simp only [dite_eq_ite] at *
    rw [CreatePolyLoop, dif_neg hne, if_neg h2, if_pos h3, if_pos h4, heq]
    simp only [if_true]
    rw [heq] at ih
    exact wellFormed_mem_append_singleton ms mono hms ih
  · intro b e i br ms bp pm ip hbi hbp hie hne h2 h3 h4 mono ok heq hok hn h5 ih hms
    simp only [dite_eq_ite] at *
    rw [CreatePolyLoop, dif_neg hne, if_neg h2, if_pos h3, if_pos h4, heq]
    simp only [if_neg hok, dif_pos hn, if_pos h5]
    rw [heq] at ih
    exact wellFormed_mem_append_singleton ms mono hms ih
  · intro b e i br ms bp pm ip hbi hbp hie hne h2 h3 h4 mono ok heq hok hn h5 ih ih2 hms
    simp only [dite_eq_ite] at *
    rw [CreatePolyLoop, dif_neg hne, if_neg h2, if_pos h3, if_pos h4, heq]
    simp only [if_neg hok, dif_pos hn, if_neg h5]
    rw [heq] at ih
    exact ih2 (wellFormed_mem_append_singleton ms mono hms ih)
  · intro b e i br ms bp pm ip hbi hbp hie hne h2 h3 h4 mono ok heq hok hn ih ih2 hms
    simp only [dite_eq_ite] at *
    rw [CreatePolyLoop, dif_neg hne, if_neg h2, if_pos h3, if_pos h4, heq]
    simp only [if_neg hok, dif_neg hn]
    rw [heq] at ih
    exact ih2 (wellFormed_mem_append_singleton ms mono hms ih)
  · intro b e i br ms bp pm ip hbi hbp hie hne h2 h3 h4 ih hms
    simp only [dite_eq_ite] at *
    rw [CreatePolyLoop, dif_neg hne, if_neg h2, if_pos h3, if_neg h4]
    exact ih hms
  · intro b e i br ms bp pm ip hbi hbp hie hne h2 h3 ih hms
    simp only [dite_eq_ite] at *
    rw [CreatePolyLoop, dif_neg hne, if_neg h2, if_neg h3]
    exact ih hms
  · intro b e ip h
    rw [CreateMono, dif_pos h]
    exact wellFormed_MonoZero
  · intro b e ip h ih
    rw [CreateMono, dif_neg h]
    exact ih
  · intro b e i ip hbi hie h1 h2
    rw [CreateMonoLoop_unfold, if_pos h1, if_pos h2]
    exact wellFormed_MonoZero
  · intro b e i ip hbi hie h1 h2 p ok heq h3 _
    simp only [dite_eq_ite] at h3
    rw [CreateMonoLoop_unfold, if_pos h1, if_neg h2, heq]
    simp only [if_pos h3]
    exact wellFormed_MonoZero
  · intro b e i ip hbi hie h1 h2 p ok heq h3 ih
    simp only [dite_eq_ite] at h3
    rw [CreateMonoLoop_unfold, if_pos h1, if_neg h2, heq]
    simp only [if_neg h3]
    rw [heq] at ih
    exact ih
  · intro e i ip hie h1 hbi
    rw [CreateMonoLoop_unfold, if_neg h1, dif_pos rfl]
    exact wellFormed_MonoZero
  · intro b e i ip hbi hie h1 h2 ih
    rw [CreateMonoLoop_unfold, if_neg h1, dif_neg h2]
    exact ih

theorem wellFormed_StackPop (stack : Stack) (h : ∀ p ∈ stack, WellFormed p) :
    WellFormed (StackPop stack).1 ∧ ∀ p ∈ (StackPop stack).2, WellFormed p := by
  cases stack with
  | nil => exact ⟨wellFormed_PolyZero, by simp [StackPop]⟩
  | cons a s =>
    exact ⟨h a (List.mem_cons_self _ _), fun p hp => h p (List.mem_cons_of_mem _ hp)⟩

theorem wellFormed_StackTop (stack : Stack) (h : ∀ p ∈ stack, WellFormed p) :
    WellFormed (StackTop stack) := (wellFormed_StackPop stack h).1

theorem wellFormed_StackPush (stack : Stack) (p : Poly) (h : ∀ x ∈ stack, WellFormed x)
    (hp : WellFormed p) : ∀ x ∈ StackPush stack p, WellFormed x := by
  intro x hx
  rw [StackPush, List.mem_cons] at hx
  rcases hx with rfl | hx
  · exact hp
  · exact h x hx

theorem wellFormed_Zero (stack : Stack) (h : ∀ p ∈ stack, WellFormed p) :
    ∀ p ∈ (Zero stack).stack, WellFormed p :=
  wellFormed_StackPush stack _ h wellFormed_PolyZero

theorem wellFormed_IsCoeff (stack : Stack) (h : ∀ p ∈ stack, WellFormed p) :
    ∀ p ∈ (IsCoeff stack).stack, WellFormed p := by
  unfold IsCoeff
  split <;> exact h

theorem wellFormed_IsZero (stack : Stack) (h : ∀ p ∈ stack, WellFormed p) :
    ∀ p ∈ (IsZero stack).stack, WellFormed p := by
  unfold IsZero
  split <;> exact h

theorem wellFormed_Clone (stack : Stack) (h : ∀ p ∈ stack, WellFormed p) :
    ∀ p ∈ (Clone stack).stack, WellFormed p := by
  unfold Clone
  split
  · exact h
  · exact wellFormed_StackPush stack _ h (wellFormed_StackTop stack h)

theorem wellFormed_Add (stack : Stack) (h : ∀ p ∈ stack, WellFormed p) :
    ∀ p ∈ (Add stack).stack, WellFormed p := by
  unfold Add
  split
  · exact h
  · have h1 := wellFormed_StackPop stack h
    have h2 := wellFormed_StackPop _ h1.2
    exact wellFormed_StackPush _ _ h2.2 (wellFormed_PolyAdd _ _ h1.1 h2.1)

theorem wellFormed_Mul (stack : Stack) (h : ∀ p ∈ stack, WellFormed p) :
    ∀ p ∈ (Mul stack).stack, WellFormed p := by
  unfold Mul
  split
  · exact h
  · have h1 := wellFormed_StackPop stack h
    have h2 := wellFormed_StackPop _ h1.2
    exact wellFormed_StackPush _ _ h2.2 (wellFormed_PolyMul _ _ h1.1 h2.1)

theorem wellFormed_Neg (stack : Stack) (h : ∀ p ∈ stack, WellFormed p) :
    ∀ p ∈ (Neg stack).stack, WellFormed p := by
  unfold Neg
  split
  · exact h
  · have h1 := wellFormed_StackPop stack h
    exact wellFormed_StackPush _ _ h1.2 (wellFormed_PolyNeg _ h1.1)

theorem wellFormed_Sub (stack : Stack) (h : ∀ p ∈ stack, WellFormed p) :
    ∀ p ∈ (Sub stack).stack, WellFormed p := by
  unfold Sub
  split
  · exact h
  · have h1 := wellFormed_StackPop stack h
    have h2 := wellFormed_StackPop _ h1.2
    exact wellFormed_StackPush _ _ h2.2 (wellFormed_PolySub _ _ h1.1 h2.1)

theorem wellFormed_IsEq (stack : Stack) (h : ∀ p ∈ stack, WellFormed p) :
    ∀ p ∈ (IsEq stack).stack, WellFormed p := by
  unfold IsEq
  split <;> exact h

theorem wellFormed_Deg (stack : Stack) (h : ∀ p ∈ stack, WellFormed p) :
    ∀ p ∈ (Deg stack).stack, WellFormed p := by
  unfold Deg
  split <;> exact h

theorem wellFormed_DegBy (stack : Stack) (idx : Nat) (h : ∀ p ∈ stack, WellFormed p) :
    ∀ p ∈ (DegBy stack idx).stack, WellFormed p := by
  unfold DegBy
  split <;> exact h

theorem wellFormed_At (stack : Stack) (x : Int) (h : ∀ p ∈ stack, WellFormed p) :
    ∀ p ∈ (At stack x).stack, WellFormed p := by
  unfold At
  split
  · exact h
  · have h1 := wellFormed_StackPop stack h
    exact wellFormed_StackPush _ _ h1.2 (wellFormed_PolyAt _ x h1.1)

theorem wellFormed_Print (stack : Stack) (h : ∀ p ∈ stack, WellFormed p) :
    ∀ p ∈ (Print stack).stack, WellFormed p := by
  unfold Print
  split <;> exact h

theorem wellFormed_Pop (stack : Stack) (h : ∀ p ∈ stack, WellFormed p) :
    ∀ p ∈ (Pop stack).stack, WellFormed p := by
  unfold Pop
  split
  · exact h
  · exact (wellFormed_StackPop stack h).2

theorem wellFormed_ComposePopLoop (n : Nat) : ∀ (stack : Stack), (∀ p ∈ stack, WellFormed p) →
    (∀ p ∈ (ComposePopLoop n stack).1, WellFormed p) ∧
    (∀ p ∈ (ComposePopLoop n stack).2, WellFormed p) := by
  induction n with
  | zero =>
    intro stack h
    exact ⟨by simp [ComposePopLoop], h⟩
  | succ n ih =>
    intro stack h
    have h1 := wellFormed_StackPop stack h
    have h2 := ih _ h1.2
    constructor
    · intro p hp
      simp only [ComposePopLoop, List.mem_append, List.mem_singleton] at hp
      rcases hp with hp | rfl
      · exact h2.1 p hp
      · exact h1.1
    · exact h2.2

theorem wellFormed_Compose (stack : Stack) (k : Nat) (h : ∀ p ∈ stack, WellFormed p) :
    ∀ p ∈ (Compose stack k).stack, WellFormed p := by
  unfold Compose
  split
  · exact h
  · have h1 := wellFormed_StackPop stack h
    have h2 := wellFormed_ComposePopLoop k _ h1.2
    exact wellFormed_StackPush _ _ h2.2 (wellFormed_PolyCompose _ k _ h1.1 h2.1)

theorem wellFormed_Size_TCommand (index read_characters : Nat) (input : List Char)
    (stack : Stack) (length : Nat) (command_name : List Char) (error : Nat → List Char)
    (function : Stack → Nat → CmdResult)
    (hf : ∀ s v, (∀ p ∈ s, WellFormed p) → ∀ p ∈ (function s v).stack, WellFormed p)
    (h : ∀ p ∈ stack, WellFormed p) :
    ∀ p ∈ (Size_TCommand index read_characters input stack length command_name error
      function).stack, WellFormed p := by
  unfold Size_TCommand
  dsimp only
  split
  · split <;> exact h
  · split
    · exact h
    · split
      · exact hf _ _ h
      · exact h

theorem wellFormed_ProcessAt (index read_characters : Nat) (input : List Char)
    (stack : Stack) (length : Nat) (h : ∀ p ∈ stack, WellFormed p) :
    ∀ p ∈ (ProcessAt index read_characters input stack length).stack, WellFormed p := by
  unfold ProcessAt
  dsimp only
  split
  · split <;> exact h
  · split
    · exact h
    · split
      · exact wellFormed_At _ _ h
      · exact h

theorem wellFormed_ProcessCommandLoop (index read_characters : Nat) (input : List Char)
    (stack : Stack) (h : ∀ p ∈ stack, WellFormed p)
    (cs : List ((Stack → CmdResult) × List Char))
    (hcs : ∀ c ∈ cs, ∀ s, (∀ p ∈ s, WellFormed p) → ∀ p ∈ (c.1 s).stack, WellFormed p) :
    ∀ p ∈ (ProcessCommandLoop index read_characters input stack cs).stack, WellFormed p := by
  induction cs with
  | nil => exact h
  | cons c cs ih =>
    rw [ProcessCommandLoop]
    split
    · exact hcs c (List.mem_cons_self _ _) stack h
    · exact ih (fun c hc => hcs c (List.mem_cons_of_mem _ hc))

theorem wellFormed_FUNCTION_NAMES :
    ∀ c ∈ FUNCTION_NAMES, ∀ s, (∀ p ∈ s, WellFormed p) → ∀ p ∈ (c.1 s).stack, WellFormed p := by
  intro c hc
  simp only [FUNCTION_NAMES, List.mem_cons, List.mem_singleton, List.not_mem_nil, or_false]
    at hc
  rcases hc with rfl | rfl | rfl | rfl | rfl | rfl | rfl | rfl | rfl | rfl | rfl | rfl
  · exact wellFormed_Zero
  · exact wellFormed_IsCoeff
  · exact wellFormed_IsZero
  · exact wellFormed_Clone
  · exact wellFormed_Add
  · exact wellFormed_Mul
  · exact wellFormed_Neg
  · exact wellFormed_Sub
  · exact wellFormed_IsEq
  · exact wellFormed_Deg
  · exact wellFormed_Print
  · exact wellFormed_Pop

theorem wellFormed_ProcessCommand (index read_characters : Nat) (input : List Char)
    (stack : Stack) (length : Nat) (h : ∀ p ∈ stack, WellFormed p) :
    ∀ p ∈ (ProcessCommand index read_characters input stack length).stack, WellFormed p := by
  unfold ProcessCommand
  dsimp only
  split
  · exact wellFormed_Size_TCommand _ _ _ _ _ _ _ _ (fun s v hs => wellFormed_DegBy s v hs) h
  · split
    · exact wellFormed_Size_TCommand _ _ _ _ _ _ _ _ (fun s v hs => wellFormed_Compose s v hs) h
    · split
      · exact wellFormed_ProcessAt _ _ _ _ _ h
      · split
        · exact h
        · exact wellFormed_ProcessCommandLoop _ _ _ _ h _ wellFormed_FUNCTION_NAMES

theorem wellFormed_ProcessPoly (index read_characters : Nat) (input : List Char)
    (stack : Stack) (h : ∀ p ∈ stack, WellFormed p) :
    ∀ p ∈ (ProcessPoly index read_characters input stack).stack, WellFormed p := by
  unfold ProcessPoly
  split
  · exact h
  · have hw := wellFormed_CreatePoly input 0 read_characters true
    split
    rename_i poly is_poly heq
    rw [heq] at hw
    split
    · exact h
    · exact wellFormed_StackPush _ _ h hw

theorem wellFormed_ProcessInput (index : Nat) (input : List Char) (stack : Stack)
    (h : ∀ p ∈ stack, WellFormed p) :
    ∀ p ∈ (ProcessInput index input stack).stack, WellFormed p := by
  unfold ProcessInput
  split
  · exact h
  · split
    · split
      · exact wellFormed_ProcessCommand _ _ _ _ _ h
      · exact h
    · split
      · exact h
      · split
        · split
          · exact h
          · split
            · exact wellFormed_ProcessCommand _ _ _ _ _ h
            · exact wellFormed_ProcessPoly _ _ _ _ h
        · split
          · exact wellFormed_ProcessCommand _ _ _ _ _ h
          · exact wellFormed_ProcessPoly _ _ _ _ h

theorem wellFormed_mainLoop (lines : List (List Char)) : ∀ (lines_counter : Nat) (st : Calc),
    (∀ p ∈ st.stack, WellFormed p) →
    ∀ p ∈ (mainLoop lines_counter st lines).stack, WellFormed p := by
  induction lines with
  | nil => intro _ st h; exact h
  | cons input rest ih =>
    intro n st h
    rw [mainLoop]
    exact ih _ _ (wellFormed_ProcessInput _ _ _ h)

theorem value_PolyNeg_cast (p : Poly) : ∀ env : Nat → Int,
    ((value (PolyNeg p) env : Int) : ZMod (2 ^ 64)) = -(value p env : ZMod (2 ^ 64)) := by
  induction p using Poly.induction_on with
  | hc c =>
    intro env
    simp only [PolyNeg, PolyFromCoeff, value]
    rw [wrapCoeff_cast]
    push_cast
    ring
  | hm arr ih =>
    intro env
    rw [PolyNeg, value, value]
    induction arr with
    | nil => simp [PolyNegLoop, valueMonos]
    | cons m ms ihl =>
      rw [PolyNegLoop, valueMonos, valueMonos]
      push_cast
      rw [ihl (fun x hx => ih x (List.mem_cons_of_mem _ hx)), ih m (List.mem_cons_self _ _)]
      ring

theorem value_PolySub_cast (p q : Poly) (env : Nat → Int) :
    ((value (PolySub p q) env : Int) : ZMod (2 ^ 64)) = value p env - value q env := by
  rw [PolySub, value_PolyAdd_cast, value_PolyNeg_cast]
  ring

theorem toDigitsCore_isdigit (fuel : Nat) : ∀ (n : Nat) (ds : List Char),
    (∀ c ∈ ds, isdigit c = true) → ∀ c ∈ Nat.toDigitsCore 10 fuel n ds, isdigit c = true := by
  induction fuel with
  | zero => intro n ds h; simpa [Nat.toDigitsCore] using h
  | succ f ih =>
    intro n ds h
    have hd : isdigit (Nat.digitChar (n % 10)) = true := by
      have hlt : n % 10 < 10 := Nat.mod_lt _ (by decide)
      generalize n % 10 = r at hlt
      interval_cases r <;> decide
    have h2 : ∀ c ∈ Nat.digitChar (n % 10) :: ds, isdigit c = true := by
      intro c hc
      rcases List.mem_cons.mp hc with rfl | hc
      · exact hd
      · exact h c hc
    rw [Nat.toDigitsCore]
    split
    · exact h2
    · exact ih _ _ h2

theorem printNat_isdigit (n : Nat) : ∀ c ∈ printNat n, isdigit c = true :=
  toDigitsCore_isdigit _ _ _ (by simp)

theorem printNat_ne_nil_aux (fuel : Nat) : ∀ (n : Nat) (ds : List Char),
    ds ≠ [] → Nat.toDigitsCore 10 fuel n ds ≠ [] := by
  induction fuel with
  | zero => intro n ds h; simpa [Nat.toDigitsCore] using h
  | succ f ih =>
    intro n ds _
    rw [Nat.toDigitsCore]
    split
    · simp
    · exact ih _ _ (by simp)

theorem printNat_ne_nil (n : Nat) : printNat n ≠ [] := by
  unfold printNat Nat.toDigits
  rw [Nat.toDigitsCore]
  split
  · simp
  · exact printNat_ne_nil_aux _ _ _ (by simp)

/-- The characters that `PolyPrint` can write. -/
theorem printCoeff_chars (c : Int) : ∀ x ∈ printCoeff c, isdigit x = true ∨ x = '-' := by
  intro x hx
  unfold printCoeff at hx
  split at hx
  · rcases List.mem_cons.mp hx with rfl | hx
    · exact Or.inr rfl
    · exact Or.inl (printNat_isdigit _ x hx)
  · exact Or.inl (printNat_isdigit _ x hx)

theorem isdigit_ne_newline (x : Char) (h : isdigit x = true) : x ≠ '\n' := by
  intro hx
  rw [hx] at h
  exact absurd h (by decide)

theorem newline_not_mem_printNat (n : Nat) : '\n' ∉ printNat n := by
  intro h
  exact isdigit_ne_newline _ (printNat_isdigit n _ h) rfl

theorem newline_not_mem_printCoeff (c : Int) : '\n' ∉ printCoeff c := by
  intro h
  rcases printCoeff_chars c _ h with h1 | h1
  · exact isdigit_ne_newline _ h1 rfl
  · exact absurd h1 (by decide)

theorem newline_not_mem_PolyPrint (p : Poly) : '\n' ∉ PolyPrint p := by
  induction p using Poly.induction_on with
  | hc c => exact newline_not_mem_printCoeff c
  | hm arr ih =>
    rw [PolyPrint]
    suffices h : ∀ first, '\n' ∉ PolyPrintLoop arr first from h true
    induction arr with
    | nil => intro first; simp [PolyPrintLoop]
    | cons m ms ihl =>
      intro first
      rw [PolyPrintLoop]
      have h1 := ih m (List.mem_cons_self _ _)
      have h2 := ihl (fun x hx => ih x (List.mem_cons_of_mem _ hx)) false
      have h3 := newline_not_mem_printNat m.2
      have h4 : '\n' ∉ (if first = true then [] else ['+']) := by
        split <;> simp
      simp only [List.mem_append, List.mem_singleton, List.mem_cons, List.not_mem_nil, or_false,
        not_or]
      exact ⟨⟨⟨⟨⟨⟨h4, by decide⟩, h1⟩, by decide⟩, h3⟩, by decide⟩, h2⟩

theorem oneLine_PrintlnBool (b : Bool) : OneLine (PrintlnBool b) := by
  cases b
  · exact ⟨['0'], rfl, by decide⟩
  · exact ⟨['1'], rfl, by decide⟩

theorem PolyExpMaxInt_eq_max (a b : Int) : PolyExpMaxInt a b = max a b := by
  unfold PolyExpMaxInt
  split <;> omega

theorem le_PolyDegLoop_ret (arr : List Mono) : ∀ ret : Int, ret ≤ PolyDegLoop arr ret := by
  induction arr with
  | nil => intro ret; simp [PolyDegLoop]
  | cons m ms ih =>
    intro ret
    rw [PolyDegLoop, PolyExpMaxInt_eq_max]
    exact le_trans (le_max_left _ _) (ih _)

theorem le_PolyDegLoop_mem (arr : List Mono) : ∀ ret : Int, ∀ m ∈ arr,
    (m.2 : Int) + PolyDeg m.1 ≤ PolyDegLoop arr ret := by
  induction arr with
  | nil => intro ret m hm; simp at hm
  | cons a ms ih =>
    intro ret m hm
    rw [PolyDegLoop, PolyExpMaxInt_eq_max]
    rcases List.mem_cons.mp hm with rfl | hm
    · exact le_trans (le_max_right _ _) (le_PolyDegLoop_ret ms _)
    · exact ih _ m hm

theorem PolyDegLoop_attained (arr : List Mono) : ∀ ret : Int,
    PolyDegLoop arr ret = ret ∨ ∃ m ∈ arr, PolyDegLoop arr ret = (m.2 : Int) + PolyDeg m.1 := by
  induction arr with
  | nil => intro ret; left; simp [PolyDegLoop]
  | cons a ms ih =>
    intro ret
    rw [PolyDegLoop, PolyExpMaxInt_eq_max]
    rcases ih (max ret ((a.2 : Int) + PolyDeg a.1)) with h | ⟨m, hm, h⟩
    · rw [h]
      rcases max_choice ret ((a.2 : Int) + PolyDeg a.1) with h2 | h2
      · left; exact h2
      · right; exact ⟨a, List.mem_cons_self _ _, h2⟩
    · right; exact ⟨m, List.mem_cons_of_mem _ hm, h⟩

theorem PolyDeg_nonneg (p : Poly) (h : PolyIsZero p = false) : 0 ≤ PolyDeg p := by
  cases p with
  | coeff c => simp [PolyDeg, h]
  | monos arr =>
    rw [PolyDeg]
    exact le_PolyDegLoop_ret arr 0

/-- For a canonical non-constant polynomial the degree is the largest value of
`exponent + PolyDeg coefficient` among the monomials. -/
theorem PolyDeg_monos_isMax (arr : List Mono) (h : Canonical (monos arr) = true) :
    (∀ m ∈ arr, (m.2 : Int) + PolyDeg m.1 ≤ PolyDeg (monos arr)) ∧
    ∃ m ∈ arr, PolyDeg (monos arr) = (m.2 : Int) + PolyDeg m.1 := by
  rw [canonical_monos_iff] at h
  obtain ⟨hne, _, _, hmem⟩ := h
  rw [PolyDeg]
  refine ⟨le_PolyDegLoop_mem arr 0, ?_⟩
  rcases PolyDegLoop_attained arr 0 with h0 | h0
  · cases arr with
    | nil => exact absurd rfl hne
    | cons a ms =>
      refine ⟨a, List.mem_cons_self _ _, ?_⟩
      have h1 := le_PolyDegLoop_mem (a :: ms) 0 a (List.mem_cons_self _ _)
      have h2 := PolyDeg_nonneg a.1 (hmem a (List.mem_cons_self _ _)).1
      rw [h0] at h1 ⊢
      omega
  · exact h0

theorem coeffAtMonos_of_mem (arr : List Mono) (hinc : ExpsIncreasing arr) (es : List Nat) :
    ∀ m ∈ arr, coeffAtMonos arr m.2 es = coeffAt m.1 es := by
  induction arr with
  | nil => intro m hm; simp at hm
  | cons a ms ih =>
    intro m hm
    rcases List.mem_cons.mp hm with rfl | hm
    · exact coeffAtMonos_head _ ms es hinc
    · have hlt := (List.pairwise_cons.mp hinc).1 m hm
      rw [coeffAtMonos, if_neg (by omega), ih (List.pairwise_cons.mp hinc).2 m hm]
      simp

theorem exists_mem_of_coeffAtMonos_ne_zero (arr : List Mono) (e : Nat) (es : List Nat)
    (h : coeffAtMonos arr e es ≠ 0) : ∃ m ∈ arr, m.2 = e ∧ coeffAt m.1 es ≠ 0 := by
  induction arr with
  | nil => simp [coeffAtMonos] at h
  | cons a ms ih =>
    rw [coeffAtMonos] at h
    by_cases ha : a.2 = e ∧ coeffAt a.1 es ≠ 0
    · exact ⟨a, List.mem_cons_self _ _, ha⟩
    · have h2 : coeffAtMonos ms e es ≠ 0 := by
        intro h0
        apply h
        rw [h0]
        by_cases he : a.2 = e
        · rw [if_pos he]
          have : coeffAt a.1 es = 0 := by
            by_contra hne
            exact ha ⟨he, hne⟩
          rw [this]
          rfl
        · rw [if_neg he]
          rfl
      obtain ⟨m, hm, h3⟩ := ih h2
      exact ⟨m, List.mem_cons_of_mem _ hm, h3⟩

theorem sum_eq_headD_add_tail (es : List Nat) : es.sum = es.headD 0 + es.tail.sum := by
  cases es <;> simp

/-- The degree of a canonical polynomial other than zero is the largest sum of exponents
among the power products with a coefficient other than zero. -/
theorem PolyDeg_total (p : Poly) : Canonical p = true → PolyIsZero p = false →
    (∀ es : List Nat, coeffAt p es ≠ 0 → ((es.sum : Nat) : Int) ≤ PolyDeg p) ∧
    ∃ es : List Nat, coeffAt p es ≠ 0 ∧ ((es.sum : Nat) : Int) = PolyDeg p := by
  induction p using Poly.induction_on with
  | hc c =>
    intro _ hz
    have hc : c ≠ 0 := by simpa [PolyIsZero] using hz
    constructor
    · intro es hes
      rw [coeffAt] at hes
      split at hes
      · rename_i hall
        have : es.sum = 0 := by
          rw [List.sum_eq_zero_iff]
          intro x hx
          simpa using (List.all_eq_true.mp hall) x hx
        simp [PolyDeg, hz, this]
      · exact absurd rfl hes
    · exact ⟨[], by simpa [coeffAt] using hc, by simp [PolyDeg, hz]⟩
  | hm arr ih =>
    intro hcan _
    have hmax := PolyDeg_monos_isMax arr hcan
    rw [canonical_monos_iff] at hcan
    obtain ⟨_, _, hinc, hmem⟩ := hcan
    constructor
    · intro es hes
      rw [coeffAt] at hes
      obtain ⟨m, hm, he, hne⟩ := exists_mem_of_coeffAtMonos_ne_zero arr _ _ hes
      have h1 := (ih m hm (hmem m hm).2 (hmem m hm).1).1 es.tail hne
      have h2 := hmax.1 m hm
      rw [he] at h2
      rw [sum_eq_headD_add_tail, Nat.cast_add]
      omega
    · obtain ⟨m, hm, hdeg⟩ := hmax.2
      obtain ⟨es, hes, hsum⟩ := (ih m hm (hmem m hm).2 (hmem m hm).1).2
      refine ⟨m.2 :: es, ?_, ?_⟩
      · rw [coeffAt]
        simp only [List.headD_cons, List.tail_cons]
        rw [coeffAtMonos_of_mem arr hinc es m hm]
        exact hes
      · rw [hdeg, ← hsum]
        simp

theorem PolyDegByLoop_le (arr : List Mono) (i : Nat)
    (hz : ∀ m ∈ arr, PolyIsZero m.1 = false)
    (hle : ∀ m ∈ arr, ∀ j, PolyDegBy m.1 j ≤ PolyDeg m.1) :
    ∀ ret ret2 : Int, ret ≤ ret2 → PolyDegByLoop arr i ret ≤ PolyDegLoop arr ret2 := by
  induction arr with
  | nil => intro ret ret2 h; simpa [PolyDegByLoop, PolyDegLoop] using h
  | cons a ms ih =>
    intro ret ret2 h
    rw [PolyDegByLoop, PolyDegLoop]
    apply ih (fun m hm => hz m (List.mem_cons_of_mem _ hm))
      (fun m hm => hle m (List.mem_cons_of_mem _ hm))
    have h1 := PolyDeg_nonneg a.1 (hz a (List.mem_cons_self _ _))
    have h2 := hle a (List.mem_cons_self _ _) (i - 1)
    simp only [PolyExpMaxInt_eq_max]
    split <;> omega

theorem PolyDegBy_le (p : Poly) : Canonical p = true → ∀ i, PolyDegBy p i ≤ PolyDeg p := by
  induction p using Poly.induction_on with
  | hc c => intro _ i; simp [PolyDegBy, PolyDeg]
  | hm arr ih =>
    intro hcan i
    rw [canonical_monos_iff] at hcan
    obtain ⟨_, _, _, hmem⟩ := hcan
    rw [PolyDegBy, PolyDeg]
    exact PolyDegByLoop_le arr i (fun m hm => (hmem m hm).1)
      (fun m hm j => ih m hm (hmem m hm).2 j) 0 0 (le_refl _)

theorem digitsValue_foldl (ds : List Char) : ∀ acc : Nat,
    ds.foldl (fun acc c => 10 * acc + (c.toNat - '0'.toNat)) acc
      = acc * 10 ^ ds.length + digitsValue ds := by
  unfold digitsValue
  induction ds with
  | nil => intro acc; simp
  | cons c cs ih =>
    intro acc
    simp only [List.foldl_cons, List.length_cons]
    rw [ih (10 * acc + _), ih (10 * 0 + _)]
    ring

theorem digitsValue_cons (c : Char) (ds : List Char) :
    digitsValue (c :: ds) = (c.toNat - '0'.toNat) * 10 ^ ds.length + digitsValue ds := by
  rw [digitsValue, List.foldl_cons, digitsValue_foldl]
  simp

theorem digitChar_toNat (d : Nat) (h : d < 10) : (Nat.digitChar d).toNat - '0'.toNat = d := by
  interval_cases d <;> rfl

theorem digitsValue_toDigitsCore (fuel : Nat) : ∀ (n : Nat) (ds : List Char), n < fuel →
    digitsValue (Nat.toDigitsCore 10 fuel n ds) = n * 10 ^ ds.length + digitsValue ds := by
  induction fuel with
  | zero => intro n ds h; omega
  | succ f ih =>
    intro n ds h
    rw [Nat.toDigitsCore]
    have hd := digitChar_toNat (n % 10) (Nat.mod_lt _ (by decide))
    split
    · rename_i h0
      rw [digitsValue_cons, hd]
      have : n % 10 = n := by omega
      rw [this]
    · rename_i h0
      rw [ih (n / 10) _ (by omega), digitsValue_cons, hd]
      simp only [List.length_cons, pow_succ]
      have := Nat.div_add_mod n 10
      calc n / 10 * (10 ^ ds.length * 10) + (n % 10 * 10 ^ ds.length + digitsValue ds)
          = (10 * (n / 10) + n % 10) * 10 ^ ds.length + digitsValue ds := by ring
        _ = n * 10 ^ ds.length + digitsValue ds := by rw [this]

theorem digitsValue_printNat (n : Nat) : digitsValue (printNat n) = n := by
  unfold printNat Nat.toDigits
  rw [digitsValue_toDigitsCore _ _ _ (Nat.lt_succ_self n)]
  simp [digitsValue]

theorem takeWhile_append_of_all (p : Char → Bool) (l r : List Char)
    (hl : ∀ c ∈ l, p c = true) (hr : ∀ c, r.head? = some c → p c = false) :
    (l ++ r).takeWhile p = l := by
  induction l with
  | nil =>
    cases r with
    | nil => rfl
    | cons c cs => simp [List.takeWhile, hr c rfl]
  | cons a l ih =>
    rw [List.cons_append, List.takeWhile_cons, if_pos (hl a (List.mem_cons_self _ _)),
      ih (fun c hc => hl c (List.mem_cons_of_mem _ hc))]

theorem charAt_of_drop (input : List Char) (i : Nat) (c : Char) (rest : List Char)
    (h : input.drop i = c :: rest) : charAt input i = c := by
  unfold charAt
  rw [List.getD_eq_getElem?_getD]
  have h2 : (input.drop i)[0]? = some c := by rw [h]; simp
  rw [List.getElem?_drop] at h2
  simp only [Nat.add_zero] at h2
  rw [h2]
  rfl

theorem drop_succ_of_drop (input : List Char) (i : Nat) (c : Char) (rest : List Char)
    (h : input.drop i = c :: rest) : input.drop (i + 1) = rest := by
  have : input.drop (i + 1) = (input.drop i).drop 1 := by
    rw [List.drop_drop, Nat.add_comm]
  rw [this, h]
  rfl

theorem drop_add_of_drop (input : List Char) (i : Nat) (t rest : List Char)
    (h : input.drop i = t ++ rest) : input.drop (i + t.length) = rest := by
  have : input.drop (i + t.length) = (input.drop i).drop t.length := by
    rw [List.drop_drop, Nat.add_comm]
  rw [this, h, List.drop_left]

theorem charAt_nil_drop (input : List Char) (i : Nat) (h : input.drop i = []) :
    charAt input i = NUL := by
  unfold charAt
  rw [List.getD_eq_getElem?_getD]
  have h2 : input.length ≤ i := List.drop_eq_nil_iff.mp h
  rw [List.getElem?_eq_none h2]
  rfl

theorem isspace_of_isdigit (c : Char) (h : isdigit c = true) : isspace c = false := by
  unfold isdigit at h
  unfold isspace
  simp only [Bool.and_eq_true, decide_eq_true_eq] at h
  have h1 : c ≠ ' ' := by
    intro hc
    rw [hc] at h
    exact absurd h.1 (by decide)
  have h2 : ¬ (c.toNat ≤ 13) := by
    have : '0'.toNat = 48 := rfl
    omega
  simp [h1, h2]

theorem isdigit_ne (c x : Char) (h : isdigit c = true) (hx : isdigit x = false) : c ≠ x := by
  intro hc
  rw [hc, hx] at h
  exact absurd h (by simp)

theorem takeWhile_nil_of_head (p : Char → Bool) (c : Char) (rest : List Char)
    (h : p c = false) : (c :: rest).takeWhile p = [] := by
  simp [List.takeWhile, h]

/-- A conversion by `strtoll` of a text that starts with the decimal digits of `n`. -/
theorem strtoll_printNat (input : List Char) (i n : Nat) (rest : List Char)
    (h : input.drop i = printNat n ++ rest)
    (hr : ∀ c, rest.head? = some c → isdigit c = false) (hn : (n : Int) ≤ LLONG_MAX) :
    strtoll input i = ⟨n, i + (printNat n).length, 0⟩ := by
  obtain ⟨d0, ds0, hd⟩ := List.exists_cons_of_ne_nil (printNat_ne_nil n)
  have hd0 : isdigit d0 = true := printNat_isdigit n d0 (by rw [hd]; exact List.mem_cons_self _ _)
  have hdrop : input.drop i = d0 :: (ds0 ++ rest) := by rw [h, hd]; rfl
  have hsp : (input.drop i).takeWhile isspace = [] := by
    rw [hdrop]
    exact takeWhile_nil_of_head _ _ _ (isspace_of_isdigit d0 hd0)
  have hc : charAt input i = d0 := charAt_of_drop input i d0 _ hdrop
  have hm : (charAt input i == '-') = false := by
    rw [hc]
    exact beq_false_of_ne (isdigit_ne d0 '-' hd0 (by decide))
  have hp : (charAt input i == '+') = false := by
    rw [hc]
    exact beq_false_of_ne (isdigit_ne d0 '+' hd0 (by decide))
  have hds : (input.drop i).takeWhile isdigit = printNat n := by
    rw [h]
    exact takeWhile_append_of_all _ _ _ (printNat_isdigit n) hr
  have hne : (printNat n).isEmpty = false := by
    rw [hd]; rfl
  unfold LLONG_MAX at hn
  simp only [strtoll, hsp, List.length_nil, Nat.add_zero, hm, hp, Bool.or_self, Bool.false_eq_true,
    if_false, hds, hne, digitsValue_printNat, LLONG_MAX, LLONG_MIN]
  rw [if_neg (by omega), if_neg (by omega)]

/-- A conversion by `strtoll` of a text that starts with a minus sign and the decimal
digits of `n`. -/
theorem strtoll_neg_printNat (input : List Char) (i n : Nat) (rest : List Char)
    (h : input.drop i = '-' :: (printNat n ++ rest))
    (hr : ∀ c, rest.head? = some c → isdigit c = false) (hn : LLONG_MIN ≤ -(n : Int)) :
    strtoll input i = ⟨-(n : Int), i + 1 + (printNat n).length, 0⟩ := by
  have hsp : (input.drop i).takeWhile isspace = [] := by
    rw [h]
    exact takeWhile_nil_of_head _ _ _ (by decide)
  have hc : charAt input i = '-' := charAt_of_drop input i _ _ h
  have hm : (charAt input i == '-') = true := by
    rw [hc]; rfl
  have hds : (input.drop (i + 1)).takeWhile isdigit = printNat n := by
    rw [drop_succ_of_drop input i _ _ h]
    exact takeWhile_append_of_all _ _ _ (printNat_isdigit n) hr
  obtain ⟨d0, ds0, hd⟩ := List.exists_cons_of_ne_nil (printNat_ne_nil n)
  have hne : (printNat n).isEmpty = false := by
    rw [hd]; rfl
  unfold LLONG_MIN at hn
  simp only [strtoll, hsp, List.length_nil, Nat.add_zero, hm, Bool.true_or, if_true, hds, hne,
    Bool.false_eq_true, if_false, digitsValue_printNat, LLONG_MAX, LLONG_MIN]
  rw [if_neg (by omega), if_neg (by omega)]

theorem length_printCoeff_neg (c : Int) (h : c < 0) :
    (printCoeff c).length = 1 + (printNat c.natAbs).length := by
  rw [printCoeff, if_pos h, List.length_cons, Nat.add_comm]

/-- A conversion by `strtoll` of the text that `printCoeff` writes for a coefficient in
range gives the coefficient back and stops after the text. -/
theorem strtoll_printCoeff (input : List Char) (i : Nat) (c : Int) (rest : List Char)
    (h : input.drop i = printCoeff c ++ rest)
    (hr : ∀ x, rest.head? = some x → isdigit x = false) (hc : InRange c) :
    strtoll input i = ⟨c, i + (printCoeff c).length, 0⟩ := by
  unfold InRange at hc
  by_cases hneg : c < 0
  · rw [length_printCoeff_neg c hneg, ← Nat.add_assoc]
    rw [printCoeff, if_pos hneg] at h
    have := strtoll_neg_printNat input i c.natAbs rest h hr (by unfold LLONG_MIN; omega)
    rw [this]
    congr 1
    omega
  · rw [printCoeff, if_neg hneg] at h ⊢
    have := strtoll_printNat input i c.natAbs rest h hr (by unfold LLONG_MAX; omega)
    rw [this]
    congr 1
    omega

/-- At an opening bracket `strtoll` converts nothing. -/
theorem strtoll_of_not_number (input : List Char) (i : Nat) (x : Char) (rest : List Char)
    (h : input.drop i = x :: rest) (hsp : isspace x = false) (hd : isdigit x = false)
    (hm : x ≠ '-') (hp : x ≠ '+') : strtoll input i = ⟨0, i, 0⟩ := by
  have h1 : (input.drop i).takeWhile isspace = [] := by
    rw [h]
    exact takeWhile_nil_of_head _ _ _ hsp
  have hc : charAt input i = x := charAt_of_drop input i _ _ h
  have h2 : (charAt input i == '-') = false := by
    rw [hc]; exact beq_false_of_ne hm
  have h3 : (charAt input i == '+') = false := by
    rw [hc]; exact beq_false_of_ne hp
  have h4 : (input.drop i).takeWhile isdigit = [] := by
    rw [h]
    exact takeWhile_nil_of_head _ _ _ hd
  simp [strtoll, h1, h2, h3, h4]

theorem scanDepth_append (k : Int) (a b : List Char) :
    scanDepth k (a ++ b) = scanDepth (scanDepth k a) b := by
  simp [scanDepth, List.foldl_append]

theorem scanDepth_cons (k : Int) (c : Char) (t : List Char) :
    scanDepth k (c :: t) = scanDepth (depthStep k c) t := rfl

theorem staysOpen_append (a : List Char) : ∀ (k : Int) (b : List Char),
    StaysOpen k (a ++ b) ↔ StaysOpen k a ∧ StaysOpen (scanDepth k a) b := by
  induction a with
  | nil => intro k b; simp [StaysOpen, scanDepth]
  | cons c cs ih =>
    intro k b
    rw [List.cons_append, StaysOpen, StaysOpen, ih, scanDepth_cons, and_assoc]

theorem depthStep_of_not_bracket (k : Int) (c : Char) (h1 : c ≠ '(') (h2 : c ≠ ')') :
    depthStep k c = k := by
  rw [depthStep, if_neg h1, if_neg h2]

theorem scan_of_no_bracket (t : List Char) (h : ∀ c ∈ t, c ≠ '(' ∧ c ≠ ')') (k : Int)
    (hk : 1 ≤ k) : StaysOpen k t ∧ scanDepth k t = k := by
  induction t with
  | nil => exact ⟨trivial, rfl⟩
  | cons c cs ih =>
    have hc := h c (List.mem_cons_self _ _)
    have hs := depthStep_of_not_bracket k c hc.1 hc.2
    have := ih (fun x hx => h x (List.mem_cons_of_mem _ hx))
    rw [StaysOpen, scanDepth_cons, hs]
    exact ⟨⟨hk, this.1⟩, this.2⟩

theorem isdigit_not_bracket (c : Char) (h : isdigit c = true) : c ≠ '(' ∧ c ≠ ')' :=
  ⟨isdigit_ne c _ h (by decide), isdigit_ne c _ h (by decide)⟩

theorem printNat_no_bracket (n : Nat) : ∀ c ∈ printNat n, c ≠ '(' ∧ c ≠ ')' :=
  fun c hc => isdigit_not_bracket c (printNat_isdigit n c hc)

theorem printCoeff_no_bracket (x : Int) : ∀ c ∈ printCoeff x, c ≠ '(' ∧ c ≠ ')' := by
  intro c hc
  rcases printCoeff_chars x c hc with h | h
  · exact isdigit_not_bracket c h
  · rw [h]
    exact ⟨by decide, by decide⟩

theorem PolyPrintLoop_cons (m : Mono) (ms : List Mono) (first : Bool) :
    PolyPrintLoop (m :: ms) first
      = (if first then [] else ['+']) ++ ('(' :: (PolyPrint m.1 ++ ',' :: (printNat m.2
          ++ ')' :: PolyPrintLoop ms false))) := by
  rw [PolyPrintLoop]
  simp

theorem PolyPrintLoop_false (m : Mono) (ms : List Mono) :
    PolyPrintLoop (m :: ms) false = '+' :: PolyPrintLoop (m :: ms) true := by
  rw [PolyPrintLoop_cons, PolyPrintLoop_cons]
  simp

/-- The text of a polynomial keeps every bracket that is open before it open, and leaves
the count of open brackets as it was. -/
theorem nested_PolyPrint (p : Poly) : ∀ k : Int, 1 ≤ k →
    StaysOpen k (PolyPrint p) ∧ scanDepth k (PolyPrint p) = k := by
  induction p using Poly.induction_on with
  | hc c =>
    intro k hk
    exact scan_of_no_bracket _ (printCoeff_no_bracket c) k hk
  | hm arr ih =>
    intro k hk
    rw [PolyPrint]
    suffices h : ∀ first, StaysOpen k (PolyPrintLoop arr first) ∧
        scanDepth k (PolyPrintLoop arr first) = k from h true
    induction arr with
    | nil => intro first; exact ⟨trivial, rfl⟩
    | cons m ms ihl =>
      intro first
      have h1 := ih m (List.mem_cons_self _ _) (k + 1) (by omega)
      have h2 := ihl (fun x hx => ih x (List.mem_cons_of_mem _ hx)) false
      have h3 := scan_of_no_bracket _ (printNat_no_bracket m.2) (k + 1) (by omega)
      have h4 : StaysOpen k (if first = true then [] else ['+']) ∧
          scanDepth k (if first = true then [] else ['+']) = k := by
        split
        · exact ⟨trivial, rfl⟩
        · exact scan_of_no_bracket _ (by simp) k hk
      have ho : depthStep k '(' = k + 1 := by simp [depthStep]
      have hcm : depthStep (k + 1) ',' = k + 1 := by
        rw [depthStep_of_not_bracket] <;> decide
      have hcl : depthStep (k + 1) ')' = k := by
        rw [depthStep, if_neg (by decide), if_pos rfl]
        omega
      rw [PolyPrintLoop_cons]
      constructor
      · rw [staysOpen_append, h4.2, StaysOpen, ho, staysOpen_append, h1.2, StaysOpen, hcm,
          staysOpen_append, h3.2, StaysOpen, hcl]
        exact ⟨h4.1, by omega, h1.1, by omega, h3.1, hk, h2.1⟩
      · rw [scanDepth_append, h4.2, scanDepth_cons, ho, scanDepth_append, h1.2, scanDepth_cons,
          hcm, scanDepth_append, h3.2, scanDepth_cons, hcl]
        exact h2.2

theorem CountLoop_nested (input : List Char) (t : List Char) :
    ∀ (i : Nat) (k : Int) (n m : Nat) (post : List Char), input.drop i = t ++ post →
      StaysOpen k t →
      CountMonosAndCheckLoop input i k n (t.length + m)
        = CountMonosAndCheckLoop input (i + t.length) (scanDepth k t) n m := by
  induction t with
  | nil => intro i k n m post _ _; simp [scanDepth]
  | cons c cs ih =>
    intro i k n m post h hs
    have hc := charAt_of_drop input i c _ h
    have hd := drop_succ_of_drop input i c _ h
    rw [StaysOpen] at hs
    have hlen : (c :: cs).length + m = (cs.length + m) + 1 := by
      simp only [List.length_cons]; omega
    have hidx : i + (c :: cs).length = (i + 1) + cs.length := by
      simp only [List.length_cons]; omega
    rw [hlen, hidx, CountMonosAndCheckLoop, scanDepth_cons, ← ih (i + 1) _ n m post hd hs.2]
    simp only [hc]
    by_cases h1 : c = '('
    · subst h1
      have : depthStep k '(' = k + 1 := by simp [depthStep]
      simp [this]
    · by_cases h2 : c = ')'
      · subst h2
        have hstep : depthStep k ')' = k - 1 := by
          rw [depthStep, if_neg (by decide), if_pos rfl]
        have h1le := hs.1
        rw [hstep] at h1le ⊢
        have e1 : ((')' : Char) == '(') = false := by decide
        simp only [e1, Bool.false_eq_true, if_false, beq_self_eq_true, if_true]
        rw [if_neg (by omega), if_neg (by omega)]
      · rw [depthStep_of_not_bracket k c h1 h2]
        simp [h1, h2]

theorem CountLoop_open (input : List Char) (i : Nat) (k : Int) (n m : Nat)
    (h : charAt input i = '(') :
    CountMonosAndCheckLoop input i k n (m + 1) = CountMonosAndCheckLoop input (i + 1) (k + 1) n m := by
  rw [CountMonosAndCheckLoop]
  simp [h]

theorem CountLoop_close_last (input : List Char) (i : Nat) (n m : Nat)
    (h : charAt input i = ')') :
    CountMonosAndCheckLoop input i 1 n (m + 1) = CountMonosAndCheckLoop input (i + 1) 0 (n + 1) m := by
  rw [CountMonosAndCheckLoop]
  simp [h]

theorem CountLoop_other (input : List Char) (i : Nat) (k : Int) (n m : Nat)
    (h1 : charAt input i ≠ '(') (h2 : charAt input i ≠ ')') :
    CountMonosAndCheckLoop input i k n (m + 1) = CountMonosAndCheckLoop input (i + 1) k n m := by
  rw [CountMonosAndCheckLoop]
  simp [h1, h2]

/-- The text between the brackets of a monomial: the coefficient, a comma and the
exponent. -/
theorem nested_mono_inner (p : Poly) (e : Nat) :
    StaysOpen 1 (PolyPrint p ++ ',' :: printNat e) ∧
    scanDepth 1 (PolyPrint p ++ ',' :: printNat e) = 1 := by
  have h1 := nested_PolyPrint p 1 (le_refl _)
  have h3 := scan_of_no_bracket _ (printNat_no_bracket e) 1 (le_refl _)
  have hcm : depthStep 1 ',' = 1 := by
    rw [depthStep_of_not_bracket] <;> decide
  constructor
  · rw [staysOpen_append, h1.2, StaysOpen, hcm]
    exact ⟨h1.1, le_refl _, h3.1⟩
  · rw [scanDepth_append, h1.2, scanDepth_cons, hcm]
    exact h3.2

theorem CountLoop_mono (input : List Char) (i : Nat) (p : Poly) (e : Nat) (post : List Char)
    (n m : Nat)
    (h : input.drop i = '(' :: (PolyPrint p ++ ',' :: (printNat e ++ ')' :: post))) :
    CountMonosAndCheckLoop input i 0 n ((PolyPrint p).length + (printNat e).length + 3 + m)
      = CountMonosAndCheckLoop input (i + ((PolyPrint p).length + (printNat e).length + 3)) 0
          (n + 1) m := by
  have hc := charAt_of_drop input i _ _ h
  have hd := drop_succ_of_drop input i _ _ h
  have hd2 : input.drop (i + 1) = (PolyPrint p ++ ',' :: printNat e) ++ (')' :: post) := by
    rw [hd]; simp
  have hin := nested_mono_inner p e
  have hlen : (PolyPrint p ++ ',' :: printNat e).length
      = (PolyPrint p).length + (printNat e).length + 1 := by
    simp only [List.length_append, List.length_cons]; omega
  have hd3 := drop_add_of_drop input (i + 1) _ _ hd2
  have hc3 := charAt_of_drop input _ _ _ hd3
  have e1 : (PolyPrint p).length + (printNat e).length + 3 + m
      = ((PolyPrint p ++ ',' :: printNat e).length + (m + 1)) + 1 := by omega
  rw [e1, CountLoop_open input i 0 n _ hc,
    CountLoop_nested input _ (i + 1) (0 + 1) n (m + 1) _ hd2 hin.1]
  have e2 : (0 : Int) + 1 = 1 := rfl
  rw [e2, hin.2, CountLoop_close_last input _ n m hc3]
  congr 1
  omega

theorem length_PolyPrintLoop_cons (m : Mono) (ms : List Mono) :
    (PolyPrintLoop (m :: ms) true).length
      = (PolyPrint m.1).length + (printNat m.2).length + 3 + (PolyPrintLoop ms false).length := by
  rw [PolyPrintLoop_cons]
  simp only [if_true, List.nil_append, List.length_append, List.length_cons]
  omega

theorem CountLoop_monos (input : List Char) (ms : List Mono) :
    ∀ (i n m : Nat) (post : List Char), ms ≠ [] →
      input.drop i = PolyPrintLoop ms true ++ post →
      CountMonosAndCheckLoop input i 0 n ((PolyPrintLoop ms true).length + m)
        = CountMonosAndCheckLoop input (i + (PolyPrintLoop ms true).length) 0 (n + ms.length) m := by
  induction ms with
  | nil => intro i n m post h; exact absurd rfl h
  | cons a ms ih =>
    intro i n m post _ h
    rw [PolyPrintLoop_cons] at h
    simp only [if_true, List.nil_append, List.cons_append, List.append_assoc] at h
    rw [length_PolyPrintLoop_cons]
    have hmono := CountLoop_mono input i a.1 a.2 _ n ((PolyPrintLoop ms false).length + m) h
    rw [Nat.add_assoc _ (PolyPrintLoop ms false).length m, hmono]
    have hd : input.drop (i + ((PolyPrint a.1).length + (printNat a.2).length + 3))
        = PolyPrintLoop ms false ++ post := by
      have h2 : input.drop i = ('(' :: (PolyPrint a.1 ++ ',' :: (printNat a.2 ++ [')'])))
          ++ (PolyPrintLoop ms false ++ post) := by
        rw [h]; simp
      have := drop_add_of_drop input i _ _ h2
      rw [← this]
      congr 1
      simp only [List.length_cons, List.length_append, List.length_nil]
      omega
    cases ms with
    | nil =>
      simp [PolyPrintLoop]
    | cons b ms2 =>
      rw [PolyPrintLoop_false] at hd ⊢
      have hc := charAt_of_drop input _ _ _ hd
      have hd2 := drop_succ_of_drop input _ _ _ hd
      have e1 : ('+' :: PolyPrintLoop (b :: ms2) true).length + m
          = ((PolyPrintLoop (b :: ms2) true).length + m) + 1 := by
        simp only [List.length_cons]; omega
      rw [e1, CountLoop_other input _ 0 (n + 1) _ (by rw [hc]; decide) (by rw [hc]; decide),
        ih _ (n + 1) m post (by simp) hd2]
      congr 1
      · simp only [List.length_cons]; omega
      · simp only [List.length_cons]; omega

theorem CountMonosAndCheck_monos (input : List Char) (ms : List Mono) (b : Nat)
    (post : List Char) (hne : ms ≠ []) (h : input.drop b = PolyPrintLoop ms true ++ post) :
    (CountMonosAndCheck input b (b + (PolyPrintLoop ms true).length)).2 = true := by
  have h1 := CountLoop_monos input ms b 0 0 post hne h
  simp only [Nat.add_zero] at h1
  have hl : 0 < ms.length := List.length_pos.mpr hne
  have h0 : ¬ (ms.length = 0) := by omega
  simp [CountMonosAndCheck, h1, CountMonosAndCheckLoop, h0]

theorem CreatePolyLoop_congr (input : List Char) (b e : Nat) {i i2 : Nat} {k k2 : Int}
    {ms ms2 : List Mono} {bp bp2 : Nat} {pm pm2 ip ip2 : Bool}
    (hi : i = i2) (hk : k = k2) (hms : ms = ms2) (hbp : bp = bp2) (hpm : pm = pm2)
    (hip : ip = ip2) (h1 : b ≤ i) (h2 : b ≤ bp) (h3 : i ≤ e) (h4 : b ≤ i2) (h5 : b ≤ bp2)
    (h6 : i2 ≤ e) :
    CreatePolyLoop input b e i k ms bp pm ip h1 h2 h3
      = CreatePolyLoop input b e i2 k2 ms2 bp2 pm2 ip2 h4 h5 h6 := by
  subst hi hk hms hbp hpm hip
  rfl

/-- One round of the loop of `CreatePoly` inside a monomial, at a character that does not
close the monomial. -/
theorem CreatePolyLoop_step_inner (input : List Char) (b e i : Nat) (k : Int)
    (ms : List Mono) (bp : Nat) (c : Char) (hc : charAt input i = c)
    (hk : 1 ≤ depthStep k c) (hie : i + 1 < e) (h1 : b ≤ i) (h2 : b ≤ bp) (h3 : i ≤ e)
    (h4 : b ≤ i + 1) (h6 : i + 1 ≤ e) :
    CreatePolyLoop input b e i k ms bp true true h1 h2 h3
      = CreatePolyLoop input b e (i + 1) (depthStep k c) ms bp true true h4 h2 h6 := by
  rw [CreatePolyLoop, dif_neg (by omega), if_neg (by simp)]
  by_cases hcl : c = ')'
  · subst hcl
    have hstep : depthStep k ')' = k - 1 := by
      rw [depthStep, if_neg (by decide), if_pos rfl]
    rw [hstep] at hk
    rw [if_pos hc, if_neg (by rw [hc]; simp; omega)]
    apply CreatePolyLoop_congr
    · rfl
    · rw [hc, hstep]; simp
    · rfl
    · simp
    · rfl
    · rw [if_neg (by omega)]
  · rw [if_neg (by rw [hc]; exact hcl)]
    apply CreatePolyLoop_congr
    · rfl
    · rw [hc, depthStep]
      by_cases ho : c = '('
      · simp [ho]
      · simp [ho, hcl]
    · rfl
    · simp
    · rfl
    · rw [if_neg (by omega)]

theorem CreatePolyLoop_nested (input : List Char) (b e : Nat) (ms : List Mono) (bp : Nat)
    (t : List Char) :
    ∀ (i : Nat) (k : Int) (post : List Char), input.drop i = t ++ post → StaysOpen k t →
      i + t.length < e →
      ∀ (h1 : b ≤ i) (h2 : b ≤ bp) (h3 : i ≤ e) (h4 : b ≤ i + t.length) (h6 : i + t.length ≤ e),
      CreatePolyLoop input b e i k ms bp true true h1 h2 h3
        = CreatePolyLoop input b e (i + t.length) (scanDepth k t) ms bp true true h4 h2 h6 := by
  induction t with
  | nil =>
    intro i k post _ _ _ h1 h2 h3 h4 h6
    exact CreatePolyLoop_congr input b e rfl rfl rfl rfl rfl rfl _ _ _ _ _ _
  | cons c cs ih =>
    intro i k post h hs hlt h1 h2 h3 h4 h6
    have hc := charAt_of_drop input i c _ h
    have hd := drop_succ_of_drop input i c _ h
    rw [StaysOpen] at hs
    simp only [List.length_cons] at hlt
    rw [CreatePolyLoop_step_inner input b e i k ms bp c hc hs.1 (by omega) h1 h2 h3 (by omega)
      (by omega)]
    rw [ih (i + 1) _ post hd hs.2 (by omega) (by omega) h2 (by omega) (by omega) (by omega)]
    apply CreatePolyLoop_congr
    · simp only [List.length_cons]; omega
    · rfl
    · rfl
    · rfl
    · rfl
    · rfl

/-- The round of the loop of `CreatePoly` at the opening bracket of a monomial. -/
theorem CreatePolyLoop_step_open (input : List Char) (b e i : Nat) (ms : List Mono)
    (bp : Nat) (hc : charAt input i = '(') (hie : i + 1 < e) (h1 : b ≤ i) (h2 : b ≤ bp)
    (h3 : i ≤ e) (h4 : b ≤ i + 1) (h6 : i + 1 ≤ e) :
    CreatePolyLoop input b e i 0 ms bp false true h1 h2 h3
      = CreatePolyLoop input b e (i + 1) 1 ms (i + 1) true true h4 h4 h6 := by
  rw [CreatePolyLoop, dif_neg (by omega), if_neg (by simp [hc]), if_neg (by rw [hc]; decide)]
  apply CreatePolyLoop_congr
  · rfl
  · simp [hc]
  · rfl
  · simp
  · rfl
  · rw [if_neg (by omega)]

/-- The round of the loop of `CreatePoly` at the bracket that closes the last monomial. -/
theorem CreatePolyLoop_step_close_last (input : List Char) (b e i : Nat) (ms : List Mono)
    (bp : Nat) (mono : Mono) (hc : charAt input i = ')')
    (hm : CreateMono input bp i true = (mono, true)) (hie : i + 1 = e) (h1 : b ≤ i)
    (h2 : b ≤ bp) (h3 : i ≤ e) :
    CreatePolyLoop input b e i 1 ms bp true true h1 h2 h3 = (ms ++ [mono], true) := by
  rw [CreatePolyLoop, dif_neg (by omega), if_neg (by simp), if_pos hc,
    if_pos (by rw [hc]; simp)]
  simp only [if_true, hm, Bool.true_eq_false, if_false]
  rw [dif_neg (by omega), CreatePolyLoop, dif_pos hie]
  simp [hc]

/-- The round of the loop of `CreatePoly` at the bracket that closes a monomial followed by
a plus sign and more text. -/
theorem CreatePolyLoop_step_close_more (input : List Char) (b e i : Nat) (ms : List Mono)
    (bp : Nat) (mono : Mono) (hc : charAt input i = ')')
    (hm : CreateMono input bp i true = (mono, true)) (hplus : charAt input (i + 1) = '+')
    (hie : i + 2 < e) (h1 : b ≤ i) (h2 : b ≤ bp) (h3 : i ≤ e) (h4 : b ≤ i + 2)
    (h6 : i + 2 ≤ e) :
    CreatePolyLoop input b e i 1 ms bp true true h1 h2 h3
      = CreatePolyLoop input b e (i + 2) 0 (ms ++ [mono]) bp false true h4 h2 h6 := by
  rw [CreatePolyLoop, dif_neg (by omega), if_neg (by simp), if_pos hc,
    if_pos (by rw [hc]; simp)]
  simp only [if_true, hm, Bool.true_eq_false, if_false]
  rw [dif_pos (by omega), if_neg (by simp [hplus])]
  apply CreatePolyLoop_congr
  · rfl
  · rfl
  · rfl
  · rfl
  · rfl
  · rw [if_neg (by omega)]

theorem charAt_mem_of_drop (input : List Char) (t : List Char) :
    ∀ (i n : Nat) (post : List Char), input.drop i = t ++ post → n < t.length →
      charAt input (i + n) ∈ t := by
  induction t with
  | nil => intro i n post _ hn; simp at hn
  | cons c cs ih =>
    intro i n post h hn
    cases n with
    | zero =>
      rw [Nat.add_zero, charAt_of_drop input i c _ h]
      exact List.mem_cons_self _ _
    | succ n =>
      have hd := drop_succ_of_drop input i c _ h
      have := ih (i + 1) n post hd (by simpa using hn)
      have e1 : i + (n + 1) = i + 1 + n := by omega
      rw [e1]
      exact List.mem_cons_of_mem _ this

theorem CreateMonoLoop_congr (input : List Char) (b e : Nat) {i i2 : Nat} (ip : Bool)
    (hi : i = i2) (h1 : b ≤ i) (h2 : i < e) (h3 : b ≤ i2) (h4 : i2 < e) :
    CreateMonoLoop input b e i ip h1 h2 = CreateMonoLoop input b e i2 ip h3 h4 := by
  subst hi
  rfl

theorem CreateMonoLoop_skip (input : List Char) (b e i : Nat) (ip : Bool)
    (hc : charAt input i ≠ ',') (hib : i ≠ b) (h1 : b ≤ i) (h2 : i < e) (h3 : b ≤ i - 1)
    (h4 : i - 1 < e) :
    CreateMonoLoop input b e i ip h1 h2 = CreateMonoLoop input b e (i - 1) ip h3 h4 := by
  rw [CreateMonoLoop_unfold, if_neg hc, dif_neg hib]

/-- The backward scan of `CreateMono` passes over a text without a comma. -/
theorem CreateMonoLoop_skip_text (input : List Char) (b e j : Nat) (ip : Bool)
    (t post : List Char) (h : input.drop (j + 1) = t ++ post) (ht : ∀ c ∈ t, c ≠ ',')
    (hbj : b ≤ j) :
    ∀ n, n ≤ t.length → ∀ (h1 : b ≤ j + n) (h2 : j + n < e) (h3 : j < e),
      CreateMonoLoop input b e (j + n) ip h1 h2 = CreateMonoLoop input b e j ip hbj h3 := by
  intro n
  induction n with
  | zero =>
    intro _ h1 h2 h3
    rfl
  | succ n ih =>
    intro hn h1 h2 h3
    have hmem := charAt_mem_of_drop input t (j + 1) n post h (by omega)
    have e1 : j + 1 + n = j + (n + 1) := by omega
    rw [e1] at hmem
    rw [CreateMonoLoop_skip input b e (j + (n + 1)) ip (ht _ hmem) (by omega) h1 h2 (by omega)
      (by omega)]
    exact ih (by omega) (by omega) (by omega) h3

theorem StrToPolyExp_printNat (input : List Char) (i n : Nat) (rest : List Char)
    (h : input.drop i = printNat n ++ rest)
    (hr : ∀ c, rest.head? = some c → isdigit c = false) (hn : n ≤ 2147483647) :
    StrToPolyExp input i = ⟨n, i + (printNat n).length, 0⟩ := by
  have h1 := strtoll_printNat input i n rest h hr (by unfold LLONG_MAX; omega)
  rw [StrToPolyExp]
  simp only [h1, MAX_POLY_EXP_T]
  rw [if_neg (by omega)]

/-- What `CreateMono` returns on the text of a monomial whose coefficient text `CreatePoly`
reads back. -/
theorem CreateMono_printed (input : List Char) (bp : Nat) (p : Poly) (ex : Nat)
    (post : List Char)
    (h : input.drop bp = PolyPrint p ++ ',' :: (printNat ex ++ ')' :: post))
    (hex : ex ≤ 2147483647)
    (hP : CreatePoly input bp (bp + (PolyPrint p).length) true = (p, true)) :
    CreateMono input bp (bp + (PolyPrint p).length + 1 + (printNat ex).length) true
      = ((p, ex), true) := by
  have hcomma := drop_add_of_drop input bp _ _ h
  have hc := charAt_of_drop input _ _ _ hcomma
  have hdig := drop_succ_of_drop input _ _ _ hcomma
  obtain ⟨d0, ds0, hd⟩ := List.exists_cons_of_ne_nil (printNat_ne_nil ex)
  have hlen : 0 < (printNat ex).length := by rw [hd]; simp
  have hnocomma : ∀ c ∈ printNat ex, c ≠ ',' :=
    fun c hc => isdigit_ne c _ (printNat_isdigit ex c hc) (by decide)
  have hfirst : charAt input (bp + (PolyPrint p).length + 1) = d0 := by
    apply charAt_of_drop input _ d0 (ds0 ++ ')' :: post)
    rw [hdig, hd]
    rfl
  have hd0 : isdigit d0 = true := printNat_isdigit ex d0 (by rw [hd]; exact List.mem_cons_self _ _)
  have hexp := StrToPolyExp_printNat input _ ex _ hdig (by intro c hc; simp at hc; rw [← hc]; decide)
    hex
  rw [CreateMono, dif_neg (by omega)]
  have e1 : bp + (PolyPrint p).length + 1 + (printNat ex).length - 1
      = bp + (PolyPrint p).length + (printNat ex).length := by omega
  rw [CreateMonoLoop_congr input bp _ true e1 (by omega) (by omega) (by omega) (by omega)]
  rw [CreateMonoLoop_skip_text input bp _ (bp + (PolyPrint p).length) true (printNat ex) _ hdig
    hnocomma (by omega) (printNat ex).length (le_refl _) (by omega) (by omega) (by omega)]
  rw [CreateMonoLoop_unfold, if_pos hc, if_neg, hP]
  · simp only [hexp, CheckErrno]
    simp
  · rw [hfirst]
    intro hor
    rcases hor with hor | hor
    · omega
    · exact isdigit_ne d0 '+' hd0 (by decide) hor

theorem CreatePolyLoop_monos (input : List Char) (b e : Nat) (ms : List Mono) :
    ∀ (i : Nat) (done : List Mono) (bp : Nat) (post : List Char), ms ≠ [] →
      input.drop i = PolyPrintLoop ms true ++ post →
      i + (PolyPrintLoop ms true).length = e →
      (∀ m ∈ ms, m.2 ≤ 2147483647) →
      (∀ m ∈ ms, ∀ (j : Nat) (rest : List Char), input.drop j = PolyPrint m.1 ++ rest →
        (∀ c, rest.head? = some c → isdigit c = false) →
        CreatePoly input j (j + (PolyPrint m.1).length) true = (m.1, true)) →
      ∀ (h1 : b ≤ i) (h2 : b ≤ bp) (h3 : i ≤ e),
      CreatePolyLoop input b e i 0 done bp false true h1 h2 h3 = (done ++ ms, true) := by
  induction ms with
  | nil => intro i done bp post h; exact absurd rfl h
  | cons a ms ih =>
    intro i done bp post _ h he hexp hP h1 h2 h3
    rw [PolyPrintLoop_cons] at h
    simp only [if_true, List.nil_append, List.cons_append, List.append_assoc] at h
    rw [length_PolyPrintLoop_cons] at he
    have hc := charAt_of_drop input i _ _ h
    have hd := drop_succ_of_drop input i _ _ h
    have hd2 : input.drop (i + 1) = (PolyPrint a.1 ++ ',' :: printNat a.2)
        ++ (')' :: (PolyPrintLoop ms false ++ post)) := by
      rw [hd]; simp
    have hin := nested_mono_inner a.1 a.2
    have hlen : (PolyPrint a.1 ++ ',' :: printNat a.2).length
        = (PolyPrint a.1).length + (printNat a.2).length + 1 := by
      simp only [List.length_append, List.length_cons]; omega
    have hd3 := drop_add_of_drop input (i + 1) _ _ hd2
    have hc3 := charAt_of_drop input _ _ _ hd3
    have hd4 := drop_succ_of_drop input _ _ _ hd3
    have hmono : CreateMono input (i + 1)
        (i + 1 + (PolyPrint a.1).length + 1 + (printNat a.2).length) true = ((a.1, a.2), true) :=
      CreateMono_printed input (i + 1) a.1 a.2 _ hd (hexp a (List.mem_cons_self _ _))
        (hP a (List.mem_cons_self _ _) (i + 1) _ hd (by intro c hc; simp at hc; rw [← hc]; decide))
    have hidx : i + 1 + (PolyPrint a.1 ++ ',' :: printNat a.2).length
        = i + 1 + (PolyPrint a.1).length + 1 + (printNat a.2).length := by
      rw [hlen]; omega
    rw [hidx] at hc3 hd4
    rw [CreatePolyLoop_step_open input b e i done bp hc (by omega) h1 h2 h3 (by omega) (by omega)]
    rw [CreatePolyLoop_nested input b e done (i + 1) _ (i + 1) 1 _ hd2 hin.1
      (by rw [hlen]; omega) (by omega) (by omega) (by omega) (by omega) (by rw [hlen]; omega)]
    rw [CreatePolyLoop_congr input b e hidx hin.2 rfl rfl rfl rfl _ _ _ (by omega) (by omega)
      (by omega)]
    cases ms with
    | nil =>
      simp only [PolyPrintLoop, List.length_nil, Nat.add_zero] at he
      rw [CreatePolyLoop_step_close_last input b e _ done (i + 1) (a.1, a.2) hc3 hmono (by omega)]
    | cons b2 ms2 =>
      rw [PolyPrintLoop_false] at hd4 he
      simp only [List.cons_append] at hd4
      simp only [List.length_cons] at he
      have hplus := charAt_of_drop input _ _ _ hd4
      have hd5 := drop_succ_of_drop input _ _ _ hd4
      have hpos : 0 < (PolyPrintLoop (b2 :: ms2) true).length := by
        rw [length_PolyPrintLoop_cons]; omega
      rw [CreatePolyLoop_step_close_more input b e _ done (i + 1) (a.1, a.2) hc3 hmono hplus
        (by omega) (by omega) (by omega) (by omega) (by omega) (by omega)]
      rw [ih _ (done ++ [(a.1, a.2)]) (i + 1) post (by simp) hd5 (by omega)
        (fun m hm => hexp m (List.mem_cons_of_mem _ hm))
        (fun m hm => hP m (List.mem_cons_of_mem _ hm))]
      simp

theorem expsInRange_mem (arr : List Mono) (h : ExpsInRange (monos arr) = true) :
    ∀ m ∈ arr, m.2 ≤ 2147483647 ∧ ExpsInRange m.1 = true := by
  rw [ExpsInRange] at h
  induction arr with
  | nil => intro m hm; simp at hm
  | cons a ms ih =>
    intro m hm
    simp only [ExpsInRangeList, Bool.and_eq_true, decide_eq_true_eq] at h
    rcases List.mem_cons.mp hm with rfl | hm
    · exact ⟨h.1.1, h.1.2⟩
    · exact ih h.2 m hm

/-- On a list that already is the array of a canonical polynomial `PolyOwnMonos` changes
nothing. -/
theorem PolyOwnMonos_of_wellFormed (arr : List Mono) (h : WellFormed (monos arr)) :
    PolyOwnMonos arr = monos arr := by
  have hw := wellFormed_PolyOwnMonos arr (wellFormed_of_mem_monos arr h)
  rw [wellFormed_iff] at h hw
  apply canonical_unique (2 ^ 64) InRange inRange_zero inRange_cast_inj _ _ hw.1 h.1 hw.2 h.2
  intro es
  rw [PolyOwnMonos_eq_with]
  exact coeffAt_PolyOwnMonosWith_cast _ arr (isSortByExp_insertionSort arr).1 es

theorem printCoeff_head (c : Int) : ∃ x rest, printCoeff c = x :: rest ∧
    (isdigit x = true ∨ x = '-') := by
  have hne : printCoeff c ≠ [] := by
    unfold printCoeff
    split
    · simp
    · exact printNat_ne_nil _
  obtain ⟨x, rest, hx⟩ := List.exists_cons_of_ne_nil hne
  exact ⟨x, rest, hx, printCoeff_chars c x (by rw [hx]; exact List.mem_cons_self _ _)⟩

/-- Parsing undoes printing, at any place of a buffer: where the text that `PolyPrint`
writes for a well-formed polynomial with exponents in range stands in the buffer, followed
by a character that is not a digit (or by the end), `CreatePoly` returns the polynomial. -/
theorem CreatePoly_PolyPrint_at (p : Poly) : WellFormed p → ExpsInRange p = true →
    ∀ (input : List Char) (b : Nat) (post : List Char), input.drop b = PolyPrint p ++ post →
      (∀ c, post.head? = some c → isdigit c = false) →
      CreatePoly input b (b + (PolyPrint p).length) true = (p, true) := by
  induction p using Poly.induction_on with
  | hc c =>
    intro hw _ input b post h hpost
    rw [PolyPrint] at h ⊢
    obtain ⟨x, rest, hx, hxd⟩ := printCoeff_head c
    have hlen : 0 < (printCoeff c).length := by rw [hx]; simp
    have hcb : charAt input b = x := by
      apply charAt_of_drop input b x (rest ++ post)
      rw [h, hx]; rfl
    have hplus : charAt input b ≠ '+' := by
      rw [hcb]
      rcases hxd with hxd | hxd
      · exact isdigit_ne x '+' hxd (by decide)
      · rw [hxd]; decide
    have hr : InRange c := ((wellFormed_iff _).mp hw).2 c (by simp [leafCoeffs])
    have hs := strtoll_printCoeff input b c post h hpost hr
    rw [CreatePoly, dif_neg (by omega), if_pos ⟨hplus, by rw [hs]; rfl, by rw [hs]⟩, hs]
    rfl
  | hm arr ih =>
    intro hw hexp input b post h hpost
    rw [PolyPrint] at h ⊢
    have hne : arr ≠ [] := ((canonical_monos_iff arr).mp hw.1).1
    obtain ⟨a, ms, harr⟩ := List.exists_cons_of_ne_nil hne
    have hopen : input.drop b = '(' :: ((PolyPrint a.1 ++ ',' :: (printNat a.2
        ++ ')' :: PolyPrintLoop ms false)) ++ post) := by
      rw [h, harr, PolyPrintLoop_cons]; simp
    have hlen : 0 < (PolyPrintLoop arr true).length := by
      rw [harr, length_PolyPrintLoop_cons]; omega
    have hcb := charAt_of_drop input b _ _ hopen
    have hs := strtoll_of_not_number input b '(' _ hopen (by decide) (by decide) (by decide)
      (by decide)
    have hcount := CountMonosAndCheck_monos input arr b post hne h
    have hloop := CreatePolyLoop_monos input b (b + (PolyPrintLoop arr true).length) arr b [] b
      post hne h rfl (fun m hm => (expsInRange_mem arr hexp m hm).1)
      (fun m hm j rest hj hrest => ih m hm (wellFormed_of_mem_monos arr hw m hm)
        (expsInRange_mem arr hexp m hm).2 input j rest hj hrest)
    have hfirst : ¬ (charAt input b ≠ '+' ∧ CheckErrno (strtoll input b).errno = true
        ∧ (strtoll input b).endptr = b + (PolyPrintLoop arr true).length) := by
      intro hcon
      have h3 := hcon.2.2
      rw [hs] at h3
      simp only at h3
      omega
    rw [CreatePoly, dif_neg (by omega), if_neg hfirst,
      if_neg (by rw [hcount]; simp), hloop]
    simp only [List.nil_append, Bool.true_eq_false, if_false]
    rw [PolyOwnMonos_of_wellFormed arr hw]

theorem toDigitsCore_eq (m : Nat) : ∀ (fuel : Nat) (ds : List Char), m < fuel →
    Nat.toDigitsCore 10 fuel m ds = printNat m ++ ds := by
  induction m using Nat.strong_induction_on with
  | _ m ih =>
    intro fuel ds hf
    cases fuel with
    | zero => omega
    | succ f =>
      unfold printNat Nat.toDigits
      rw [Nat.toDigitsCore, Nat.toDigitsCore]
      by_cases h0 : m / 10 = 0
      · simp [h0]
      · simp only [h0, if_false]
        have hlt : m / 10 < m := by omega
        rw [ih (m / 10) hlt f _ (by omega), ih (m / 10) hlt m _ hlt]
        simp

theorem printNat_lt_ten (n : Nat) (h : n < 10) : printNat n = [Nat.digitChar n] := by
  unfold printNat Nat.toDigits
  rw [Nat.toDigitsCore]
  have h0 : n / 10 = 0 := by omega
  have h1 : n % 10 = n := by omega
  simp [h0, h1]

theorem printNat_ge_ten (n : Nat) (h : 10 ≤ n) :
    printNat n = printNat (n / 10) ++ [Nat.digitChar (n % 10)] := by
  have h0 : ¬ (n / 10 = 0) := by omega
  have : printNat n = Nat.toDigitsCore 10 (n + 1) n [] := rfl
  rw [this, Nat.toDigitsCore]
  simp only [h0, if_false]
  exact toDigitsCore_eq (n / 10) n _ (by omega)

theorem digitChar_of_isdigit (c : Char) (h : isdigit c = true) :
    Nat.digitChar (c.toNat - '0'.toNat) = c := by
  unfold isdigit at h
  simp only [Bool.and_eq_true, decide_eq_true_eq] at h
  have h48 : '0'.toNat = 48 := rfl
  have h57 : '9'.toNat = 57 := rfl
  rw [h48, h57] at h
  rw [h48]
  have hc : Char.ofNat c.toNat = c := Char.ofNat_toNat c
  obtain ⟨h1, h2⟩ := h
  generalize c.toNat = n at hc h1 h2
  subst hc
  interval_cases n <;> rfl

theorem toNat_sub_lt_of_isdigit (c : Char) (h : isdigit c = true) :
    c.toNat - '0'.toNat < 10 := by
  unfold isdigit at h
  simp only [Bool.and_eq_true, decide_eq_true_eq] at h
  have h48 : '0'.toNat = 48 := rfl
  have h57 : '9'.toNat = 57 := rfl
  omega

theorem digitsValue_append_singleton (ds : List Char) (c : Char) :
    digitsValue (ds ++ [c]) = 10 * digitsValue ds + (c.toNat - '0'.toNat) := by
  simp [digitsValue, List.foldl_append]

theorem digitsValue_pos (t : List Char) (ht : IsDigits t) (h0 : t.head? ≠ some '0') :
    1 ≤ digitsValue t := by
  obtain ⟨c, cs, rfl⟩ := List.exists_cons_of_ne_nil ht.1
  rw [digitsValue_cons]
  have hd := ht.2 c (List.mem_cons_self _ _)
  have hne : c ≠ '0' := by
    intro hc
    apply h0
    rw [hc]; rfl
  have h1 : 1 ≤ c.toNat - '0'.toNat := by
    by_contra hlt
    have hz : c.toNat - '0'.toNat = 0 := by omega
    have := digitChar_of_isdigit c hd
    rw [hz] at this
    exact hne this.symm
  have h2 : 1 ≤ 10 ^ cs.length := Nat.one_le_pow _ _ (by decide)
  calc 1 = 1 * 1 := rfl
    _ ≤ (c.toNat - '0'.toNat) * 10 ^ cs.length := Nat.mul_le_mul h1 h2
    _ ≤ _ := Nat.le_add_right _ _

/-- A text of digits without a superfluous leading zero is what `printNat` writes for its
value. -/
theorem printNat_digitsValue (t : List Char) : IsDigits t → NoLeadingZero t →
    printNat (digitsValue t) = t := by
  induction t using List.reverseRecOn with
  | nil => intro h; exact absurd rfl h.1
  | append_singleton ds c ih =>
    intro ht hz
    have hc : isdigit c = true := ht.2 c (by simp)
    have hclt := toNat_sub_lt_of_isdigit c hc
    rw [digitsValue_append_singleton]
    cases ds with
    | nil =>
      simp only [digitsValue, List.foldl_nil, Nat.mul_zero, Nat.zero_add, List.nil_append]
      rw [printNat_lt_ten _ hclt, digitChar_of_isdigit c hc]
    | cons d ds2 =>
      have hds : IsDigits (d :: ds2) := ⟨by simp, fun x hx => ht.2 x (by simp [List.mem_cons] at hx ⊢; tauto)⟩
      have hd0 : (d :: ds2).head? ≠ some '0' := by
        intro hh
        have := hz (by simpa using hh)
        simp at this
      have hpos := digitsValue_pos _ hds hd0
      have hnz : NoLeadingZero (d :: ds2) := fun hh => absurd hh hd0
      rw [printNat_ge_ten _ (by omega)]
      have e1 : (10 * digitsValue (d :: ds2) + (c.toNat - '0'.toNat)) / 10
          = digitsValue (d :: ds2) := by omega
      have e2 : (10 * digitsValue (d :: ds2) + (c.toNat - '0'.toNat)) % 10
          = c.toNat - '0'.toNat := by omega
      rw [e1, e2, ih hds hnz, digitChar_of_isdigit c hc]

theorem printCoeff_of_literal (t : List Char) (c : Int) (h : IsScalarLiteral true t c) :
    printCoeff c = t := by
  obtain ⟨_, h | ⟨ds, ht, hds, hc, hs⟩⟩ := h
  · obtain ⟨hd, hc, hs⟩ := h
    rw [printCoeff, if_neg (by omega)]
    have : c.natAbs = digitsValue t := by omega
    rw [this]
    exact printNat_digitsValue t hd (hs rfl)
  · have hs2 := hs rfl
    rw [printCoeff, if_pos (by omega), ht]
    have : c.natAbs = digitsValue ds := by omega
    rw [this, printNat_digitsValue ds hds hs2.1]

theorem printNat_of_exponent (t : List Char) (e : Nat) (h : IsExponent true t e) :
    printNat e = t := by
  obtain ⟨hd, he, _, hs⟩ := h
  rw [he]
  exact printNat_digitsValue t hd (hs rfl)

theorem coeffsInRange_monos_cons (a : Mono) (ms : List Mono) :
    CoeffsInRange (monos (a :: ms)) = (CoeffsInRange a.1 && CoeffsInRange (monos ms)) := by
  simp [CoeffsInRange, CoeffsInRangeList]

theorem expsInRange_monos_cons (a : Mono) (ms : List Mono) :
    ExpsInRange (monos (a :: ms))
      = (decide (a.2 ≤ 2147483647) && ExpsInRange a.1 && ExpsInRange (monos ms)) := by
  simp [ExpsInRange, ExpsInRangeList]

/-- A text derivable with numerals written as `PolyPrint` writes them is the text that
`PolyPrint` writes for the tree of its derivation, whose numbers are in range. -/
theorem derives_strict (p : Poly) : ∀ t : List Char, Derives true p t →
    t = PolyPrint p ∧ CoeffsInRange p = true ∧ ExpsInRange p = true := by
  induction p using Poly.induction_on with
  | hc c =>
    intro t h
    rw [Derives] at h
    refine ⟨(printCoeff_of_literal t c h).symm, ?_, rfl⟩
    rw [coeffsInRange_iff]
    intro a ha
    simp only [leafCoeffs, List.mem_singleton] at ha
    rw [ha]
    exact h.1
  | hm arr ih =>
    intro t h
    rw [Derives] at h
    rw [PolyPrint]
    induction arr generalizing t with
    | nil => exact absurd h (by simp [DerivesMonos])
    | cons a ms ihl =>
      rw [DerivesMonos] at h
      obtain ⟨tp, te, rest, hp, he, hrest, ht⟩ := h
      have h1 := ih a (List.mem_cons_self _ _) tp hp
      have h2 := printNat_of_exponent te a.2 he
      rw [PolyPrintLoop_cons, coeffsInRange_monos_cons, expsInRange_monos_cons, h1.2.1, h1.2.2]
      have hle : a.2 ≤ 2147483647 := he.2.2.1
      simp only [if_true, List.nil_append, Bool.true_and, decide_eq_true hle]
      rcases hrest with ⟨hms, hr⟩ | ⟨hms, r, hr, hder⟩
      · subst hms hr
        rw [ht, ← h1.1, h2]
        exact ⟨by simp [PolyPrintLoop], rfl, rfl⟩
      · have h3 := ihl (fun x hx => ih x (List.mem_cons_of_mem _ hx)) r hder
        obtain ⟨b, ms2, hb⟩ := List.exists_cons_of_ne_nil hms
        rw [ht, ← h1.1, h2, hr, h3.1]
        refine ⟨?_, h3.2.1, h3.2.2⟩
        rw [hb, PolyPrintLoop_false]

theorem inRange_FastPowLoop (exp : Nat) : ∀ (ret coeff : Int), InRange ret →
    InRange (FastPowLoop ret coeff exp) := by
  induction exp using Nat.strong_induction_on with
  | _ exp ih =>
    intro ret coeff hret
    rw [FastPowLoop]
    split
    · apply ih (exp / 2) (by omega)
      split
      · exact wrapCoeff_inRange _
      · exact hret
    · exact hret

theorem inRange_one : InRange 1 := by
  unfold InRange
  constructor <;> norm_num

theorem inRange_FastPow (c : Int) (e : Nat) : InRange (FastPow c e) :=
  inRange_FastPowLoop e 1 c inRange_one

theorem ComposePopLoop_append (rs : List Poly) : ∀ (rest : Stack),
    ComposePopLoop rs.length (rs ++ rest) = (rs.reverse, rest) := by
  induction rs with
  | nil => intro rest; rfl
  | cons r rs ih =>
    intro rest
    simp only [List.length_cons, ComposePopLoop, StackPop, List.cons_append, List.tail_cons,
      List.headD_cons, ih, List.reverse_cons]

theorem PolyAddMonosLoop_eq (rest : List Mono) : ∀ (prev_exp : Nat) (acc : Mono),
    PolyAddMonosLoop prev_exp acc rest = PolyOwnMonosLoop prev_exp acc rest := by
  induction rest with
  | nil => intro prev_exp acc; rw [PolyAddMonosLoop, PolyOwnMonosLoop]
  | cons m ms ih =>
    intro prev_exp acc
    rw [PolyAddMonosLoop, PolyOwnMonosLoop, ih, ih]

theorem PolyAddMonos_eq (ms : List Mono) : PolyAddMonos ms = PolyOwnMonos ms := by
  cases ms with
  | nil => rfl
  | cons m ms =>
    simp only [PolyAddMonos, PolyOwnMonos]
    split <;> simp_all [PolyAddMonosLoop_eq]

theorem map_MonoClone (ms : List Mono) : ms.map MonoClone = ms := by
  induction ms with
  | nil => rfl
  | cons m ms ih => rw [List.map_cons, ih]; rfl

theorem PolyCloneMonos_eq (ms : List Mono) : PolyCloneMonos ms = PolyOwnMonos ms := by
  cases ms with
  | nil => rfl
  | cons m ms => rw [PolyCloneMonos, map_MonoClone]

theorem PolyFastPowReadsLoop_le (i : Nat) : ∀ (power exp : Nat),
    ∀ j ∈ PolyFastPowReadsLoop i power exp, j ≤ i := by
  induction i with
  | zero =>
    intro power exp j hj
    rw [PolyFastPowReadsLoop] at hj
    split at hj <;> simp at hj
    omega
  | succ i ih =>
    intro power exp j hj
    rw [PolyFastPowReadsLoop] at hj
    split at hj
    · rcases List.mem_cons.mp hj with rfl | hj
      · exact le_refl _
      · exact Nat.le_succ_of_le (ih _ _ j hj)
    · exact Nat.le_succ_of_le (ih _ _ j hj)

theorem PolyFastPowReadsLoop_head (i power exp : Nat) (h : power ≤ exp) :
    i ∈ PolyFastPowReadsLoop i power exp := by
  cases i with
  | zero => rw [PolyFastPowReadsLoop, if_pos h]; simp
  | succ i => rw [PolyFastPowReadsLoop, if_pos h]; exact List.mem_cons_self _ _

theorem PolyFastPowSeek_log (e : Nat) (he : 1 ≤ e) :
    (PolyFastPowSeek e 1 0 (by omega)).2 = Nat.log 2 e ∧
    (PolyFastPowSeek e 1 0 (by omega)).1 = 2 ^ Nat.log 2 e := by
  have h := PolyFastPowSeek_spec e (e + 1) 1 0 (by omega) (by omega) (by simp) he
  have hlog : Nat.log 2 e = (PolyFastPowSeek e 1 0 (by omega)).2 := by
    rw [Nat.log_eq_iff (Or.inr ⟨by omega, by omega⟩)]
    rw [← h.1, pow_succ, ← h.1]
    omega
  rw [← hlog] at h
  exact ⟨hlog.symm, h.1⟩

/-- The cache indices read by `PolyFastPow`: none for exponent 0, and otherwise indices up
to `floor(log2 exp)`, which is read. -/
theorem PolyFastPowReads_spec (e : Nat) :
    (e = 0 → PolyFastPowReads e = []) ∧
    (1 ≤ e → Nat.log 2 e ∈ PolyFastPowReads e ∧ ∀ j ∈ PolyFastPowReads e, j ≤ Nat.log 2 e) := by
  constructor
  · intro h
    rw [PolyFastPowReads, if_pos h]
  · intro he
    have hl := PolyFastPowSeek_log e he
    rw [PolyFastPowReads, if_neg (by omega), hl.1, hl.2]
    exact ⟨PolyFastPowReadsLoop_head _ _ _ (Nat.pow_log_le_self 2 (by omega)),
      PolyFastPowReadsLoop_le _ _ _⟩

theorem PolyFastPowReads_lt (e M : Nat) (h : e ≤ M) :
    ∀ j ∈ PolyFastPowReads e, j < PowersOfTwo M := by
  intro j hj
  by_cases he : e = 0
  · rw [(PolyFastPowReads_spec e).1 he] at hj
    simp at hj
  · have h1 := ((PolyFastPowReads_spec e).2 (by omega)).2 j hj
    have h2 : 2 ^ Nat.log 2 e ≤ e := Nat.pow_log_le_self 2 he
    have h3 := lt_two_pow_PowersOfTwo M
    have h4 : 2 ^ Nat.log 2 e < 2 ^ PowersOfTwo M := by omega
    have h5 := (Nat.pow_lt_pow_iff_right (by decide : 1 < 2)).mp h4
    omega

theorem PolyComposeCalls_nil (p : Poly) : ∀ (k depth : Nat), depth ≥ k →
    PolyComposeCalls p k depth = [] := by
  induction p using Poly.induction_on with
  | hc c => intro k depth _; rfl
  | hm arr ih =>
    intro k depth hd
    rw [PolyComposeCalls, if_pos hd]
    cases arr with
    | nil => rfl
    | cons m ms =>
      rw [PolyComposeCallsFirst]
      split
      · rfl
      · exact ih m (List.mem_cons_self _ _) k (depth + 1) (by omega)

theorem PolyComposeCalls_bound (k : Nat) (bound : Nat → Nat) (p : Poly) : ∀ (depth : Nat),
    ExpsBelow p depth k bound →
    ∀ c ∈ PolyComposeCalls p k depth, c.1 < k ∧ c.2 ≤ bound c.1 := by
  induction p using Poly.induction_on with
  | hc c => intro depth _ x hx; simp [PolyComposeCalls] at hx
  | hm arr ih =>
    intro depth hb x hx
    by_cases hd : depth ≥ k
    · rw [PolyComposeCalls_nil _ k depth hd] at hx
      simp at hx
    · rw [PolyComposeCalls, if_neg hd] at hx
      rw [ExpsBelow] at hb
      have hbl := hb (by omega)
      clear hb
      induction arr with
      | nil => simp [PolyComposeCallsLoop] at hx
      | cons m ms ihl =>
        rw [PolyComposeCallsLoop, List.mem_append, List.mem_cons] at hx
        rw [ExpsBelowList] at hbl
        rcases hx with hx | rfl | hx
        · exact ih m (List.mem_cons_self _ _) (depth + 1) hbl.2.1 x hx
        · exact ⟨by simp only; omega, hbl.1⟩
        · exact ihl (fun y hy => ih y (List.mem_cons_of_mem _ hy)) hx hbl.2.2

theorem not_derives_signed_zero_exponent (p : Poly) :
    ¬ Derives false p ("(1,-0)").toList := by
  intro h
  cases p with
  | coeff c =>
    rw [Derives] at h
    obtain ⟨_, h | ⟨ds, ht, _⟩⟩ := h
    · exact absurd (h.1.2 '(' (by decide)) (by decide)
    · simp at ht
  | monos arr =>
    rw [Derives] at h
    cases arr with
    | nil => exact h
    | cons m ms =>
      rw [DerivesMonos] at h
      obtain ⟨tp, te, rest, _, hte, _, ht⟩ := h
      have hne := hte.1.1
      have hdig := hte.1.2
      rcases tp with _ | ⟨a, _ | ⟨b, _ | ⟨c, _ | ⟨d, _ | ⟨e, _ | ⟨f, tp⟩⟩⟩⟩⟩⟩ <;>
        simp at ht
      obtain ⟨_, ht⟩ := ht
      rcases te with _ | ⟨x, te⟩
      · exact hne rfl
      · simp at ht
        have := hdig x (List.mem_cons_self _ _)
        rw [← ht.1] at this
        exact absurd this (by decide)

theorem PolyComposeHelperSums_zero (powers : List (List Poly)) (p : Poly) :
    ∀ depth, PolyComposeHelperSums p 0 powers depth = [] := by
  induction p using Poly.induction_on with
  | hc c => intro depth; simp [PolyComposeHelperSums]
  | hm arr ih =>
    intro depth
    rw [PolyComposeHelperSums, if_pos (Nat.zero_le _)]
    cases arr with
    | nil => simp [PolyComposeFirstSums]
    | cons m ms =>
      rw [PolyComposeFirstSums]
      split
      · rfl
      · exact ih m (List.mem_cons_self _ _) _

theorem PolyComposeSums_zero (p : Poly) (q : List Poly) : PolyComposeSums p 0 q = [] := by
  simp [PolyComposeSums, PolyComposeHelperSums_zero]

theorem expsInRangeList_iff (arr : List Mono) :
    ExpsInRangeList arr = true ↔ ∀ m ∈ arr, m.2 ≤ 2147483647 ∧ ExpsInRange m.1 = true := by
  induction arr with
  | nil => simp [ExpsInRangeList]
  | cons a ms ih =>
    simp only [ExpsInRangeList, Bool.and_eq_true, decide_eq_true_eq, ih, List.mem_cons,
      forall_eq_or_imp]

theorem expsInRange_monos (arr : List Mono) :
    ExpsInRange (monos arr) = ExpsInRangeList arr := by
  rw [ExpsInRange]

theorem expsInRange_coeff (c : Int) : ExpsInRange (coeff c) = true := by
  rw [ExpsInRange]

theorem expsInRange_PolyZero : ExpsInRange PolyZero = true := expsInRange_coeff 0

theorem expsInRangeList_append (a b : List Mono) :
    ExpsInRangeList (a ++ b) = true ↔ ExpsInRangeList a = true ∧ ExpsInRangeList b = true := by
  simp only [expsInRangeList_iff, List.mem_append]
  constructor
  · intro h
    exact ⟨fun m hm => h m (Or.inl hm), fun m hm => h m (Or.inr hm)⟩
  · rintro ⟨h1, h2⟩ m (hm | hm)
    · exact h1 m hm
    · exact h2 m hm

theorem expsInRange_PolyChangeIfCoeff (arr : List Mono) (h : ExpsInRangeList arr = true) :
    ExpsInRange (PolyChangeIfCoeff arr) = true := by
  unfold PolyChangeIfCoeff
  split
  · exact expsInRange_PolyZero
  · exact expsInRange_coeff _
  · rw [expsInRange_monos]
    exact h

theorem expsInRange_PolySort (p : Poly) (h : ExpsInRange p = true) :
    ExpsInRange (PolySort p) = true := by
  cases p with
  | coeff c => exact h
  | monos arr =>
    rw [expsInRange_monos, expsInRangeList_iff] at h
    rw [PolySort, expsInRange_monos, expsInRangeList_iff]
    intro m hm
    exact h m ((List.perm_insertionSort _ _).mem_iff.mp hm)

theorem expsInRangeList_MonoCloneIfNotZero (m : Mono) (h1 : m.2 ≤ 2147483647)
    (h2 : ExpsInRange m.1 = true) : ExpsInRangeList (MonoCloneIfNotZero m) = true := by
  unfold MonoCloneIfNotZero
  split
  · rfl
  · rw [expsInRangeList_iff]
    intro x hx
    rw [List.mem_singleton] at hx
    rw [hx]
    exact ⟨h1, h2⟩

theorem expsInRange_PolyAdd (p q : Poly) :
    ExpsInRange p = true → ExpsInRange q = true → ExpsInRange (PolyAdd p q) = true := by
  apply PolyAdd.induct
    (fun p q => ExpsInRange p = true → ExpsInRange q = true → ExpsInRange (PolyAdd p q) = true)
    (fun ps qs => ExpsInRangeList ps = true → ExpsInRangeList qs = true →
      ExpsInRangeList (PolyAddLoop ps qs) = true)
  · intro a b _ _
    rw [PolyAdd]
    exact expsInRange_coeff _
  · intro a qs ih hp hq
    rw [PolyAdd]
    exact ih (by simp [ExpsInRange, ExpsInRangeList, MonoFromPoly]) hq
  · intro ps b ih hp hq
    rw [PolyAdd]
    exact ih (by simp [ExpsInRange, ExpsInRangeList, MonoFromPoly]) hp
  · intro ps qs ih hp hq
    rw [PolyAdd]
    apply expsInRange_PolySort
    apply expsInRange_PolyChangeIfCoeff
    exact ih (by rwa [expsInRange_monos] at hp) (by rwa [expsInRange_monos] at hq)
  · intro _ _
    rw [PolyAddLoop]
    rfl
  · intro q qs ih hp hq
    rw [PolyAddLoop, expsInRangeList_append]
    have hq2 := (expsInRangeList_iff _).mp hq
    refine ⟨expsInRangeList_MonoCloneIfNotZero q (hq2 q (List.mem_cons_self _ _)).1
      (hq2 q (List.mem_cons_self _ _)).2, ih hp ?_⟩
    rw [expsInRangeList_iff]
    exact fun m hm => hq2 m (List.mem_cons_of_mem _ hm)
  · intro p ps ih hp hq
    rw [PolyAddLoop, expsInRangeList_append]
    have hp2 := (expsInRangeList_iff _).mp hp
    refine ⟨expsInRangeList_MonoCloneIfNotZero p (hp2 p (List.mem_cons_self _ _)).1
      (hp2 p (List.mem_cons_self _ _)).2, ih ?_ hq⟩
    rw [expsInRangeList_iff]
    exact fun m hm => hp2 m (List.mem_cons_of_mem _ hm)
  · intro p ps q qs hlt ih hp hq
    rw [PolyAddLoop, if_pos hlt, expsInRangeList_append]
    have hp2 := (expsInRangeList_iff _).mp hp
    refine ⟨expsInRangeList_MonoCloneIfNotZero p (hp2 p (List.mem_cons_self _ _)).1
      (hp2 p (List.mem_cons_self _ _)).2, ih ?_ hq⟩
    rw [expsInRangeList_iff]
    exact fun m hm => hp2 m (List.mem_cons_of_mem _ hm)
  · intro p ps q qs hlt hgt ih hp hq
    rw [PolyAddLoop, if_neg hlt, if_pos hgt, expsInRangeList_append]
    have hq2 := (expsInRangeList_iff _).mp hq
    refine ⟨expsInRangeList_MonoCloneIfNotZero q (hq2 q (List.mem_cons_self _ _)).1
      (hq2 q (List.mem_cons_self _ _)).2, ih hp ?_⟩
    rw [expsInRangeList_iff]
    exact fun m hm => hq2 m (List.mem_cons_of_mem _ hm)
  · intro p ps q qs hlt hgt ih1 ih2 hp hq
    rw [PolyAddLoop, if_neg hlt, if_neg hgt, expsInRangeList_append]
    have hp2 := (expsInRangeList_iff _).mp hp
    have hq2 := (expsInRangeList_iff _).mp hq
    constructor
    · split
      · rfl
      · rw [expsInRangeList_iff]
        intro x hx
        rw [List.mem_singleton] at hx
        rw [hx]
        exact ⟨(hp2 p (List.mem_cons_self _ _)).1,
          ih1 (hp2 p (List.mem_cons_self _ _)).2 (hq2 q (List.mem_cons_self _ _)).2⟩
    · apply ih2
      · rw [expsInRangeList_iff]
        exact fun m hm => hp2 m (List.mem_cons_of_mem _ hm)
      · rw [expsInRangeList_iff]
        exact fun m hm => hq2 m (List.mem_cons_of_mem _ hm)

theorem expSumsInRange_nil : ExpSumsInRange [] = true := rfl

theorem expSumsInRange_append (a b : List Int) :
    ExpSumsInRange (a ++ b) = true ↔ ExpSumsInRange a = true ∧ ExpSumsInRange b = true := by
  simp [ExpSumsInRange, List.all_append]

theorem expSumsInRange_cons (s : Int) (a : List Int) :
    ExpSumsInRange (s :: a) = true
      ↔ (-MAX_POLY_EXP_T - 1 ≤ s ∧ s ≤ MAX_POLY_EXP_T) ∧ ExpSumsInRange a = true := by
  simp [ExpSumsInRange]

theorem expsInRange_PolyMul (p q : Poly) :
    ExpSumsInRange (PolyMulSums p q) = true → ExpsInRange (PolyMul p q) = true := by
  apply PolyMul.induct
    (fun p q => ExpSumsInRange (PolyMulSums p q) = true → ExpsInRange (PolyMul p q) = true)
    (fun ps qs poly_ret => ExpSumsInRange (PolyMulOuterSums ps qs) = true →
      ExpsInRange poly_ret = true → ExpsInRange (PolyMulOuter ps qs poly_ret) = true)
    (fun p qs => ExpSumsInRange (PolyMulInnerSums p qs) = true →
      ExpsInRangeList (PolyMulInner p qs) = true)
  · intro a b _
    rw [PolyMul]
    exact expsInRange_coeff _
  · intro a qs ih h
    rw [PolyMul]
    rw [PolyMulSums] at h
    exact ih h
  · intro ps b ih h
    rw [PolyMul]
    rw [PolyMulSums] at h
    exact ih h
  · intro ps qs hlen ih h
    rw [PolyMul, if_pos hlen]
    rw [PolyMulSums, if_pos hlen] at h
    exact ih h
  · intro ps qs hlen ih h
    rw [PolyMul, if_neg hlen]
    rw [PolyMulSums, if_neg hlen] at h
    exact ih h expsInRange_PolyZero
  · intro qs poly_ret _ hr
    rw [PolyMulOuter]
    exact hr
  · intro qs poly_ret p ps ih3 ih2 h hr
    rw [PolyMulOuter]
    rw [PolyMulOuterSums, expSumsInRange_append] at h
    apply ih2 h.2
    exact expsInRange_PolyAdd _ _ hr (by rw [expsInRange_monos]; exact ih3 h.1)
  · intro p _
    rw [PolyMulInner]
    rfl
  · intro p q qs ih1 ih3 h
    rw [PolyMulInner]
    rw [PolyMulInnerSums, expSumsInRange_cons, expSumsInRange_append] at h
    rw [expsInRangeList_iff]
    intro m hm
    rw [List.mem_cons] at hm
    rcases hm with rfl | hm
    · refine ⟨?_, ih1 h.2.1⟩
      have := h.1.2
      simp only [MAX_POLY_EXP_T] at this
      dsimp only
      omega
    · exact (expsInRangeList_iff _).mp (ih3 h.2.2) m hm

theorem expsInRange_PolyNeg (p : Poly) : ExpsInRange p = true → ExpsInRange (PolyNeg p) = true := by
  induction p using Poly.induction_on with
  | hc c =>
    intro _
    exact expsInRange_coeff _
  | hm arr ih =>
    intro h
    rw [expsInRange_monos] at h
    rw [PolyNeg, expsInRange_monos]
    induction arr with
    | nil => rfl
    | cons m ms ihl =>
      have h2 := (expsInRangeList_iff _).mp h
      rw [PolyNegLoop, expsInRangeList_iff]
      intro x hx
      rw [List.mem_cons] at hx
      rcases hx with rfl | hx
      · exact ⟨(h2 m (List.mem_cons_self _ _)).1,
          ih m (List.mem_cons_self _ _) (h2 m (List.mem_cons_self _ _)).2⟩
      · have h3 : ExpsInRangeList ms = true := by
          rw [expsInRangeList_iff]
          exact fun y hy => h2 y (List.mem_cons_of_mem _ hy)
        exact (expsInRangeList_iff _).mp
          (ihl (fun y hy => ih y (List.mem_cons_of_mem _ hy)) h3) x hx

theorem expsInRange_PolySub (p q : Poly) (hp : ExpsInRange p = true) (hq : ExpsInRange q = true) :
    ExpsInRange (PolySub p q) = true :=
  expsInRange_PolyAdd _ _ hp (expsInRange_PolyNeg q hq)

theorem expsInRange_PolyAtLoop (x : Int) (arr : List Mono) :
    ∀ acc, ExpSumsInRange (PolyAtLoopSums arr x) = true → ExpsInRange acc = true →
      ExpsInRange (PolyAtLoop arr x acc) = true := by
  induction arr with
  | nil => intro acc _ h; exact h
  | cons m ms ih =>
    intro acc hs hacc
    rw [PolyAtLoopSums, expSumsInRange_append] at hs
    rw [PolyAtLoop]
    exact ih _ hs.2 (expsInRange_PolyAdd _ _ hacc (expsInRange_PolyMul _ _ hs.1))

theorem expsInRange_PolyAt (p : Poly) (x : Int) (hs : ExpSumsInRange (PolyAtSums p x) = true) :
    ExpsInRange (PolyAt p x) = true := by
  cases p with
  | coeff c => exact expsInRange_coeff _
  | monos arr =>
    rw [PolyAt]
    rw [PolyAtSums] at hs
    exact expsInRange_PolyAtLoop x arr _ hs expsInRange_PolyZero

theorem expsInRange_PolyFastPowLoop (powers : List Poly) (i : Nat) :
    ∀ (power exp : Nat) (poly_ret : Poly),
      ExpSumsInRange (PolyFastPowLoopSums powers i power exp poly_ret) = true →
      ExpsInRange poly_ret = true →
      ExpsInRange (PolyFastPowLoop powers i power exp poly_ret) = true := by
  induction i with
  | zero =>
    intro power exp poly_ret hs hr
    rw [PolyFastPowLoop]
    rw [PolyFastPowLoopSums] at hs
    split
    · rename_i h
      rw [if_pos h] at hs
      exact expsInRange_PolyMul _ _ hs
    · exact hr
  | succ i ih =>
    intro power exp poly_ret hs hr
    rw [PolyFastPowLoop]
    rw [PolyFastPowLoopSums] at hs
    split
    · rename_i h
      rw [if_pos h, expSumsInRange_append] at hs
      exact ih _ _ _ hs.2 (expsInRange_PolyMul _ _ hs.1)
    · rename_i h
      rw [if_neg h] at hs
      exact ih _ _ _ hs hr

theorem expsInRange_PolyFastPow (powers : List Poly) (exp : Nat)
    (hs : ExpSumsInRange (PolyFastPowSums powers exp) = true) :
    ExpsInRange (PolyFastPow powers exp) = true := by
  rw [PolyFastPow]
  rw [PolyFastPowSums] at hs
  split
  · exact expsInRange_coeff _
  · rename_i h
    rw [if_neg h] at hs
    exact expsInRange_PolyFastPowLoop _ _ _ _ _ hs (expsInRange_coeff _)

theorem expsInRange_PolyComposeLoop (k : Nat) (powers : List (List Poly)) (depth : Nat)
    (l : List Mono) :
    ∀ poly_ret : Poly, ExpSumsInRange (PolyComposeLoopSums l k powers depth) = true →
      ExpsInRange poly_ret = true →
      ExpsInRange (PolyComposeLoop l k powers depth poly_ret) = true := by
  induction l with
  | nil =>
    intro poly_ret _ hr
    rw [PolyComposeLoop]
    exact hr
  | cons m ms ih =>
    intro poly_ret hs hr
    rw [PolyComposeLoop]
    rw [PolyComposeLoopSums, expSumsInRange_append, expSumsInRange_append,
      expSumsInRange_append] at hs
    exact ih _ hs.2 (expsInRange_PolyAdd _ _ hr (expsInRange_PolyMul _ _ hs.1.2))

theorem expsInRange_PolyComposeHelper (k : Nat) (powers : List (List Poly)) (p : Poly) :
    ∀ depth, ExpSumsInRange (PolyComposeHelperSums p k powers depth) = true →
      ExpsInRange (PolyComposeHelper p k powers depth) = true := by
  induction p using Poly.induction_on with
  | hc c =>
    intro depth _
    exact expsInRange_coeff _
  | hm arr ih =>
    intro depth hs
    rw [PolyComposeHelper]
    rw [PolyComposeHelperSums] at hs
    split
    · rename_i h
      rw [if_pos h] at hs
      cases arr with
      | nil => exact expsInRange_PolyZero
      | cons m ms =>
        rw [PolyComposeFirst]
        rw [PolyComposeFirstSums] at hs
        split
        · exact expsInRange_PolyZero
        · rename_i h2
          rw [if_neg h2] at hs
          exact ih m (by simp) _ hs
    · rename_i h
      rw [if_neg h] at hs
      exact expsInRange_PolyComposeLoop k powers depth arr PolyZero hs expsInRange_PolyZero

theorem expsInRange_PolyCompose (p : Poly) (k : Nat) (q : List Poly)
    (hs : ExpSumsInRange (PolyComposeSums p k q) = true) :
    ExpsInRange (PolyCompose p k q) = true := by
  rw [PolyCompose]
  rw [PolyComposeSums, expSumsInRange_append] at hs
  exact expsInRange_PolyComposeHelper k _ p 0 hs.2

theorem expsInRange_PolyOwnMonosLoop (rest : List Mono) : ∀ (prev_exp : Nat) (acc : Mono),
    prev_exp ≤ 2147483647 → ExpsInRange acc.1 = true → acc.2 ≤ 2147483647 →
    ExpsInRangeList rest = true →
    ExpsInRangeList (PolyOwnMonosLoop prev_exp acc rest) = true := by
  induction rest with
  | nil =>
    intro prev_exp acc _ hacc hacc2 _
    rw [PolyOwnMonosLoop]
    split
    · rfl
    · simp [ExpsInRangeList, hacc, hacc2]
  | cons m ms ih =>
    intro prev_exp acc hprev hacc hacc2 hrest
    have h2 := (expsInRangeList_iff _).mp hrest
    have hm := h2 m (List.mem_cons_self _ _)
    have hms : ExpsInRangeList ms = true := by
      rw [expsInRangeList_iff]
      exact fun y hy => h2 y (List.mem_cons_of_mem _ hy)
    rw [PolyOwnMonosLoop]
    split
    · exact ih m.2 _ hm.1 (expsInRange_PolyAdd _ _ hacc hm.2) hacc2 hms
    · rw [expsInRangeList_append]
      constructor
      · split
        · rfl
        · simp [ExpsInRangeList, hacc, hprev]
      · exact ih m.2 m hm.1 hm.2 hm.1 hms

theorem expsInRange_PolyOwnMonos (ms : List Mono) (h : ExpsInRangeList ms = true) :
    ExpsInRange (PolyOwnMonos ms) = true := by
  cases ms with
  | nil => exact expsInRange_PolyZero
  | cons a as =>
    have hs := expsInRange_PolySort (monos (a :: as)) (by rw [expsInRange_monos]; exact h)
    rw [PolyOwnMonos]
    split
    · rename_i m ms2 heq
      rw [heq, expsInRange_monos] at hs
      have h2 := (expsInRangeList_iff _).mp hs
      have hm := h2 m (List.mem_cons_self _ _)
      apply expsInRange_PolyChangeIfCoeff
      apply expsInRange_PolyOwnMonosLoop ms2 m.2 m hm.1 hm.2 hm.1
      rw [expsInRangeList_iff]
      exact fun y hy => h2 y (List.mem_cons_of_mem _ hy)
    · exact expsInRange_PolyZero

theorem StrToPolyExp_le (input : List Char) (start : Nat) :
    (StrToPolyExp input start).value.toNat ≤ 2147483647 := by
  unfold StrToPolyExp
  dsimp only
  split
  · simp
  · rename_i h
    simp only [MAX_POLY_EXP_T] at h
    omega

theorem expsInRange_mem_append_singleton (ms : List Mono) (mono : Mono)
    (h : ExpsInRangeList ms = true) (hm : mono.2 ≤ 2147483647 ∧ ExpsInRange mono.1 = true) :
    ExpsInRangeList (ms ++ [mono]) = true := by
  rw [expsInRangeList_append]
  refine ⟨h, ?_⟩
  rw [expsInRangeList_iff]
  intro x hx
  rw [List.mem_singleton] at hx
  rw [hx]
  exact hm

theorem expsInRange_MonoZero : MonoZero.2 ≤ 2147483647 ∧ ExpsInRange MonoZero.1 = true :=
  ⟨by simp [MonoZero], expsInRange_PolyZero⟩

theorem expsInRange_CreatePoly (input : List Char) (b e : Nat) (is_poly : Bool) :
    ExpsInRange (CreatePoly input b e is_poly).1 = true := by
  apply CreatePoly.induct input
    (fun b e ip => ExpsInRange (CreatePoly input b e ip).1 = true)
    (fun b e i br ms bp pm ip hbi hbp hie => ExpsInRangeList ms = true →
      ExpsInRangeList (CreatePolyLoop input b e i br ms bp pm ip hbi hbp hie).1 = true)
    (fun b e ip => (CreateMono input b e ip).1.2 ≤ 2147483647
      ∧ ExpsInRange (CreateMono input b e ip).1.1 = true)
    (fun b e i ip hbi hie => (CreateMonoLoop input b e i ip hbi hie).1.2 ≤ 2147483647
      ∧ ExpsInRange (CreateMonoLoop input b e i ip hbi hie).1.1 = true)
  · intro b e ip h
    rw [CreatePoly, dif_pos h]
    exact expsInRange_PolyZero
  · intro b e ip h h2
    rw [CreatePoly, dif_neg h, if_pos h2]
    exact expsInRange_coeff _
  · intro b e ip h h2 h3
    rw [CreatePoly, dif_neg h, if_neg h2, if_pos h3]
    exact expsInRange_PolyZero
  · intro b e ip h h2 h3 ms heq _
    rw [CreatePoly, dif_neg h, if_neg h2, if_neg h3, heq]
    exact expsInRange_PolyZero
  · intro b e ip h h2 h3 ms ok heq hok ih
    rw [CreatePoly, dif_neg h, if_neg h2, if_neg h3, heq]
    simp only [if_neg hok]
    apply expsInRange_PolyOwnMonos
    have := ih rfl
    rw [heq] at this
    exact this
  · intro b i br ms bp pm ip hbi hbp hie hms
    rw [CreatePolyLoop, dif_pos rfl]
    exact hms
  · intro b e i br ms bp pm ip hbi hbp hie hne h2 hms
    rw [CreatePolyLoop, dif_neg hne, if_pos h2]
    exact hms
  · intro b e i br ms bp pm ip hbi hbp hie hne h2 h3 h4 mono heq ih hms
    simp only [dite_eq_ite] at *
    rw [CreatePolyLoop, dif_neg hne, if_neg h2, if_pos h3, if_pos h4, heq]
    simp only [if_true]
    rw [heq] at ih
    exact expsInRange_mem_append_singleton ms mono hms ih
  · intro b e i br ms bp pm ip hbi hbp hie hne h2 h3 h4 mono ok heq hok hn h5 ih hms
    simp only [dite_eq_ite] at *
    rw [CreatePolyLoop, dif_neg hne, if_neg h2, if_pos h3, if_pos h4, heq]
    simp only [if_neg hok, dif_pos hn, if_pos h5]
    rw [heq] at ih
    exact expsInRange_mem_append_singleton ms mono hms ih
  · intro b e i br ms bp pm ip hbi hbp hie hne h2 h3 h4 mono ok heq hok hn h5 ih ih2 hms
    simp only [dite_eq_ite] at *
    rw [CreatePolyLoop, dif_neg hne, if_neg h2, if_pos h3, if_pos h4, heq]
    simp only [if_neg hok, dif_pos hn, if_neg h5]
    rw [heq] at ih
    exact ih2 (expsInRange_mem_append_singleton ms mono hms ih)
  · intro b e i br ms bp pm ip hbi hbp hie hne h2 h3 h4 mono ok heq hok hn ih ih2 hms
    simp only [dite_eq_ite] at *
    rw [CreatePolyLoop, dif_neg hne, if_neg h2, if_pos h3, if_pos h4, heq]
    simp only [if_neg hok, dif_neg hn]
    rw [heq] at ih
    exact ih2 (expsInRange_mem_append_singleton ms mono hms ih)
  · intro b e i br ms bp pm ip hbi hbp hie hne h2 h3 h4 ih hms
    simp only [dite_eq_ite] at *
    rw [CreatePolyLoop, dif_neg hne, if_neg h2, if_pos h3, if_neg h4]
    exact ih hms
  · intro b e i br ms bp pm ip hbi hbp hie hne h2 h3 ih hms
    simp only [dite_eq_ite] at *
    rw [CreatePolyLoop, dif_neg hne, if_neg h2, if_neg h3]
    exact ih hms
  · intro b e ip h
    rw [CreateMono, dif_pos h]
    exact expsInRange_MonoZero
  · intro b e ip h ih
    rw [CreateMono, dif_neg h]
    exact ih
  · intro b e i ip hbi hie h1 h2
    rw [CreateMonoLoop_unfold, if_pos h1, if_pos h2]
    exact expsInRange_MonoZero
  · intro b e i ip hbi hie h1 h2 p ok heq h3 _
    simp only [dite_eq_ite] at h3
    rw [CreateMonoLoop_unfold, if_pos h1, if_neg h2, heq]
    simp only [if_pos h3]
    exact expsInRange_MonoZero
  · intro b e i ip hbi hie h1 h2 p ok heq h3 ih
    simp only [dite_eq_ite] at h3
    rw [CreateMonoLoop_unfold, if_pos h1, if_neg h2, heq]
    simp only [if_neg h3]
    rw [heq] at ih
    exact ⟨StrToPolyExp_le _ _, ih⟩
  · intro e i ip hie h1 hbi
    rw [CreateMonoLoop_unfold, if_neg h1, dif_pos rfl]
    exact expsInRange_MonoZero
  · intro b e i ip hbi hie h1 h2 ih
    rw [CreateMonoLoop_unfold, if_neg h1, dif_neg h2]
    exact ih

theorem expsInRange_StackPop (stack : Stack) (h : ∀ p ∈ stack, ExpsInRange p = true) :
    ExpsInRange (StackPop stack).1 = true ∧ ∀ p ∈ (StackPop stack).2, ExpsInRange p = true := by
  cases stack with
  | nil => exact ⟨expsInRange_PolyZero, by simp [StackPop]⟩
  | cons a s =>
    exact ⟨h a (List.mem_cons_self _ _), fun p hp => h p (List.mem_cons_of_mem _ hp)⟩

theorem expsInRange_StackTop (stack : Stack) (h : ∀ p ∈ stack, ExpsInRange p = true) :
    ExpsInRange (StackTop stack) = true := (expsInRange_StackPop stack h).1

theorem expsInRange_StackPush (stack : Stack) (p : Poly)
    (h : ∀ x ∈ stack, ExpsInRange x = true) (hp : ExpsInRange p = true) :
    ∀ x ∈ StackPush stack p, ExpsInRange x = true := by
  intro x hx
  rw [StackPush, List.mem_cons] at hx
  rcases hx with rfl | hx
  · exact hp
  · exact h x hx

theorem expsInRange_Zero (stack : Stack) (h : ∀ p ∈ stack, ExpsInRange p = true) :
    ∀ p ∈ (Zero stack).stack, ExpsInRange p = true :=
  expsInRange_StackPush stack _ h expsInRange_PolyZero

theorem expsInRange_IsCoeff (stack : Stack) (h : ∀ p ∈ stack, ExpsInRange p = true) :
    ∀ p ∈ (IsCoeff stack).stack, ExpsInRange p = true := by
  unfold IsCoeff
  split <;> exact h

theorem expsInRange_IsZero (stack : Stack) (h : ∀ p ∈ stack, ExpsInRange p = true) :
    ∀ p ∈ (IsZero stack).stack, ExpsInRange p = true := by
  unfold IsZero
  split <;> exact h

theorem expsInRange_Clone (stack : Stack) (h : ∀ p ∈ stack, ExpsInRange p = true) :
    ∀ p ∈ (Clone stack).stack, ExpsInRange p = true := by
  unfold Clone
  split
  · exact h
  · exact expsInRange_StackPush stack _ h (expsInRange_StackTop stack h)

theorem expsInRange_Add (stack : Stack) (h : ∀ p ∈ stack, ExpsInRange p = true) :
    ∀ p ∈ (Add stack).stack, ExpsInRange p = true := by
  unfold Add
  split
  · exact h
  · have h1 := expsInRange_StackPop stack h
    have h2 := expsInRange_StackPop _ h1.2
    exact expsInRange_StackPush _ _ h2.2 (expsInRange_PolyAdd _ _ h1.1 h2.1)

theorem expsInRange_Mul (stack : Stack) (h : ∀ p ∈ stack, ExpsInRange p = true)
    (hs : ExpSumsInRange (MulSums stack) = true) :
    ∀ p ∈ (Mul stack).stack, ExpsInRange p = true := by
  unfold Mul
  unfold MulSums at hs
  split
  · exact h
  · rename_i hu
    rw [if_neg hu] at hs
    have h1 := expsInRange_StackPop stack h
    have h2 := expsInRange_StackPop _ h1.2
    exact expsInRange_StackPush _ _ h2.2 (expsInRange_PolyMul _ _ hs)

theorem expsInRange_Neg (stack : Stack) (h : ∀ p ∈ stack, ExpsInRange p = true) :
    ∀ p ∈ (Neg stack).stack, ExpsInRange p = true := by
  unfold Neg
  split
  · exact h
  · have h1 := expsInRange_StackPop stack h
    exact expsInRange_StackPush _ _ h1.2 (expsInRange_PolyNeg _ h1.1)

theorem expsInRange_Sub (stack : Stack) (h : ∀ p ∈ stack, ExpsInRange p = true) :
    ∀ p ∈ (Sub stack).stack, ExpsInRange p = true := by
  unfold Sub
  split
  · exact h
  · have h1 := expsInRange_StackPop stack h
    have h2 := expsInRange_StackPop _ h1.2
    exact expsInRange_StackPush _ _ h2.2 (expsInRange_PolySub _ _ h1.1 h2.1)

theorem expsInRange_IsEq (stack : Stack) (h : ∀ p ∈ stack, ExpsInRange p = true) :
    ∀ p ∈ (IsEq stack).stack, ExpsInRange p = true := by
  unfold IsEq
  split <;> exact h

theorem expsInRange_Deg (stack : Stack) (h : ∀ p ∈ stack, ExpsInRange p = true) :
    ∀ p ∈ (Deg stack).stack, ExpsInRange p = true := by
  unfold Deg
  split <;> exact h

theorem expsInRange_DegBy (stack : Stack) (idx : Nat) (h : ∀ p ∈ stack, ExpsInRange p = true) :
    ∀ p ∈ (DegBy stack idx).stack, ExpsInRange p = true := by
  unfold DegBy
  split <;> exact h

theorem expsInRange_At (stack : Stack) (x : Int) (h : ∀ p ∈ stack, ExpsInRange p = true)
    (hs : ExpSumsInRange (AtSums stack x) = true) :
    ∀ p ∈ (At stack x).stack, ExpsInRange p = true := by
  unfold At
  unfold AtSums at hs
  split
  · exact h
  · rename_i hu
    rw [if_neg hu] at hs
    have h1 := expsInRange_StackPop stack h
    exact expsInRange_StackPush _ _ h1.2 (expsInRange_PolyAt _ x hs)

theorem expsInRange_Print (stack : Stack) (h : ∀ p ∈ stack, ExpsInRange p = true) :
    ∀ p ∈ (Print stack).stack, ExpsInRange p = true := by
  unfold Print
  split <;> exact h

theorem expsInRange_Pop (stack : Stack) (h : ∀ p ∈ stack, ExpsInRange p = true) :
    ∀ p ∈ (Pop stack).stack, ExpsInRange p = true := by
  unfold Pop
  split
  · exact h
  · exact (expsInRange_StackPop stack h).2

theorem expsInRange_ComposePopLoop (n : Nat) : ∀ (stack : Stack),
    (∀ p ∈ stack, ExpsInRange p = true) →
    ∀ p ∈ (ComposePopLoop n stack).2, ExpsInRange p = true := by
  induction n with
  | zero =>
    intro stack h
    exact h
  | succ n ih =>
    intro stack h
    exact ih _ (expsInRange_StackPop stack h).2

theorem expsInRange_Compose (stack : Stack) (k : Nat) (h : ∀ p ∈ stack, ExpsInRange p = true)
    (hs : ExpSumsInRange (ComposeSums stack k) = true) :
    ∀ p ∈ (Compose stack k).stack, ExpsInRange p = true := by
  unfold Compose
  unfold ComposeSums at hs
  split
  · exact h
  · rename_i hu
    rw [if_neg hu] at hs
    have h1 := expsInRange_StackPop stack h
    have h2 := expsInRange_ComposePopLoop k _ h1.2
    exact expsInRange_StackPush _ _ h2 (expsInRange_PolyCompose _ k _ hs)

theorem expsInRange_Size_TCommand (index read_characters : Nat) (input : List Char)
    (stack : Stack) (length : Nat) (command_name : List Char) (error : Nat → List Char)
    (function : Stack → Nat → CmdResult) (sums : Stack → Nat → List Int)
    (hf : ∀ s v, (∀ p ∈ s, ExpsInRange p = true) → ExpSumsInRange (sums s v) = true →
      ∀ p ∈ (function s v).stack, ExpsInRange p = true)
    (h : ∀ p ∈ stack, ExpsInRange p = true)
    (hs : ExpSumsInRange (Size_TCommandSums read_characters input stack length command_name
      sums) = true) :
    ∀ p ∈ (Size_TCommand index read_characters input stack length command_name error
      function).stack, ExpsInRange p = true := by
  unfold Size_TCommand
  unfold Size_TCommandSums at hs
  dsimp only at hs ⊢
  split
  · split <;> exact h
  · rename_i h1
    rw [if_neg h1] at hs
    split
    · exact h
    · rename_i h2
      rw [if_neg h2] at hs
      split
      · rename_i h3
        rw [if_pos h3] at hs
        exact hf _ _ h hs
      · exact h

theorem expsInRange_ProcessAt (index read_characters : Nat) (input : List Char)
    (stack : Stack) (length : Nat) (h : ∀ p ∈ stack, ExpsInRange p = true)
    (hs : ExpSumsInRange (ProcessAtSums read_characters input stack length) = true) :
    ∀ p ∈ (ProcessAt index read_characters input stack length).stack,
      ExpsInRange p = true := by
  unfold ProcessAt
  unfold ProcessAtSums at hs
  dsimp only at hs ⊢
  split
  · split <;> exact h
  · rename_i h1
    rw [if_neg h1] at hs
    split
    · exact h
    · rename_i h2
      rw [if_neg h2] at hs
      split
      · rename_i h3
        rw [if_pos h3] at hs
        exact expsInRange_At _ _ h hs
      · exact h

theorem expsInRange_ProcessCommandLoop (index read_characters : Nat) (input : List Char)
    (stack : Stack) (h : ∀ p ∈ stack, ExpsInRange p = true)
    (cs : List ((Stack → CmdResult) × List Char)) :
    ∀ (ss : List ((Stack → List Int) × List Char)),
    List.Forall₂ (fun c s => c.2 = s.2 ∧ ∀ st, (∀ p ∈ st, ExpsInRange p = true) →
      ExpSumsInRange (s.1 st) = true → ∀ p ∈ (c.1 st).stack, ExpsInRange p = true) cs ss →
    ExpSumsInRange (ProcessCommandLoopSums read_characters input stack ss) = true →
    ∀ p ∈ (ProcessCommandLoop index read_characters input stack cs).stack,
      ExpsInRange p = true := by
  induction cs with
  | nil =>
    intro ss _ _
    exact h
  | cons c cs ih =>
    intro ss hall hs
    cases hall with
    | cons hcs hrest =>
      rename_i s ss2
      rw [ProcessCommandLoop]
      rw [ProcessCommandLoopSums, ← hcs.1] at hs
      split
      · rename_i hc
        rw [if_pos hc] at hs
        exact hcs.2 stack h hs
      · rename_i hc
        rw [if_neg hc] at hs
        exact ih ss2 hrest hs

theorem expsInRange_FUNCTION_NAMES :
    List.Forall₂ (fun c s => c.2 = s.2 ∧ ∀ st, (∀ p ∈ st, ExpsInRange p = true) →
      ExpSumsInRange (s.1 st) = true → ∀ p ∈ (c.1 st).stack, ExpsInRange p = true)
      FUNCTION_NAMES FUNCTION_SUMS := by
  unfold FUNCTION_NAMES FUNCTION_SUMS
  refine .cons ⟨rfl, fun st h _ => expsInRange_Zero st h⟩ ?_
  refine .cons ⟨rfl, fun st h _ => expsInRange_IsCoeff st h⟩ ?_
  refine .cons ⟨rfl, fun st h _ => expsInRange_IsZero st h⟩ ?_
  refine .cons ⟨rfl, fun st h _ => expsInRange_Clone st h⟩ ?_
  refine .cons ⟨rfl, fun st h _ => expsInRange_Add st h⟩ ?_
  refine .cons ⟨rfl, fun st h hs => expsInRange_Mul st h hs⟩ ?_
  refine .cons ⟨rfl, fun st h _ => expsInRange_Neg st h⟩ ?_
  refine .cons ⟨rfl, fun st h _ => expsInRange_Sub st h⟩ ?_
  refine .cons ⟨rfl, fun st h _ => expsInRange_IsEq st h⟩ ?_
  refine .cons ⟨rfl, fun st h _ => expsInRange_Deg st h⟩ ?_
  refine .cons ⟨rfl, fun st h _ => expsInRange_Print st h⟩ ?_
  refine .cons ⟨rfl, fun st h _ => expsInRange_Pop st h⟩ ?_
  exact .nil

theorem expsInRange_ProcessCommand (index read_characters : Nat) (input : List Char)
    (stack : Stack) (length : Nat) (h : ∀ p ∈ stack, ExpsInRange p = true)
    (hs : ExpSumsInRange (ProcessCommandSums read_characters input stack length) = true) :
    ∀ p ∈ (ProcessCommand index read_characters input stack length).stack,
      ExpsInRange p = true := by
  unfold ProcessCommand
  unfold ProcessCommandSums at hs
  dsimp only at hs ⊢
  split
  · rename_i h1
    rw [if_pos h1] at hs
    exact expsInRange_Size_TCommand _ _ _ _ _ _ _ _ _
      (fun s v hst _ => expsInRange_DegBy s v hst) h hs
  · rename_i h1
    rw [if_neg h1] at hs
    split
    · rename_i h2
      rw [if_pos h2] at hs
      exact expsInRange_Size_TCommand _ _ _ _ _ _ _ _ _
        (fun s v hst hsv => expsInRange_Compose s v hst hsv) h hs
    · rename_i h2
      rw [if_neg h2] at hs
      split
      · rename_i h3
        rw [if_pos h3] at hs
        exact expsInRange_ProcessAt _ _ _ _ _ h hs
      · rename_i h3
        rw [if_neg h3] at hs
        split
        · exact h
        · rename_i h4
          rw [if_neg h4] at hs
          exact expsInRange_ProcessCommandLoop _ _ _ _ h _ _ expsInRange_FUNCTION_NAMES hs

theorem expsInRange_ProcessPoly (index read_characters : Nat) (input : List Char)
    (stack : Stack) (h : ∀ p ∈ stack, ExpsInRange p = true) :
    ∀ p ∈ (ProcessPoly index read_characters input stack).stack, ExpsInRange p = true := by
  unfold ProcessPoly
  split
  · exact h
  · have hw := expsInRange_CreatePoly input 0 read_characters true
    split
    rename_i poly is_poly heq
    rw [heq] at hw
    split
    · exact h
    · exact expsInRange_StackPush _ _ h hw

theorem expsInRange_ProcessInput (index : Nat) (input : List Char) (stack : Stack)
    (h : ∀ p ∈ stack, ExpsInRange p = true)
    (hs : ExpSumsInRange (ProcessInputSums input stack) = true) :
    ∀ p ∈ (ProcessInput index input stack).stack, ExpsInRange p = true := by
  unfold ProcessInput
  unfold ProcessInputSums at hs
  split
  · exact h
  · rename_i h1
    rw [if_neg h1] at hs
    split
    · rename_i h2
      rw [if_pos h2] at hs
      split
      · rename_i h3
        rw [if_pos h3] at hs
        exact expsInRange_ProcessCommand _ _ _ _ _ h hs
      · exact h
    · rename_i h2
      rw [if_neg h2] at hs
      split
      · exact h
      · rename_i h3
        rw [if_neg h3] at hs
        split
        · rename_i h4
          rw [if_pos h4] at hs
          split
          · exact h
          · rename_i h5
            rw [if_neg h5] at hs
            split
            · rename_i h6
              rw [if_pos h6] at hs
              exact expsInRange_ProcessCommand _ _ _ _ _ h hs
            · exact expsInRange_ProcessPoly _ _ _ _ h
        · rename_i h4
          rw [if_neg h4] at hs
          split
          · rename_i h5
            rw [if_pos h5] at hs
            exact expsInRange_ProcessCommand _ _ _ _ _ h hs
          · exact expsInRange_ProcessPoly _ _ _ _ h

theorem expsInRange_mainLoop (lines : List (List Char)) : ∀ (lines_counter : Nat) (st : Calc),
    (∀ p ∈ st.stack, ExpsInRange p = true) →
    ExpSumsInRange (mainLoopSums lines_counter st lines) = true →
    ∀ p ∈ (mainLoop lines_counter st lines).stack, ExpsInRange p = true := by
  induction lines with
  | nil => intro _ st h _; exact h
  | cons input rest ih =>
    intro n st h hs
    rw [mainLoopSums, expSumsInRange_append] at hs
    rw [mainLoop]
    exact ih _ _ (expsInRange_ProcessInput _ _ _ h hs.1) hs.2

theorem expsInRange_main (lines : List (List Char))
    (hs : ExpSumsInRange (mainSums lines) = true) :
    ∀ p ∈ (main lines).stack, ExpsInRange p = true :=
  expsInRange_mainLoop lines 0 ⟨StackCreate, [], []⟩ (by simp [StackCreate]) hs

theorem PolyDegLoop_eq_or_mem (arr : List Mono) : ∀ ret : Int,
    PolyDegLoop arr ret = ret ∨ PolyDegLoop arr ret ∈ PolyDegLoopSums arr := by
  induction arr with
  | nil =>
    intro ret
    left
    rw [PolyDegLoop]
  | cons m ms ih =>
    intro ret
    rw [PolyDegLoop, PolyDegLoopSums]
    rcases ih (PolyExpMaxInt ret ((m.2 : Int) + PolyDeg m.1)) with h | h
    · rw [h]
      unfold PolyExpMaxInt
      split
      · left; rfl
      · right
        exact List.mem_append_right _ (List.mem_cons_self _ _)
    · right
      exact List.mem_append_right _ (List.mem_cons_of_mem _ h)

theorem PolyDeg_le_of_sums (p : Poly) (hs : ExpSumsInRange (PolyDegSums p) = true) :
    PolyDeg p ≤ MAX_POLY_EXP_T := by
  cases p with
  | coeff c =>
    rw [PolyDeg]
    simp only [MAX_POLY_EXP_T]
    split <;> omega
  | monos arr =>
    rw [PolyDeg]
    rw [PolyDegSums] at hs
    rcases PolyDegLoop_eq_or_mem arr 0 with h | h
    · rw [h]
      simp [MAX_POLY_EXP_T]
    · simp only [ExpSumsInRange, List.all_eq_true, decide_eq_true_eq] at hs
      exact (hs _ h).2

theorem mem_PolyMulInnerSums (p : Mono) (s : Int) (qs : List Mono) :
    s ∈ PolyMulInnerSums p qs
      ↔ ∃ q ∈ qs, s = (p.2 : Int) + (q.2 : Int) ∨ s ∈ PolyMulSums p.1 q.1 := by
  induction qs with
  | nil => simp [PolyMulInnerSums]
  | cons q rest ih =>
    rw [PolyMulInnerSums, List.mem_cons, List.mem_append, ih]
    simp only [List.mem_cons, exists_eq_or_imp, or_assoc]

theorem mem_PolyMulOuterSums (s : Int) (qs : List Mono) (ps : List Mono) :
    s ∈ PolyMulOuterSums ps qs
      ↔ ∃ p ∈ ps, ∃ q ∈ qs, s = (p.2 : Int) + (q.2 : Int) ∨ s ∈ PolyMulSums p.1 q.1 := by
  induction ps with
  | nil => simp [PolyMulOuterSums]
  | cons p rest ih =>
    rw [PolyMulOuterSums, List.mem_append, ih, mem_PolyMulInnerSums]
    simp only [List.mem_cons, exists_eq_or_imp]

theorem PolyMulSums_coeff_monos (a : Int) (qs : List Mono) :
    PolyMulSums (coeff a) (monos qs)
      = PolyMulSums (monos [MonoFromPoly (coeff a) 0]) (monos qs) := by
  rw [PolyMulSums]

theorem PolyMulSums_monos_coeff (ps : List Mono) (b : Int) :
    PolyMulSums (monos ps) (coeff b)
      = PolyMulSums (monos [MonoFromPoly (coeff b) 0]) (monos ps) := by
  rw [PolyMulSums]

theorem PolyMulSums_swap (ps qs : List Mono) (h : ps.length > qs.length) :
    PolyMulSums (monos ps) (monos qs) = PolyMulSums (monos qs) (monos ps) := by
  rw [PolyMulSums, if_pos h]

theorem PolyMulSums_noswap (ps qs : List Mono) (h : ¬ ps.length > qs.length) :
    PolyMulSums (monos ps) (monos qs) = PolyMulOuterSums ps qs := by
  rw [PolyMulSums, if_neg h]

theorem mem_PolyMulSums_comm (p q : Poly) :
    ∀ s, s ∈ PolyMulSums p q ↔ s ∈ PolyMulSums q p := by
  apply PolyMul.induct
    (fun p q => ∀ s, s ∈ PolyMulSums p q ↔ s ∈ PolyMulSums q p)
    (fun ps qs _ => ∀ p ∈ ps, ∀ q ∈ qs, ∀ s, s ∈ PolyMulSums p.1 q.1 ↔ s ∈ PolyMulSums q.1 p.1)
    (fun p qs => ∀ q ∈ qs, ∀ s, s ∈ PolyMulSums p.1 q.1 ↔ s ∈ PolyMulSums q.1 p.1)
  · intro a b s
    rw [PolyMulSums, PolyMulSums]
  · intro a qs _ s
    rw [PolyMulSums_coeff_monos, PolyMulSums_monos_coeff]
  · intro ps b _ s
    rw [PolyMulSums_coeff_monos, PolyMulSums_monos_coeff]
  · intro ps qs hlen _ s
    rw [PolyMulSums_swap ps qs hlen]
  · intro ps qs hlen ih s
    by_cases h2 : qs.length > ps.length
    · rw [PolyMulSums_swap qs ps h2]
    · rw [PolyMulSums_noswap ps qs hlen, PolyMulSums_noswap qs ps h2,
        mem_PolyMulOuterSums, mem_PolyMulOuterSums]
      constructor
      · rintro ⟨p, hp, q, hq, h | h⟩
        · exact ⟨q, hq, p, hp, Or.inl (by omega)⟩
        · exact ⟨q, hq, p, hp, Or.inr ((ih p hp q hq s).mp h)⟩
      · rintro ⟨q, hq, p, hp, h | h⟩
        · exact ⟨p, hp, q, hq, Or.inl (by omega)⟩
        · exact ⟨p, hp, q, hq, Or.inr ((ih p hp q hq s).mpr h)⟩
  · intro qs _ p hp
    simp at hp
  · intro qs _ p ps ih3 ih2 x hx q hq
    rw [List.mem_cons] at hx
    rcases hx with rfl | hx
    · exact ih3 q hq
    · exact ih2 x hx q hq
  · intro p q hq
    simp at hq
  · intro p q qs ih1 ih3 x hx
    rw [List.mem_cons] at hx
    rcases hx with rfl | hx
    · exact ih1
    · exact ih3 x hx

theorem expSumsInRange_PolyMulSums_comm (p q : Poly)
    (h : ExpSumsInRange (PolyMulSums p q) = true) : ExpSumsInRange (PolyMulSums q p) = true := by
  simp only [ExpSumsInRange, List.all_eq_true, decide_eq_true_eq] at h ⊢
  intro s hs
  exact h s ((mem_PolyMulSums_comm p q s).mpr hs)

/-! ## Claims -/

/-- Claim C1: for canonical `p` and `q` the sum `PolyAdd p q` is canonical: at every
nesting level the exponents are strictly increasing, no coefficient is the zero constant,
and the value is a constant whenever it has no monomial or a single exponent-0 monomial
with a constant coefficient. -/
theorem PolyAdd_canonical (p q : Poly) (hp : Canonical p = true) (hq : Canonical q = true) :
    Canonical (PolyAdd p q) = true :=
  canonical_PolyAdd_weak p q (WeakPoly_of_canonical p hp) (WeakPoly_of_canonical q hq)

/-- Witness for C1: `1 + x0^2` and `-1 + 3 * x1 * x0^2`. -/
theorem PolyAdd_canonical_witness :
    Canonical (monos [(coeff 1, 0), (coeff 1, 2)]) = true ∧
    Canonical (monos [(coeff (-1), 0), (monos [(coeff 3, 1)], 2)]) = true ∧
    Canonical (PolyAdd (monos [(coeff 1, 0), (coeff 1, 2)])
      (monos [(coeff (-1), 0), (monos [(coeff 3, 1)], 2)])) = true :=
  ⟨by decide, by decide, PolyAdd_canonical _ _ (by decide) (by decide)⟩

/-- Claim C2: for canonical `p` and `q` the product `PolyMul p q` is canonical, also when
coefficient products wrap around to zero (exponents are natural numbers in the model, so
exponent sums are exact). -/
theorem PolyMul_canonical (p q : Poly) (hp : Canonical p = true) (hq : Canonical q = true) :
    Canonical (PolyMul p q) = true :=
  canonical_PolyMul_weak p q (WeakPoly_of_canonical p hp) (WeakPoly_of_canonical q hq)

/-- Witness for C2: `2^32 + x0` times `2^32 * x0 + x0^3`, where one coefficient product
wraps around to zero. -/
theorem PolyMul_canonical_witness :
    Canonical (monos [(coeff (2 ^ 32), 0), (coeff 1, 1)]) = true ∧
    Canonical (monos [(coeff (2 ^ 32), 1), (coeff 1, 3)]) = true ∧
    Canonical (PolyMul (monos [(coeff (2 ^ 32), 0), (coeff 1, 1)])
      (monos [(coeff (2 ^ 32), 1), (coeff 1, 3)])) = true :=
  ⟨by decide, by decide, PolyMul_canonical _ _ (by decide) (by decide)⟩

/-- Counterexample to C3 as stated: the canonical constants `2^63 - 1` and `1` (both in
the signed 64-bit range) add up to `-2^63`, so the value of the sum is not the integer sum
of the values. -/
theorem PolyAdd_value_overflow :
    Canonical (coeff (2 ^ 63 - 1)) = true ∧ Canonical (coeff 1) = true ∧
    CoeffsInRange (coeff (2 ^ 63 - 1)) = true ∧ CoeffsInRange (coeff 1) = true ∧
    value (PolyAdd (coeff (2 ^ 63 - 1)) (coeff 1)) (fun _ => 0)
      ≠ value (coeff (2 ^ 63 - 1)) (fun _ => 0) + value (coeff 1) (fun _ => 0) := by
  refine ⟨by decide, by decide, by decide, by decide, ?_⟩
  simp [PolyAdd, PolyFromCoeff, wrapCoeff, value]

/-- Claim C3, amended: the value of `PolyAdd p q` is congruent modulo `2^64` to the sum of
the values of `p` and `q`, for all operands and every assignment of integers; a constant
added to a non-constant operand is handled as the exponent-0 monomial of the leading
variable, which has the same value. -/
theorem PolyAdd_value_mod (p q : Poly) (env : Nat → Int) :
    value (PolyAdd p q) env % COEFF_MOD = (value p env + value q env) % COEFF_MOD ∧
    (∀ (c : Int) (arr : List Mono),
      PolyAdd (coeff c) (monos arr) = HandleOneCoeffAddOrMul (coeff c) (monos arr) true ∧
      PolyAdd (monos arr) (coeff c) = HandleOneCoeffAddOrMul (coeff c) (monos arr) true ∧
      HandleOneCoeffAddOrMul (coeff c) (monos arr) true
        = PolyAdd (monos [(coeff c, 0)]) (monos arr) ∧
      value (monos [(coeff c, 0)]) env = value (coeff c) env) := by
  constructor
  · apply emod_eq_of_cast_eq
    rw [value_PolyAdd_cast]
    push_cast
    rfl
  · intro c arr
    refine ⟨?_, ?_, ?_, ?_⟩
    · rw [PolyAdd]
      rfl
    · rw [PolyAdd]
      rfl
    · rfl
    · simp [value, valueMonos]

/-- Claim C4 as stated fails: the canonical constants `2^32` and `2^32` have the product
`0`, whose value is not the integer product `2^64`. -/
theorem PolyMul_value_overflow :
    Canonical (coeff (2 ^ 32)) = true ∧ CoeffsInRange (coeff (2 ^ 32)) = true ∧
    value (PolyMul (coeff (2 ^ 32)) (coeff (2 ^ 32))) (fun _ => 0)
      ≠ value (coeff (2 ^ 32)) (fun _ => 0) * value (coeff (2 ^ 32)) (fun _ => 0) := by
  refine ⟨by decide, by decide, ?_⟩
  simp [PolyMul, PolyFromCoeff, wrapCoeff, value]

/-- Claim C4, amended: the value of `PolyMul p q` is congruent modulo `2^64` to the
product of the values of `p` and `q`, for all operands and every assignment. -/
theorem PolyMul_value_mod (p q : Poly) (env : Nat → Int) :
    value (PolyMul p q) env % COEFF_MOD = (value p env * value q env) % COEFF_MOD := by
  apply emod_eq_of_cast_eq
  rw [value_PolyMul_cast]
  push_cast
  rfl

/-- Claim C5: canonical form is unique.  For canonical `p` and `q`, `PolyIsEq p q` is
true if and only if `p` and `q` denote the same formal polynomial with integer
coefficients; two canonical values that denote the same polynomial are structurally
identical and are printed identically. -/
theorem PolyIsEq_iff_same_formal (p q : Poly) (hp : Canonical p = true)
    (hq : Canonical q = true) :
    (PolyIsEq p q = true ↔ SameFormalPoly p q) ∧
    (SameFormalPoly p q → p = q ∧ PolyPrint p = PolyPrint q) := by
  have key : SameFormalPoly p q → p = q := canonical_unique_int p q hp hq
  constructor
  · rw [PolyIsEq_iff_eq]
    constructor
    · intro h es
      rw [h]
    · exact key
  · intro h
    have := key h
    exact ⟨this, by rw [this]⟩

/-- Witness for C5: `-3 + x1^2 * x0^7` compared with itself. -/
theorem PolyIsEq_iff_same_formal_witness :
    Canonical (monos [(coeff (-3), 0), (monos [(coeff 1, 2)], 7)]) = true ∧
    ((PolyIsEq (monos [(coeff (-3), 0), (monos [(coeff 1, 2)], 7)])
        (monos [(coeff (-3), 0), (monos [(coeff 1, 2)], 7)]) = true ↔
      SameFormalPoly (monos [(coeff (-3), 0), (monos [(coeff 1, 2)], 7)])
        (monos [(coeff (-3), 0), (monos [(coeff 1, 2)], 7)])) ∧
    (SameFormalPoly (monos [(coeff (-3), 0), (monos [(coeff 1, 2)], 7)])
        (monos [(coeff (-3), 0), (monos [(coeff 1, 2)], 7)]) →
      monos [(coeff (-3), 0), (monos [(coeff 1, 2)], 7)]
        = monos [(coeff (-3), 0), (monos [(coeff 1, 2)], 7)] ∧
      PolyPrint (monos [(coeff (-3), 0), (monos [(coeff 1, 2)], 7)])
        = PolyPrint (monos [(coeff (-3), 0), (monos [(coeff 1, 2)], 7)]))) :=
  ⟨by decide, PolyIsEq_iff_same_formal _ _ (by decide) (by decide)⟩

/-- Claim C6: for every list of monomials with canonical coefficients (any order, repeated
exponents and zero coefficients allowed) `PolyOwnMonos` returns a canonical polynomial,
whatever order the sorting routine gives to monomials of equal exponent; for the empty
list it returns the zero constant. -/
theorem PolyOwnMonos_canonical (monos : List Mono) (hc : ∀ m ∈ monos, Canonical m.1 = true) :
    Canonical (PolyOwnMonos monos) = true ∧
    (∀ sort, IsSortByExp sort → Canonical (PolyOwnMonosWith sort monos) = true) ∧
    PolyOwnMonos [] = coeff 0 ∧ (∀ sort, PolyOwnMonosWith sort [] = coeff 0) := by
  refine ⟨?_, ?_, rfl, fun _ => rfl⟩
  · rw [PolyOwnMonos_eq_with]
    exact canonical_PolyOwnMonosWith _ monos (isSortByExp_insertionSort monos).1
      (isSortByExp_insertionSort monos).2 hc
  · intro sort hs
    exact canonical_PolyOwnMonosWith sort monos (hs monos).1 (hs monos).2 hc

/-- Witness for C6: an unsorted list with a repeated exponent whose coefficients cancel
and with a zero coefficient. -/
theorem PolyOwnMonos_canonical_witness :
    (∀ m ∈ [((coeff 2 : Poly), 3), (coeff 0, 1), (coeff (-2), 3), (monos [(coeff 1, 1)], 0)],
      Canonical m.1 = true) ∧
    Canonical (PolyOwnMonos
      [(coeff 2, 3), (coeff 0, 1), (coeff (-2), 3), (monos [(coeff 1, 1)], 0)]) = true :=
  ⟨by decide, (PolyOwnMonos_canonical _ (by decide)).1⟩

/-- Claim C7 as stated fails: the two monomials `(2^63 - 1) * x0^0` and `1 * x0^0` have
canonical coefficients in the signed 64-bit range, and `PolyOwnMonos` returns the
constant `-2^63`, whose value is not the integer sum `2^63` of the monomials. -/
theorem PolyOwnMonos_value_overflow :
    (∀ m ∈ [((coeff (2 ^ 63 - 1) : Poly), 0), (coeff 1, 0)],
      Canonical m.1 = true ∧ CoeffsInRange m.1 = true) ∧
    value (PolyOwnMonos [(coeff (2 ^ 63 - 1), 0), (coeff 1, 0)]) (fun _ => 0)
      ≠ ([((coeff (2 ^ 63 - 1) : Poly), 0), (coeff 1, 0)].map
          fun m => value m.1 (fun _ => 0) * (0 : Int) ^ m.2).sum := by
  refine ⟨by decide, ?_⟩
  simp [PolyOwnMonos, PolySort, List.insertionSort, List.orderedInsert, MonoLeByExp,
    PolyOwnMonosLoop, PolyAdd, PolyFromCoeff, wrapCoeff, PolyIsZero, PolyChangeIfCoeff,
    PolyClone, value]

/-- Claim C7, amended: for every list of monomials `(c_i, e_i)` with canonical
coefficients in the signed 64-bit range and every assignment `env`, the value of
`PolyOwnMonos` of the list is congruent modulo `2^64` to the sum of
`value c_i (tail of env) * env 0 ^ e_i`, whatever sorting routine is used; and the
result itself depends neither on the order of the list nor on the order the sorting
routine gives to monomials of equal exponent. -/
theorem PolyOwnMonos_value_mod (sort : List Mono → List Mono) (hs : IsSortByExp sort)
    (monos : List Mono) (hc : ∀ m ∈ monos, Canonical m.1 = true)
    (hr : ∀ m ∈ monos, CoeffsInRange m.1 = true) (env : Nat → Int) :
    value (PolyOwnMonosWith sort monos) env % COEFF_MOD
      = (monos.map fun m => value m.1 (fun i => env (i + 1)) * env 0 ^ m.2).sum % COEFF_MOD ∧
    value (PolyOwnMonos monos) env % COEFF_MOD
      = (monos.map fun m => value m.1 (fun i => env (i + 1)) * env 0 ^ m.2).sum % COEFF_MOD ∧
    (∀ (sort2 : List Mono → List Mono) (l2 : List Mono), IsSortByExp sort2 → l2.Perm monos →
      PolyOwnMonosWith sort2 l2 = PolyOwnMonosWith sort monos) ∧
    (∀ l2 : List Mono, l2.Perm monos → PolyOwnMonos l2 = PolyOwnMonos monos) := by
  refine ⟨?_, ?_, ?_, ?_⟩
  · apply emod_eq_of_cast_eq
    rw [value_PolyOwnMonosWith_cast sort monos (hs monos).1, valueMonos_eq_sum]
  · apply emod_eq_of_cast_eq
    rw [PolyOwnMonos_eq_with,
      value_PolyOwnMonosWith_cast _ monos (isSortByExp_insertionSort monos).1, valueMonos_eq_sum]
  · intro sort2 l2 hs2 hperm
    exact (PolyOwnMonosWith_order_independent sort sort2 hs hs2 monos l2 hperm.symm hc hr).symm
  · intro l2 hperm
    rw [PolyOwnMonos_eq_with, PolyOwnMonos_eq_with]
    exact (PolyOwnMonosWith_order_independent _ _ isSortByExp_insertionSort
      isSortByExp_insertionSort monos l2 hperm.symm hc hr).symm

/-- Witness for C7: insertion sort on an unsorted list with a repeated exponent. -/
theorem PolyOwnMonos_value_mod_witness :
    IsSortByExp (List.insertionSort MonoLeByExp) ∧
    (∀ m ∈ [((coeff 2 : Poly), 3), (coeff 5, 1), (monos [(coeff 1, 1)], 3)],
      Canonical m.1 = true) ∧
    (∀ m ∈ [((coeff 2 : Poly), 3), (coeff 5, 1), (monos [(coeff 1, 1)], 3)],
      CoeffsInRange m.1 = true) ∧
    value (PolyOwnMonos [(coeff 2, 3), (coeff 5, 1), (monos [(coeff 1, 1)], 3)])
        (fun _ => 2) % COEFF_MOD
      = ([((coeff 2 : Poly), 3), (coeff 5, 1), (monos [(coeff 1, 1)], 3)].map
          fun m => value m.1 (fun i => (fun _ => (2 : Int)) (i + 1))
            * (fun _ => (2 : Int)) 0 ^ m.2).sum % COEFF_MOD :=
  ⟨isSortByExp_insertionSort, by decide, by decide,
    (PolyOwnMonos_value_mod _ isSortByExp_insertionSort _ (by decide) (by decide)
      (fun _ => 2)).2.1⟩

/-- Claim C8 as stated fails: for the canonical `x0^64` and the scalar 2 the power
`2^64` wraps around to zero, so `PolyAt` returns the constant 0 while the value of the
polynomial at 2 is `2^64`. -/
theorem PolyAt_value_overflow :
    Canonical (monos [(coeff 1, 64)]) = true ∧
    value (PolyAt (monos [(coeff 1, 64)]) 2) (fun _ => 0)
      ≠ value (monos [(coeff 1, 64)]) (envCons 2 (fun _ => 0)) := by
  refine ⟨by decide, ?_⟩
  simp [PolyAt, PolyAtLoop, FastPow, FastPowLoop, PolyMul, PolyAdd, PolyFromCoeff, PolyZero,
    wrapCoeff, value, valueMonos, envCons]

/-- Claim C8, amended: the value of `PolyAt p x` under `env` is congruent modulo `2^64`
to the value of `p` under `x` followed by `env`; `PolyAt` of a constant returns that
constant, and `PolyAt` of `(2,0)+(1,1)` at 3 is the constant 5. -/
theorem PolyAt_value_mod (p : Poly) (x : Int) (env : Nat → Int) :
    value (PolyAt p x) env % COEFF_MOD = value p (envCons x env) % COEFF_MOD ∧
    (∀ c, PolyAt (coeff c) x = coeff c) ∧
    PolyAt (monos [(coeff 2, 0), (coeff 1, 1)]) 3 = coeff 5 := by
  refine ⟨?_, fun _ => rfl, ?_⟩
  · apply emod_eq_of_cast_eq
    rw [value_PolyAt_cast]
  · simp [PolyAt, PolyAtLoop, FastPow, FastPowLoop, PolyMul, PolyAdd, PolyFromCoeff, PolyZero,
      wrapCoeff]

set_option maxRecDepth 100000 in
/-- Claim C9 as stated fails, in two ways.  For the canonical `x0`, `k = 0` and no
substitute, `PolyCompose` returns the constant 0; its value differs from the value of
`x0` under the assignment that would leave `x0` free, and the result is not structurally
equal to `x0`.  And for the canonical `x0^2` with the canonical `x0^2000000000`
substituted for `x0`, the `PolyMul` that fills the cache entry `powers[0][1]` forms the
exponent sum `2000000000 + 2000000000`, which lies outside the range of `poly_exp_t`:
the C addition has no defined result there, and reduced to 32 bits the sum is
negative. -/
theorem PolyCompose_not_free :
    Canonical (monos [(coeff 1, 1)]) = true ∧
    value (PolyCompose (monos [(coeff 1, 1)]) 0 []) (fun _ => 1)
      ≠ value (monos [(coeff 1, 1)]) (freeEnv 0 [] (fun _ => 1)) ∧
    PolyIsEq (PolyCompose (monos [(coeff 1, 1)]) 0 []) (monos [(coeff 1, 1)]) = false ∧
    Canonical (monos [(coeff 1, 2)]) = true ∧
    Canonical (monos [(coeff 1, 2000000000)]) = true ∧
    ExpsInRange (monos [(coeff 1, 2000000000)]) = true ∧
    PowersFillSums 2 (monos [(coeff 1, 2000000000)]) = [2000000000 + 2000000000] ∧
    PolyComposeSums (monos [(coeff 1, 2)]) 1 [monos [(coeff 1, 2000000000)]]
      = [2000000000 + 2000000000, 0 + 4000000000, 4000000000 + 0] ∧
    ExpSumsInRange (PolyComposeSums (monos [(coeff 1, 2)]) 1 [monos [(coeff 1, 2000000000)]])
      = false ∧
    wrapExp (2000000000 + 2000000000) = -294967296 := by
  have h : PolyCompose (monos [(coeff 1, 1)]) 0 [] = coeff 0 := by
    simp [PolyCompose, PolyComposeHelper, PolyComposeFirst, PolyZero, PolyFromCoeff]
  refine ⟨by decide, ?_, ?_, by decide, by decide, by decide, by decide!, by decide!,
    by decide!, by decide!⟩
  · rw [h]
    simp [value, valueMonos, freeEnv]
  · rw [h]
    rfl

/-- Claim C9, amended: `PolyCompose` gives zero to the variables of index `k` or more, as
long as the exponent sums it forms stay in the range of `poly_exp_t`.  For canonical `p`
and substitutes `q` such that every exponent sum formed by `PolyCompose p k q` is in
range, the value of `PolyCompose p k q` under `env` is congruent modulo `2^64` to the
value of `p` under `composeEnv k q env` (the value of `q[i]` for `i < k`, zero for
`i ≥ k`), and every exponent of the result is in range; in particular
`PolyCompose p 0 []`, which forms no exponent sum at all, is the constant obtained from
`p` by setting every variable to zero. -/
theorem PolyCompose_substitutes_zero (p : Poly) (k : Nat) (q : List Poly) (env : Nat → Int)
    (hp : Canonical p = true) (hsums : ExpSumsInRange (PolyComposeSums p k q) = true) :
    value (PolyCompose p k q) env % COEFF_MOD = value p (composeEnv k q env) % COEFF_MOD ∧
    (∀ i, k ≤ i → composeEnv k q env i = 0) ∧
    ExpsInRange (PolyCompose p k q) = true ∧
    PolyComposeSums p 0 [] = [] ∧
    PolyCompose p 0 [] = coeff (value p (fun _ => 0)) := by
  refine ⟨?_, ?_, expsInRange_PolyCompose p k q hsums, PolyComposeSums_zero p [],
    PolyCompose_zero_vars p hp⟩
  · apply emod_eq_of_cast_eq
    exact value_PolyCompose_cast p k q env hp
  · intro i hi
    simp [composeEnv, Nat.not_lt.mpr hi]

set_option maxRecDepth 100000 in
/-- Witness for C9: `3 + x0 + x1 * x0^2` with `x0` replaced by `1 + x0`; no exponent sum
formed exceeds 2. -/
theorem PolyCompose_substitutes_zero_witness :
    Canonical (monos [(coeff 3, 0), (coeff 1, 1), (monos [(coeff 1, 1)], 2)]) = true ∧
    ExpSumsInRange (PolyComposeSums (monos [(coeff 3, 0), (coeff 1, 1), (monos [(coeff 1, 1)], 2)])
      1 [monos [(coeff 1, 0), (coeff 1, 1)]]) = true ∧
    value (PolyCompose (monos [(coeff 3, 0), (coeff 1, 1), (monos [(coeff 1, 1)], 2)]) 1
        [monos [(coeff 1, 0), (coeff 1, 1)]]) (fun _ => 1) % COEFF_MOD
      = value (monos [(coeff 3, 0), (coeff 1, 1), (monos [(coeff 1, 1)], 2)])
          (composeEnv 1 [monos [(coeff 1, 0), (coeff 1, 1)]] (fun _ => 1)) % COEFF_MOD ∧
    PolyCompose (monos [(coeff 3, 0), (coeff 1, 1), (monos [(coeff 1, 1)], 2)]) 0 []
      = coeff (value (monos [(coeff 3, 0), (coeff 1, 1), (monos [(coeff 1, 1)], 2)])
          (fun _ => 0)) :=
  ⟨by decide, by decide!,
    (PolyCompose_substitutes_zero _ 1 [monos [(coeff 1, 0), (coeff 1, 1)]]
      (fun _ => 1) (by decide) (by decide!)).1,
    (PolyCompose_substitutes_zero (monos [(coeff 3, 0), (coeff 1, 1), (monos [(coeff 1, 1)], 2)])
      1 [monos [(coeff 1, 0), (coeff 1, 1)]] (fun _ => 1) (by decide) (by decide!)).2.2.2.2⟩

set_option maxRecDepth 100000 in
/-- Claim C10 as stated fails, in two ways.  Substituting the constant `2^32` for `x0` in
the canonical `x0^2` gives the constant 0, because the square wraps around, while the
value of `x0^2` at `2^32` is `2^64`.  And for the canonical `x0^3` with the canonical
`x0^1000000000` substituted for `x0`, the cache holds `x0^1000000000` and its square, and
the `PolyMul` of the two in `PolyFastPow` forms the exponent sum
`2000000000 + 1000000000`, which lies outside the range of `poly_exp_t`: the C addition
has no defined result there, and reduced to 32 bits the sum is negative. -/
theorem PolyCompose_value_overflow :
    Canonical (monos [(coeff 1, 2)]) = true ∧ Canonical (coeff (2 ^ 32)) = true ∧
    value (PolyCompose (monos [(coeff 1, 2)]) 1 [coeff (2 ^ 32)]) (fun _ => 0)
      ≠ value (monos [(coeff 1, 2)]) (composeEnv 1 [coeff (2 ^ 32)] (fun _ => 0)) ∧
    Canonical (monos [(coeff 1, 3)]) = true ∧
    Canonical (monos [(coeff 1, 1000000000)]) = true ∧
    ExpsInRange (monos [(coeff 1, 1000000000)]) = true ∧
    PolyComposeSums (monos [(coeff 1, 3)]) 1 [monos [(coeff 1, 1000000000)]]
      = [1000000000 + 1000000000, 0 + 2000000000, 2000000000 + 1000000000,
          3000000000 + 0] ∧
    ExpSumsInRange (PolyComposeSums (monos [(coeff 1, 3)]) 1 [monos [(coeff 1, 1000000000)]])
      = false ∧
    wrapExp (2000000000 + 1000000000) = -1294967296 := by
  refine ⟨by decide, by decide, ?_, by decide, by decide, by decide, by decide!, by decide!,
    by decide!⟩
  rw [PolyCompose]
  simp only [List.range_succ, List.range_zero, List.nil_append, List.map_cons, List.map_nil]
  simp [PolyComposeHelper, PolyComposeLoop, PolyFastPow, PolyFastPowSeek,
    PolyFastPowLoop, PowersFill, PowersOfTwo, PowersOfTwoLoop, MaxExpFill, MaxExpFillLoop,
    PolyExpMax, PolyMul, PolyAdd, PolyFromCoeff, PolyZero, PolyClone, wrapCoeff, value,
    valueMonos, composeEnv]

/-- Claim C10, amended: for canonical `p` and substitutes `q` such that every exponent sum
formed by `PolyCompose p k q` stays in the range of `poly_exp_t`, the value of
`PolyCompose p k q` under `env` is congruent modulo `2^64` to the value of `p` under the
assignment that gives variable `i < k` the value of `q[i]` under `env` and gives zero to
every variable of index `k` or more; every exponent of the result is in range. -/
theorem PolyCompose_value_mod (p : Poly) (k : Nat) (q : List Poly) (env : Nat → Int)
    (hp : Canonical p = true) (hsums : ExpSumsInRange (PolyComposeSums p k q) = true) :
    value (PolyCompose p k q) env % COEFF_MOD
      = value p (fun i => if i < k then value (q.getD i PolyZero) env else 0) % COEFF_MOD ∧
    ExpsInRange (PolyCompose p k q) = true := by
  refine ⟨?_, expsInRange_PolyCompose p k q hsums⟩
  apply emod_eq_of_cast_eq
  exact value_PolyCompose_cast p k q env hp

set_option maxRecDepth 100000 in
/-- Witness for C10: `x0^5 + x1^2 * x0^7` with `1 + x0` substituted for `x0`; no exponent
sum formed exceeds 7. -/
theorem PolyCompose_value_mod_witness :
    Canonical (monos [(coeff 1, 5), (monos [(coeff 1, 2)], 7)]) = true ∧
    ExpSumsInRange (PolyComposeSums (monos [(coeff 1, 5), (monos [(coeff 1, 2)], 7)]) 1
        [monos [(coeff 1, 0), (coeff 1, 1)]]) = true ∧
    value (PolyCompose (monos [(coeff 1, 5), (monos [(coeff 1, 2)], 7)]) 1
        [monos [(coeff 1, 0), (coeff 1, 1)]]) (fun _ => 3) % COEFF_MOD
      = value (monos [(coeff 1, 5), (monos [(coeff 1, 2)], 7)])
          (fun i => if i < 1
            then value ([monos [(coeff 1, 0), (coeff 1, 1)]].getD i PolyZero) (fun _ => 3)
            else 0) % COEFF_MOD :=
  ⟨by decide, by decide!, (PolyCompose_value_mod _ 1 _ _ (by decide) (by decide!)).1⟩

/-- Claim C11 as stated fails: for the canonical `x1`, `k = 1` and the substitute `x0` for
variable 0, `PolyCompose` returns the constant 0, which is not structurally equal
to `x1`. -/
theorem PolyCompose_identity_drops_variable :
    Canonical (PolyVar 1) = true ∧ CoeffsInRange (PolyVar 1) = true ∧
    (List.range 1).map PolyVar = [PolyVar 0] ∧
    PolyCompose (PolyVar 1) 1 ((List.range 1).map PolyVar) = coeff 0 ∧
    PolyIsEq (PolyCompose (PolyVar 1) 1 ((List.range 1).map PolyVar)) (PolyVar 1) = false := by
  have h : PolyCompose (PolyVar 1) 1 ((List.range 1).map PolyVar) = coeff 0 := by
    rw [PolyCompose]
    simp only [List.range_succ, List.range_zero, List.nil_append, List.map_cons, List.map_nil]
    simp [PolyVar, PolyComposeHelper, PolyComposeLoop, PolyComposeFirst, PolyFastPow,
      PolyMul, PolyAdd, PolyFromCoeff, PolyZero, wrapCoeff]
  refine ⟨by decide, by decide, by simp [List.range_succ], h, ?_⟩
  rw [h]
  rfl

/-- Claim C11, amended: for every canonical `p` (constants in the signed 64-bit range) and
every `k`, `PolyCompose p k q` with `q[i]` the polynomial "variable `i`" is structurally
equal to `p` whenever `p` has nesting depth at most `k`, so that no variable of index `k`
or more occurs in it; in general the value of the result is congruent modulo `2^64` to
the value of `p` with every variable of index `k` or more set to zero. -/
theorem PolyCompose_identity (p : Poly) (k : Nat) (hp : Canonical p = true)
    (hr : CoeffsInRange p = true) :
    (varDepth p ≤ k →
      PolyCompose p k ((List.range k).map PolyVar) = p ∧
      PolyIsEq (PolyCompose p k ((List.range k).map PolyVar)) p = true) ∧
    (∀ env : Nat → Int,
      value (PolyCompose p k ((List.range k).map PolyVar)) env % COEFF_MOD
        = value p (fun i => if i < k then env i else 0) % COEFF_MOD) := by
  constructor
  · intro hk
    have h := PolyCompose_vars_eq p k hp (coeffsInRange_leaf hr) hk
    exact ⟨h, (PolyIsEq_iff_eq _ _).mpr h⟩
  · intro env
    apply emod_eq_of_cast_eq
    rw [value_PolyCompose_cast p k _ env hp]
    congr 2
    funext i
    simp only [composeEnv]
    split
    · rename_i hi
      rw [getD_map_PolyVar k i hi, value_PolyVar]
    · rfl

/-- Witness for C11: `3 + x0 + x1 * x0^2` has nesting depth 2. -/
theorem PolyCompose_identity_witness :
    Canonical (monos [(coeff 3, 0), (coeff 1, 1), (monos [(coeff 1, 1)], 2)]) = true ∧
    CoeffsInRange (monos [(coeff 3, 0), (coeff 1, 1), (monos [(coeff 1, 1)], 2)]) = true ∧
    varDepth (monos [(coeff 3, 0), (coeff 1, 1), (monos [(coeff 1, 1)], 2)]) ≤ 2 ∧
    PolyCompose (monos [(coeff 3, 0), (coeff 1, 1), (monos [(coeff 1, 1)], 2)]) 2
        ((List.range 2).map PolyVar)
      = monos [(coeff 3, 0), (coeff 1, 1), (monos [(coeff 1, 1)], 2)] :=
  ⟨by decide, by decide, by decide,
    ((PolyCompose_identity _ 2 (by decide) (by decide)).1 (by decide)).1⟩

set_option maxRecDepth 100000 in
unseal CreatePoly CreatePolyLoop CreateMono CreateMonoLoop PolyAdd PolyAddLoop in
/-- Claim C12 as stated fails for the three lines `(1,1)+(1,2)`,
`(1,0)+(1,2147483646)+(1,2147483647)` and `MUL`.  The first two lines put two canonical
polynomials on the stack.  `MUL` then forms the exponent sums `1 + 2147483647`,
`2 + 2147483646` and `2 + 2147483647`, which lie outside the range of `poly_exp_t`, where
the C addition has no defined result.  Reduced to 32 bits, the exponents of the first
array `processed` are 1, 2147483647 and -2147483648: they do not increase, so the
assertion `PolyIsSorted` of `PolyAdd` fails, and with assertions turned off the stack
receives a value that is not canonical. -/
theorem stack_exponent_overflow :
    (main [("(1,1)+(1,2)\n").toList,
        ("(1,0)+(1,2147483646)+(1,2147483647)\n").toList]).stack
      = [monos [(coeff 1, 0), (coeff 1, 2147483646), (coeff 1, 2147483647)],
          monos [(coeff 1, 1), (coeff 1, 2)]] ∧
    Canonical (monos [(coeff 1, 0), (coeff 1, 2147483646), (coeff 1, 2147483647)]) = true ∧
    Canonical (monos [(coeff 1, 1), (coeff 1, 2)]) = true ∧
    mainSums [("(1,1)+(1,2)\n").toList, ("(1,0)+(1,2147483646)+(1,2147483647)\n").toList,
        ("MUL\n").toList]
      = [1 + 0, 1 + 2147483646, 1 + 2147483647, 2 + 0, 2 + 2147483646, 2 + 2147483647] ∧
    ExpSumsInRange (mainSums [("(1,1)+(1,2)\n").toList,
        ("(1,0)+(1,2147483646)+(1,2147483647)\n").toList, ("MUL\n").toList]) = false ∧
    (PolyMulInnerSums (coeff 1, 1)
        [(coeff 1, 0), (coeff 1, 2147483646), (coeff 1, 2147483647)]).map wrapExp
      = [1, 2147483647, -2147483648] :=
  ⟨by rfl, by decide, by decide, by decide!, by decide!, by decide!⟩

/-- Claim C12, amended: starting from the empty stack, after `ProcessInput` has processed
any finite sequence of input lines during which every exponent sum formed (by `MUL`,
`COMPOSE`, `AT` and `DEG`) stays in the range of `poly_exp_t`, every polynomial on the
stack is canonical, its constants lie in the range of `poly_coeff_t` and its exponents
in the range of `poly_exp_t`. -/
theorem stack_always_canonical (lines : List (List Char))
    (hsums : ExpSumsInRange (mainSums lines) = true) :
    ∀ p ∈ (main lines).stack,
      Canonical p = true ∧ CoeffsInRange p = true ∧ ExpsInRange p = true :=
  fun p hp =>
    ⟨(wellFormed_mainLoop lines 0 ⟨StackCreate, [], []⟩ (by simp [StackCreate]) p hp).1,
      (wellFormed_mainLoop lines 0 ⟨StackCreate, [], []⟩ (by simp [StackCreate]) p hp).2,
      expsInRange_main lines hsums p hp⟩

set_option maxRecDepth 100000 in
unseal CreatePoly CreatePolyLoop CreateMono CreateMonoLoop PolyAdd PolyAddLoop PolyMul PolyMulOuter PolyMulInner in
/-- Witness for C12: after the lines `(1,0)+(1,2)`, `(2,0)+(1,1)` and `MUL`, which form
no exponent sum above 3, the stack holds the canonical polynomial
`2 + x0 + 2 * x0^2 + x0^3`. -/
theorem stack_always_canonical_witness :
    ExpSumsInRange (mainSums [("(1,0)+(1,2)\n").toList, ("(2,0)+(1,1)\n").toList,
      ("MUL\n").toList]) = true ∧
    monos [(coeff 2, 0), (coeff 1, 1), (coeff 2, 2), (coeff 1, 3)]
      ∈ (main [("(1,0)+(1,2)\n").toList, ("(2,0)+(1,1)\n").toList, ("MUL\n").toList]).stack ∧
    Canonical (monos [(coeff 2, 0), (coeff 1, 1), (coeff 2, 2), (coeff 1, 3)]) = true := by
  have h : (main [("(1,0)+(1,2)\n").toList, ("(2,0)+(1,1)\n").toList,
      ("MUL\n").toList]).stack
      = [monos [(coeff 2, 0), (coeff 1, 1), (coeff 2, 2), (coeff 1, 3)]] := by rfl
  have hmem : monos [(coeff 2, 0), (coeff 1, 1), (coeff 2, 2), (coeff 1, 3)]
      ∈ (main [("(1,0)+(1,2)\n").toList, ("(2,0)+(1,1)\n").toList,
        ("MUL\n").toList]).stack := by
    rw [h]
    exact List.mem_singleton_self _
  exact ⟨by decide!, hmem, (stack_always_canonical _ (by decide!) _ hmem).1⟩

/-- Claim C13: `PolyAdd` is commutative up to structural equality: `PolyAdd p q` and
`PolyAdd q p` are the same value and `PolyIsEq` returns true on them (for all operands,
canonical or not). -/
theorem PolyAdd_comm (p q : Poly) :
    PolyAdd p q = PolyAdd q p ∧ PolyIsEq (PolyAdd p q) (PolyAdd q p) = true :=
  ⟨PolyAdd_comm_all p q, (PolyIsEq_iff_eq _ _).mpr (PolyAdd_comm_all p q)⟩

/-- Claim C14: `PolyAdd` is associative up to structural equality, for canonical operands
whose constants lie in the signed 64-bit range (as every `poly_coeff_t` does). -/
theorem PolyAdd_assoc (p q r : Poly) (hp : Canonical p = true) (hq : Canonical q = true)
    (hr : Canonical r = true) (hrp : CoeffsInRange p = true) (hrq : CoeffsInRange q = true)
    (hrr : CoeffsInRange r = true) :
    PolyAdd (PolyAdd p q) r = PolyAdd p (PolyAdd q r) ∧
    PolyIsEq (PolyAdd (PolyAdd p q) r) (PolyAdd p (PolyAdd q r)) = true := by
  have h := PolyAdd_assoc_canonical p q r hp hq hr (coeffsInRange_leaf hrp)
    (coeffsInRange_leaf hrq) (coeffsInRange_leaf hrr)
  exact ⟨h, (PolyIsEq_iff_eq _ _).mpr h⟩

/-- Witness for C14: `2^63 - 1`, `1 + x0` and `-1 + x1 * x0`, where the first sum wraps. -/
theorem PolyAdd_assoc_witness :
    Canonical (coeff (2 ^ 63 - 1)) = true ∧
    Canonical (monos [(coeff 1, 0), (coeff 1, 1)]) = true ∧
    Canonical (monos [(coeff (-1), 0), (monos [(coeff 1, 1)], 1)]) = true ∧
    CoeffsInRange (coeff (2 ^ 63 - 1)) = true ∧
    CoeffsInRange (monos [(coeff 1, 0), (coeff 1, 1)]) = true ∧
    CoeffsInRange (monos [(coeff (-1), 0), (monos [(coeff 1, 1)], 1)]) = true ∧
    PolyAdd (PolyAdd (coeff (2 ^ 63 - 1)) (monos [(coeff 1, 0), (coeff 1, 1)]))
        (monos [(coeff (-1), 0), (monos [(coeff 1, 1)], 1)])
      = PolyAdd (coeff (2 ^ 63 - 1)) (PolyAdd (monos [(coeff 1, 0), (coeff 1, 1)])
        (monos [(coeff (-1), 0), (monos [(coeff 1, 1)], 1)])) :=
  ⟨by decide, by decide, by decide, by decide, by decide, by decide,
    (PolyAdd_assoc _ _ _ (by decide) (by decide) (by decide) (by decide) (by decide)
      (by decide)).1⟩

/-- Claim C15: the zero constant is the identity of `PolyAdd`: for canonical `p` with
constants in the signed 64-bit range, `PolyAdd p (coeff 0)` and `PolyAdd (coeff 0) p`
are structurally equal to `p`. -/
theorem PolyAdd_zero (p : Poly) (hp : Canonical p = true) (hr : CoeffsInRange p = true) :
    PolyAdd p (coeff 0) = p ∧ PolyAdd (coeff 0) p = p ∧
    PolyIsEq (PolyAdd p (coeff 0)) p = true ∧ PolyIsEq (PolyAdd (coeff 0) p) p = true := by
  have h := PolyAdd_zero_canonical p hp (coeffsInRange_leaf hr)
  exact ⟨h.1, h.2, (PolyIsEq_iff_eq _ _).mpr h.1, (PolyIsEq_iff_eq _ _).mpr h.2⟩

/-- Witness for C15: `x1^2 * x0^3 + 5 * x0^4`, whose smallest exponent is not 0. -/
theorem PolyAdd_zero_witness :
    Canonical (monos [(monos [(coeff 1, 2)], 3), (coeff 5, 4)]) = true ∧
    CoeffsInRange (monos [(monos [(coeff 1, 2)], 3), (coeff 5, 4)]) = true ∧
    PolyAdd (monos [(monos [(coeff 1, 2)], 3), (coeff 5, 4)]) (coeff 0)
      = monos [(monos [(coeff 1, 2)], 3), (coeff 5, 4)] :=
  ⟨by decide, by decide, (PolyAdd_zero _ (by decide) (by decide)).1⟩

/-- Claim C16: `PolyAdd p (PolyNeg p)` is the zero constant, and so is `PolySub p p`, in
the wrapping 64-bit coefficient arithmetic (for every `p`, canonical or not). -/
theorem PolyAdd_neg_self (p : Poly) :
    PolyAdd p (PolyNeg p) = coeff 0 ∧ PolySub p p = coeff 0 :=
  ⟨PolyAdd_neg_all p, PolyAdd_neg_all p⟩

set_option maxRecDepth 100000 in
/-- Claim C17 as stated fails for the canonical `p = 1 + x0^2` and
`q = x0^2147483646 + x0^2147483647`, both of two monomials.  Either product forms the
exponent sums `2 + 2147483646` and `2 + 2147483647`, which lie outside the range of
`poly_exp_t`, where the C addition has no defined result.  Reduced to 32 bits, the first
array `processed` of `PolyMul(q, p)` has the exponents 2147483646 and -2147483648, which
do not increase, so that the assertion `PolyIsSorted` of `PolyAdd` fails, while both
arrays `processed` of `PolyMul(p, q)` have increasing exponents and the call returns. -/
theorem PolyMul_comm_exponent_overflow :
    Canonical (monos [(coeff 1, 0), (coeff 1, 2)]) = true ∧
    Canonical (monos [(coeff 1, 2147483646), (coeff 1, 2147483647)]) = true ∧
    ExpsInRange (monos [(coeff 1, 2147483646), (coeff 1, 2147483647)]) = true ∧
    PolyMulSums (monos [(coeff 1, 0), (coeff 1, 2)])
        (monos [(coeff 1, 2147483646), (coeff 1, 2147483647)])
      = [0 + 2147483646, 0 + 2147483647, 2 + 2147483646, 2 + 2147483647] ∧
    PolyMulSums (monos [(coeff 1, 2147483646), (coeff 1, 2147483647)])
        (monos [(coeff 1, 0), (coeff 1, 2)])
      = [2147483646 + 0, 2147483646 + 2, 2147483647 + 0, 2147483647 + 2] ∧
    ExpSumsInRange (PolyMulSums (monos [(coeff 1, 0), (coeff 1, 2)])
        (monos [(coeff 1, 2147483646), (coeff 1, 2147483647)])) = false ∧
    ExpSumsInRange (PolyMulSums (monos [(coeff 1, 2147483646), (coeff 1, 2147483647)])
        (monos [(coeff 1, 0), (coeff 1, 2)])) = false ∧
    (PolyMulInnerSums (coeff 1, 2147483646) [(coeff 1, 0), (coeff 1, 2)]).map wrapExp
      = [2147483646, -2147483648] ∧
    (PolyMulInnerSums (coeff 1, 0) [(coeff 1, 2147483646), (coeff 1, 2147483647)]).map wrapExp
      = [2147483646, 2147483647] ∧
    (PolyMulInnerSums (coeff 1, 2) [(coeff 1, 2147483646), (coeff 1, 2147483647)]).map wrapExp
      = [-2147483648, -2147483647] :=
  ⟨by decide, by decide, by decide, by decide!, by decide!, by decide!, by decide!,
    by decide!, by decide!, by decide!⟩

/-- Claim C17, amended: `PolyMul` is commutative up to structural equality for canonical
operands whose product forms only exponent sums in the range of `poly_exp_t`, whether or
not the operand swap of `PolyMul` applies.  The product in the other order then forms
the same sums, so that they are in range as well, and every exponent of the product is
in range. -/
theorem PolyMul_comm (p q : Poly) (hp : Canonical p = true) (hq : Canonical q = true)
    (hsums : ExpSumsInRange (PolyMulSums p q) = true) :
    PolyMul p q = PolyMul q p ∧ PolyIsEq (PolyMul p q) (PolyMul q p) = true ∧
    ExpSumsInRange (PolyMulSums q p) = true ∧ (∀ s, s ∈ PolyMulSums q p ↔ s ∈ PolyMulSums p q) ∧
    ExpsInRange (PolyMul p q) = true :=
  ⟨PolyMul_comm_canonical p q hp hq,
    (PolyIsEq_iff_eq _ _).mpr (PolyMul_comm_canonical p q hp hq),
    expSumsInRange_PolyMulSums_comm p q hsums, mem_PolyMulSums_comm q p,
    expsInRange_PolyMul p q hsums⟩

set_option maxRecDepth 100000 in
/-- Witness for C17: `1 + x0` and `x1 + 2^32 * x0`, both with two monomials, so that no
operand swap takes place; no exponent sum formed exceeds 2. -/
theorem PolyMul_comm_witness :
    Canonical (monos [(coeff 1, 0), (coeff 1, 1)]) = true ∧
    Canonical (monos [(monos [(coeff 1, 1)], 0), (coeff (2 ^ 32), 1)]) = true ∧
    ExpSumsInRange (PolyMulSums (monos [(coeff 1, 0), (coeff 1, 1)])
        (monos [(monos [(coeff 1, 1)], 0), (coeff (2 ^ 32), 1)])) = true ∧
    PolyMul (monos [(coeff 1, 0), (coeff 1, 1)])
        (monos [(monos [(coeff 1, 1)], 0), (coeff (2 ^ 32), 1)])
      = PolyMul (monos [(monos [(coeff 1, 1)], 0), (coeff (2 ^ 32), 1)])
        (monos [(coeff 1, 0), (coeff 1, 1)]) :=
  ⟨by decide, by decide, by decide!,
    (PolyMul_comm _ _ (by decide) (by decide) (by decide!)).1⟩

/-- Claim C18: `PolyMul` is associative up to structural equality for canonical operands
(exponents are natural numbers in the model, so exponent sums are exact). -/
theorem PolyMul_assoc (p q r : Poly) (hp : Canonical p = true) (hq : Canonical q = true)
    (hr : Canonical r = true) :
    PolyMul (PolyMul p q) r = PolyMul p (PolyMul q r) ∧
    PolyIsEq (PolyMul (PolyMul p q) r) (PolyMul p (PolyMul q r)) = true :=
  ⟨PolyMul_assoc_canonical p q r hp hq hr,
    (PolyIsEq_iff_eq _ _).mpr (PolyMul_assoc_canonical p q r hp hq hr)⟩

/-- Witness for C18: `2^32 + x0`, `2^32 * x0` and `1 + x1 * x0`. -/
theorem PolyMul_assoc_witness :
    Canonical (monos [(coeff (2 ^ 32), 0), (coeff 1, 1)]) = true ∧
    Canonical (monos [(coeff (2 ^ 32), 1)]) = true ∧
    Canonical (monos [(coeff 1, 0), (monos [(coeff 1, 1)], 1)]) = true ∧
    PolyMul (PolyMul (monos [(coeff (2 ^ 32), 0), (coeff 1, 1)]) (monos [(coeff (2 ^ 32), 1)]))
        (monos [(coeff 1, 0), (monos [(coeff 1, 1)], 1)])
      = PolyMul (monos [(coeff (2 ^ 32), 0), (coeff 1, 1)])
        (PolyMul (monos [(coeff (2 ^ 32), 1)])
          (monos [(coeff 1, 0), (monos [(coeff 1, 1)], 1)])) :=
  ⟨by decide, by decide, by decide, (PolyMul_assoc _ _ _ (by decide) (by decide) (by decide)).1⟩

/-- Claim C19: the constant 1 is the identity of `PolyMul`: for canonical `p` with
constants in the signed 64-bit range, `PolyMul p (coeff 1)` and `PolyMul (coeff 1) p`
are structurally equal to `p`. -/
theorem PolyMul_one (p : Poly) (hp : Canonical p = true) (hr : CoeffsInRange p = true) :
    PolyMul p (coeff 1) = p ∧ PolyMul (coeff 1) p = p ∧
    PolyIsEq (PolyMul p (coeff 1)) p = true ∧ PolyIsEq (PolyMul (coeff 1) p) p = true := by
  have h := PolyMul_one_canonical p hp (coeffsInRange_leaf hr)
  exact ⟨h.1, h.2, (PolyIsEq_iff_eq _ _).mpr h.1, (PolyIsEq_iff_eq _ _).mpr h.2⟩

/-- Witness for C19: `-3 + x1^2 * x0^7`. -/
theorem PolyMul_one_witness :
    Canonical (monos [(coeff (-3), 0), (monos [(coeff 1, 2)], 7)]) = true ∧
    CoeffsInRange (monos [(coeff (-3), 0), (monos [(coeff 1, 2)], 7)]) = true ∧
    PolyMul (monos [(coeff (-3), 0), (monos [(coeff 1, 2)], 7)]) (coeff 1)
      = monos [(coeff (-3), 0), (monos [(coeff 1, 2)], 7)] :=
  ⟨by decide, by decide, (PolyMul_one _ (by decide) (by decide)).1⟩

/-- Claim C20: for canonical `p`, `PolyMul p (coeff 0)` and `PolyMul (coeff 0) p` are the
zero constant. -/
theorem PolyMul_zero (p : Poly) (hp : Canonical p = true) :
    PolyMul p (coeff 0) = coeff 0 ∧ PolyMul (coeff 0) p = coeff 0 :=
  PolyMul_zero_canonical p hp

/-- Witness for C20: `-3 + x1^2 * x0^7`. -/
theorem PolyMul_zero_witness :
    Canonical (monos [(coeff (-3), 0), (monos [(coeff 1, 2)], 7)]) = true ∧
    PolyMul (monos [(coeff (-3), 0), (monos [(coeff 1, 2)], 7)]) (coeff 0) = coeff 0 :=
  ⟨by decide, (PolyMul_zero _ (by decide)).1⟩

/-- Claim C21: `PolyDeg` of the zero constant is -1, of any other constant 0, and for a
canonical non-constant polynomial it is the maximum over the monomials of
`exponent + PolyDeg coefficient`, which is the largest sum of exponents among the power
products whose coefficient in the polynomial denoted is not zero.  Exponents are natural
numbers in the model, so the sums are exact. -/
theorem PolyDeg_total_degree :
    PolyDeg (coeff 0) = -1 ∧
    (∀ c : Int, c ≠ 0 → PolyDeg (coeff c) = 0) ∧
    (∀ arr : List Mono, Canonical (monos arr) = true →
      ((∀ m ∈ arr, (m.2 : Int) + PolyDeg m.1 ≤ PolyDeg (monos arr)) ∧
        ∃ m ∈ arr, PolyDeg (monos arr) = (m.2 : Int) + PolyDeg m.1) ∧
      ((∀ es : List Nat, coeffAt (monos arr) es ≠ 0 →
          ((es.sum : Nat) : Int) ≤ PolyDeg (monos arr)) ∧
        ∃ es : List Nat, coeffAt (monos arr) es ≠ 0 ∧
          ((es.sum : Nat) : Int) = PolyDeg (monos arr))) := by
  refine ⟨rfl, ?_, ?_⟩
  · intro c hc
    simp [PolyDeg, PolyIsZero, hc]
  · intro arr h
    exact ⟨PolyDeg_monos_isMax arr h, PolyDeg_total (monos arr) h rfl⟩

/-- Witness for C21: `3 + x1^4 * x0^2 + 5 * x0^3` has degree 6, reached by the term
`x0^2 * x1^4`. -/
theorem PolyDeg_total_degree_witness :
    Canonical (monos [(coeff 3, 0), (monos [(coeff 1, 4)], 2), (coeff 5, 3)]) = true ∧
    PolyDeg (monos [(coeff 3, 0), (monos [(coeff 1, 4)], 2), (coeff 5, 3)]) = 6 ∧
    coeffAt (monos [(coeff 3, 0), (monos [(coeff 1, 4)], 2), (coeff 5, 3)]) [2, 4] = 1 ∧
    ∀ es : List Nat,
      coeffAt (monos [(coeff 3, 0), (monos [(coeff 1, 4)], 2), (coeff 5, 3)]) es ≠ 0 →
      ((es.sum : Nat) : Int) ≤ PolyDeg (monos [(coeff 3, 0), (monos [(coeff 1, 4)], 2), (coeff 5, 3)]) :=
  ⟨by decide, by decide, by decide, (PolyDeg_total_degree.2.2 _ (by decide)).2.1⟩

set_option maxRecDepth 100000 in
unseal CreatePoly CreatePolyLoop CreateMono CreateMonoLoop PolyAdd PolyAddLoop in
/-- Claim C22 as stated fails for the canonical `x0^2147483647 * x1`, which the parser
accepts as the line `((1,1),2147483647)`.  `PolyDegBy` gives 2147483647 for the variable
0, while `PolyDeg` forms the sum `2147483647 + 1`, which lies outside the range of
`poly_exp_t`, where the C addition has no defined result.  Reduced to 32 bits the sum is
negative, so that the loop of `PolyDeg` leaves the value 0 in `ret`, below the value of
`PolyDegBy`. -/
theorem PolyDeg_exponent_overflow :
    (main [("((1,1),2147483647)\n").toList]).stack
      = [monos [(monos [(coeff 1, 1)], 2147483647)]] ∧
    (main [("((1,1),2147483647)\n").toList]).err = [] ∧
    Canonical (monos [(monos [(coeff 1, 1)], 2147483647)]) = true ∧
    ExpsInRange (monos [(monos [(coeff 1, 1)], 2147483647)]) = true ∧
    PolyDegBy (monos [(monos [(coeff 1, 1)], 2147483647)]) 0 = 2147483647 ∧
    PolyDeg (monos [(coeff 1, 1)]) = 1 ∧
    PolyDegSums (monos [(monos [(coeff 1, 1)], 2147483647)]) = [1 + 0, 2147483647 + 1] ∧
    ExpSumsInRange (PolyDegSums (monos [(monos [(coeff 1, 1)], 2147483647)])) = false ∧
    wrapExp (2147483647 + 1) = -2147483648 ∧
    PolyExpMaxInt 0 (wrapExp (2147483647 + PolyDeg (monos [(coeff 1, 1)]))) = 0 ∧
    ¬ PolyDegBy (monos [(monos [(coeff 1, 1)], 2147483647)]) 0
      ≤ PolyExpMaxInt 0 (wrapExp (2147483647 + PolyDeg (monos [(coeff 1, 1)]))) :=
  ⟨by rfl, by rfl, by decide, by decide, by decide, by decide, by decide, by decide,
    by decide!, by decide!, by decide!⟩

/-- Claim C22, amended: for every canonical `p` for which the sums formed by `PolyDeg` stay
in the range of `poly_exp_t`, and every variable index `i`, `PolyDegBy p i` is at most
`PolyDeg p`, which itself is in range. -/
theorem PolyDegBy_le_PolyDeg (p : Poly) (h : Canonical p = true)
    (hsums : ExpSumsInRange (PolyDegSums p) = true) (i : Nat) :
    PolyDegBy p i ≤ PolyDeg p ∧ PolyDeg p ≤ MAX_POLY_EXP_T :=
  ⟨PolyDegBy_le p h i, PolyDeg_le_of_sums p hsums⟩

/-- Witness for C22: `x0^2 * x1^3` has degree 3 in `x1` and total degree 5; the sums
formed are 3 and 5. -/
theorem PolyDegBy_le_PolyDeg_witness :
    Canonical (monos [(monos [(coeff 1, 3)], 2)]) = true ∧
    ExpSumsInRange (PolyDegSums (monos [(monos [(coeff 1, 3)], 2)])) = true ∧
    PolyDegBy (monos [(monos [(coeff 1, 3)], 2)]) 1 = 3 ∧
    PolyDeg (monos [(monos [(coeff 1, 3)], 2)]) = 5 ∧
    PolyDegBy (monos [(monos [(coeff 1, 3)], 2)]) 1 ≤ PolyDeg (monos [(monos [(coeff 1, 3)], 2)]) :=
  ⟨by decide, by decide, by decide, by decide,
    (PolyDegBy_le_PolyDeg _ (by decide) (by decide) 1).1⟩

/-- Claim C23 as stated fails: with `3` on top and `5` beneath it, `Sub` pushes `-2`, which
is `3 - 5`, and not `5 - 3 = 2`. -/
theorem Sub_not_second_minus_top :
    (Sub [coeff 3, coeff 5]).stack = [coeff (-2)] ∧
    PolySub (coeff 5) (coeff 3) = coeff 2 ∧
    (Sub [coeff 3, coeff 5]).stack ≠ [PolySub (coeff 5) (coeff 3)] := by
  have h1 : (Sub [coeff 3, coeff 5]).stack = [coeff (-2)] := by
    simp [Sub, StackUnderflow, StackPop, StackPush, PolySub, PolyNeg, PolyAdd, PolyFromCoeff,
      wrapCoeff]
  have h2 : PolySub (coeff 5) (coeff 3) = coeff 2 := by
    simp [PolySub, PolyNeg, PolyAdd, PolyFromCoeff, wrapCoeff]
  refine ⟨h1, h2, ?_⟩
  rw [h1, h2]
  simp

/-- Claim C23, amended: for every stack with at least two entries, `Sub` succeeds, removes
the two topmost entries and pushes `PolySub top second`, the top polynomial minus the
one directly beneath it; nothing is printed. -/
theorem Sub_top_minus_second (stack : Stack) (h : 2 ≤ stack.length) :
    (Sub stack).ok = true ∧
    (Sub stack).stack = PolySub (stack.getD 0 PolyZero) (stack.getD 1 PolyZero) :: stack.drop 2 ∧
    (Sub stack).out = [] := by
  match stack, h with
  | t :: s :: rest, _ =>
    have hlen : ¬ (rest.length + 1 + 1 < 2) := by omega
    simp [Sub, StackUnderflow, StackPop, StackPush, hlen]

/-- Witness for C23: the stack `x0`, `7`, `1`. -/
theorem Sub_top_minus_second_witness :
    2 ≤ [monos [(coeff 1, 1)], coeff 7, coeff 1].length ∧
    (Sub [monos [(coeff 1, 1)], coeff 7, coeff 1]).stack
      = PolySub (([monos [(coeff 1, 1)], coeff 7, coeff 1] : Stack).getD 0 PolyZero)
          (([monos [(coeff 1, 1)], coeff 7, coeff 1] : Stack).getD 1 PolyZero)
        :: ([monos [(coeff 1, 1)], coeff 7, coeff 1] : Stack).drop 2 :=
  ⟨by decide, (Sub_top_minus_second _ (by decide)).2.1⟩

/-- Claim C24: with `t` on top of the stack and `s` directly beneath it, `Sub` removes both
and pushes `PolySub t s`, whose value is `t - s` (modulo `2^64`, as coefficients wrap). -/
theorem Sub_subtracts_second_from_top (t s : Poly) (rest : Stack) :
    (Sub (t :: s :: rest)).ok = true ∧
    (Sub (t :: s :: rest)).stack = PolySub t s :: rest ∧
    ∀ env : Nat → Int,
      value (PolySub t s) env % COEFF_MOD = (value t env - value s env) % COEFF_MOD := by
  have hlen : ¬ (rest.length + 1 + 1 < 2) := by omega
  refine ⟨by simp [Sub, StackUnderflow, hlen],
    by simp [Sub, StackUnderflow, StackPop, StackPush, hlen], ?_⟩
  intro env
  apply emod_eq_of_cast_eq
  rw [value_PolySub_cast]
  push_cast
  rfl

/-- Claim C25: a command applied to a stack with fewer polynomials than it needs returns
false, leaves the stack as it is and prints nothing: one operand for `IsCoeff`, `IsZero`,
`Clone`, `Neg`, `Deg`, `DegBy`, `At`, `Print`, `Pop`; two for `Add`, `Mul`, `Sub`, `IsEq`;
`k + 1` for `Compose` with any `k`.  In particular `ADD` on the empty stack reports the
underflow and the stack stays empty. -/
theorem underflow_keeps_stack (stack : Stack) :
    (stack.length < 1 →
      IsCoeff stack = ⟨false, stack, []⟩ ∧ IsZero stack = ⟨false, stack, []⟩ ∧
      Clone stack = ⟨false, stack, []⟩ ∧ Neg stack = ⟨false, stack, []⟩ ∧
      Deg stack = ⟨false, stack, []⟩ ∧ (∀ idx, DegBy stack idx = ⟨false, stack, []⟩) ∧
      (∀ x, At stack x = ⟨false, stack, []⟩) ∧ Print stack = ⟨false, stack, []⟩ ∧
      Pop stack = ⟨false, stack, []⟩) ∧
    (stack.length < 2 →
      Add stack = ⟨false, stack, []⟩ ∧ Mul stack = ⟨false, stack, []⟩ ∧
      Sub stack = ⟨false, stack, []⟩ ∧ IsEq stack = ⟨false, stack, []⟩) ∧
    (∀ k, stack.length < k + 1 → Compose stack k = ⟨false, stack, []⟩) ∧
    Add [] = ⟨false, [], []⟩ ∧
    (main [("ADD\n").toList]).stack = [] ∧
    (main [("ADD\n").toList]).err = ("ERROR 1 STACK UNDERFLOW\n").toList := by
  refine ⟨?_, ?_, ?_, rfl, rfl, rfl⟩
  · intro h
    simp [IsCoeff, IsZero, Clone, Neg, Deg, DegBy, At, Print, Pop, StackUnderflow, h]
  · intro h
    simp [Add, Mul, Sub, IsEq, StackUnderflow, h]
  · intro k h
    have h2 : stack.length ≤ k := by omega
    simp [Compose, h2]

/-- Witness for C25: `SUB` with one polynomial on the stack and `COMPOSE 2` with two. -/
theorem underflow_keeps_stack_witness :
    ([coeff 5] : Stack).length < 2 ∧ Sub [coeff 5] = ⟨false, [coeff 5], []⟩ ∧
    ([coeff 5, coeff 6] : Stack).length < 2 + 1 ∧
    Compose [coeff 5, coeff 6] 2 = ⟨false, [coeff 5, coeff 6], []⟩ :=
  ⟨by decide, ((underflow_keeps_stack [coeff 5]).2.1 (by decide)).2.2.1, by decide,
    (underflow_keeps_stack [coeff 5, coeff 6]).2.2.1 2 (by decide)⟩

/-- Claim C26: whenever `IsCoeff`, `IsZero`, `IsEq`, `Deg`, `DegBy` or `Print` succeeds, the
stack is unchanged and the text written is exactly one line. -/
theorem query_commands_frame (stack : Stack) :
    ((IsCoeff stack).ok = true →
      (IsCoeff stack).stack = stack ∧ OneLine (IsCoeff stack).out) ∧
    ((IsZero stack).ok = true →
      (IsZero stack).stack = stack ∧ OneLine (IsZero stack).out) ∧
    ((IsEq stack).ok = true →
      (IsEq stack).stack = stack ∧ OneLine (IsEq stack).out) ∧
    ((Deg stack).ok = true →
      (Deg stack).stack = stack ∧ OneLine (Deg stack).out) ∧
    (∀ idx, (DegBy stack idx).ok = true →
      (DegBy stack idx).stack = stack ∧ OneLine (DegBy stack idx).out) ∧
    ((Print stack).ok = true →
      (Print stack).stack = stack ∧ OneLine (Print stack).out) := by
  refine ⟨?_, ?_, ?_, ?_, ?_, ?_⟩
  · unfold IsCoeff
    split
    · intro h; simp at h
    · intro _; exact ⟨rfl, oneLine_PrintlnBool _⟩
  · unfold IsZero
    split
    · intro h; simp at h
    · intro _; exact ⟨rfl, oneLine_PrintlnBool _⟩
  · unfold IsEq
    split
    · intro h; simp at h
    · intro _; exact ⟨rfl, oneLine_PrintlnBool _⟩
  · unfold Deg
    split
    · intro h; simp at h
    · intro _; exact ⟨rfl, _, rfl, newline_not_mem_printCoeff _⟩
  · intro idx
    unfold DegBy
    split
    · intro h; simp at h
    · intro _; exact ⟨rfl, _, rfl, newline_not_mem_printCoeff _⟩
  · unfold Print
    split
    · intro h; simp at h
    · intro _; exact ⟨rfl, _, rfl, newline_not_mem_PolyPrint _⟩

/-- Witness for C26: `DEG_BY 1` and `IS_EQ` on the stack `x0^2 * x1^3`, `4`. -/
theorem query_commands_frame_witness :
    (DegBy [monos [(monos [(coeff 1, 3)], 2)], coeff 4] 1).ok = true ∧
    (DegBy [monos [(monos [(coeff 1, 3)], 2)], coeff 4] 1).stack
      = [monos [(monos [(coeff 1, 3)], 2)], coeff 4] ∧
    (DegBy [monos [(monos [(coeff 1, 3)], 2)], coeff 4] 1).out = ['3', '\n'] ∧
    (IsEq [monos [(monos [(coeff 1, 3)], 2)], coeff 4]).ok = true ∧
    OneLine (IsEq [monos [(monos [(coeff 1, 3)], 2)], coeff 4]).out :=
  ⟨rfl, ((query_commands_frame [monos [(monos [(coeff 1, 3)], 2)], coeff 4]).2.2.2.2.1 1
      rfl).1, rfl, rfl,
    ((query_commands_frame [monos [(monos [(coeff 1, 3)], 2)], coeff 4]).2.2.1 rfl).2⟩

set_option maxRecDepth 100000 in
unseal CreatePoly CreatePolyLoop CreateMono CreateMonoLoop PolyAdd PolyAddLoop in
/-- Claim C27: from the empty stack, after the lines `(1,0)+(1,2)`, `(2,0)` and `ADD` the
stack holds one polynomial, `3 + x0^2`; `PRINT` then writes `(3,0)+(1,2)` and `DEG`
writes `2`, and nothing is written to the standard error. -/
theorem scenario_add_print_deg :
    (main [("(1,0)+(1,2)\n").toList, ("(2,0)\n").toList, ("ADD\n").toList]).stack
      = [monos [(coeff 3, 0), (coeff 1, 2)]] ∧
    (main [("(1,0)+(1,2)\n").toList, ("(2,0)\n").toList, ("ADD\n").toList,
      ("PRINT\n").toList]).out = ("(3,0)+(1,2)\n").toList ∧
    (main [("(1,0)+(1,2)\n").toList, ("(2,0)\n").toList, ("ADD\n").toList,
      ("PRINT\n").toList, ("DEG\n").toList]).out = ("(3,0)+(1,2)\n2\n").toList ∧
    (main [("(1,0)+(1,2)\n").toList, ("(2,0)\n").toList, ("ADD\n").toList,
      ("PRINT\n").toList, ("DEG\n").toList]).err = [] ∧
    (main [("(1,0)+(1,2)\n").toList, ("(2,0)\n").toList, ("ADD\n").toList,
      ("PRINT\n").toList, ("DEG\n").toList]).stack = [monos [(coeff 3, 0), (coeff 1, 2)]] :=
  ⟨rfl, rfl, rfl, rfl, rfl⟩

set_option maxRecDepth 100000 in
unseal CreatePoly CreatePolyLoop CreateMono CreateMonoLoop PolyAdd PolyAddLoop PolyMul PolyMulOuter PolyMulInner FastPowLoop in
/-- Claim C28 as stated fails: after `(1,0)+(1,2)`, `(2,0)`, `ADD` and `AT 3` the top of the
stack is the constant 12, the value of `3 + x0^2` at 3, and not the constant 10. -/
theorem scenario_at_not_ten :
    (main [("(1,0)+(1,2)\n").toList, ("(2,0)\n").toList, ("ADD\n").toList,
      ("AT 3\n").toList]).stack = [coeff 12] ∧
    StackTop (main [("(1,0)+(1,2)\n").toList, ("(2,0)\n").toList, ("ADD\n").toList,
      ("AT 3\n").toList]).stack ≠ coeff 10 := by
  have h : (main [("(1,0)+(1,2)\n").toList, ("(2,0)\n").toList, ("ADD\n").toList,
      ("AT 3\n").toList]).stack = [coeff 12] := by rfl
  refine ⟨h, ?_⟩
  rw [h]
  simp [StackTop]

set_option maxRecDepth 100000 in
unseal CreatePoly CreatePolyLoop CreateMono CreateMonoLoop PolyAdd PolyAddLoop PolyMul PolyMulOuter PolyMulInner FastPowLoop in
/-- Claim C28, amended: after `(1,0)+(1,2)`, `(2,0)`, `ADD` and `AT 3` the stack holds the
constant 12 alone, and `IS_COEFF` then writes `1`; nothing is written to the standard
error. -/
theorem scenario_at_is_coeff :
    StackTop (main [("(1,0)+(1,2)\n").toList, ("(2,0)\n").toList, ("ADD\n").toList,
      ("AT 3\n").toList]).stack = coeff 12 ∧
    (main [("(1,0)+(1,2)\n").toList, ("(2,0)\n").toList, ("ADD\n").toList,
      ("AT 3\n").toList]).stack.length = 1 ∧
    (main [("(1,0)+(1,2)\n").toList, ("(2,0)\n").toList, ("ADD\n").toList,
      ("AT 3\n").toList, ("IS_COEFF\n").toList]).out = ("1\n").toList ∧
    (main [("(1,0)+(1,2)\n").toList, ("(2,0)\n").toList, ("ADD\n").toList,
      ("AT 3\n").toList, ("IS_COEFF\n").toList]).err = [] :=
  ⟨rfl, rfl, rfl, rfl⟩

/-- Claim C29: for every canonical polynomial `p` with constants in the signed 64-bit range
and exponents at most 2147483647, `CreatePoly` applied to the text that `PolyPrint` writes
for `p` succeeds (`is_poly` stays true) and returns `p` itself, so that `PolyIsEq` holds
between the result and `p`. -/
theorem CreatePoly_PolyPrint (p : Poly) (hc : Canonical p = true)
    (hr : CoeffsInRange p = true) (he : ExpsInRange p = true) :
    CreatePoly (PolyPrint p) 0 (PolyPrint p).length true = (p, true) ∧
    PolyIsEq (CreatePoly (PolyPrint p) 0 (PolyPrint p).length true).1 p = true := by
  have h := CreatePoly_PolyPrint_at p ⟨hc, hr⟩ he (PolyPrint p) 0 [] (by simp) (by simp)
  rw [Nat.zero_add] at h
  rw [h]
  exact ⟨rfl, (PolyIsEq_iff_eq _ _).mpr rfl⟩

/-- Witness for C29: `-3 + (5 + x1^2) * x0^7 - 2^63 * x0^2147483647`. -/
theorem CreatePoly_PolyPrint_witness :
    Canonical (monos [(coeff (-3), 0), (monos [(coeff 5, 0), (coeff 1, 2)], 7),
      (coeff (-2 ^ 63), 2147483647)]) = true ∧
    CoeffsInRange (monos [(coeff (-3), 0), (monos [(coeff 5, 0), (coeff 1, 2)], 7),
      (coeff (-2 ^ 63), 2147483647)]) = true ∧
    ExpsInRange (monos [(coeff (-3), 0), (monos [(coeff 5, 0), (coeff 1, 2)], 7),
      (coeff (-2 ^ 63), 2147483647)]) = true ∧
    PolyPrint (monos [(coeff (-3), 0), (monos [(coeff 5, 0), (coeff 1, 2)], 7),
      (coeff (-2 ^ 63), 2147483647)])
      = ("(-3,0)+((5,0)+(1,2),7)+(-9223372036854775808,2147483647)").toList ∧
    CreatePoly (PolyPrint (monos [(coeff (-3), 0), (monos [(coeff 5, 0), (coeff 1, 2)], 7),
        (coeff (-2 ^ 63), 2147483647)])) 0
      (PolyPrint (monos [(coeff (-3), 0), (monos [(coeff 5, 0), (coeff 1, 2)], 7),
        (coeff (-2 ^ 63), 2147483647)])).length true
      = (monos [(coeff (-3), 0), (monos [(coeff 5, 0), (coeff 1, 2)], 7),
        (coeff (-2 ^ 63), 2147483647)], true) :=
  ⟨by decide, by decide, by decide, by decide, (CreatePoly_PolyPrint _ (by decide) (by decide)
    (by decide)).1⟩

set_option maxRecDepth 100000 in
unseal CreatePoly CreatePolyLoop CreateMono CreateMonoLoop in
/-- Claim C30 as stated fails: the text `01` is a scalar literal of the grammar and contains
no monomial, so it meets the three conditions; `CreatePoly` reads it as the constant 1, for
which `PolyPrint` writes `1`.  Likewise `(-07,01)` is read as `-7 * x0` and printed as
`(-7,1)`. -/
theorem print_parse_leading_zero :
    Derives false (coeff 1) ['0', '1'] ∧ Canonical (coeff 1) = true ∧
    CreatePoly ['0', '1'] 0 2 true = (coeff 1, true) ∧
    PolyPrint (CreatePoly ['0', '1'] 0 2 true).1 ≠ ['0', '1'] ∧
    Derives false (monos [(coeff (-7), 1)]) ("(-07,01)").toList ∧
    Canonical (monos [(coeff (-7), 1)]) = true ∧
    PolyPrint (CreatePoly ("(-07,01)").toList 0 8 true).1 ≠ ("(-07,01)").toList := by
  have h1 : CreatePoly ['0', '1'] 0 2 true = (coeff 1, true) := by rfl
  have h2 : CreatePoly ("(-07,01)").toList 0 8 true = (monos [(coeff (-7), 1)], true) := by rfl
  refine ⟨?_, rfl, h1, ?_, ?_, by decide, ?_⟩
  · rw [Derives]
    refine ⟨by unfold InRange; norm_num, Or.inl ⟨⟨by simp, by decide⟩, by decide, by simp⟩⟩
  · rw [h1]
    decide
  · rw [Derives, DerivesMonos]
    refine ⟨['-', '0', '7'], ['0', '1'], [], ?_, ?_, Or.inl ⟨rfl, rfl⟩, rfl⟩
    · rw [Derives]
      refine ⟨by unfold InRange; norm_num, Or.inr ⟨['0', '7'], rfl, ⟨by simp, by decide⟩,
        by decide, by simp⟩⟩
    · exact ⟨⟨by simp, by decide⟩, by decide, by decide, by simp⟩
  · rw [h2]
    decide

/-- Claim C30, amended: for every text derivable from the grammar with numbers in range and
written as `PolyPrint` writes them (no superfluous leading zero, no minus sign before
zero) in which, at every nesting level, the exponents are strictly increasing, no
coefficient is zero and no polynomial is a single exponent-0 monomial with a scalar
coefficient, `CreatePoly` succeeds, returns the tree of the derivation, and `PolyPrint`
of the result is the text itself. -/
theorem print_parse_canonical_text (p : Poly) (t : List Char) (hd : Derives true p t)
    (hc : Canonical p = true) :
    CreatePoly t 0 t.length true = (p, true) ∧
    PolyPrint (CreatePoly t 0 t.length true).1 = t := by
  obtain ⟨ht, hr, he⟩ := derives_strict p t hd
  have h := CreatePoly_PolyPrint_at p ⟨hc, hr⟩ he t 0 [] (by simp [ht]) (by simp)
  rw [Nat.zero_add, ← ht] at h
  rw [h]
  exact ⟨rfl, ht.symm⟩

/-- Witness for C30: the text `(1,0)+(-2,3)`. -/
theorem print_parse_canonical_text_witness :
    Derives true (monos [(coeff 1, 0), (coeff (-2), 3)]) ("(1,0)+(-2,3)").toList ∧
    Canonical (monos [(coeff 1, 0), (coeff (-2), 3)]) = true ∧
    PolyPrint (CreatePoly ("(1,0)+(-2,3)").toList 0 ("(1,0)+(-2,3)").toList.length true).1
      = ("(1,0)+(-2,3)").toList := by
  have hd : Derives true (monos [(coeff 1, 0), (coeff (-2), 3)]) ("(1,0)+(-2,3)").toList := by
    rw [Derives, DerivesMonos]
    refine ⟨['1'], ['0'], ("+(-2,3)").toList, ?_, ?_,
      Or.inr ⟨by simp, ("(-2,3)").toList, rfl, ?_⟩, rfl⟩
    · rw [Derives]
      exact ⟨by unfold InRange; norm_num, Or.inl ⟨⟨by simp, by decide⟩, by decide,
        fun _ => by simp [NoLeadingZero]⟩⟩
    · exact ⟨⟨by simp, by decide⟩, by decide, by decide, fun _ => by simp [NoLeadingZero]⟩
    · rw [DerivesMonos]
      refine ⟨['-', '2'], ['3'], [], ?_, ?_, Or.inl ⟨rfl, rfl⟩, rfl⟩
      · rw [Derives]
        exact ⟨by unfold InRange; norm_num, Or.inr ⟨['2'], rfl, ⟨by simp, by decide⟩, by decide,
          fun _ => ⟨by simp [NoLeadingZero], by decide⟩⟩⟩
      · exact ⟨⟨by simp, by decide⟩, by decide, by decide, fun _ => by simp [NoLeadingZero]⟩
  exact ⟨hd, by decide, (print_parse_canonical_text _ _ hd (by decide)).2⟩

/-- Claim C33 as stated fails: on the empty stack `StackUnderflow stack 1` is true although
the stack does not hold one polynomial, and on a stack of two polynomials
`StackUnderflow stack 1` is false although it holds at least one. -/
theorem StackUnderflow_not_at_least :
    StackUnderflow [] 1 = true ∧ ¬ (1 ≤ ([] : Stack).length) ∧
    StackUnderflow [coeff 1, coeff 2] 1 = false ∧ 1 ≤ ([coeff 1, coeff 2] : Stack).length := by
  refine ⟨rfl, by simp, rfl, by simp⟩

/-- Claim C33, amended: `StackUnderflow stack n` is true if and only if the stack holds
fewer than `n` polynomials. -/
theorem StackUnderflow_iff_fewer (stack : Stack) (n : Nat) :
    StackUnderflow stack n = true ↔ stack.length < n := by
  simp [StackUnderflow]

/-- Claim C34: `FastPow c e` is `c ^ e` in the wrapping coefficient arithmetic: it lies in
the signed 64-bit range and is congruent to `c ^ e` modulo `2^64`, hence equal to `c ^ e`
whenever that power lies in the range; and `FastPow c 0 = 1` for every `c`, zero
included. -/
theorem FastPow_power (c : Int) (e : Nat) :
    FastPow c e % COEFF_MOD = c ^ e % COEFF_MOD ∧ InRange (FastPow c e) ∧
    (InRange (c ^ e) → FastPow c e = c ^ e) ∧ FastPow c 0 = 1 ∧ FastPow 0 0 = 1 := by
  have hcast : ((FastPow c e : Int) : ZMod (2 ^ 64)) = ((c ^ e : Int) : ZMod (2 ^ 64)) := by
    rw [FastPow_cast]
    push_cast
    rfl
  refine ⟨emod_eq_of_cast_eq hcast, inRange_FastPow c e, ?_, ?_, ?_⟩
  · intro h
    exact inRange_cast_inj _ _ (inRange_FastPow c e) h hcast
  · rw [FastPow, FastPowLoop]
    simp
  · rw [FastPow, FastPowLoop]
    simp

set_option maxRecDepth 100000 in
unseal FastPowLoop in
/-- Witness for C34: `(-3)^5 = -243` exactly, and `2^64` wraps to 0. -/
theorem FastPow_power_witness :
    InRange ((-3 : Int) ^ 5) ∧ FastPow (-3) 5 = -243 ∧ FastPow 2 64 = 0 := by
  have h : InRange ((-3 : Int) ^ 5) := by unfold InRange; norm_num
  refine ⟨h, ?_, by rfl⟩
  rw [(FastPow_power (-3) 5).2.2.1 h]
  norm_num

/-- Claim C35: for non-constant operands whose monomials have strictly increasing exponents
and canonical coefficients, `PolyAdd` returns a canonical polynomial, also when an
operand holds zero coefficients or is a single exponent-0 monomial with a constant
coefficient. -/
theorem PolyAdd_normalises_weak (ps qs : List Mono) (hp : WeakMonos ps) (hq : WeakMonos qs) :
    Canonical (PolyAdd (monos ps) (monos qs)) = true :=
  canonical_PolyAdd_weak (monos ps) (monos qs) hp hq

/-- Witness for C35: the un-collapsed constant `5 * x0^0` added to `0 * x0^1 + 2 * x0^3`,
which holds a zero coefficient; neither operand is canonical. -/
theorem PolyAdd_normalises_weak_witness :
    WeakMonos [(coeff 5, 0)] ∧ WeakMonos [(coeff 0, 1), (coeff 2, 3)] ∧
    Canonical (monos [(coeff 5, 0)]) = false ∧
    Canonical (monos [(coeff 0, 1), (coeff 2, 3)]) = false ∧
    Canonical (PolyAdd (monos [(coeff 5, 0)]) (monos [(coeff 0, 1), (coeff 2, 3)])) = true := by
  have h1 : WeakMonos [(coeff 5, 0)] := by
    refine ⟨by simp [ExpsIncreasing], by simp [Canonical]⟩
  have h2 : WeakMonos [(coeff 0, 1), (coeff 2, 3)] := by
    refine ⟨by simp [ExpsIncreasing], by simp [Canonical]⟩
  exact ⟨h1, h2, by decide, by decide, PolyAdd_normalises_weak _ _ h1 h2⟩

/-- Claim C37: with `p` on top of the stack and beneath it, from the top downwards, the `k`
entries `r[1], ..., r[k]` (the list `rs`), `Compose stack k` succeeds, removes these
`k + 1` entries and pushes `PolyCompose p k q` where `q` is `rs` reversed, so that
`q[k - i] = r[i]`: the entry directly beneath the top is substituted for variable `k - 1`
and the deepest of the `k` entries for variable 0.  The entries below are unchanged and
the stack has `k` entries fewer. -/
theorem Compose_operand_order (p : Poly) (rs : List Poly) (rest : Stack) :
    (Compose (p :: (rs ++ rest)) rs.length).ok = true ∧
    (Compose (p :: (rs ++ rest)) rs.length).stack
      = PolyCompose p rs.length rs.reverse :: rest ∧
    (∀ i, 1 ≤ i → i ≤ rs.length →
      rs.reverse.getD (rs.length - i) PolyZero = rs.getD (i - 1) PolyZero) ∧
    (Compose (p :: (rs ++ rest)) rs.length).stack.length + rs.length
      = (p :: (rs ++ rest)).length := by
  have hlen : ¬ ((p :: (rs ++ rest)).length ≤ rs.length) := by
    simp only [List.length_cons, List.length_append]; omega
  have h1 : Compose (p :: (rs ++ rest)) rs.length
      = ⟨true, PolyCompose p rs.length rs.reverse :: rest, []⟩ := by
    rw [Compose, if_neg hlen]
    simp only [StackPop, List.headD_cons, List.tail_cons, ComposePopLoop_append, StackPush]
  rw [h1]
  refine ⟨rfl, rfl, ?_, ?_⟩
  · intro i h1i hik
    rw [List.getD_eq_getElem?_getD, List.getD_eq_getElem?_getD,
      List.getElem?_reverse (by omega)]
    congr 2
    omega
  · simp only [List.length_cons, List.length_append]
    omega

/-- Claim C32: for every list of monomials, `PolyCloneMonos`, `PolyOwnMonos` and
`PolyAddMonos` return the same polynomial, so `PolyIsEq` holds between the results, and
all three return the zero constant for the empty list. -/
theorem monos_constructors_agree (ms : List Mono) :
    PolyCloneMonos ms = PolyOwnMonos ms ∧ PolyAddMonos ms = PolyOwnMonos ms ∧
    PolyIsEq (PolyCloneMonos ms) (PolyOwnMonos ms) = true ∧
    PolyIsEq (PolyAddMonos ms) (PolyOwnMonos ms) = true ∧
    PolyIsEq (PolyCloneMonos ms) (PolyAddMonos ms) = true ∧
    PolyCloneMonos [] = coeff 0 ∧ PolyOwnMonos [] = coeff 0 ∧ PolyAddMonos [] = coeff 0 := by
  have h1 := PolyCloneMonos_eq ms
  have h2 := PolyAddMonos_eq ms
  refine ⟨h1, h2, (PolyIsEq_iff_eq _ _).mpr h1, (PolyIsEq_iff_eq _ _).mpr h2,
    (PolyIsEq_iff_eq _ _).mpr (h1.trans h2.symm), rfl, rfl, rfl⟩

set_option maxRecDepth 100000 in
unseal PolyAdd PolyAddLoop PolyMul PolyMulOuter PolyMulInner PowersOfTwoLoop PolyFastPowSeek in
/-- Witness for C37: with `x0 + x1` on top of `7`, `9` and `4`, `Compose stack 2` substitutes
`9`, the deeper of the two entries, for `x0` and `7` for `x1`, and leaves `4` below the
result `16`. -/
theorem Compose_operand_order_witness :
    (Compose [monos [(monos [(coeff 1, 1)], 0), (coeff 1, 1)], coeff 7, coeff 9, coeff 4] 2).stack
      = [PolyCompose (monos [(monos [(coeff 1, 1)], 0), (coeff 1, 1)]) 2 [coeff 9, coeff 7],
          coeff 4] ∧
    PolyCompose (monos [(monos [(coeff 1, 1)], 0), (coeff 1, 1)]) 2 [coeff 9, coeff 7]
      = coeff 16 ∧
    PolyCompose (monos [(monos [(coeff 2, 1)], 0), (coeff 1, 1)]) 2 [coeff 9, coeff 7]
      = coeff 23 :=
  ⟨(Compose_operand_order (monos [(monos [(coeff 1, 1)], 0), (coeff 1, 1)]) [coeff 7, coeff 9]
    [coeff 4]).2.1, by rfl, by rfl⟩

/-- Claim C36: for every polynomial `p`, every `k` and every call of `PolyFastPow` that
`PolyComposeHelper` makes, with the cache of depth `d` and the exponent `e`: `d < k`, the
cache that `PolyCompose` stored for variable `d` holds `PowersOfTwo (max_exp[d])` powers,
and every index that `PolyFastPow` reads is below that number; the highest index read is
`floor(log2 e)` for `e >= 1`, and nothing is read for `e = 0`. -/
theorem PolyCompose_cache_in_bounds (p : Poly) (k : Nat) (q : List Poly) (d e : Nat)
    (hcall : (d, e) ∈ PolyComposeCalls p k 0) :
    d < k ∧
    (((List.range k).map fun i =>
        PowersFill (PowersOfTwo ((MaxExpFill p (List.replicate k 0) k 0).getD i 0))
          (PolyClone (q.getD i PolyZero))).getD d []).length
      = PowersOfTwo ((MaxExpFill p (List.replicate k 0) k 0).getD d 0) ∧
    (∀ j ∈ PolyFastPowReads e,
      j < PowersOfTwo ((MaxExpFill p (List.replicate k 0) k 0).getD d 0)) ∧
    (e = 0 → PolyFastPowReads e = []) ∧
    (1 ≤ e → Nat.log 2 e ∈ PolyFastPowReads e ∧ ∀ j ∈ PolyFastPowReads e, j ≤ Nat.log 2 e) := by
  have hb := PolyComposeCalls_bound k _ p 0
    (ExpsBelow_MaxExpFill k p (List.replicate k 0) 0 (by simp)) (d, e) hcall
  refine ⟨hb.1, ?_, PolyFastPowReads_lt e _ hb.2, (PolyFastPowReads_spec e).1,
    (PolyFastPowReads_spec e).2⟩
  rw [PolyCompose_powers_getD p k q d hb.1, length_PowersFill]

set_option maxRecDepth 100000 in
unseal PolyFastPowSeek PowersOfTwoLoop in
/-- Witness for C36: in `x0^5 + x1^2 * x0^6` with `k = 2` the exponent 5 is raised with the
cache of depth 0, which holds 3 powers, and the reads are at the indices 2 and 0. -/
theorem PolyCompose_cache_in_bounds_witness :
    (0, 5) ∈ PolyComposeCalls (monos [(coeff 1, 5), (monos [(coeff 1, 2)], 6)]) 2 0 ∧
    PolyFastPowReads 5 = [2, 0] ∧
    PowersOfTwo ((MaxExpFill (monos [(coeff 1, 5), (monos [(coeff 1, 2)], 6)])
      (List.replicate 2 0) 2 0).getD 0 0) = 3 ∧
    ∀ j ∈ PolyFastPowReads 5,
      j < PowersOfTwo ((MaxExpFill (monos [(coeff 1, 5), (monos [(coeff 1, 2)], 6)])
        (List.replicate 2 0) 2 0).getD 0 0) :=
  ⟨by decide, by rfl, by rfl,
    (PolyCompose_cache_in_bounds (monos [(coeff 1, 5), (monos [(coeff 1, 2)], 6)]) 2 [] 0 5
      (by decide)).2.2.1⟩

set_option maxRecDepth 100000 in
unseal CreatePoly CreatePolyLoop CreateMono CreateMonoLoop in
/-- Claim C31 at the line `(1,-0)`: the text is not derivable from the grammar, whose
exponents carry no sign, and yet `ProcessPoly` pushes a polynomial, the constant 1, and
reports nothing; the same holds when the line comes through `main`.  The exponent `-1`
and the exponent `+0` are refused, and so is the argument `-0` of `DEG_BY`, where
`Size_TCommand` tests for a leading minus sign. -/
theorem ProcessPoly_accepts_signed_zero_exponent :
    (∀ p, ¬ Derives false p ("(1,-0)").toList) ∧
    (ProcessPoly 1 6 ("(1,-0)").toList []).stack = [coeff 1] ∧
    (ProcessPoly 1 6 ("(1,-0)").toList []).err = [] ∧
    (main [("(1,-0)\n").toList]).stack = [coeff 1] ∧
    (main [("(1,-0)\n").toList]).err = [] ∧
    (main [("(1,-1)\n").toList]).stack = [] ∧
    (main [("(1,-1)\n").toList]).err = ("ERROR 1 WRONG POLY\n").toList ∧
    (main [("(1,+0)\n").toList]).err = ("ERROR 1 WRONG POLY\n").toList ∧
    (main [("(1,1)\n").toList, ("DEG_BY -0\n").toList]).err
      = ("ERROR 2 DEG BY WRONG VARIABLE\n").toList ∧
    (main [("(1,1)\n").toList, ("DEG_BY 0\n").toList]).out = ("1\n").toList :=
  ⟨not_derives_signed_zero_exponent, by rfl, by rfl, by rfl, by rfl, by rfl, by rfl, by rfl,
    by rfl, by rfl⟩

end PolyCalc
